import Mathlib

/-!
SplitUp backend: ledger and settlement engine.

A shallow embedding of `pkg/handlers/balance.go` (the balance calculator
`GetGroupBalance` and the debt minimizer `minimizeDebts`), of the expense handlers
of `pkg/handlers/expenses.go` (`CreateExpense`, `UpdateExpense`, `DeleteExpense`)
and of the computation of `pkg/handlers/export.go` (`ExportGroupPDF`, up to the
drawing of the PDF), together with the tables of `pkg/db/migrations.go` they read
and write.

Modelling conventions.

* Amounts are `float64` in the handlers and `DECIMAL(10, 2)` in the schema. The
  file holds two readings of the handlers. In the decimal reading (the definitions
  of `SplitUp`) amounts are exact rationals: every arithmetic operation of the
  source is the corresponding exact operation on `ℚ`, and `math.Round` is rounding
  to the nearest integer with halves away from zero. In the binary64 reading (the
  definitions of `SplitUp.Binary64`, over the type `F64`) amounts are IEEE 754
  binary64 numbers: every operation is the exact operation followed by rounding to
  nearest, ties to even, with the infinities and NaN. The properties that depend
  on the arithmetic of the amounts are stated on the binary64 reading; the decimal
  reading serves the properties that do not, and is what the binary64 loops are
  compared with where the arithmetic is exact.
* A Go `map[int]float64` is an association list with pairwise distinct keys.
  The order in which `range` yields the entries of a map is not fixed by the
  language, so `minimizeDebts` takes the yielded sequence as its argument and
  the theorems quantify over every such sequence.
* `sort.Slice` is library code: it is a parameter `SliceSort` carrying the
  documented contract (the result is a permutation of the input, ordered by
  `less`; stability is not promised).  `goInsertionSort` is the insertion sort
  that `sort.Slice` runs on slices shorter than twelve elements. On binary64 a
  comparison with a NaN is not an order, so there the order part of the contract
  is the separate predicate `Binary64.SliceSort.Ordered`.
* The `for` loop of `minimizeDebts` is a fuelled recursion returning `none`
  when the fuel runs out; in the decimal reading `minimizeDebts_total` shows that
  this never happens, and the matching loop of `ExportGroupPDF` is modelled the
  same way (`ExportGroupPDF_total`). In the binary64 reading the loop of
  `minimizeDebts` does not end on every map, so the functions take the fuel as an
  argument and the theorems say from which fuel on a result is returned.
* The database is the content of its tables. A handler that writes runs against
  an environment `DbEnv` that says which of `Begin`, the statements in the order
  the handler issues them, and `Commit` fail, and supplies the generated ids and
  the clock; a rolled back or never committed transaction leaves the tables as
  they were. In the decimal reading the rounding of an inserted amount to
  `DECIMAL(10, 2)` is not modelled. In the binary64 reading an amount is stored
  through `Binary64.storeDecimal`: the text the driver sends for the `float64`
  (`FloatFormat`, a parameter with the round-trip contract of
  `strconv.FormatFloat`), rounded by the database to two decimals and refused
  outside the range of `DECIMAL(10, 2)`; a stored amount is read back as the
  `float64` nearest to it.
-/

namespace SplitUp

/-! ## Data model -/

/-- A simplified payment instruction (`Transaction` in `balance.go`). -/
structure Transaction where
  FromUser : Int
  ToUser : Int
  Amount : ℚ
deriving DecidableEq, Repr

/-- Helper record for sorting users by debt amount (`balanceItem` in `balance.go`). -/
structure balanceItem where
  UserID : Int
  Amount : ℚ
deriving DecidableEq, Repr

/-- A Go `map[int]float64`, as the list of its entries. -/
abbrev GoMap := List (Int × ℚ)

/-- The keys of a map. -/
def GoMap.keys (m : GoMap) : List Int := m.map Prod.fst

/-- Reading `m[k]`: the stored value, or the zero value when the key is absent. -/
def GoMap.get (m : GoMap) (k : Int) : ℚ := (m.lookup k).getD 0

/-- The assignment `m[k] = v`: replaces the entry of `k` or adds one. -/
def GoMap.set : GoMap → Int → ℚ → GoMap
  | [], k, v => [(k, v)]
  | (k1, v1) :: rest, k, v =>
    if k1 = k then (k, v) :: rest else (k1, v1) :: GoMap.set rest k v

/-- A row of the table `expenses`. -/
structure ExpenseRow where
  id : Int
  group_id : Int
  title : String
  description : String
  amount : ℚ
  category : String
  created_at : Nat
deriving DecidableEq, Repr

/-- A row of the table `expense_payers`. -/
structure PayerRow where
  id : Int
  expense_id : Int
  user_id : Int
  paid_amount : ℚ
deriving DecidableEq, Repr

/-- A row of the table `expense_splits`. -/
structure SplitRow where
  id : Int
  expense_id : Int
  user_id : Int
  amount_owed : ℚ
deriving DecidableEq, Repr

/-- The three tables of `migrations.go` that hold the ledger. -/
structure Store where
  expenses : List ExpenseRow
  expense_payers : List PayerRow
  expense_splits : List SplitRow

/-! ## Rounding -/

/-- Go's `math.Round`: the nearest integer, halves rounded away from zero. -/
def mathRound (x : ℚ) : ℚ :=
  if x < 0 then -((⌊-x + 1 / 2⌋ : ℤ) : ℚ) else ((⌊x + 1 / 2⌋ : ℤ) : ℚ)

/-- The expression `math.Round(x*100) / 100` used throughout `balance.go`. -/
def round2 (x : ℚ) : ℚ := mathRound (x * 100) / 100

/-- An amount is a whole number of cents. -/
def IsCents (x : ℚ) : Prop := ∃ n : ℤ, x = (n : ℚ) / 100

/-! ## `sort.Slice` and `range` -/

/-- The comparison of the debtor sort: ascending by amount (most negative first). -/
def debtorLess (a b : balanceItem) : Bool := decide (a.Amount < b.Amount)

/-- The comparison of the creditor sort: descending by amount (most positive first). -/
def creditorLess (a b : balanceItem) : Bool := decide (a.Amount > b.Amount)

/-- The contract of `sort.Slice`: for a comparison that is a strict weak order the
result is a permutation of the input in which no element is `less` than one before
it. Nothing is promised about the relative order of equal elements. -/
structure SliceSort where
  sort : (balanceItem → balanceItem → Bool) → List balanceItem → List balanceItem
  perm : ∀ less xs, (sort less xs).Perm xs
  sorted : ∀ less xs,
    (∀ a b, less a b = false ∨ less b a = false) →
    (∀ a b c, less b a = false → less c b = false → less c a = false) →
    (sort less xs).Pairwise (fun a b => less b a = false)

/-- One pass of the inner loop of Go's `insertionSortLessFunc`: `x` is swapped
towards the front while it is `less` than its left neighbour. The prefix is held
reversed, so its head is the left neighbour of `x`. -/
def insertLess (less : balanceItem → balanceItem → Bool) (x : balanceItem) :
    List balanceItem → List balanceItem
  | [] => [x]
  | e :: rest => if less x e then e :: insertLess less x rest else x :: e :: rest

/-- Go's `insertionSortLessFunc`, the algorithm `sort.Slice` uses for slices of
fewer than twelve elements. -/
def insertionSortLess (less : balanceItem → balanceItem → Bool) (xs : List balanceItem) :
    List balanceItem :=
  (xs.foldl (fun done x => insertLess less x done) []).reverse

/-- The order in which `range` yields the entries of a map: some permutation. -/
structure MapRange where
  order : GoMap → GoMap
  perm : ∀ m, (order m).Perm m

/-- The iteration that yields the entries in stored order. -/
def rangeInOrder : MapRange where
  order := fun m => m
  perm := fun m => List.Perm.refl m

/-! ## `minimizeDebts` -/

/-- The debtors collected by the first loop of `minimizeDebts`, in iteration order. -/
def debtorsOf (balances : GoMap) : List balanceItem :=
  (balances.filter fun p => p.2 < -(1 / 100)).map fun p => ⟨p.1, p.2⟩

/-- The creditors collected by the first loop of `minimizeDebts`, in iteration order.
The `else if` of the source makes the two classes disjoint; so do the two bounds. -/
def creditorsOf (balances : GoMap) : List balanceItem :=
  (balances.filter fun p => ¬ p.2 < -(1 / 100) ∧ p.2 > 1 / 100).map fun p => ⟨p.1, p.2⟩

/-- The amount of one matching step: `math.Min(math.Abs(debtor.Amount), creditor.Amount)`
rounded to two decimals. -/
def stepAmount (debtor creditor : balanceItem) : ℚ :=
  round2 (min |debtor.Amount| creditor.Amount)

/-- The slice `debtors[i:]` after a step: `debtor.Amount += amount`, and the cursor
moves on when `math.Abs(debtor.Amount) < 0.01`. -/
def debtorsAfter (debtor : balanceItem) (ds : List balanceItem) (amount : ℚ) :
    List balanceItem :=
  if |debtor.Amount + amount| < 1 / 100 then ds
  else ⟨debtor.UserID, debtor.Amount + amount⟩ :: ds

/-- The slice `creditors[j:]` after a step: `creditor.Amount -= amount`, and the cursor
moves on when `creditor.Amount < 0.01`. -/
def creditorsAfter (creditor : balanceItem) (cs : List balanceItem) (amount : ℚ) :
    List balanceItem :=
  if creditor.Amount - amount < 1 / 100 then cs
  else ⟨creditor.UserID, creditor.Amount - amount⟩ :: cs

/-- The guarded append of a step: a transaction is recorded only `if amount > 0`. -/
def emitStep (debtor creditor : balanceItem) (amount : ℚ) (rest : List Transaction) :
    List Transaction :=
  if amount > 0 then ⟨debtor.UserID, creditor.UserID, amount⟩ :: rest else rest

/-- The greedy matching loop of `minimizeDebts`. The two lists are the slices
`debtors[i:]` and `creditors[j:]`, their heads carrying the amounts updated in
place; the result is the list of the transactions appended from this state on. -/
def settleLoop : Nat → List balanceItem → List balanceItem → Option (List Transaction)
  | _, [], _ => some []
  | _, _ :: _, [] => some []
  | 0, _ :: _, _ :: _ => none
  | fuel + 1, debtor :: ds, creditor :: cs =>
    (settleLoop fuel (debtorsAfter debtor ds (stepAmount debtor creditor))
        (creditorsAfter creditor cs (stepAmount debtor creditor))).map
      (emitStep debtor creditor (stepAmount debtor creditor))

/-- The function `minimizeDebts` run with a given amount of fuel for its loop, on
the sequence `balances` in which `range` yields the entries of the balance map. -/
def minimizeDebtsFuel (fuel : Nat) (S : SliceSort) (balances : GoMap) :
    Option (List Transaction) :=
  settleLoop fuel (S.sort debtorLess (debtorsOf balances))
    (S.sort creditorLess (creditorsOf balances))

/-- The function `minimizeDebts` of `balance.go`: one loop iteration per map entry
is always enough (`minimizeDebtsFuel_eq`). -/
def minimizeDebts (S : SliceSort) (balances : GoMap) : Option (List Transaction) :=
  minimizeDebtsFuel balances.length S balances

/-! ## `GetGroupBalance` -/

/-- The rows of `expense_payers ep JOIN expenses e ON ep.expense_id = e.id
WHERE e.group_id = $1`, projected on `(ep.user_id, ep.paid_amount)`. -/
def paidRows (db : Store) (groupID : Int) : List (Int × ℚ) :=
  db.expense_payers.flatMap fun ep =>
    (db.expenses.filter fun e => ep.expense_id = e.id ∧ e.group_id = groupID).map
      fun _ => (ep.user_id, ep.paid_amount)

/-- The rows of `expense_splits es JOIN expenses e ON es.expense_id = e.id
WHERE e.group_id = $1`, projected on `(es.user_id, es.amount_owed)`. -/
def owedRows (db : Store) (groupID : Int) : List (Int × ℚ) :=
  db.expense_splits.flatMap fun es =>
    (db.expenses.filter fun e => es.expense_id = e.id ∧ e.group_id = groupID).map
      fun _ => (es.user_id, es.amount_owed)

/-- The clause `GROUP BY user_id` with the aggregate `SUM`: one row per user. -/
def sumByUser (rows : List (Int × ℚ)) : List (Int × ℚ) :=
  (rows.map Prod.fst).dedup.map fun u => (u, ((rows.filter fun r => r.1 = u).map Prod.snd).sum)

/-- The scan loop of steps 1 and 2: `m[userID] = amount` for every row. -/
def scanRows (rows : List (Int × ℚ)) : GoMap :=
  rows.foldl (fun m r => GoMap.set m r.1 r.2) []

/-- The map `paidMap` of `GetGroupBalance`. -/
def paidMap (db : Store) (groupID : Int) : GoMap := scanRows (sumByUser (paidRows db groupID))

/-- The map `owedMap` of `GetGroupBalance`. -/
def owedMap (db : Store) (groupID : Int) : GoMap := scanRows (sumByUser (owedRows db groupID))

/-- The assignment `allUsers[uid] = true` on a set of users held as a list. -/
def addUser (users : List Int) (uid : Int) : List Int :=
  if uid ∈ users then users else users ++ [uid]

/-- The set `allUsers` of step 3: the keys of `paidMap`, then those of `owedMap`. -/
def allUsers (paid owed : GoMap) : List Int :=
  (GoMap.keys owed).foldl addUser ((GoMap.keys paid).foldl addUser [])

/-- Step 3 of `GetGroupBalance`: `balances[uid] = math.Round(net*100) / 100` with
`net := paidMap[uid] - owedMap[uid]`, for every user of `allUsers`. The loops of this
step assign one value per key, so the map they build does not depend on the order in
which `range` yields the keys; the model takes them in stored order. -/
def netBalances (paid owed : GoMap) : GoMap :=
  (allUsers paid owed).foldl
    (fun m uid => GoMap.set m uid (round2 (GoMap.get paid uid - GoMap.get owed uid))) []

/-- The JSON body of `GetGroupBalance`. -/
structure BalanceResponse where
  balances : GoMap
  transactions : List Transaction

/-- The handler `GetGroupBalance` on a store whose two queries succeed. -/
def GetGroupBalance (S : SliceSort) (R : MapRange) (db : Store) (groupID : Int) :
    Option BalanceResponse :=
  let balances := netBalances (paidMap db groupID) (owedMap db groupID)
  (minimizeDebts S (R.order balances)).map fun transactions => ⟨balances, transactions⟩

/-! ## Carrying out the transactions -/

/-- The total a user pays out in a list of transactions. -/
def paidBy (txs : List Transaction) (u : Int) : ℚ :=
  (txs.map fun t => if t.FromUser = u then t.Amount else 0).sum

/-- The total a user receives in a list of transactions. -/
def receivedBy (txs : List Transaction) (u : Int) : ℚ :=
  (txs.map fun t => if t.ToUser = u then t.Amount else 0).sum

/-- The net balance a user is left with once all the transactions are carried out:
each amount paid reduces the payer's debt, each amount received the receiver's credit. -/
def remainingBalance (balances : GoMap) (txs : List Transaction) (u : Int) : ℚ :=
  GoMap.get balances u + paidBy txs u - receivedBy txs u

/-- The sum of the balances the classification leaves out as settled. -/
def settledSum (balances : GoMap) : ℚ :=
  ((balances.filter fun p => -(1 / 100) ≤ p.2 ∧ p.2 ≤ 1 / 100).map Prod.snd).sum

/-! ## Invariants of the matching loop -/

/-- The invariant of the matching loop: every debtor still in play owes at least a
cent and every creditor still in play is owed at least a cent. -/
def LoopInv (ds cs : List balanceItem) : Prop :=
  (∀ d ∈ ds, d.Amount ≤ -(1 / 100)) ∧ (∀ c ∈ cs, 1 / 100 ≤ c.Amount)

/-- The loop invariant when all amounts are whole cents. -/
def CentsInv (ds cs : List balanceItem) : Prop :=
  LoopInv ds cs ∧ (∀ d ∈ ds, IsCents d.Amount) ∧ (∀ c ∈ cs, IsCents c.Amount)

/-- The amounts of a slice, each weighted by a weight of its user. -/
def weighted (w : Int → ℚ) (l : List balanceItem) : ℚ :=
  (l.map fun x => w x.UserID * x.Amount).sum

/-- The weighted flow of a list of transactions: what payers give minus what
receivers get. -/
def weightedFlow (w : Int → ℚ) (txs : List Transaction) : ℚ :=
  (txs.map fun t => (w t.FromUser - w t.ToUser) * t.Amount).sum

/-! ## The expense handlers -/

/-- One split of a request (`Split` in `expenses.go`). -/
structure Split where
  UserID : Int
  Amount : ℚ
deriving DecidableEq, Repr

/-- One payer of a request (`PayerSplit` in `expenses.go`). -/
structure PayerSplit where
  UserID : Int
  PaidAmount : ℚ
deriving DecidableEq, Repr

/-- The decoded body of a create or update request (`CreateExpenseRequest`). -/
structure CreateExpenseRequest where
  Title : String
  Description : String
  Amount : ℚ
  Category : String
  Payers : List PayerSplit
  Splits : List Split
deriving DecidableEq, Repr

/-- What the database does during one handler call: whether `Begin` fails, whether
the `k`-th statement the handler executes fails, whether `Commit` fails, the id the
sequence of `expenses` returns, the id given to the row inserted by the `k`-th
statement, and the value of `time.Now()`. -/
structure DbEnv where
  beginFails : Bool
  stmtFails : Nat → Bool
  commitFails : Bool
  expenseID : Int
  rowID : Nat → Int
  now : Nat

/-- How the transaction of a handler call ended. -/
inductive TxEnd where
  | notBegun
  | rolledBack
  | committed
  | commitFailed
deriving DecidableEq, Repr

/-- The outcome of a handler call: the store it leaves, the HTTP status it answers
and the fate of its transaction. -/
structure HandlerResult where
  store : Store
  status : Nat
  tx : TxEnd

/-- The validation loop of `CreateExpense`: `totalSplit += s.Amount`. -/
def totalSplit (splits : List Split) : ℚ :=
  splits.foldl (fun total s => total + s.Amount) 0

/-- The loop `for _, payer := range req.Payers` with its `INSERT INTO expense_payers`,
the first of which is the `k`-th statement of the transaction; `none` when a
statement fails. -/
def insertPayers (env : DbEnv) (expenseID : Int) :
    Nat → List PayerSplit → Store → Option Store
  | _, [], work => some work
  | k, payer :: rest, work =>
    if env.stmtFails k then none
    else insertPayers env expenseID (k + 1) rest
      ⟨work.expenses,
        work.expense_payers ++ [⟨env.rowID k, expenseID, payer.UserID, payer.PaidAmount⟩],
        work.expense_splits⟩

/-- The loop `for _, split := range req.Splits` with its `INSERT INTO expense_splits`,
the first of which is the `k`-th statement of the transaction; `none` when a
statement fails. -/
def insertSplits (env : DbEnv) (expenseID : Int) :
    Nat → List Split → Store → Option Store
  | _, [], work => some work
  | k, split :: rest, work =>
    if env.stmtFails k then none
    else insertSplits env expenseID (k + 1) rest
      ⟨work.expenses, work.expense_payers,
        work.expense_splits ++ [⟨env.rowID k, expenseID, split.UserID, split.Amount⟩]⟩

/-- The handler `CreateExpense` on a decoded request. Statement 0 is the insert of
the expense row, statements 1.. the payer inserts, then the split inserts. The
deferred `tx.Rollback()` undoes the work on every return before a commit. -/
def CreateExpense (env : DbEnv) (db : Store) (groupID : Int) (req : CreateExpenseRequest) :
    HandlerResult :=
  if |totalSplit req.Splits - req.Amount| > 1 / 100 then ⟨db, 400, TxEnd.notBegun⟩
  else if env.beginFails then ⟨db, 500, TxEnd.notBegun⟩
  else if env.stmtFails 0 then ⟨db, 500, TxEnd.rolledBack⟩
  else
    match insertPayers env env.expenseID 1 req.Payers
        ⟨db.expenses ++ [⟨env.expenseID, groupID, req.Title, req.Description, req.Amount,
            req.Category, env.now⟩],
          db.expense_payers, db.expense_splits⟩ with
    | none => ⟨db, 500, TxEnd.rolledBack⟩
    | some work =>
      match insertSplits env env.expenseID (1 + req.Payers.length) req.Splits work with
      | none => ⟨db, 500, TxEnd.rolledBack⟩
      | some done =>
        if env.commitFails then ⟨db, 500, TxEnd.commitFailed⟩
        else ⟨done, 201, TxEnd.committed⟩

/-- The statement `UPDATE expenses SET description, amount, category, title WHERE id`. -/
def updateExpenseRow (expenseID : Int) (req : CreateExpenseRequest) (e : ExpenseRow) :
    ExpenseRow :=
  if e.id = expenseID then
    { e with description := req.Description, amount := req.Amount,
             category := req.Category, title := req.Title }
  else e

/-- The handler `UpdateExpense` on a decoded request. Statement 0 is the update of
the expense row, statement 1 the delete of the old payers, then the payer inserts,
the delete of the old splits and the split inserts. Every failing statement is
followed by `tx.Rollback()`; the error of the final `tx.Commit()` is not looked at. -/
def UpdateExpense (env : DbEnv) (db : Store) (expenseID : Int) (req : CreateExpenseRequest) :
    HandlerResult :=
  if env.beginFails then ⟨db, 500, TxEnd.notBegun⟩
  else if env.stmtFails 0 then ⟨db, 500, TxEnd.rolledBack⟩
  else if env.stmtFails 1 then ⟨db, 500, TxEnd.rolledBack⟩
  else
    match insertPayers env expenseID 2 req.Payers
        ⟨db.expenses.map (updateExpenseRow expenseID req),
          db.expense_payers.filter (fun p => ¬ p.expense_id = expenseID),
          db.expense_splits⟩ with
    | none => ⟨db, 500, TxEnd.rolledBack⟩
    | some work =>
      if env.stmtFails (2 + req.Payers.length) then ⟨db, 500, TxEnd.rolledBack⟩
      else
        match insertSplits env expenseID (3 + req.Payers.length) req.Splits
            ⟨work.expenses, work.expense_payers,
              work.expense_splits.filter (fun s => ¬ s.expense_id = expenseID)⟩ with
        | none => ⟨db, 500, TxEnd.rolledBack⟩
        | some done =>
          if env.commitFails then ⟨db, 200, TxEnd.commitFailed⟩
          else ⟨done, 200, TxEnd.committed⟩

/-- The statement `DELETE FROM expenses WHERE id = $1` with the `ON DELETE CASCADE`
of the two allocation tables: the allocation rows that reference a deleted expense
row go with it. -/
def deleteExpenseRows (db : Store) (expenseID : Int) : Store :=
  { expenses := db.expenses.filter (fun e => ¬ e.id = expenseID),
    expense_payers := db.expense_payers.filter (fun p =>
      p.expense_id ∉ (db.expenses.filter (fun e => e.id = expenseID)).map ExpenseRow.id),
    expense_splits := db.expense_splits.filter (fun s =>
      s.expense_id ∉ (db.expenses.filter (fun e => e.id = expenseID)).map ExpenseRow.id) }

/-- The handler `DeleteExpense`: one statement outside any transaction, then
`RowsAffected` decides between 404 and 200. -/
def DeleteExpense (env : DbEnv) (db : Store) (expenseID : Int) : HandlerResult :=
  if env.stmtFails 0 then ⟨db, 500, TxEnd.notBegun⟩
  else if (db.expenses.filter fun e => e.id = expenseID).length = 0 then
    ⟨deleteExpenseRows db expenseID, 404, TxEnd.notBegun⟩
  else ⟨deleteExpenseRows db expenseID, 200, TxEnd.notBegun⟩

/-- A database on which nothing fails. -/
def quietEnv : DbEnv where
  beginFails := false
  stmtFails := fun _ => false
  commitFails := false
  expenseID := 1
  rowID := fun k => k
  now := 0

/-- The rows the payer loop inserts when no statement fails, the first by the `k`-th
statement. -/
def payerRows (env : DbEnv) (expenseID : Int) : Nat → List PayerSplit → List PayerRow
  | _, [] => []
  | k, payer :: rest =>
    ⟨env.rowID k, expenseID, payer.UserID, payer.PaidAmount⟩ ::
      payerRows env expenseID (k + 1) rest

/-- The rows the split loop inserts when no statement fails, the first by the `k`-th
statement. -/
def splitRows (env : DbEnv) (expenseID : Int) : Nat → List Split → List SplitRow
  | _, [] => []
  | k, split :: rest =>
    ⟨env.rowID k, expenseID, split.UserID, split.Amount⟩ ::
      splitRows env expenseID (k + 1) rest

/-- The store with a new expense and both its allocation lists written. -/
def createdStore (env : DbEnv) (db : Store) (groupID : Int) (req : CreateExpenseRequest) :
    Store :=
  ⟨db.expenses ++ [⟨env.expenseID, groupID, req.Title, req.Description, req.Amount,
      req.Category, env.now⟩],
    db.expense_payers ++ payerRows env env.expenseID 1 req.Payers,
    db.expense_splits ++ splitRows env env.expenseID (1 + req.Payers.length) req.Splits⟩

/-- The store with an expense's row updated and both its allocation lists replaced. -/
def updatedStore (env : DbEnv) (db : Store) (expenseID : Int) (req : CreateExpenseRequest) :
    Store :=
  ⟨db.expenses.map (updateExpenseRow expenseID req),
    (db.expense_payers.filter fun p => ¬ p.expense_id = expenseID) ++
      payerRows env expenseID 2 req.Payers,
    (db.expense_splits.filter fun s => ¬ s.expense_id = expenseID) ++
      splitRows env expenseID (3 + req.Payers.length) req.Splits⟩

/-- A database on which exactly the `k`-th statement fails. -/
def envFailingAt (k : Nat) : DbEnv where
  beginFails := false
  stmtFails := fun i => decide (i = k)
  commitFails := false
  expenseID := 1
  rowID := fun i => i
  now := 0

/-- The total of the rows of one user: the `SUM` of one group of `GROUP BY user_id`. -/
def userTotal (rows : List (Int × ℚ)) (u : Int) : ℚ :=
  ((rows.filter fun r => r.1 = u).map Prod.snd).sum

/-! ## `ExportGroupPDF` -/

/-- A row of the table `users`. -/
structure UserRow where
  id : Int
  name : String
  email : Option String
  password_hash : Option String
  is_ghost : Bool
  created_at : Nat
deriving DecidableEq, Repr

/-- A row of the table `groups`. -/
structure GroupRow where
  id : Int
  name : String
  created_by : Int
  created_at : Nat
deriving DecidableEq, Repr

/-- A row of the table `group_members`. -/
structure GroupMemberRow where
  group_id : Int
  user_id : Int
  joined_at : Nat
deriving DecidableEq, Repr

/-- The three tables of `migrations.go` that hold the users and the groups. -/
structure Directory where
  users : List UserRow
  groups : List GroupRow
  group_members : List GroupMemberRow

/-- A member of the group, as `ExportGroupPDF` scans it (`Member` in `export.go`). -/
structure Member where
  ID : Int
  Name : String
deriving DecidableEq, Repr

/-- One row of the expense matrix (`ExpenseMatrixRow` in `export.go`); `Date`, a cut
of the timestamp's text, is left out. -/
structure ExpenseMatrixRow where
  Title : String
  Payer : String
  TotalAmount : ℚ
  UserImpacts : GoMap

/-- One suggested payment of the report (`SuggestedPayment` in `export.go`). -/
structure SuggestedPayment where
  From : String
  To : String
  Amount : ℚ
deriving DecidableEq, Repr

/-- The query `SELECT name FROM groups WHERE id=$1`. -/
def fetchGroupName (dir : Directory) (groupID : Int) : Option String :=
  (dir.groups.find? fun g => g.id = groupID).map GroupRow.name

/-- The query `SELECT u.id, u.name FROM group_members gm JOIN users u
ON gm.user_id = u.id WHERE gm.group_id = $1 ORDER BY u.id ASC`. -/
def fetchMembers (dir : Directory) (groupID : Int) : List Member :=
  ((dir.group_members.filter fun gm => gm.group_id = groupID).flatMap fun gm =>
    (dir.users.filter fun u => gm.user_id = u.id).map fun u => ⟨u.id, u.name⟩).insertionSort
      fun a b => a.ID ≤ b.ID

/-- The query `SELECT id, title, amount, created_at FROM expenses WHERE group_id = $1
ORDER BY created_at DESC`. -/
def fetchExpenses (db : Store) (groupID : Int) : List ExpenseRow :=
  (db.expenses.filter fun e => e.group_id = groupID).insertionSort
    fun a b => b.created_at ≤ a.created_at

/-- The query `SELECT u.name, ep.user_id, ep.paid_amount FROM expense_payers ep
JOIN users u ON ep.user_id = u.id WHERE ep.expense_id = $1`. -/
def fetchPayers (dir : Directory) (db : Store) (expenseID : Int) :
    List (String × Int × ℚ) :=
  (db.expense_payers.filter fun ep => ep.expense_id = expenseID).flatMap fun ep =>
    (dir.users.filter fun u => ep.user_id = u.id).map fun u =>
      (u.name, ep.user_id, ep.paid_amount)

/-- The query `SELECT user_id, amount_owed FROM expense_splits WHERE expense_id = $1`. -/
def fetchSplits (db : Store) (expenseID : Int) : List (Int × ℚ) :=
  (db.expense_splits.filter fun es => es.expense_id = expenseID).map fun es =>
    (es.user_id, es.amount_owed)

/-- The update `m[uid] += amt` of a map. -/
def GoMap.add (m : GoMap) (uid : Int) (amt : ℚ) : GoMap :=
  GoMap.set m uid (GoMap.get m uid + amt)

/-- The map `e.UserImpacts` of one expense: `+= amt` for every payer row, then
`-= amt` for every split row. -/
def userImpacts (dir : Directory) (db : Store) (expenseID : Int) : GoMap :=
  (fetchSplits db expenseID).foldl (fun m r => GoMap.add m r.1 (-r.2))
    ((fetchPayers dir db expenseID).foldl (fun m r => GoMap.add m r.2.1 r.2.2) [])

/-- The matrix row built for one expense. -/
def matrixRow (dir : Directory) (db : Store) (e : ExpenseRow) : ExpenseMatrixRow :=
  { Title := e.title,
    Payer := String.intercalate ", " ((fetchPayers dir db e.id).map fun r => r.1),
    TotalAmount := e.amount,
    UserImpacts := userImpacts dir db e.id }

/-- The map `grandTotals`: `grandTotals[uid] += impact` for every entry of every row.
The map is only read key by key, so the order in which `range` yields the entries of
`UserImpacts` does not matter; the model takes them in stored order. -/
def grandTotalsOf (rows : List ExpenseMatrixRow) : GoMap :=
  rows.foldl (fun totals row =>
    row.UserImpacts.foldl (fun t p => GoMap.add t p.1 p.2) totals) []

/-- The creditors of step 4: the members whose total is above 0.01, in member order.
The anonymous struct `{ID, Name, Balance}` is held as a `balanceItem`; the name is
read back from the member list when a payment is recorded. -/
def exportCreditors (members : List Member) (totals : GoMap) : List balanceItem :=
  (members.filter fun m => GoMap.get totals m.ID > 1 / 100).map fun m =>
    ⟨m.ID, GoMap.get totals m.ID⟩

/-- The debtors of step 4: the members whose total is below -0.01, in member order. -/
def exportDebtors (members : List Member) (totals : GoMap) : List balanceItem :=
  (members.filter fun m =>
    ¬ GoMap.get totals m.ID > 1 / 100 ∧ GoMap.get totals m.ID < -(1 / 100)).map fun m =>
    ⟨m.ID, GoMap.get totals m.ID⟩

/-- The matching loop of `ExportGroupPDF`. The two lists are `creditors[cIdx:]` and
`debtors[dIdx:]`, their heads carrying `tempCred[cIdx]` and `tempDebt[dIdx]` (debts
are held positive); the result is the list of the payments appended from this state
on, payer first. -/
def exportLoop : Nat → List balanceItem → List balanceItem → Option (List Transaction)
  | _, [], _ => some []
  | _, _ :: _, [] => some []
  | 0, _ :: _, _ :: _ => none
  | fuel + 1, c :: cs, d :: ds =>
    if c.Amount < 1 / 100 then exportLoop fuel cs (d :: ds)
    else if d.Amount < 1 / 100 then exportLoop fuel (c :: cs) ds
    else
      (exportLoop fuel
          (if c.Amount - (if d.Amount < c.Amount then d.Amount else c.Amount) < 1 / 100
            then cs
            else ⟨c.UserID,
              c.Amount - (if d.Amount < c.Amount then d.Amount else c.Amount)⟩ :: cs)
          (if d.Amount - (if d.Amount < c.Amount then d.Amount else c.Amount) < 1 / 100
            then ds
            else ⟨d.UserID,
              d.Amount - (if d.Amount < c.Amount then d.Amount else c.Amount)⟩ :: ds)).map
        fun rest =>
          if (if d.Amount < c.Amount then d.Amount else c.Amount) > 1 / 100 then
            ⟨d.UserID, c.UserID, if d.Amount < c.Amount then d.Amount else c.Amount⟩ :: rest
          else rest

/-- Step 4 of `ExportGroupPDF`: the two sorts, `tempDebt[i] = -d.Balance`, and the
matching loop, which needs at most one iteration per creditor and debtor. -/
def exportSettle (S : SliceSort) (members : List Member) (totals : GoMap) :
    Option (List Transaction) :=
  exportLoop ((exportCreditors members totals).length + (exportDebtors members totals).length)
    (S.sort creditorLess (exportCreditors members totals))
    ((S.sort debtorLess (exportDebtors members totals)).map fun d => ⟨d.UserID, -d.Amount⟩)

/-- The name of the member with a given id. -/
def memberName (members : List Member) (uid : Int) : String :=
  ((members.find? fun m => m.ID = uid).map Member.Name).getD ""

/-- A payment of the loop as the report shows it: by the names of the two members. -/
def toSuggestedPayment (members : List Member) (t : Transaction) : SuggestedPayment :=
  ⟨memberName members t.FromUser, memberName members t.ToUser, t.Amount⟩

/-- What `ExportGroupPDF` computes before it draws the report. -/
structure ExportReport where
  groupName : String
  members : List Member
  matrixRows : List ExpenseMatrixRow
  grandTotals : GoMap
  settlements : List SuggestedPayment

/-- The answer of `ExportGroupPDF`: the status and, on 200, the report. -/
structure ExportResult where
  status : Nat
  report : Option ExportReport

/-- The handler `ExportGroupPDF` on tables whose queries succeed, up to the drawing
of the PDF. -/
def ExportGroupPDF (S : SliceSort) (dir : Directory) (db : Store) (groupID : Int) :
    Option ExportResult :=
  match fetchGroupName dir groupID with
  | none => some ⟨404, none⟩
  | some groupName =>
    (exportSettle S (fetchMembers dir groupID)
        (grandTotalsOf ((fetchExpenses db groupID).map (matrixRow dir db)))).map
      fun payments =>
        ⟨200, some ⟨groupName, fetchMembers dir groupID,
          (fetchExpenses db groupID).map (matrixRow dir db),
          grandTotalsOf ((fetchExpenses db groupID).map (matrixRow dir db)),
          payments.map (toSuggestedPayment (fetchMembers dir groupID))⟩⟩

/-- The iteration that yields the entries in the reverse of the stored order. -/
def rangeReversed : MapRange where
  order := List.reverse
  perm := List.reverse_perm

/-- Four users, all of them members of group 7. -/
def tripDirectory : Directory :=
  ⟨[⟨1, "Ann", none, none, false, 0⟩, ⟨2, "Bob", none, none, false, 0⟩,
      ⟨3, "Cyd", none, none, false, 0⟩, ⟨4, "Dee", none, none, false, 0⟩],
    [⟨7, "Trip", 1, 0⟩],
    [⟨7, 1, 0⟩, ⟨7, 2, 0⟩, ⟨7, 3, 0⟩, ⟨7, 4, 0⟩]⟩

/-- One expense of 10 in group 7, paid 7 and 3 by users 3 and 4 and owed 5 each by
users 1 and 2: the two debtors are tied. -/
def tiedStore : Store :=
  ⟨[⟨1, 7, "Dinner", "", 10, "Food", 0⟩], [⟨1, 1, 3, 7⟩, ⟨2, 1, 4, 3⟩],
    [⟨3, 1, 1, 5⟩, ⟨4, 1, 2, 5⟩]⟩

/-- One expense of 10 in group 7, paid 7 and 3 by users 3 and 4 and owed 6 and 4 by
users 1 and 2. -/
def untiedStore : Store :=
  ⟨[⟨1, 7, "Dinner", "", 10, "Food", 0⟩], [⟨1, 1, 3, 7⟩, ⟨2, 1, 4, 3⟩],
    [⟨3, 1, 1, 6⟩, ⟨4, 1, 2, 4⟩]⟩

/-! ## IEEE 754 binary64

The amounts of the handlers are Go `float64` values. The definitions above read them
as exact decimals; the definitions of this part read them as what they are, binary64
numbers with round-to-nearest-even arithmetic, for the properties that depend on the
difference. -/

/-- A value of Go's `float64`: a finite number (a rational; the values the arithmetic
produces are the binary64 ones), an infinity, or a NaN. The sign of a zero is not
kept: no comparison or arithmetic operation of the handlers tells `-0` from `0`. -/
inductive F64 where
  | fin (v : ℚ)
  | inf (negative : Bool)
  | nan
deriving DecidableEq, Repr

/-- The loop `for n >= 2 { n /= 2; k++ }`, with one iteration of fuel per unit. -/
def log2Fuel : Nat → Nat → Nat
  | 0, _ => 0
  | fuel + 1, n => if n < 2 then 0 else log2Fuel fuel (n / 2) + 1

/-- The position of the leading bit of a positive natural number: `⌊log₂ n⌋`. -/
def bitLog (n : Nat) : Nat := log2Fuel n n

/-- The binade of a nonzero rational: `⌊log₂ |q|⌋`. -/
def binade (q : ℚ) : Int :=
  if (2 : ℚ) ^ ((bitLog q.num.natAbs : Int) - (bitLog q.den : Int)) ≤ |q| then
    (bitLog q.num.natAbs : Int) - (bitLog q.den : Int)
  else (bitLog q.num.natAbs : Int) - (bitLog q.den : Int) - 1

/-- The spacing of the binary64 numbers around `q`: 53 significant bits, and the
exponent of the subnormal numbers below `2^-1022`. -/
def ulp (q : ℚ) : ℚ := (2 : ℚ) ^ (max (binade q) (-1022) - 52)

/-- The nearest integer, halves to the even one. -/
def roundHalfEven (q : ℚ) : Int :=
  if q - ⌊q⌋ < 1 / 2 then ⌊q⌋
  else if 1 / 2 < q - ⌊q⌋ then ⌊q⌋ + 1
  else if ⌊q⌋ % 2 = 0 then ⌊q⌋ else ⌊q⌋ + 1

/-- Rounding to the nearest binary64 number, halves to even, before the test for
overflow. -/
def roundNearest (q : ℚ) : ℚ := (roundHalfEven (q / ulp q) : ℚ) * ulp q

/-- The binary64 result of an operation whose exact result is `q`. -/
def F64.ofRat (q : ℚ) : F64 :=
  if (2 : ℚ) ^ (1024 : ℕ) ≤ |roundNearest q| then F64.inf (decide (q < 0))
  else F64.fin (roundNearest q)

/-- Unary minus. -/
def F64.neg : F64 → F64
  | F64.fin a => F64.fin (-a)
  | F64.inf s => F64.inf (!s)
  | F64.nan => F64.nan

/-- Go's `x + y` on `float64`. -/
def F64.add : F64 → F64 → F64
  | F64.fin a, F64.fin b => F64.ofRat (a + b)
  | F64.nan, _ => F64.nan
  | _, F64.nan => F64.nan
  | F64.inf s, F64.inf t => if s = t then F64.inf s else F64.nan
  | F64.inf s, F64.fin _ => F64.inf s
  | F64.fin _, F64.inf t => F64.inf t

/-- Go's `x - y` on `float64`. -/
def F64.sub (x y : F64) : F64 := F64.add x (F64.neg y)

/-- Go's `x * y` on `float64`. -/
def F64.mul : F64 → F64 → F64
  | F64.fin a, F64.fin b => F64.ofRat (a * b)
  | F64.nan, _ => F64.nan
  | _, F64.nan => F64.nan
  | F64.inf s, F64.inf t => F64.inf (s != t)
  | F64.inf s, F64.fin b => if b = 0 then F64.nan else F64.inf (s != decide (b < 0))
  | F64.fin a, F64.inf t => if a = 0 then F64.nan else F64.inf (decide (a < 0) != t)

/-- Go's `x / y` on `float64`. A zero divisor is taken as `+0`; the divisor of the
handlers is the constant 100. -/
def F64.div : F64 → F64 → F64
  | F64.fin a, F64.fin b =>
    if b = 0 then (if a = 0 then F64.nan else F64.inf (decide (a < 0)))
    else F64.ofRat (a / b)
  | F64.nan, _ => F64.nan
  | _, F64.nan => F64.nan
  | F64.inf _, F64.inf _ => F64.nan
  | F64.inf s, F64.fin b => F64.inf (s != decide (b < 0))
  | F64.fin _, F64.inf _ => F64.fin 0

/-- Go's `x < y` on `float64`: false as soon as an operand is a NaN. -/
def F64.lt : F64 → F64 → Bool
  | F64.fin a, F64.fin b => decide (a < b)
  | F64.inf true, F64.fin _ => true
  | F64.fin _, F64.inf false => true
  | F64.inf true, F64.inf false => true
  | _, _ => false

/-- Go's `math.Abs`. -/
def F64.abs : F64 → F64
  | F64.fin a => F64.fin |a|
  | F64.inf _ => F64.inf false
  | F64.nan => F64.nan

/-- Go's `math.Min`: `-Inf` if an operand is `-Inf`, else NaN if an operand is a NaN,
else the smaller operand. -/
def F64.min : F64 → F64 → F64
  | F64.inf true, _ => F64.inf true
  | _, F64.inf true => F64.inf true
  | F64.nan, _ => F64.nan
  | _, F64.nan => F64.nan
  | x, y => if F64.lt x y then x else y

/-- Go's `math.Round` on `float64`: exact, the rounded value is a binary64 number. -/
def F64.round : F64 → F64
  | F64.fin a => F64.fin (mathRound a)
  | x => x

/-- The constant `0.01` of the source, as the compiler converts it to `float64`. -/
def F64.cent : F64 := F64.ofRat (1 / 100)

/-- The constant `100`. -/
def F64.hundred : F64 := F64.fin 100

/-- The expression `math.Round(x*100) / 100` on `float64`. -/
def F64.round2 (x : F64) : F64 := F64.div (F64.round (F64.mul x F64.hundred)) F64.hundred

/-! ## `minimizeDebts` on binary64 -/

namespace Binary64

/-- A simplified payment instruction (`Transaction` in `balance.go`). -/
structure Transaction where
  FromUser : Int
  ToUser : Int
  Amount : F64
deriving DecidableEq, Repr

/-- Helper record for sorting users by debt amount (`balanceItem` in `balance.go`). -/
structure balanceItem where
  UserID : Int
  Amount : F64
deriving DecidableEq, Repr

/-- A Go `map[int]float64`, as the sequence in which `range` yields its entries. -/
abbrev GoMap := List (Int × F64)

/-- The comparison of the debtor sort: `debtors[i].Amount < debtors[j].Amount`. -/
def debtorLess (a b : balanceItem) : Bool := F64.lt a.Amount b.Amount

/-- The comparison of the creditor sort: `creditors[i].Amount > creditors[j].Amount`. -/
def creditorLess (a b : balanceItem) : Bool := F64.lt b.Amount a.Amount

/-- What is used of `sort.Slice`: the result is a permutation of the input. -/
structure SliceSort where
  sort : (balanceItem → balanceItem → Bool) → List balanceItem → List balanceItem
  perm : ∀ less xs, (sort less xs).Perm xs

/-- One pass of the inner loop of Go's `insertionSortLessFunc`, the sorted part held
reversed. -/
def insertLess (less : balanceItem → balanceItem → Bool) (x : balanceItem) :
    List balanceItem → List balanceItem
  | [] => [x]
  | e :: rest => if less x e then e :: insertLess less x rest else x :: e :: rest

/-- Go's `insertionSortLessFunc`, which `sort.Slice` runs on slices of fewer than
twelve elements. -/
def insertionSortLess (less : balanceItem → balanceItem → Bool) (xs : List balanceItem) :
    List balanceItem :=
  (xs.foldl (fun done x => insertLess less x done) []).reverse

/-- The debtors collected by the first loop: `amount < -0.01`. -/
def debtorsOf (balances : GoMap) : List balanceItem :=
  (balances.filter fun p => F64.lt p.2 (F64.neg F64.cent)).map fun p => ⟨p.1, p.2⟩

/-- The creditors collected by the first loop: `else if amount > 0.01`. -/
def creditorsOf (balances : GoMap) : List balanceItem :=
  (balances.filter fun p =>
    !F64.lt p.2 (F64.neg F64.cent) && F64.lt F64.cent p.2).map fun p => ⟨p.1, p.2⟩

/-- The amount of one matching step: `math.Min(math.Abs(debtor.Amount), creditor.Amount)`,
then `math.Round(amount*100) / 100`. -/
def stepAmount (debtor creditor : balanceItem) : F64 :=
  F64.round2 (F64.min (F64.abs debtor.Amount) creditor.Amount)

/-- The slice `debtors[i:]` after a step: `debtor.Amount += amount`, and `i++` when
`math.Abs(debtor.Amount) < 0.01`. -/
def debtorsAfter (debtor : balanceItem) (ds : List balanceItem) (amount : F64) :
    List balanceItem :=
  if F64.lt (F64.abs (F64.add debtor.Amount amount)) F64.cent then ds
  else ⟨debtor.UserID, F64.add debtor.Amount amount⟩ :: ds

/-- The slice `creditors[j:]` after a step: `creditor.Amount -= amount`, and `j++` when
`creditor.Amount < 0.01`. -/
def creditorsAfter (creditor : balanceItem) (cs : List balanceItem) (amount : F64) :
    List balanceItem :=
  if F64.lt (F64.sub creditor.Amount amount) F64.cent then cs
  else ⟨creditor.UserID, F64.sub creditor.Amount amount⟩ :: cs

/-- The guarded append of a step: `if amount > 0`. -/
def emitStep (debtor creditor : balanceItem) (amount : F64) (rest : List Transaction) :
    List Transaction :=
  if F64.lt (F64.fin 0) amount then ⟨debtor.UserID, creditor.UserID, amount⟩ :: rest else rest

/-- The matching loop of `minimizeDebts`, one unit of fuel per iteration; `none` when
the fuel runs out before the loop ends. -/
def settleLoop : Nat → List balanceItem → List balanceItem → Option (List Transaction)
  | _, [], _ => some []
  | _, _ :: _, [] => some []
  | 0, _ :: _, _ :: _ => none
  | fuel + 1, debtor :: ds, creditor :: cs =>
    (settleLoop fuel (debtorsAfter debtor ds (stepAmount debtor creditor))
        (creditorsAfter creditor cs (stepAmount debtor creditor))).map
      (emitStep debtor creditor (stepAmount debtor creditor))

/-- The function `minimizeDebts` of `balance.go` on `float64`, run for at most `fuel`
iterations of its loop. On `float64` no number of iterations is enough for every map:
on `{1: -Inf, 2: +Inf}` both amounts become NaN and neither cursor moves again. -/
def minimizeDebts (fuel : Nat) (S : SliceSort) (balances : GoMap) :
    Option (List Transaction) :=
  settleLoop fuel (S.sort debtorLess (debtorsOf balances))
    (S.sort creditorLess (creditorsOf balances))

end Binary64

namespace Binary64

/-- The value of `math.Round(x*100) / 100` on a finite `x` when nothing overflows. -/
def round2Value (x : ℚ) : ℚ := roundNearest (mathRound (roundNearest (x * 100)) / 100)

/-- The magnitude up to which the matching loop is analysed: `2^40`, about
`1.1 * 10^12`. -/
def magnitudeBound : ℚ := 2 ^ (40 : ℕ)

/-- The value of the constant `0.01`. -/
def centValue : ℚ := roundNearest (1 / 100)

/-- The invariant of the matching loop on amounts of bounded magnitude: the amounts in
play are finite, every debtor owes at least `0.01` and every creditor is owed at
least `0.01`. -/
def LoopInv (ds cs : List balanceItem) : Prop :=
  (∀ d ∈ ds, ∃ v, d.Amount = F64.fin v ∧ -magnitudeBound ≤ v ∧ v ≤ -centValue) ∧
  (∀ c ∈ cs, ∃ v, c.Amount = F64.fin v ∧ centValue ≤ v ∧ v ≤ magnitudeBound)

end Binary64

namespace Binary64

/-- The insertion sort of `sort.Slice`, with the proof that it returns a permutation. -/
def goInsertionSort : SliceSort where
  sort := insertionSortLess
  perm := fun less xs => by
    unfold insertionSortLess
    refine (List.reverse_perm _).trans ?_
    have key : ∀ (ys acc : List balanceItem),
        (ys.foldl (fun done x => insertLess less x done) acc).Perm (acc ++ ys) := by
      intro ys
      induction ys with
      | nil => intro acc; simp
      | cons x ys ih =>
        intro acc
        rw [List.foldl_cons]
        refine (ih (insertLess less x acc)).trans ?_
        have hins : ∀ l : List balanceItem, (insertLess less x l).Perm (x :: l) := by
          intro l
          induction l with
          | nil => exact List.Perm.refl _
          | cons e rest ihl =>
            unfold insertLess
            split
            · exact (List.Perm.cons e ihl).trans (List.Perm.swap x e rest)
            · exact List.Perm.refl _
        exact ((hins acc).append_right ys).trans (@List.perm_middle _ x acc ys).symm
    simpa using key xs []

/-- A balance map within the analysed range: every value is finite, of magnitude at
most `2^40`. -/
def Bounded (balances : GoMap) : Prop :=
  ∀ p ∈ balances, ∃ v : ℚ, p.2 = F64.fin v ∧ |v| ≤ magnitudeBound

end Binary64

/-- The `float64` that a decimal amount of `n` cents is read as: the one nearest to
`n/100`. -/
def F64.ofCents (n : ℤ) : F64 := F64.ofRat ((n : ℚ) / 100)

/-- The whole number of cents nearest to an amount (halves away from zero); 0 for an
infinity or a NaN. -/
def F64.centsOf : F64 → ℤ
  | F64.fin v => if v < 0 then -⌊-(v * 100) + 1 / 2⌋ else ⌊v * 100 + 1 / 2⌋
  | _ => 0

namespace Binary64

/-- The cents a user pays out in a list of transactions. -/
def paidCents (txs : List Transaction) (u : Int) : ℤ :=
  (txs.map fun t => if t.FromUser = u then F64.centsOf t.Amount else 0).sum

/-- The cents a user receives in a list of transactions. -/
def receivedCents (txs : List Transaction) (u : Int) : ℤ :=
  (txs.map fun t => if t.ToUser = u then F64.centsOf t.Amount else 0).sum

/-- The cents a slice holds of a user. -/
def centsHeld (u : Int) (l : List balanceItem) : ℤ :=
  (l.map fun x => if x.UserID = u then F64.centsOf x.Amount else 0).sum

/-- The largest number of cents the exact accounting is carried through for: `2^38`
cents, about `2.7 * 10^9` units. -/
def centsBound : ℤ := 2 ^ (38 : ℕ)

/-- How far from a whole number of cents an amount in play can be after `j`
iterations: each iteration rounds twice. -/
def driftBound (j : Nat) : ℚ := ((j : ℚ) + 1) / 2 ^ (19 : ℕ)

/-- The invariant of the matching loop on whole cents after `j` iterations: the
invariant `LoopInv`, and every amount in play is within `driftBound j` of a whole
number of cents of magnitude at most `centsBound`. -/
def CentsInv (j : Nat) (ds cs : List balanceItem) : Prop :=
  LoopInv ds cs ∧
  (∀ d ∈ ds, ∃ (v : ℚ) (k : ℤ), d.Amount = F64.fin v ∧ |v - (k : ℚ) / 100| ≤ driftBound j ∧
    -centsBound ≤ k ∧ k ≤ 0) ∧
  (∀ c ∈ cs, ∃ (v : ℚ) (k : ℤ), c.Amount = F64.fin v ∧ |v - (k : ℚ) / 100| ≤ driftBound j ∧
    0 ≤ k ∧ k ≤ centsBound)

/-- A balance map of whole cents: every value is the `float64` nearest to a whole number
of cents of magnitude at most `centsBound`. -/
def WholeCents (balances : GoMap) : Prop :=
  ∀ p ∈ balances, ∃ n : ℤ, p.2 = F64.ofCents n ∧ |n| ≤ centsBound

end Binary64

/-! ## `GetGroupBalance` on binary64 -/

namespace Binary64

/-- The keys of a map. -/
def GoMap.keys (m : GoMap) : List Int := m.map Prod.fst

/-- Reading `m[k]`: the stored value, or the zero value when the key is absent. -/
def GoMap.get (m : GoMap) (k : Int) : F64 := (m.lookup k).getD (F64.fin 0)

/-- The assignment `m[k] = v`: replaces the entry of `k` or adds one. -/
def GoMap.set : GoMap → Int → F64 → GoMap
  | [], k, v => [(k, v)]
  | (k1, v1) :: rest, k, v =>
    if k1 = k then (k, v) :: rest else (k1, v1) :: GoMap.set rest k v

/-- What `rows.Scan(&userID, &amount)` puts in the `float64` for a `numeric` total: the
double nearest to it, or nothing when the total is out of the range of `float64` and
the scan reports an error. -/
def scanAmount (total : ℚ) : Option F64 :=
  match F64.ofRat total with
  | F64.fin v => some (F64.fin v)
  | _ => none

/-- The scan loop of steps 1 and 2: `m[userID] = amount` for every row, a row whose
scan fails being skipped (`continue`). -/
def scanRows (rows : List (Int × ℚ)) : GoMap :=
  rows.foldl (fun m r =>
    match scanAmount r.2 with
    | some amount => GoMap.set m r.1 amount
    | none => m) []

/-- The map `paidMap` of `GetGroupBalance`: the totals are summed by the database, in
decimal, and read into `float64`. -/
def paidMap (db : Store) (groupID : Int) : GoMap :=
  scanRows (sumByUser (paidRows db groupID))

/-- The map `owedMap` of `GetGroupBalance`. -/
def owedMap (db : Store) (groupID : Int) : GoMap :=
  scanRows (sumByUser (owedRows db groupID))

/-- The set `allUsers` of step 3: the keys of `paidMap`, then those of `owedMap`. -/
def allUsers (paid owed : GoMap) : List Int :=
  (GoMap.keys owed).foldl addUser ((GoMap.keys paid).foldl addUser [])

/-- Step 3 of `GetGroupBalance`: `balances[uid] = math.Round(net*100) / 100` with
`net := paidMap[uid] - owedMap[uid]`, for every user of `allUsers`, in `float64`. The
loops of this step assign one value per key, so the map they build does not depend on
the order in which `range` yields the keys; the model takes them in stored order. -/
def netBalances (paid owed : GoMap) : GoMap :=
  (allUsers paid owed).foldl
    (fun m uid => GoMap.set m uid (F64.round2 (F64.sub (GoMap.get paid uid) (GoMap.get owed uid))))
    []

/-- The order in which `range` yields the entries of a map: some permutation. -/
structure MapRange where
  order : GoMap → GoMap
  perm : ∀ m, (order m).Perm m

/-- The iteration that yields the entries in stored order. -/
def rangeInOrder : MapRange where
  order := fun m => m
  perm := fun m => List.Perm.refl m

/-- The JSON body of `GetGroupBalance`. -/
structure BalanceResponse where
  balances : GoMap
  transactions : List Transaction

/-- The handler `GetGroupBalance` on a store whose two queries succeed; `none` when
the loop of `minimizeDebts` has not ended within `fuel` iterations. -/
def GetGroupBalance (fuel : Nat) (S : SliceSort) (R : MapRange) (db : Store) (groupID : Int) :
    Option BalanceResponse :=
  (minimizeDebts fuel S (R.order (netBalances (paidMap db groupID) (owedMap db groupID)))).map
    fun transactions => ⟨netBalances (paidMap db groupID) (owedMap db groupID), transactions⟩

/-- The totals read by `GetGroupBalance` are within the analysed range: of magnitude
at most `2^38`. -/
def TotalsBounded (paid owed : GoMap) : Prop :=
  ∀ p ∈ paid ++ owed, ∃ v : ℚ, p.2 = F64.fin v ∧ |v| ≤ 2 ^ (38 : ℕ)

end Binary64

/-! ## The expense handlers on binary64 -/

namespace Binary64

/-- One split of a request (`Split` in `expenses.go`). -/
structure Split where
  UserID : Int
  Amount : F64
deriving DecidableEq, Repr

/-- One payer of a request (`PayerSplit` in `expenses.go`). -/
structure PayerSplit where
  UserID : Int
  PaidAmount : F64
deriving DecidableEq, Repr

/-- The decoded body of a create or update request (`CreateExpenseRequest`). -/
structure CreateExpenseRequest where
  Title : String
  Description : String
  Amount : F64
  Category : String
  Payers : List PayerSplit
  Splits : List Split
deriving DecidableEq, Repr

/-- The decimal text the driver sends for a `float64` argument
(`strconv.FormatFloat(v, 'f', -1, 64)`, library code), as the number it denotes, with
the contract the library documents: the text reads back as the same `float64`. -/
structure FloatFormat where
  text : ℚ → ℚ
  roundTrip : ∀ v : ℚ, roundNearest v = v → roundNearest (text v) = v

/-- The format that writes out every digit of the binary value. It is the text
`strconv.FormatFloat` produces whenever no shorter text reads back as the same
`float64`, for instance on 10.125. -/
def exactDigits : FloatFormat where
  text := fun v => v
  roundTrip := fun _ h => h

/-- What a column `DECIMAL(10, 2)` stores for a `float64` argument: the text the driver
sends, rounded to two decimals with halves away from zero; `none` when the statement
fails with a numeric field overflow (the rounded value needs more than eight digits
before the point). A request decoded from JSON holds no NaN and no infinity; on those
the statement is taken to fail. -/
def storeDecimal (F : FloatFormat) (x : F64) : Option ℚ :=
  match x with
  | F64.fin v =>
    if |round2 (F.text v)| < 100000000 then some (round2 (F.text v)) else none
  | _ => none

/-- The validation loop of `CreateExpense`: `totalSplit += s.Amount`. -/
def totalSplit (splits : List Split) : F64 :=
  splits.foldl (fun total s => F64.add total s.Amount) (F64.fin 0)

/-- The loop `for _, payer := range req.Payers` with its `INSERT INTO expense_payers`,
the first of which is the `k`-th statement of the transaction; `none` when a
statement fails. -/
def insertPayers (F : FloatFormat) (env : DbEnv) (expenseID : Int) :
    Nat → List PayerSplit → Store → Option Store
  | _, [], work => some work
  | k, payer :: rest, work =>
    if env.stmtFails k then none
    else
      match storeDecimal F payer.PaidAmount with
      | none => none
      | some paid =>
        insertPayers F env expenseID (k + 1) rest
          ⟨work.expenses,
            work.expense_payers ++ [⟨env.rowID k, expenseID, payer.UserID, paid⟩],
            work.expense_splits⟩

/-- The loop `for _, split := range req.Splits` with its `INSERT INTO expense_splits`,
the first of which is the `k`-th statement of the transaction; `none` when a
statement fails. -/
def insertSplits (F : FloatFormat) (env : DbEnv) (expenseID : Int) :
    Nat → List Split → Store → Option Store
  | _, [], work => some work
  | k, split :: rest, work =>
    if env.stmtFails k then none
    else
      match storeDecimal F split.Amount with
      | none => none
      | some owed =>
        insertSplits F env expenseID (k + 1) rest
          ⟨work.expenses, work.expense_payers,
            work.expense_splits ++ [⟨env.rowID k, expenseID, split.UserID, owed⟩]⟩

/-- The handler `CreateExpense` on a decoded request. Statement 0 is the insert of
the expense row, statements 1.. the payer inserts, then the split inserts. The
deferred `tx.Rollback()` undoes the work on every return before a commit. -/
def CreateExpense (F : FloatFormat) (env : DbEnv) (db : Store) (groupID : Int)
    (req : CreateExpenseRequest) : HandlerResult :=
  if F64.lt F64.cent (F64.abs (F64.sub (totalSplit req.Splits) req.Amount)) then
    ⟨db, 400, TxEnd.notBegun⟩
  else if env.beginFails then ⟨db, 500, TxEnd.notBegun⟩
  else if env.stmtFails 0 then ⟨db, 500, TxEnd.rolledBack⟩
  else
    match storeDecimal F req.Amount with
    | none => ⟨db, 500, TxEnd.rolledBack⟩
    | some amount =>
      match insertPayers F env env.expenseID 1 req.Payers
          ⟨db.expenses ++ [⟨env.expenseID, groupID, req.Title, req.Description, amount,
              req.Category, env.now⟩],
            db.expense_payers, db.expense_splits⟩ with
      | none => ⟨db, 500, TxEnd.rolledBack⟩
      | some work =>
        match insertSplits F env env.expenseID (1 + req.Payers.length) req.Splits work with
        | none => ⟨db, 500, TxEnd.rolledBack⟩
        | some done =>
          if env.commitFails then ⟨db, 500, TxEnd.commitFailed⟩
          else ⟨done, 201, TxEnd.committed⟩

/-- The statement `UPDATE expenses SET description, amount, category, title WHERE id`
with the amount as the column stores it. -/
def updateExpenseRow (expenseID : Int) (req : CreateExpenseRequest) (amount : ℚ)
    (e : ExpenseRow) : ExpenseRow :=
  if e.id = expenseID then
    { e with description := req.Description, amount := amount,
             category := req.Category, title := req.Title }
  else e

/-- The handler `UpdateExpense` on a decoded request. Statement 0 is the update of
the expense row, statement 1 the delete of the old payers, then the payer inserts,
the delete of the old splits and the split inserts. Every failing statement is
followed by `tx.Rollback()`; the error of the final `tx.Commit()` is not looked at. -/
def UpdateExpense (F : FloatFormat) (env : DbEnv) (db : Store) (expenseID : Int)
    (req : CreateExpenseRequest) : HandlerResult :=
  if env.beginFails then ⟨db, 500, TxEnd.notBegun⟩
  else if env.stmtFails 0 then ⟨db, 500, TxEnd.rolledBack⟩
  else
    match storeDecimal F req.Amount with
    | none => ⟨db, 500, TxEnd.rolledBack⟩
    | some amount =>
      if env.stmtFails 1 then ⟨db, 500, TxEnd.rolledBack⟩
      else
        match insertPayers F env expenseID 2 req.Payers
            ⟨db.expenses.map (updateExpenseRow expenseID req amount),
              db.expense_payers.filter (fun p => ¬ p.expense_id = expenseID),
              db.expense_splits⟩ with
        | none => ⟨db, 500, TxEnd.rolledBack⟩
        | some work =>
          if env.stmtFails (2 + req.Payers.length) then ⟨db, 500, TxEnd.rolledBack⟩
          else
            match insertSplits F env expenseID (3 + req.Payers.length) req.Splits
                ⟨work.expenses, work.expense_payers,
                  work.expense_splits.filter (fun s => ¬ s.expense_id = expenseID)⟩ with
            | none => ⟨db, 500, TxEnd.rolledBack⟩
            | some done =>
              if env.commitFails then ⟨db, 200, TxEnd.commitFailed⟩
              else ⟨done, 200, TxEnd.committed⟩

/-- The payers of a request as the column stores them. -/
def storedPayers (F : FloatFormat) (payers : List PayerSplit) : List SplitUp.PayerSplit :=
  payers.filterMap fun p =>
    (storeDecimal F p.PaidAmount).map fun paid => (⟨p.UserID, paid⟩ : SplitUp.PayerSplit)

/-- The splits of a request as the column stores them. -/
def storedSplits (F : FloatFormat) (splits : List Split) : List SplitUp.Split :=
  splits.filterMap fun s =>
    (storeDecimal F s.Amount).map fun owed => (⟨s.UserID, owed⟩ : SplitUp.Split)

/-- The request as the columns store it: every amount replaced by its stored decimal. -/
def storedRequest (F : FloatFormat) (req : CreateExpenseRequest) :
    SplitUp.CreateExpenseRequest :=
  ⟨req.Title, req.Description, (storeDecimal F req.Amount).getD 0, req.Category,
    storedPayers F req.Payers, storedSplits F req.Splits⟩

/-- Every amount of the request fits its column. -/
def Storable (F : FloatFormat) (req : CreateExpenseRequest) : Prop :=
  (∃ q, storeDecimal F req.Amount = some q) ∧
  (∀ p ∈ req.Payers, ∃ q, storeDecimal F p.PaidAmount = some q) ∧
  (∀ s ∈ req.Splits, ∃ q, storeDecimal F s.Amount = some q)

/-- A request whose amounts are read from decimals with two fractional digits that the
columns can hold: each is the `float64` nearest to a whole number of cents below
`10^10`. -/
def InCents (req : CreateExpenseRequest) : Prop :=
  (∃ n : ℤ, req.Amount = F64.ofCents n ∧ |n| < 10000000000) ∧
  (∀ p ∈ req.Payers, ∃ n : ℤ, p.PaidAmount = F64.ofCents n ∧ |n| < 10000000000) ∧
  (∀ s ∈ req.Splits, ∃ n : ℤ, s.Amount = F64.ofCents n ∧ |n| < 10000000000)

end Binary64

/-! ## Carrying out the transactions, in cents -/

namespace Binary64

/-- The number of entries a slice has of a user. -/
def entriesOf (u : Int) (l : List balanceItem) : ℤ :=
  (l.map fun x => if x.UserID = u then (1 : ℤ) else 0).sum

/-- The cents a slice holds in all. -/
def heldTotal (l : List balanceItem) : ℤ :=
  (l.map fun x => F64.centsOf x.Amount).sum

/-- The cents a list of transactions moves in all. -/
def flowTotal (txs : List Transaction) : ℤ :=
  (txs.map fun t => F64.centsOf t.Amount).sum

/-- The net balance, in cents, that is left to the user of an entry of the balance map
once the transactions are carried out: what the user pays is taken off the debt, what
the user receives is taken off the credit. -/
def remainingCents (p : Int × F64) (txs : List Transaction) : ℤ :=
  F64.centsOf p.2 + paidCents txs p.1 - receivedCents txs p.1

end Binary64

/-! ## `ExportGroupPDF` on binary64 -/

namespace Binary64

/-- One row of the expense matrix (`ExpenseMatrixRow` in `export.go`); `Date`, a cut
of the timestamp's text, is left out. -/
structure ExpenseMatrixRow where
  Title : String
  Payer : String
  TotalAmount : F64
  UserImpacts : GoMap

/-- One suggested payment of the report (`SuggestedPayment` in `export.go`). -/
structure SuggestedPayment where
  From : String
  To : String
  Amount : F64
deriving DecidableEq, Repr

/-- What a `Scan` whose error is not looked at leaves in a `float64` declared just
before: the double nearest to the stored decimal, or the zero value when the scan
fails. -/
def scanOrZero (stored : ℚ) : F64 := (scanAmount stored).getD (F64.fin 0)

/-- The update `m[uid] += amt` of a map. -/
def GoMap.add (m : GoMap) (uid : Int) (amt : F64) : GoMap :=
  GoMap.set m uid (F64.add (GoMap.get m uid) amt)

/-- The update `m[uid] -= amt` of a map. -/
def GoMap.subtract (m : GoMap) (uid : Int) (amt : F64) : GoMap :=
  GoMap.set m uid (F64.sub (GoMap.get m uid) amt)

/-- The map `e.UserImpacts` of one expense: `+= amt` for every payer row, then
`-= amt` for every split row. -/
def userImpacts (dir : Directory) (db : Store) (expenseID : Int) : GoMap :=
  (fetchSplits db expenseID).foldl (fun m r => GoMap.subtract m r.1 (scanOrZero r.2))
    ((fetchPayers dir db expenseID).foldl (fun m r => GoMap.add m r.2.1 (scanOrZero r.2.2)) [])

/-- The matrix row built for one expense. -/
def matrixRow (dir : Directory) (db : Store) (e : ExpenseRow) : ExpenseMatrixRow :=
  { Title := e.title,
    Payer := String.intercalate ", " ((fetchPayers dir db e.id).map fun r => r.1),
    TotalAmount := scanOrZero e.amount,
    UserImpacts := userImpacts dir db e.id }

/-- The map `grandTotals`: `grandTotals[uid] += impact` for every entry of every row.
Every key of a row is added once, so the order in which `range` yields the entries of
`UserImpacts` does not matter; the model takes them in stored order. -/
def grandTotalsOf (rows : List ExpenseMatrixRow) : GoMap :=
  rows.foldl (fun totals row =>
    row.UserImpacts.foldl (fun t p => GoMap.add t p.1 p.2) totals) []

/-- The creditors of step 4: the members whose total is above 0.01, in member order.
The anonymous struct `{ID, Name, Balance}` is held as a `balanceItem`; the name is
read back from the member list when a payment is recorded. -/
def exportCreditors (members : List Member) (totals : GoMap) : List balanceItem :=
  (members.filter fun m => F64.lt F64.cent (GoMap.get totals m.ID)).map fun m =>
    ⟨m.ID, GoMap.get totals m.ID⟩

/-- The debtors of step 4: the members whose total is below -0.01, in member order. -/
def exportDebtors (members : List Member) (totals : GoMap) : List balanceItem :=
  (members.filter fun m =>
    !F64.lt F64.cent (GoMap.get totals m.ID) &&
      F64.lt (GoMap.get totals m.ID) (F64.neg F64.cent)).map fun m =>
    ⟨m.ID, GoMap.get totals m.ID⟩

/-- The amount of one iteration of the loop of `ExportGroupPDF`: `amount := credit`,
then `if debt < credit { amount = debt }`. -/
def exportAmount (credit debt : F64) : F64 :=
  if F64.lt debt credit then debt else credit

/-- The matching loop of `ExportGroupPDF`. The two lists are `creditors[cIdx:]` and
`debtors[dIdx:]`, their heads carrying `tempCred[cIdx]` and `tempDebt[dIdx]` (debts
are held positive); the result is the list of the payments appended from this state
on, payer first; `none` when the loop has not ended within `fuel` iterations. -/
def exportLoop : Nat → List balanceItem → List balanceItem → Option (List Transaction)
  | _, [], _ => some []
  | _, _ :: _, [] => some []
  | 0, _ :: _, _ :: _ => none
  | fuel + 1, c :: cs, d :: ds =>
    if F64.lt c.Amount F64.cent then exportLoop fuel cs (d :: ds)
    else if F64.lt d.Amount F64.cent then exportLoop fuel (c :: cs) ds
    else
      (exportLoop fuel
          (if F64.lt (F64.sub c.Amount (exportAmount c.Amount d.Amount)) F64.cent then cs
            else ⟨c.UserID, F64.sub c.Amount (exportAmount c.Amount d.Amount)⟩ :: cs)
          (if F64.lt (F64.sub d.Amount (exportAmount c.Amount d.Amount)) F64.cent then ds
            else ⟨d.UserID, F64.sub d.Amount (exportAmount c.Amount d.Amount)⟩ :: ds)).map
        fun rest =>
          if F64.lt F64.cent (exportAmount c.Amount d.Amount) then
            ⟨d.UserID, c.UserID, exportAmount c.Amount d.Amount⟩ :: rest
          else rest

/-- Step 4 of `ExportGroupPDF`: the two sorts, `tempDebt[i] = -d.Balance`, and the
matching loop. -/
def exportSettle (fuel : Nat) (S : SliceSort) (members : List Member) (totals : GoMap) :
    Option (List Transaction) :=
  exportLoop fuel (S.sort creditorLess (exportCreditors members totals))
    ((S.sort debtorLess (exportDebtors members totals)).map fun d =>
      ⟨d.UserID, F64.neg d.Amount⟩)

/-- A payment of the loop as the report shows it: by the names of the two members. -/
def toSuggestedPayment (members : List Member) (t : Transaction) : SuggestedPayment :=
  ⟨memberName members t.FromUser, memberName members t.ToUser, t.Amount⟩

/-- What `ExportGroupPDF` computes before it draws the report. -/
structure ExportReport where
  groupName : String
  members : List Member
  matrixRows : List ExpenseMatrixRow
  grandTotals : GoMap
  settlements : List SuggestedPayment

/-- The answer of `ExportGroupPDF`: the status and, on 200, the report. -/
structure ExportResult where
  status : Nat
  report : Option ExportReport

/-- The handler `ExportGroupPDF` on tables whose queries succeed, up to the drawing
of the PDF; `none` when the matching loop has not ended within `fuel` iterations. -/
def ExportGroupPDF (fuel : Nat) (S : SliceSort) (dir : Directory) (db : Store)
    (groupID : Int) : Option ExportResult :=
  match fetchGroupName dir groupID with
  | none => some ⟨404, none⟩
  | some groupName =>
    (exportSettle fuel S (fetchMembers dir groupID)
        (grandTotalsOf ((fetchExpenses db groupID).map (matrixRow dir db)))).map
      fun payments =>
        ⟨200, some ⟨groupName, fetchMembers dir groupID,
          (fetchExpenses db groupID).map (matrixRow dir db),
          grandTotalsOf ((fetchExpenses db groupID).map (matrixRow dir db)),
          payments.map (toSuggestedPayment (fetchMembers dir groupID))⟩⟩

/-- The part of the contract of `sort.Slice` that concerns the order: for a comparison
that is a strict weak order on the elements of the slice, no element of the result is
`less` than one before it. -/
def SliceSort.Ordered (S : SliceSort) : Prop :=
  ∀ (less : balanceItem → balanceItem → Bool) (xs : List balanceItem),
    (∀ a ∈ xs, ∀ b ∈ xs, less a b = false ∨ less b a = false) →
    (∀ a ∈ xs, ∀ b ∈ xs, ∀ c ∈ xs, less b a = false → less c b = false → less c a = false) →
    (S.sort less xs).Pairwise (fun a b => less b a = false)

/-- The iteration that yields the entries in the reverse of the stored order. -/
def rangeReversed : MapRange where
  order := List.reverse
  perm := List.reverse_perm

end Binary64

/-! ## Multiples of 0.25: where binary64 is exact -/

namespace Binary64

/-- An amount is a multiple of 0.25: an amount in cents that `float64` holds exactly. -/
def IsQuarter (x : ℚ) : Prop := ∃ n : ℤ, x = (n : ℚ) / 4

/-- A decimal entry of a slice held in `float64` without error. -/
def liftItem (x : SplitUp.balanceItem) : balanceItem := ⟨x.UserID, F64.fin x.Amount⟩

/-- A decimal transaction held in `float64` without error. -/
def liftTx (t : SplitUp.Transaction) : Transaction := ⟨t.FromUser, t.ToUser, F64.fin t.Amount⟩

/-- A decimal map held in `float64` without error. -/
def liftMap (m : SplitUp.GoMap) : GoMap := m.map fun p => (p.1, F64.fin p.2)

/-- The sum of the magnitudes of the amounts of a list of rows. -/
def rowsWeight (rows : List (Int × ℚ)) : ℚ := (rows.map fun r => |r.2|).sum

/-- The sum of the magnitudes of the amounts `ExportGroupPDF` reads for a group:
those of the payer rows and of the split rows of each of its expenses. -/
def exportWeight (dir : Directory) (db : Store) (groupID : Int) : ℚ :=
  ((fetchExpenses db groupID).map fun e =>
    rowsWeight ((fetchPayers dir db e.id).map fun r => (r.2.1, r.2.2)) +
      rowsWeight (fetchSplits db e.id)).sum

/-- The sum of the magnitudes of the amounts the two queries of `GetGroupBalance`
add up for a group. -/
def balanceWeight (db : Store) (groupID : Int) : ℚ :=
  rowsWeight (paidRows db groupID) + rowsWeight (owedRows db groupID)

/-- One expense of 0.05 in group 7, paid 0.04 and 0.01 by users 2 and 1 and owed 0.03
and 0.02 by users 2 and 3. -/
def centStore : Store :=
  ⟨[⟨1, 7, "Lunch", "", 5 / 100, "Food", 0⟩], [⟨1, 1, 2, 4 / 100⟩, ⟨2, 1, 1, 1 / 100⟩],
    [⟨3, 1, 2, 3 / 100⟩, ⟨4, 1, 3, 2 / 100⟩]⟩

/-- One expense of 0.30 in group 7, paid by user 1 and owed 0.10 and 0.20 by users 1
and 2. -/
def dimeStore : Store :=
  ⟨[⟨1, 7, "Lunch", "", 3 / 10, "Food", 0⟩], [⟨1, 1, 1, 3 / 10⟩],
    [⟨3, 1, 1, 1 / 10⟩, ⟨4, 1, 2, 2 / 10⟩]⟩

end Binary64

namespace Binary64

/-- Every amount of a slice is a multiple of 0.25 of magnitude at most `2^43`. -/
def QuarterItems (l : List SplitUp.balanceItem) : Prop :=
  ∀ x ∈ l, IsQuarter x.Amount ∧ |x.Amount| ≤ 2 ^ (43 : ℕ)

end Binary64

namespace Binary64

/-- One expense of 10 in group 7, paid 7.50 and 2.50 by users 3 and 4 and owed 6.25 and
3.75 by users 1 and 2. -/
def quarterStore : Store :=
  ⟨[⟨1, 7, "Dinner", "", 10, "Food", 0⟩], [⟨1, 1, 3, 15 / 2⟩, ⟨2, 1, 4, 5 / 2⟩],
    [⟨3, 1, 1, 25 / 4⟩, ⟨4, 1, 2, 15 / 4⟩]⟩

end Binary64

/-! ## The insertion sort meets the contract of `sort.Slice` -/

theorem insertLess_perm (less : balanceItem → balanceItem → Bool) (x : balanceItem)
    (l : List balanceItem) : (insertLess less x l).Perm (x :: l) := by
  induction l with
  | nil => exact List.Perm.refl _
  | cons e rest ih =>
    unfold insertLess
    split
    · exact (List.Perm.cons e ih).trans (List.Perm.swap x e rest)
    · exact List.Perm.refl _

theorem insertLess_pairwise (less : balanceItem → balanceItem → Bool)
    (htot : ∀ a b, less a b = false ∨ less b a = false)
    (htrans : ∀ a b c, less b a = false → less c b = false → less c a = false)
    (x : balanceItem) (l : List balanceItem)
    (hl : l.Pairwise (fun a b => less a b = false)) :
    (insertLess less x l).Pairwise (fun a b => less a b = false) := by
  induction l with
  | nil => simp [insertLess]
  | cons e rest ih =>
    rw [List.pairwise_cons] at hl
    unfold insertLess
    split
    · rename_i hlt
      rw [List.pairwise_cons]
      refine ⟨?_, ih hl.2⟩
      intro y hy
      rcases List.mem_cons.1 ((insertLess_perm less x rest).mem_iff.1 hy) with hy1 | hy1
      · subst hy1
        rcases htot y e with h | h
        · rw [h] at hlt; cases hlt
        · exact h
      · exact hl.1 y hy1
    · rename_i hlt
      have hxe : less x e = false := by simpa using hlt
      rw [List.pairwise_cons]
      refine ⟨?_, List.pairwise_cons.2 hl⟩
      intro y hy
      rcases List.mem_cons.1 hy with hy1 | hy1
      · subst hy1; exact hxe
      · exact htrans y e x (hl.1 y hy1) hxe

theorem foldl_insertLess_perm (less : balanceItem → balanceItem → Bool)
    (xs acc : List balanceItem) :
    (xs.foldl (fun done x => insertLess less x done) acc).Perm (acc ++ xs) := by
  induction xs generalizing acc with
  | nil => simp
  | cons x xs ih =>
    rw [List.foldl_cons]
    refine (ih (insertLess less x acc)).trans ?_
    refine ((insertLess_perm less x acc).append_right xs).trans ?_
    exact (@List.perm_middle _ x acc xs).symm

theorem foldl_insertLess_pairwise (less : balanceItem → balanceItem → Bool)
    (htot : ∀ a b, less a b = false ∨ less b a = false)
    (htrans : ∀ a b c, less b a = false → less c b = false → less c a = false)
    (xs acc : List balanceItem) (hacc : acc.Pairwise (fun a b => less a b = false)) :
    (xs.foldl (fun done x => insertLess less x done) acc).Pairwise
      (fun a b => less a b = false) := by
  induction xs generalizing acc with
  | nil => simpa using hacc
  | cons x xs ih =>
    rw [List.foldl_cons]
    exact ih _ (insertLess_pairwise less htot htrans x acc hacc)

/-- The insertion sort of `sort.Slice`, with the proof that it meets the contract. -/
def goInsertionSort : SliceSort where
  sort := insertionSortLess
  perm := fun less xs => by
    unfold insertionSortLess
    exact (List.reverse_perm _).trans (by simpa using foldl_insertLess_perm less xs [])
  sorted := fun less xs htot htrans => by
    unfold insertionSortLess
    rw [List.pairwise_reverse]
    exact foldl_insertLess_pairwise less htot htrans xs [] List.Pairwise.nil

/-! ## Rounding: lemmas -/

theorem mathRound_eq_intCast (x : ℚ) : ∃ n : ℤ, mathRound x = (n : ℚ) := by
  unfold mathRound
  split
  · exact ⟨-⌊-x + 1 / 2⌋, by push_cast; ring⟩
  · exact ⟨⌊x + 1 / 2⌋, rfl⟩

theorem abs_mathRound_sub_le (x : ℚ) : |mathRound x - x| ≤ 1 / 2 := by
  unfold mathRound
  split
  · have h1 := Int.floor_le (-x + 1 / 2)
    have h2 := Int.lt_floor_add_one (-x + 1 / 2)
    rw [abs_le]; constructor <;> linarith
  · have h1 := Int.floor_le (x + 1 / 2)
    have h2 := Int.lt_floor_add_one (x + 1 / 2)
    rw [abs_le]; constructor <;> linarith

theorem mathRound_intCast (n : ℤ) : mathRound (n : ℚ) = (n : ℚ) := by
  unfold mathRound
  split
  · have h : ⌊-(n : ℚ) + 1 / 2⌋ = -n := by
      rw [Int.floor_eq_iff]; push_cast; constructor <;> linarith
    rw [h]; push_cast; ring
  · have h : ⌊(n : ℚ) + 1 / 2⌋ = n := by
      rw [Int.floor_eq_iff]; constructor <;> linarith
    rw [h]

theorem abs_round2_sub_le (x : ℚ) : |round2 x - x| ≤ 1 / 200 := by
  have h := abs_mathRound_sub_le (x * 100)
  unfold round2
  rw [abs_le] at h ⊢
  constructor <;> linarith

theorem round2_eq_cents (x : ℚ) : ∃ n : ℤ, round2 x = (n : ℚ) / 100 := by
  obtain ⟨n, hn⟩ := mathRound_eq_intCast (x * 100)
  exact ⟨n, by unfold round2; rw [hn]⟩

/-- A positive rounded amount is at least one cent. -/
theorem round2_pos_ge (x : ℚ) (h : 0 < round2 x) : 1 / 100 ≤ round2 x := by
  obtain ⟨n, hn⟩ := round2_eq_cents x
  rw [hn] at h ⊢
  have h1 : (0 : ℚ) < (n : ℚ) := by linarith
  have h2 : (1 : ℤ) ≤ n := by exact_mod_cast h1
  have h3 : (1 : ℚ) ≤ (n : ℚ) := by exact_mod_cast h2
  linarith

theorem round2_of_isCents {x : ℚ} (h : IsCents x) : round2 x = x := by
  obtain ⟨n, rfl⟩ := h
  unfold round2
  have : (n : ℚ) / 100 * 100 = (n : ℚ) := by ring
  rw [this, mathRound_intCast]

/-! ## The matching loop -/

theorem settleLoop_nil_left (fuel : Nat) (cs : List balanceItem) :
    settleLoop fuel [] cs = some [] := by
  cases fuel <;> simp [settleLoop]

theorem settleLoop_nil_right (fuel : Nat) (ds : List balanceItem) :
    settleLoop fuel ds [] = some [] := by
  cases fuel <;> cases ds <;> simp [settleLoop]

theorem settleLoop_succ (fuel : Nat) (d c : balanceItem) (ds cs : List balanceItem) :
    settleLoop (fuel + 1) (d :: ds) (c :: cs) =
      (settleLoop fuel (debtorsAfter d ds (stepAmount d c))
        (creditorsAfter c cs (stepAmount d c))).map (emitStep d c (stepAmount d c)) := by
  simp [settleLoop]

/-- The loop equation in the form used to evaluate the loop on concrete slices. -/
theorem settleLoop_pos (fuel : Nat) (hfuel : 0 < fuel) (d c : balanceItem)
    (ds cs : List balanceItem) :
    settleLoop fuel (d :: ds) (c :: cs) =
      (settleLoop (fuel - 1) (debtorsAfter d ds (stepAmount d c))
        (creditorsAfter c cs (stepAmount d c))).map (emitStep d c (stepAmount d c)) := by
  obtain ⟨k, rfl⟩ : ∃ k, fuel = k + 1 := ⟨fuel - 1, by omega⟩
  rw [settleLoop_succ]; rfl

theorem stepAmount_ge {d c : balanceItem} (hd : d.Amount ≤ -(1 / 100))
    (hc : 1 / 100 ≤ c.Amount) : 1 / 100 ≤ stepAmount d c := by
  apply round2_pos_ge
  have h := abs_round2_sub_le (min |d.Amount| c.Amount)
  rw [abs_le] at h
  have hm : 1 / 100 ≤ min |d.Amount| c.Amount := by
    rw [le_min_iff, abs_of_nonpos (by linarith)]
    constructor <;> linarith
  linarith [h.1]

theorem loopInv_step {d c : balanceItem} {ds cs : List balanceItem}
    (h : LoopInv (d :: ds) (c :: cs)) :
    LoopInv (debtorsAfter d ds (stepAmount d c)) (creditorsAfter c cs (stepAmount d c)) := by
  obtain ⟨hD, hC⟩ := h
  have hd := hD d (List.mem_cons_self _ _)
  have hc := hC c (List.mem_cons_self _ _)
  have hr := abs_round2_sub_le (min |d.Amount| c.Amount)
  rw [abs_le, abs_of_nonpos (by linarith : d.Amount ≤ 0)] at hr
  have hmin1 : min (-d.Amount) c.Amount ≤ -d.Amount := min_le_left _ _
  have hmin2 : min (-d.Amount) c.Amount ≤ c.Amount := min_le_right _ _
  have hamt : stepAmount d c = round2 (min (-d.Amount) c.Amount) := by
    unfold stepAmount; rw [abs_of_nonpos (by linarith : d.Amount ≤ 0)]
  constructor
  · intro x hx
    unfold debtorsAfter at hx
    split at hx
    · exact hD x (List.mem_cons_of_mem _ hx)
    · rename_i hnot
      rcases List.mem_cons.1 hx with rfl | hx1
      · simp only
        rw [not_lt] at hnot
        rw [hamt] at hnot ⊢
        by_contra hcon
        rw [not_le] at hcon
        have : |d.Amount + round2 (min (-d.Amount) c.Amount)| < 1 / 100 := by
          rw [abs_lt]; constructor <;> linarith [hr.1, hr.2]
        linarith
      · exact hD x (List.mem_cons_of_mem _ hx1)
  · intro x hx
    unfold creditorsAfter at hx
    split at hx
    · exact hC x (List.mem_cons_of_mem _ hx)
    · rename_i hnot
      rcases List.mem_cons.1 hx with rfl | hx1
      · simp only
        rw [not_lt] at hnot
        exact hnot
      · exact hC x (List.mem_cons_of_mem _ hx1)

/-- Under the invariant every step moves at least one of the two cursors. -/
theorem step_length_le {d c : balanceItem} {ds cs : List balanceItem}
    (h : LoopInv (d :: ds) (c :: cs)) :
    (debtorsAfter d ds (stepAmount d c)).length +
      (creditorsAfter c cs (stepAmount d c)).length ≤ ds.length + cs.length + 1 := by
  obtain ⟨hD, hC⟩ := h
  have hd := hD d (List.mem_cons_self _ _)
  have hc := hC c (List.mem_cons_self _ _)
  have hr := abs_round2_sub_le (min |d.Amount| c.Amount)
  rw [abs_le, abs_of_nonpos (by linarith : d.Amount ≤ 0)] at hr
  have hamt : stepAmount d c = round2 (min (-d.Amount) c.Amount) := by
    unfold stepAmount; rw [abs_of_nonpos (by linarith : d.Amount ≤ 0)]
  have hDlen : (debtorsAfter d ds (stepAmount d c)).length ≤ ds.length + 1 := by
    unfold debtorsAfter; split <;> simp
  have hClen : (creditorsAfter c cs (stepAmount d c)).length ≤ cs.length + 1 := by
    unfold creditorsAfter; split <;> simp
  rcases le_total (-d.Amount) c.Amount with hle | hle
  · rw [min_eq_left hle] at hr hamt
    have : debtorsAfter d ds (stepAmount d c) = ds := by
      unfold debtorsAfter
      rw [if_pos]
      rw [hamt, abs_lt]; constructor <;> linarith [hr.1, hr.2]
    rw [this]; omega
  · rw [min_eq_right hle] at hr hamt
    have : creditorsAfter c cs (stepAmount d c) = cs := by
      unfold creditorsAfter
      rw [if_pos]
      rw [hamt]; linarith [hr.1, hr.2]
    rw [this]; omega

theorem emitStep_length_le (d c : balanceItem) (a : ℚ) (rest : List Transaction) :
    (emitStep d c a rest).length ≤ rest.length + 1 := by
  unfold emitStep; split <;> simp

/-- Under the invariant the loop ends within `len(debtors) + len(creditors) - 1`
iterations, and so appends at most that many transactions. -/
theorem settleLoop_total (fuel : Nat) (ds cs : List balanceItem) (h : LoopInv ds cs)
    (hfuel : ds.length + cs.length ≤ fuel + 1) :
    ∃ txs, settleLoop fuel ds cs = some txs ∧ txs.length ≤ ds.length + cs.length - 1 := by
  induction fuel generalizing ds cs with
  | zero =>
    cases ds with
    | nil => exact ⟨[], settleLoop_nil_left _ _, by simp⟩
    | cons d ds =>
      cases cs with
      | nil => exact ⟨[], settleLoop_nil_right _ _, by simp⟩
      | cons c cs => simp at hfuel; omega
  | succ fuel ih =>
    cases ds with
    | nil => exact ⟨[], settleLoop_nil_left _ _, by simp⟩
    | cons d ds =>
      cases cs with
      | nil => exact ⟨[], settleLoop_nil_right _ _, by simp⟩
      | cons c cs =>
        have hlen := step_length_le h
        simp only [List.length_cons] at hfuel
        obtain ⟨rest, hrest, hrlen⟩ := ih _ _ (loopInv_step h) (by omega)
        refine ⟨emitStep d c (stepAmount d c) rest, ?_, ?_⟩
        · rw [settleLoop_succ, hrest]; rfl
        · have := emitStep_length_le d c (stepAmount d c) rest
          simp only [List.length_cons]
          omega

theorem emitStep_mem {d c : balanceItem} {a : ℚ} {rest : List Transaction} {t : Transaction}
    (ht : t ∈ emitStep d c a rest) :
    (t = ⟨d.UserID, c.UserID, a⟩ ∧ 0 < a) ∨ t ∈ rest := by
  unfold emitStep at ht
  split at ht
  · rename_i hpos
    rcases List.mem_cons.1 ht with h | h
    · exact Or.inl ⟨h, hpos⟩
    · exact Or.inr h
  · exact Or.inr ht

theorem debtorsAfter_userID {d : balanceItem} {ds : List balanceItem} {a : ℚ} {u : Int}
    (h : u ∈ (debtorsAfter d ds a).map balanceItem.UserID) :
    u ∈ (d :: ds).map balanceItem.UserID := by
  unfold debtorsAfter at h
  split at h
  · exact List.mem_cons_of_mem _ h
  · simpa using h

theorem creditorsAfter_userID {c : balanceItem} {cs : List balanceItem} {a : ℚ} {u : Int}
    (h : u ∈ (creditorsAfter c cs a).map balanceItem.UserID) :
    u ∈ (c :: cs).map balanceItem.UserID := by
  unfold creditorsAfter at h
  split at h
  · exact List.mem_cons_of_mem _ h
  · simpa using h

/-- Whatever the state, a transaction the loop appends has a positive amount of at
least a cent, is paid by a user of the debtor slice and received by a user of the
creditor slice. -/
theorem settleLoop_mem (fuel : Nat) (ds cs : List balanceItem) (txs : List Transaction)
    (h : settleLoop fuel ds cs = some txs) (t : Transaction) (ht : t ∈ txs) :
    1 / 100 ≤ t.Amount ∧ t.FromUser ∈ ds.map balanceItem.UserID ∧
      t.ToUser ∈ cs.map balanceItem.UserID := by
  induction fuel generalizing ds cs txs with
  | zero =>
    cases ds with
    | nil => rw [settleLoop_nil_left] at h; cases h; cases ht
    | cons d ds =>
      cases cs with
      | nil => rw [settleLoop_nil_right] at h; cases h; cases ht
      | cons c cs => simp [settleLoop] at h
  | succ fuel ih =>
    cases ds with
    | nil => rw [settleLoop_nil_left] at h; cases h; cases ht
    | cons d ds =>
      cases cs with
      | nil => rw [settleLoop_nil_right] at h; cases h; cases ht
      | cons c cs =>
        rw [settleLoop_succ] at h
        cases hrest : settleLoop fuel (debtorsAfter d ds (stepAmount d c))
            (creditorsAfter c cs (stepAmount d c)) with
        | none => rw [hrest] at h; cases h
        | some rest =>
          rw [hrest] at h
          simp only [Option.map_some', Option.some.injEq] at h
          subst h
          rcases emitStep_mem ht with ⟨rfl, hpos⟩ | hmem
          · exact ⟨round2_pos_ge _ hpos, by simp, by simp⟩
          · obtain ⟨h1, h2, h3⟩ := ih _ _ _ hrest hmem
            exact ⟨h1, debtorsAfter_userID h2, creditorsAfter_userID h3⟩

theorem settleLoop_fuel_mono (fuel fuel1 : Nat) (ds cs : List balanceItem)
    (txs : List Transaction) (h : settleLoop fuel ds cs = some txs) (hle : fuel ≤ fuel1) :
    settleLoop fuel1 ds cs = some txs := by
  induction fuel generalizing fuel1 ds cs txs with
  | zero =>
    cases ds with
    | nil => rw [settleLoop_nil_left] at h ⊢; exact h
    | cons d ds =>
      cases cs with
      | nil => rw [settleLoop_nil_right] at h ⊢; exact h
      | cons c cs => simp [settleLoop] at h
  | succ fuel ih =>
    cases ds with
    | nil => rw [settleLoop_nil_left] at h ⊢; exact h
    | cons d ds =>
      cases cs with
      | nil => rw [settleLoop_nil_right] at h ⊢; exact h
      | cons c cs =>
        obtain ⟨k, rfl⟩ : ∃ k, fuel1 = k + 1 := ⟨fuel1 - 1, by omega⟩
        rw [settleLoop_succ] at h ⊢
        cases hrest : settleLoop fuel (debtorsAfter d ds (stepAmount d c))
            (creditorsAfter c cs (stepAmount d c)) with
        | none => rw [hrest] at h; cases h
        | some rest =>
          rw [hrest] at h
          rw [ih k _ _ rest hrest (by omega)]
          exact h

/-! ## From the balance map to the loop -/

theorem mem_debtorsOf {balances : GoMap} {x : balanceItem} :
    x ∈ debtorsOf balances ↔ (x.UserID, x.Amount) ∈ balances ∧ x.Amount < -(1 / 100) := by
  unfold debtorsOf
  simp only [List.mem_map, List.mem_filter, decide_eq_true_eq]
  constructor
  · rintro ⟨p, ⟨hp, hlt⟩, rfl⟩
    exact ⟨hp, hlt⟩
  · rintro ⟨hp, hlt⟩
    exact ⟨(x.UserID, x.Amount), ⟨hp, hlt⟩, rfl⟩

theorem mem_creditorsOf {balances : GoMap} {x : balanceItem} :
    x ∈ creditorsOf balances ↔ (x.UserID, x.Amount) ∈ balances ∧ 1 / 100 < x.Amount := by
  unfold creditorsOf
  simp only [List.mem_map, List.mem_filter, decide_eq_true_eq]
  constructor
  · rintro ⟨p, ⟨hp, _, hlt⟩, rfl⟩
    exact ⟨hp, hlt⟩
  · rintro ⟨hp, hlt⟩
    exact ⟨(x.UserID, x.Amount), ⟨hp, by linarith, hlt⟩, rfl⟩

theorem length_debtorsOf (balances : GoMap) :
    (debtorsOf balances).length = balances.countP (fun p => p.2 < -(1 / 100)) := by
  unfold debtorsOf
  rw [List.length_map, List.countP_eq_length_filter]

theorem length_creditorsOf (balances : GoMap) :
    (creditorsOf balances).length = balances.countP (fun p => p.2 > 1 / 100) := by
  unfold creditorsOf
  rw [List.length_map, List.countP_eq_length_filter]
  congr 1
  apply List.filter_congr
  intro p _
  have key : (¬ p.2 < -(1 / 100) ∧ p.2 > 1 / 100) ↔ p.2 > 1 / 100 :=
    ⟨fun h => h.2, fun h => ⟨by linarith, h⟩⟩
  exact decide_eq_decide.2 key

theorem length_debtorsOf_add_creditorsOf_le (balances : GoMap) :
    (debtorsOf balances).length + (creditorsOf balances).length ≤ balances.length := by
  induction balances with
  | nil => simp [debtorsOf, creditorsOf]
  | cons p rest ih =>
    unfold debtorsOf creditorsOf at ih ⊢
    simp only [List.filter_cons, List.length_map] at ih ⊢
    by_cases h : p.2 < -(1 / 100)
    · have h2 : ¬ (¬ p.2 < -(1 / 100) ∧ p.2 > 1 / 100) := fun hc => hc.1 h
      rw [if_pos (decide_eq_true h), if_neg (by simpa using h2)]
      simp only [List.length_cons]
      omega
    · rw [if_neg (by simpa using h)]
      split <;> simp only [List.length_cons] <;> omega

theorem loopInv_init (S : SliceSort) (balances : GoMap) :
    LoopInv (S.sort debtorLess (debtorsOf balances))
      (S.sort creditorLess (creditorsOf balances)) := by
  constructor
  · intro d hd
    have := (mem_debtorsOf.1 ((S.perm _ _).mem_iff.1 hd)).2
    linarith
  · intro c hc
    have := (mem_creditorsOf.1 ((S.perm _ _).mem_iff.1 hc)).2
    linarith

/-- The loop of `minimizeDebts` always ends: the function returns a list. -/
theorem minimizeDebts_total (S : SliceSort) (balances : GoMap) :
    ∃ txs, minimizeDebts S balances = some txs ∧
      txs.length ≤ (debtorsOf balances).length + (creditorsOf balances).length - 1 := by
  have hlen := length_debtorsOf_add_creditorsOf_le balances
  have h := settleLoop_total balances.length _ _ (loopInv_init S balances)
    (by rw [(S.perm _ _).length_eq, (S.perm _ _).length_eq]; omega)
  rw [(S.perm _ _).length_eq, (S.perm _ _).length_eq] at h
  exact h

/-- More fuel than one iteration per map entry changes nothing. -/
theorem minimizeDebtsFuel_eq (fuel : Nat) (S : SliceSort) (balances : GoMap)
    (h : balances.length ≤ fuel) :
    minimizeDebtsFuel fuel S balances = minimizeDebts S balances := by
  obtain ⟨txs, htxs, _⟩ := minimizeDebts_total S balances
  rw [htxs]
  exact settleLoop_fuel_mono _ _ _ _ _ htxs h

/-! ## Maps -/

theorem GoMap.get_of_mem {m : GoMap} (hnodup : (GoMap.keys m).Nodup) {k : Int} {v : ℚ}
    (h : (k, v) ∈ m) : GoMap.get m k = v := by
  induction m with
  | nil => cases h
  | cons p rest ih =>
    obtain ⟨k1, v1⟩ := p
    simp only [GoMap.keys, List.map_cons, List.nodup_cons] at hnodup
    rcases List.mem_cons.1 h with heq | hmem
    · cases heq
      simp [GoMap.get, List.lookup]
    · have hne : k ≠ k1 := by
        rintro rfl
        exact hnodup.1 (List.mem_map.2 ⟨(k, v), hmem, rfl⟩)
      have hrest := ih hnodup.2 hmem
      unfold GoMap.get at hrest ⊢
      rw [List.lookup_cons, beq_false_of_ne hne]
      exact hrest

/-! ## Settled claims about `minimizeDebts` -/

/-- C3, as stated, fails: on the balances `{1: -0.03, 2: -0.03, 3: 0.04, 4: 0.02}`
the second transaction has amount exactly 0.01, which is not greater than 0.01. -/
theorem minimizeDebts_emits_one_cent :
    minimizeDebts goInsertionSort
        [(1, -(3 / 100)), (2, -(3 / 100)), (3, 4 / 100), (4, 2 / 100)] =
      some [⟨1, 3, 3 / 100⟩, ⟨2, 3, 1 / 100⟩, ⟨2, 4, 2 / 100⟩] ∧
    ¬ ∀ txs, minimizeDebts goInsertionSort
        [(1, -(3 / 100)), (2, -(3 / 100)), (3, 4 / 100), (4, 2 / 100)] = some txs →
      ∀ t ∈ txs, ¬ t.Amount ≤ 1 / 100 := by
  have heval : minimizeDebts goInsertionSort
        [(1, -(3 / 100)), (2, -(3 / 100)), (3, 4 / 100), (4, 2 / 100)] =
      some [⟨1, 3, 3 / 100⟩, ⟨2, 3, 1 / 100⟩, ⟨2, 4, 2 / 100⟩] := by
    norm_num [minimizeDebts, minimizeDebtsFuel, goInsertionSort, insertionSortLess, insertLess,
      debtorsOf, creditorsOf, debtorLess, creditorLess, settleLoop_pos, settleLoop_nil_left,
      settleLoop_nil_right, stepAmount, debtorsAfter,
      creditorsAfter, emitStep, round2, mathRound, List.filter_cons, abs_eq_max_neg, max_def,
      min_def]
  refine ⟨heval, fun h => ?_⟩
  exact h _ heval ⟨2, 3, 1 / 100⟩ (by simp) (le_refl _)

/-- C3, amended: for every balance map, iteration order and sort, `minimizeDebts`
never emits a transaction whose amount is less than 0.01. -/
theorem minimizeDebts_amount_ge_cent (S : SliceSort) (balances : GoMap) :
    ∃ txs, minimizeDebts S balances = some txs ∧ ∀ t ∈ txs, 1 / 100 ≤ t.Amount := by
  obtain ⟨txs, htxs, _⟩ := minimizeDebts_total S balances
  exact ⟨txs, htxs, fun t ht => (settleLoop_mem _ _ _ _ htxs t ht).1⟩

/-- C4: for every balance map, iteration order and sort, every transaction returned
by `minimizeDebts` has an amount strictly greater than 0. -/
theorem minimizeDebts_amount_pos (S : SliceSort) (balances : GoMap) :
    ∃ txs, minimizeDebts S balances = some txs ∧ ∀ t ∈ txs, 0 < t.Amount := by
  obtain ⟨txs, htxs, _⟩ := minimizeDebts_total S balances
  refine ⟨txs, htxs, fun t ht => ?_⟩
  have := (settleLoop_mem _ _ _ _ htxs t ht).1
  linarith

/-- C5: for every balance map (distinct keys), iteration order and sort, the payer of
every returned transaction has an input balance < -0.01 and its receiver an input
balance > 0.01; hence payer and receiver differ, and a user whose balance lies in
[-0.01, 0.01] is party to no transaction. -/
theorem minimizeDebts_parties (S : SliceSort) (balances : GoMap)
    (hnodup : (GoMap.keys balances).Nodup) :
    ∃ txs, minimizeDebts S balances = some txs ∧
      (∀ t ∈ txs, GoMap.get balances t.FromUser < -(1 / 100) ∧
        GoMap.get balances t.ToUser > 1 / 100 ∧ t.FromUser ≠ t.ToUser) ∧
      (∀ u, -(1 / 100) ≤ GoMap.get balances u → GoMap.get balances u ≤ 1 / 100 →
        ∀ t ∈ txs, t.FromUser ≠ u ∧ t.ToUser ≠ u) := by
  obtain ⟨txs, htxs, _⟩ := minimizeDebts_total S balances
  have key : ∀ t ∈ txs, GoMap.get balances t.FromUser < -(1 / 100) ∧
      GoMap.get balances t.ToUser > 1 / 100 := by
    intro t ht
    obtain ⟨_, hfrom, hto⟩ := settleLoop_mem _ _ _ _ htxs t ht
    obtain ⟨d, hd, hdu⟩ := List.mem_map.1 hfrom
    obtain ⟨c, hc, hcu⟩ := List.mem_map.1 hto
    obtain ⟨hdm, hdlt⟩ := mem_debtorsOf.1 ((S.perm _ _).mem_iff.1 hd)
    obtain ⟨hcm, hclt⟩ := mem_creditorsOf.1 ((S.perm _ _).mem_iff.1 hc)
    rw [← hdu, ← hcu, GoMap.get_of_mem hnodup hdm, GoMap.get_of_mem hnodup hcm]
    exact ⟨hdlt, hclt⟩
  refine ⟨txs, htxs, ?_, ?_⟩
  · intro t ht
    obtain ⟨h1, h2⟩ := key t ht
    refine ⟨h1, h2, fun heq => ?_⟩
    rw [heq] at h1
    linarith
  · intro u hlo hhi t ht
    obtain ⟨h1, h2⟩ := key t ht
    constructor
    · rintro rfl; linarith
    · rintro rfl; linarith

/-- Witness of C5 on the balances `{1: -5, 2: -5, 3: 7, 4: 3}`. -/
theorem minimizeDebts_parties_witness :
    (GoMap.keys [(1, -5), (2, -5), (3, 7), (4, 3)]).Nodup ∧
    ∃ txs, minimizeDebts goInsertionSort [(1, -5), (2, -5), (3, 7), (4, 3)] = some txs ∧
      (∀ t ∈ txs, GoMap.get [(1, -5), (2, -5), (3, 7), (4, 3)] t.FromUser < -(1 / 100) ∧
        GoMap.get [(1, -5), (2, -5), (3, 7), (4, 3)] t.ToUser > 1 / 100 ∧
        t.FromUser ≠ t.ToUser) ∧
      (∀ u, -(1 / 100) ≤ GoMap.get [(1, -5), (2, -5), (3, 7), (4, 3)] u →
        GoMap.get [(1, -5), (2, -5), (3, 7), (4, 3)] u ≤ 1 / 100 →
        ∀ t ∈ txs, t.FromUser ≠ u ∧ t.ToUser ≠ u) :=
  ⟨by simp [GoMap.keys],
    minimizeDebts_parties goInsertionSort [(1, -5), (2, -5), (3, 7), (4, 3)]
      (by simp [GoMap.keys])⟩

/-! ## The outcome of the two sorts -/

theorem debtorLess_total (a b : balanceItem) :
    debtorLess a b = false ∨ debtorLess b a = false := by
  unfold debtorLess
  rcases le_total a.Amount b.Amount with h | h
  · right; simpa using h
  · left; simpa using h

theorem debtorLess_trans (a b c : balanceItem) (h1 : debtorLess b a = false)
    (h2 : debtorLess c b = false) : debtorLess c a = false := by
  unfold debtorLess at *
  simp only [decide_eq_false_iff_not, not_lt] at *
  exact le_trans h1 h2

theorem creditorLess_total (a b : balanceItem) :
    creditorLess a b = false ∨ creditorLess b a = false := by
  unfold creditorLess
  rcases le_total a.Amount b.Amount with h | h
  · left; simpa using h
  · right; simpa using h

theorem creditorLess_trans (a b c : balanceItem) (h1 : creditorLess b a = false)
    (h2 : creditorLess c b = false) : creditorLess c a = false := by
  unfold creditorLess at *
  simp only [gt_iff_lt, decide_eq_false_iff_not, not_lt] at *
  exact le_trans h2 h1

theorem debtorsOf_perm {b1 b2 : GoMap} (h : b1.Perm b2) :
    (debtorsOf b1).Perm (debtorsOf b2) :=
  (h.filter _).map _

theorem creditorsOf_perm {b1 b2 : GoMap} (h : b1.Perm b2) :
    (creditorsOf b1).Perm (creditorsOf b2) :=
  (h.filter _).map _

theorem perm_pair {α : Type} {l : List α} {x y : α} (hp : l.Perm [x, y]) :
    l = [x, y] ∨ l = [y, x] := by
  have hlen := hp.length_eq
  match l, hlen with
  | [u, v], _ =>
    have hu : u ∈ [x, y] := hp.mem_iff.1 (List.mem_cons_self _ _)
    simp only [List.mem_cons, List.mem_singleton, List.not_mem_nil, or_false] at hu
    rcases hu with rfl | rfl
    · left
      have := List.perm_singleton.1 hp.cons_inv
      rw [this]
    · right
      have h2 : [u, v].Perm [u, x] := hp.trans (List.Perm.swap _ _ _)
      have := List.perm_singleton.1 h2.cons_inv
      rw [this]

/-- The sorted debtor slice does not depend on the iteration order or on the sort
when the debtors' balances are pairwise distinct. -/
theorem sort_debtors_unique (S1 S2 : SliceSort) {b1 b2 : GoMap} (h : b1.Perm b2)
    (hdist : ((debtorsOf b1).map balanceItem.Amount).Nodup) :
    S1.sort debtorLess (debtorsOf b1) = S2.sort debtorLess (debtorsOf b2) := by
  have hp1 := S1.perm debtorLess (debtorsOf b1)
  have hp2 := (S2.perm debtorLess (debtorsOf b2)).trans (debtorsOf_perm h).symm
  have hs : ∀ l : List balanceItem, l.Perm (debtorsOf b1) →
      l.Pairwise (fun a b => debtorLess b a = false) →
      l.Sorted (fun a b => a.Amount < b.Amount) := by
    intro l hl hsorted
    have hnd : (l.map balanceItem.Amount).Nodup := ((hl.map _).nodup_iff).2 hdist
    have hne : l.Pairwise (fun a b => a.Amount ≠ b.Amount) := List.pairwise_map.1 hnd
    refine (hsorted.and hne).imp ?_
    rintro a b ⟨hle, hab⟩
    unfold debtorLess at hle
    simp only [decide_eq_false_iff_not, not_lt] at hle
    exact lt_of_le_of_ne hle hab
  haveI : IsAntisymm balanceItem (fun a b => a.Amount < b.Amount) :=
    ⟨fun a b h1 h2 => absurd h1 (not_lt.2 h2.le)⟩
  exact List.eq_of_perm_of_sorted (hp1.trans hp2.symm)
    (hs _ hp1 (S1.sorted _ _ debtorLess_total debtorLess_trans))
    (hs _ hp2 (S2.sorted _ _ debtorLess_total debtorLess_trans))

/-- The sorted creditor slice does not depend on the iteration order or on the sort
when the creditors' balances are pairwise distinct. -/
theorem sort_creditors_unique (S1 S2 : SliceSort) {b1 b2 : GoMap} (h : b1.Perm b2)
    (hdist : ((creditorsOf b1).map balanceItem.Amount).Nodup) :
    S1.sort creditorLess (creditorsOf b1) = S2.sort creditorLess (creditorsOf b2) := by
  have hp1 := S1.perm creditorLess (creditorsOf b1)
  have hp2 := (S2.perm creditorLess (creditorsOf b2)).trans (creditorsOf_perm h).symm
  have hs : ∀ l : List balanceItem, l.Perm (creditorsOf b1) →
      l.Pairwise (fun a b => creditorLess b a = false) →
      l.Sorted (fun a b => b.Amount < a.Amount) := by
    intro l hl hsorted
    have hnd : (l.map balanceItem.Amount).Nodup := ((hl.map _).nodup_iff).2 hdist
    have hne : l.Pairwise (fun a b => a.Amount ≠ b.Amount) := List.pairwise_map.1 hnd
    refine (hsorted.and hne).imp ?_
    rintro a b ⟨hle, hab⟩
    unfold creditorLess at hle
    simp only [gt_iff_lt, decide_eq_false_iff_not, not_lt] at hle
    exact lt_of_le_of_ne hle (Ne.symm hab)
  haveI : IsAntisymm balanceItem (fun a b => b.Amount < a.Amount) :=
    ⟨fun a b h1 h2 => absurd h1 (not_lt.2 h2.le)⟩
  exact List.eq_of_perm_of_sorted (hp1.trans hp2.symm)
    (hs _ hp1 (S1.sorted _ _ creditorLess_total creditorLess_trans))
    (hs _ hp2 (S2.sorted _ _ creditorLess_total creditorLess_trans))

/-- Two runs on the same map agree, whatever the two iteration orders and the two
sorts, as soon as no two debtors and no two creditors have equal balances. -/
theorem minimizeDebts_congr (S1 S2 : SliceSort) {b1 b2 : GoMap} (h : b1.Perm b2)
    (hd : ((debtorsOf b1).map balanceItem.Amount).Nodup)
    (hc : ((creditorsOf b1).map balanceItem.Amount).Nodup) :
    minimizeDebts S1 b1 = minimizeDebts S2 b2 := by
  unfold minimizeDebts minimizeDebtsFuel
  rw [sort_debtors_unique S1 S2 h hd, sort_creditors_unique S1 S2 h hc, h.length_eq]

/-- C6: on the balances `{A: -30, B: -10, C: 40}`, in whatever order the map is
iterated and whatever the sort, `minimizeDebts` returns exactly
`[A pays C 30.00, B pays C 10.00]`. -/
theorem minimizeDebts_example_one (a b c : Int) (S : SliceSort) (balances : GoMap)
    (h : balances.Perm [(a, -30), (b, -10), (c, 40)]) :
    minimizeDebts S balances = some [⟨a, c, 30⟩, ⟨b, c, 10⟩] := by
  have hd : ((debtorsOf balances).map balanceItem.Amount).Nodup :=
    (((debtorsOf_perm h).map _).nodup_iff).2 (by norm_num [debtorsOf, List.filter_cons])
  have hc : ((creditorsOf balances).map balanceItem.Amount).Nodup :=
    (((creditorsOf_perm h).map _).nodup_iff).2 (by norm_num [creditorsOf, List.filter_cons])
  rw [minimizeDebts_congr S goInsertionSort h hd hc]
  norm_num [minimizeDebts, minimizeDebtsFuel, goInsertionSort, insertionSortLess, insertLess,
    debtorsOf, creditorsOf, debtorLess, creditorLess, settleLoop_pos, settleLoop_nil_left,
    settleLoop_nil_right, stepAmount, debtorsAfter,
    creditorsAfter, emitStep, round2, mathRound, List.filter_cons, abs_eq_max_neg, max_def,
    min_def]

/-- Witness of C6 with the users 1, 2, 3 and the map yielded in the order C, A, B. -/
theorem minimizeDebts_example_one_witness :
    ([(3, 40), (1, -30), (2, -10)] : GoMap).Perm [(1, -30), (2, -10), (3, 40)] ∧
    minimizeDebts goInsertionSort [(3, 40), (1, -30), (2, -10)] =
      some [⟨1, 3, 30⟩, ⟨2, 3, 10⟩] :=
  ⟨@List.perm_append_comm _ [(3, 40)] [(1, -30), (2, -10)],
    minimizeDebts_example_one 1 2 3 goInsertionSort [(3, 40), (1, -30), (2, -10)]
      (@List.perm_append_comm _ [(3, 40)] [(1, -30), (2, -10)])⟩

/-- C7, as stated, fails: when `range` yields the entry of B (user 2) before that of
A (user 1), the run on `{A: -5, B: -5, C: 7, D: 3}` returns
`[B pays C 5, A pays C 2, A pays D 3]`, not the stated sequence. -/
theorem minimizeDebts_example_two_other_order :
    ([(2, -5), (1, -5), (3, 7), (4, 3)] : GoMap).Perm [(1, -5), (2, -5), (3, 7), (4, 3)] ∧
    minimizeDebts goInsertionSort [(2, -5), (1, -5), (3, 7), (4, 3)] =
      some [⟨2, 3, 5⟩, ⟨1, 3, 2⟩, ⟨1, 4, 3⟩] ∧
    minimizeDebts goInsertionSort [(2, -5), (1, -5), (3, 7), (4, 3)] ≠
      some [⟨1, 3, 5⟩, ⟨2, 3, 2⟩, ⟨2, 4, 3⟩] := by
  have heval : minimizeDebts goInsertionSort [(2, -5), (1, -5), (3, 7), (4, 3)] =
      some [⟨2, 3, 5⟩, ⟨1, 3, 2⟩, ⟨1, 4, 3⟩] := by
    norm_num [minimizeDebts, minimizeDebtsFuel, goInsertionSort, insertionSortLess, insertLess,
      debtorsOf, creditorsOf, debtorLess, creditorLess, settleLoop_pos, settleLoop_nil_left,
    settleLoop_nil_right, stepAmount, debtorsAfter,
      creditorsAfter, emitStep, round2, mathRound, List.filter_cons, abs_eq_max_neg, max_def,
      min_def]
  refine ⟨List.Perm.swap _ _ _, heval, ?_⟩
  rw [heval]
  simp

/-- C7, amended: on the balances `{A: -5, B: -5, C: 7, D: 3}` every run returns
either `[A pays C 5, B pays C 2, B pays D 3]` or the same sequence with A and B
exchanged, according to which of the two tied debtors the iteration order and the
sort place first; it returns the first when the entries are yielded in the order
A, B, C, D and the sort is the insertion sort. -/
theorem minimizeDebts_example_two (a b c d : Int) :
    (∀ (S : SliceSort) (balances : GoMap),
      balances.Perm [(a, -5), (b, -5), (c, 7), (d, 3)] →
      minimizeDebts S balances = some [⟨a, c, 5⟩, ⟨b, c, 2⟩, ⟨b, d, 3⟩] ∨
      minimizeDebts S balances = some [⟨b, c, 5⟩, ⟨a, c, 2⟩, ⟨a, d, 3⟩]) ∧
    minimizeDebts goInsertionSort [(a, -5), (b, -5), (c, 7), (d, 3)] =
      some [⟨a, c, 5⟩, ⟨b, c, 2⟩, ⟨b, d, 3⟩] := by
  constructor
  · intro S balances h
    have hc : ((creditorsOf balances).map balanceItem.Amount).Nodup :=
      (((creditorsOf_perm h).map _).nodup_iff).2 (by norm_num [creditorsOf, List.filter_cons])
    have hcs : S.sort creditorLess (creditorsOf balances) = [⟨c, 7⟩, ⟨d, 3⟩] := by
      rw [sort_creditors_unique S goInsertionSort h hc]
      norm_num [goInsertionSort, insertionSortLess, insertLess, creditorsOf, creditorLess,
        List.filter_cons]
    have hds : (S.sort debtorLess (debtorsOf balances)).Perm [⟨a, -5⟩, ⟨b, -5⟩] := by
      refine ((S.perm _ _).trans (debtorsOf_perm h)).trans ?_
      norm_num [debtorsOf, List.filter_cons]
    unfold minimizeDebts minimizeDebtsFuel
    rw [hcs, h.length_eq]
    rcases perm_pair hds with h1 | h1
    · left
      rw [h1]
      norm_num [settleLoop_pos, settleLoop_nil_left, settleLoop_nil_right, stepAmount,
        debtorsAfter, creditorsAfter, emitStep, round2,
        mathRound, abs_eq_max_neg, max_def, min_def]
    · right
      rw [h1]
      norm_num [settleLoop_pos, settleLoop_nil_left, settleLoop_nil_right, stepAmount,
        debtorsAfter, creditorsAfter, emitStep, round2,
        mathRound, abs_eq_max_neg, max_def, min_def]
  · norm_num [minimizeDebts, minimizeDebtsFuel, goInsertionSort, insertionSortLess, insertLess,
      debtorsOf, creditorsOf, debtorLess, creditorLess, settleLoop_pos, settleLoop_nil_left,
    settleLoop_nil_right, stepAmount, debtorsAfter,
      creditorsAfter, emitStep, round2, mathRound, List.filter_cons, abs_eq_max_neg, max_def,
      min_def]

/-- Witness of the amended C7 with the users 1, 2, 3, 4 and the map yielded in the
order B, A, C, D. -/
theorem minimizeDebts_example_two_witness :
    ([(2, -5), (1, -5), (3, 7), (4, 3)] : GoMap).Perm [(1, -5), (2, -5), (3, 7), (4, 3)] ∧
    (minimizeDebts goInsertionSort [(2, -5), (1, -5), (3, 7), (4, 3)] =
        some [⟨1, 3, 5⟩, ⟨2, 3, 2⟩, ⟨2, 4, 3⟩] ∨
      minimizeDebts goInsertionSort [(2, -5), (1, -5), (3, 7), (4, 3)] =
        some [⟨2, 3, 5⟩, ⟨1, 3, 2⟩, ⟨1, 4, 3⟩]) :=
  ⟨List.Perm.swap _ _ _,
    (minimizeDebts_example_two 1 2 3 4).1 goInsertionSort [(2, -5), (1, -5), (3, 7), (4, 3)]
      (List.Perm.swap _ _ _)⟩

/-- C8, as stated, fails: two iteration orders of the one map
`{1: -5, 2: -5, 3: 7, 4: 3}` give two different transaction sequences, and in the
second run the tied debtors are processed in descending user-id order. -/
theorem minimizeDebts_order_dependent :
    ([(1, -5), (2, -5), (3, 7), (4, 3)] : GoMap).Perm [(2, -5), (1, -5), (3, 7), (4, 3)] ∧
    minimizeDebts goInsertionSort [(1, -5), (2, -5), (3, 7), (4, 3)] ≠
      minimizeDebts goInsertionSort [(2, -5), (1, -5), (3, 7), (4, 3)] := by
  refine ⟨List.Perm.swap _ _ _, ?_⟩
  norm_num [minimizeDebts, minimizeDebtsFuel, goInsertionSort, insertionSortLess, insertLess,
    debtorsOf, creditorsOf, debtorLess, creditorLess, settleLoop_pos, settleLoop_nil_left,
    settleLoop_nil_right, stepAmount, debtorsAfter,
    creditorsAfter, emitStep, round2, mathRound, List.filter_cons, abs_eq_max_neg, max_def,
    min_def]

/-- C8, amended: `minimizeDebts` is a function of the sequence in which the map is
iterated and of the result of the sort; when no two debtors have equal balances and
no two creditors have equal balances, two runs on equal maps return the same
transaction sequence whatever the two iteration orders and the two sorts. -/
theorem minimizeDebts_deterministic_of_distinct (S1 S2 : SliceSort) (b1 b2 : GoMap)
    (h : b1.Perm b2)
    (hd : ((b1.filter fun p => p.2 < -(1 / 100)).map Prod.snd).Nodup)
    (hc : ((b1.filter fun p => p.2 > 1 / 100).map Prod.snd).Nodup) :
    minimizeDebts S1 b1 = minimizeDebts S2 b2 := by
  apply minimizeDebts_congr S1 S2 h
  · unfold debtorsOf
    rw [List.map_map]
    exact hd
  · unfold creditorsOf
    rw [List.map_map]
    have hf : (b1.filter fun p => ¬ p.2 < -(1 / 100) ∧ p.2 > 1 / 100) =
        b1.filter fun p => p.2 > 1 / 100 := by
      apply List.filter_congr
      intro p _
      exact decide_eq_decide.2 ⟨fun h => h.2, fun h => ⟨by linarith, h⟩⟩
    rw [hf]
    exact hc

/-- Witness of the amended C8 on two iteration orders of `{1: -30, 2: -10, 3: 40}`. -/
theorem minimizeDebts_deterministic_of_distinct_witness :
    (([(1, -30), (2, -10), (3, 40)] : GoMap).Perm [(2, -10), (1, -30), (3, 40)] ∧
      ((([(1, -30), (2, -10), (3, 40)] : GoMap).filter fun p => p.2 < -(1 / 100)).map
        Prod.snd).Nodup ∧
      ((([(1, -30), (2, -10), (3, 40)] : GoMap).filter fun p => p.2 > 1 / 100).map
        Prod.snd).Nodup) ∧
    minimizeDebts goInsertionSort [(1, -30), (2, -10), (3, 40)] =
      minimizeDebts goInsertionSort [(2, -10), (1, -30), (3, 40)] :=
  ⟨⟨List.Perm.swap _ _ _, by norm_num [List.filter_cons], by norm_num [List.filter_cons]⟩,
    minimizeDebts_deterministic_of_distinct goInsertionSort goInsertionSort
      [(1, -30), (2, -10), (3, 40)] [(2, -10), (1, -30), (3, 40)] (List.Perm.swap _ _ _)
      (by norm_num [List.filter_cons]) (by norm_num [List.filter_cons])⟩

/-! ## Settling the group -/

theorem IsCents.neg {x : ℚ} (h : IsCents x) : IsCents (-x) := by
  obtain ⟨n, rfl⟩ := h
  exact ⟨-n, by push_cast; ring⟩

theorem IsCents.add {x y : ℚ} (hx : IsCents x) (hy : IsCents y) : IsCents (x + y) := by
  obtain ⟨n, rfl⟩ := hx
  obtain ⟨m, rfl⟩ := hy
  exact ⟨n + m, by push_cast; ring⟩

theorem IsCents.sub {x y : ℚ} (hx : IsCents x) (hy : IsCents y) : IsCents (x - y) := by
  obtain ⟨n, rfl⟩ := hx
  obtain ⟨m, rfl⟩ := hy
  exact ⟨n - m, by push_cast; ring⟩

theorem IsCents.min {x y : ℚ} (hx : IsCents x) (hy : IsCents y) : IsCents (min x y) := by
  rcases le_total x y with h | h
  · rw [min_eq_left h]; exact hx
  · rw [min_eq_right h]; exact hy

/-- A whole number of cents strictly between -0.01 and 0.01 is zero. -/
theorem IsCents.eq_zero {x : ℚ} (hx : IsCents x) (hlo : -(1 / 100) < x) (hhi : x < 1 / 100) :
    x = 0 := by
  obtain ⟨n, rfl⟩ := hx
  have h1 : (-1 : ℚ) < (n : ℚ) := by linarith
  have h2 : (n : ℚ) < 1 := by linarith
  have h3 : (-1 : ℤ) < n := by exact_mod_cast h1
  have h4 : n < (1 : ℤ) := by exact_mod_cast h2
  have : n = 0 := by omega
  rw [this]; simp

/-- On whole cents the amount of a step is exactly the smaller of the debt and the
credit. -/
theorem stepAmount_of_cents {d c : balanceItem} (hd : d.Amount ≤ -(1 / 100))
    (hdc : IsCents d.Amount) (hcc : IsCents c.Amount) :
    stepAmount d c = min (-d.Amount) c.Amount := by
  unfold stepAmount
  rw [abs_of_nonpos (by linarith : d.Amount ≤ 0)]
  exact round2_of_isCents (hdc.neg.min hcc)

theorem centsInv_step {d c : balanceItem} {ds cs : List balanceItem}
    (h : CentsInv (d :: ds) (c :: cs)) :
    CentsInv (debtorsAfter d ds (stepAmount d c)) (creditorsAfter c cs (stepAmount d c)) := by
  obtain ⟨hinv, hD, hC⟩ := h
  have hdc := hD d (List.mem_cons_self _ _)
  have hcc := hC c (List.mem_cons_self _ _)
  have hm : IsCents (stepAmount d c) := by
    rw [stepAmount_of_cents (hinv.1 d (List.mem_cons_self _ _)) hdc hcc]
    exact hdc.neg.min hcc
  refine ⟨loopInv_step hinv, ?_, ?_⟩
  · intro x hx
    unfold debtorsAfter at hx
    split at hx
    · exact hD x (List.mem_cons_of_mem _ hx)
    · rcases List.mem_cons.1 hx with rfl | hx1
      · exact hdc.add hm
      · exact hD x (List.mem_cons_of_mem _ hx1)
  · intro x hx
    unfold creditorsAfter at hx
    split at hx
    · exact hC x (List.mem_cons_of_mem _ hx)
    · rcases List.mem_cons.1 hx with rfl | hx1
      · exact hcc.sub hm
      · exact hC x (List.mem_cons_of_mem _ hx1)

theorem weighted_cons (w : Int → ℚ) (x : balanceItem) (l : List balanceItem) :
    weighted w (x :: l) = w x.UserID * x.Amount + weighted w l := by
  simp [weighted]

/-- On whole cents a step moves exactly its amount off the debtor slice. -/
theorem weighted_debtorsAfter (w : Int → ℚ) {d c : balanceItem} {ds cs : List balanceItem}
    (h : CentsInv (d :: ds) (c :: cs)) :
    weighted w (debtorsAfter d ds (stepAmount d c)) =
      weighted w (d :: ds) + w d.UserID * stepAmount d c := by
  obtain ⟨hinv, hD, hC⟩ := h
  have hd := hinv.1 d (List.mem_cons_self _ _)
  have hdc := hD d (List.mem_cons_self _ _)
  have hcc := hC c (List.mem_cons_self _ _)
  have hm := stepAmount_of_cents hd hdc hcc
  have hle : stepAmount d c ≤ -d.Amount := by rw [hm]; exact min_le_left _ _
  have hmc : IsCents (stepAmount d c) := by rw [hm]; exact hdc.neg.min hcc
  unfold debtorsAfter
  split
  · rename_i hlt
    rw [abs_lt] at hlt
    have hz := (hdc.add hmc).eq_zero hlt.1 hlt.2
    rw [weighted_cons]
    have : stepAmount d c = -d.Amount := by linarith
    rw [this]; ring
  · rw [weighted_cons, weighted_cons]
    simp only
    ring

/-- On whole cents a step moves exactly its amount off the creditor slice. -/
theorem weighted_creditorsAfter (w : Int → ℚ) {d c : balanceItem} {ds cs : List balanceItem}
    (h : CentsInv (d :: ds) (c :: cs)) :
    weighted w (creditorsAfter c cs (stepAmount d c)) =
      weighted w (c :: cs) - w c.UserID * stepAmount d c := by
  obtain ⟨hinv, hD, hC⟩ := h
  have hd := hinv.1 d (List.mem_cons_self _ _)
  have hdc := hD d (List.mem_cons_self _ _)
  have hcc := hC c (List.mem_cons_self _ _)
  have hm := stepAmount_of_cents hd hdc hcc
  have hle : stepAmount d c ≤ c.Amount := by rw [hm]; exact min_le_right _ _
  have hmc : IsCents (stepAmount d c) := by rw [hm]; exact hdc.neg.min hcc
  unfold creditorsAfter
  split
  · rename_i hlt
    have hz := (hcc.sub hmc).eq_zero (by linarith) hlt
    rw [weighted_cons]
    have : stepAmount d c = c.Amount := by linarith
    rw [this]; ring
  · rw [weighted_cons, weighted_cons]
    simp only
    ring

theorem weighted_one_pos {cs : List balanceItem} (h : ∀ c ∈ cs, 1 / 100 ≤ c.Amount)
    (hne : cs ≠ []) : 0 < weighted (fun _ => 1) cs := by
  induction cs with
  | nil => exact absurd rfl hne
  | cons c cs ih =>
    rw [weighted_cons]
    have hc := h c (List.mem_cons_self _ _)
    by_cases hcs : cs = []
    · subst hcs; simp [weighted]; linarith
    · have := ih (fun x hx => h x (List.mem_cons_of_mem _ hx)) hcs
      linarith

theorem weighted_one_neg {ds : List balanceItem} (h : ∀ d ∈ ds, d.Amount ≤ -(1 / 100))
    (hne : ds ≠ []) : weighted (fun _ => 1) ds < 0 := by
  induction ds with
  | nil => exact absurd rfl hne
  | cons d ds ih =>
    rw [weighted_cons]
    have hd := h d (List.mem_cons_self _ _)
    by_cases hds : ds = []
    · subst hds; simp [weighted]; linarith
    · have := ih (fun x hx => h x (List.mem_cons_of_mem _ hx)) hds
      linarith

/-- On whole cents, when the debts and the credits in play cancel, the transactions
of the loop carry every weighted amount in play to zero. -/
theorem settleLoop_settles (w : Int → ℚ) (fuel : Nat) (ds cs : List balanceItem)
    (txs : List Transaction) (h : CentsInv ds cs)
    (hsum : weighted (fun _ => 1) ds + weighted (fun _ => 1) cs = 0)
    (hrun : settleLoop fuel ds cs = some txs) :
    weighted w ds + weighted w cs + weightedFlow w txs = 0 := by
  induction fuel generalizing ds cs txs with
  | zero =>
    cases ds with
    | nil =>
      rw [settleLoop_nil_left] at hrun; cases hrun
      have hcs : cs = [] := by
        by_contra hne
        have := weighted_one_pos h.1.2 hne
        simp [weighted] at hsum this
        linarith
      subst hcs; simp [weighted, weightedFlow]
    | cons d ds =>
      cases cs with
      | nil =>
        have := weighted_one_neg h.1.1 (List.cons_ne_nil d ds)
        simp [weighted] at hsum this
        linarith
      | cons c cs => simp [settleLoop] at hrun
  | succ fuel ih =>
    cases ds with
    | nil =>
      rw [settleLoop_nil_left] at hrun; cases hrun
      have hcs : cs = [] := by
        by_contra hne
        have := weighted_one_pos h.1.2 hne
        simp [weighted] at hsum this
        linarith
      subst hcs; simp [weighted, weightedFlow]
    | cons d ds =>
      cases cs with
      | nil =>
        have := weighted_one_neg h.1.1 (List.cons_ne_nil d ds)
        simp [weighted] at hsum this
        linarith
      | cons c cs =>
        rw [settleLoop_succ] at hrun
        cases hrest : settleLoop fuel (debtorsAfter d ds (stepAmount d c))
            (creditorsAfter c cs (stepAmount d c)) with
        | none => rw [hrest] at hrun; cases hrun
        | some rest =>
          rw [hrest] at hrun
          simp only [Option.map_some', Option.some.injEq] at hrun
          subst hrun
          have hpos : 0 < stepAmount d c := by
            have := stepAmount_ge (h.1.1 d (List.mem_cons_self _ _))
              (h.1.2 c (List.mem_cons_self _ _))
            linarith
          have hsum1 : weighted (fun _ => 1) (debtorsAfter d ds (stepAmount d c)) +
              weighted (fun _ => 1) (creditorsAfter c cs (stepAmount d c)) = 0 := by
            rw [weighted_debtorsAfter _ h, weighted_creditorsAfter _ h]
            linarith
          have hih := ih _ _ rest (centsInv_step h) hsum1 hrest
          rw [weighted_debtorsAfter _ h, weighted_creditorsAfter _ h] at hih
          have hflow : weightedFlow w (emitStep d c (stepAmount d c) rest) =
              (w d.UserID - w c.UserID) * stepAmount d c + weightedFlow w rest := by
            unfold emitStep
            rw [if_pos hpos]
            simp [weightedFlow]
          rw [hflow]
          linarith

theorem weighted_perm (w : Int → ℚ) {l1 l2 : List balanceItem} (h : l1.Perm l2) :
    weighted w l1 = weighted w l2 :=
  (h.map _).sum_eq

theorem centsInv_init (S : SliceSort) (balances : GoMap)
    (hcents : ∀ p ∈ balances, IsCents p.2) :
    CentsInv (S.sort debtorLess (debtorsOf balances))
      (S.sort creditorLess (creditorsOf balances)) := by
  refine ⟨loopInv_init S balances, ?_, ?_⟩
  · intro d hd
    exact hcents _ (mem_debtorsOf.1 ((S.perm _ _).mem_iff.1 hd)).1
  · intro c hc
    exact hcents _ (mem_creditorsOf.1 ((S.perm _ _).mem_iff.1 hc)).1

theorem weightedFlow_indicator (txs : List Transaction) (u : Int) :
    weightedFlow (fun v => if v = u then 1 else 0) txs = paidBy txs u - receivedBy txs u := by
  induction txs with
  | nil => simp [weightedFlow, paidBy, receivedBy]
  | cons t rest ih =>
    unfold weightedFlow paidBy receivedBy at ih ⊢
    simp only [List.map_cons, List.sum_cons]
    rw [ih]
    by_cases h1 : t.FromUser = u <;> by_cases h2 : t.ToUser = u <;> simp [h1, h2] <;> ring

theorem debtorsOf_cons (p : Int × ℚ) (rest : GoMap) :
    debtorsOf (p :: rest) =
      if p.2 < -(1 / 100) then ⟨p.1, p.2⟩ :: debtorsOf rest else debtorsOf rest := by
  unfold debtorsOf
  rw [List.filter_cons]
  simp only [decide_eq_true_eq]
  by_cases h : p.2 < -(1 / 100)
  · rw [if_pos h, if_pos h]; rfl
  · rw [if_neg h, if_neg h]

theorem creditorsOf_cons (p : Int × ℚ) (rest : GoMap) :
    creditorsOf (p :: rest) =
      if p.2 > 1 / 100 then ⟨p.1, p.2⟩ :: creditorsOf rest else creditorsOf rest := by
  unfold creditorsOf
  rw [List.filter_cons]
  simp only [decide_eq_true_eq]
  by_cases h : p.2 > 1 / 100
  · have h2 : ¬ p.2 < -(1 / 100) := by linarith
    rw [if_pos ⟨h2, h⟩, if_pos h]; rfl
  · rw [if_neg (fun hc => h hc.2), if_neg h]

theorem settledSum_cons (p : Int × ℚ) (rest : GoMap) :
    settledSum (p :: rest) =
      if -(1 / 100) ≤ p.2 ∧ p.2 ≤ 1 / 100 then p.2 + settledSum rest else settledSum rest := by
  unfold settledSum
  rw [List.filter_cons]
  simp only [decide_eq_true_eq]
  by_cases h : -(1 / 100) ≤ p.2 ∧ p.2 ≤ 1 / 100
  · rw [if_pos h, if_pos h, List.map_cons, List.sum_cons]
  · rw [if_neg h, if_neg h]

/-- Every balance is a debtor's, a creditor's, or one left out as settled. -/
theorem sum_eq_classes (balances : GoMap) :
    (balances.map Prod.snd).sum =
      weighted (fun _ => 1) (debtorsOf balances) +
        weighted (fun _ => 1) (creditorsOf balances) + settledSum balances := by
  induction balances with
  | nil => simp [weighted, debtorsOf, creditorsOf, settledSum]
  | cons p rest ih =>
    rw [debtorsOf_cons, creditorsOf_cons, settledSum_cons, List.map_cons, List.sum_cons, ih]
    by_cases h1 : p.2 < -(1 / 100)
    · have h2 : ¬ p.2 > 1 / 100 := by linarith
      have h3 : ¬ (-(1 / 100) ≤ p.2 ∧ p.2 ≤ 1 / 100) := fun h => by linarith [h.1]
      rw [if_pos h1, if_neg h2, if_neg h3, weighted_cons]
      ring
    · by_cases h2 : p.2 > 1 / 100
      · have h3 : ¬ (-(1 / 100) ≤ p.2 ∧ p.2 ≤ 1 / 100) := fun h => by linarith [h.2]
        rw [if_neg h1, if_pos h2, if_neg h3, weighted_cons]
        ring
      · have h3 : -(1 / 100) ≤ p.2 ∧ p.2 ≤ 1 / 100 := ⟨not_lt.1 h1, not_lt.1 h2⟩
        rw [if_neg h1, if_neg h2, if_pos h3]
        ring

theorem weighted_indicator_of_not_mem (u : Int) (l : List balanceItem)
    (h : u ∉ l.map balanceItem.UserID) :
    weighted (fun v => if v = u then 1 else 0) l = 0 := by
  induction l with
  | nil => simp [weighted]
  | cons x rest ih =>
    simp only [List.map_cons, List.mem_cons, not_or] at h
    rw [weighted_cons, ih h.2, if_neg (fun hx => h.1 hx.symm)]
    ring

theorem debtorsOf_userID_subset {balances : GoMap} {u : Int}
    (h : u ∈ (debtorsOf balances).map balanceItem.UserID) : u ∈ GoMap.keys balances := by
  obtain ⟨x, hx, rfl⟩ := List.mem_map.1 h
  exact List.mem_map.2 ⟨_, (mem_debtorsOf.1 hx).1, rfl⟩

theorem creditorsOf_userID_subset {balances : GoMap} {u : Int}
    (h : u ∈ (creditorsOf balances).map balanceItem.UserID) : u ∈ GoMap.keys balances := by
  obtain ⟨x, hx, rfl⟩ := List.mem_map.1 h
  exact List.mem_map.2 ⟨_, (mem_creditorsOf.1 hx).1, rfl⟩

/-- What the two slices hold of a user: the user's balance, unless it is left out
as settled. -/
theorem weighted_indicator_classes (balances : GoMap) (hnodup : (GoMap.keys balances).Nodup)
    (u : Int) :
    weighted (fun v => if v = u then 1 else 0) (debtorsOf balances) +
        weighted (fun v => if v = u then 1 else 0) (creditorsOf balances) =
      if -(1 / 100) ≤ GoMap.get balances u ∧ GoMap.get balances u ≤ 1 / 100 then 0
      else GoMap.get balances u := by
  induction balances with
  | nil => simp [weighted, debtorsOf, creditorsOf, GoMap.get]
  | cons p rest ih =>
    obtain ⟨k, v⟩ := p
    simp only [GoMap.keys, List.map_cons, List.nodup_cons] at hnodup
    by_cases hk : k = u
    · subst hk
      have hget : GoMap.get ((k, v) :: rest) k = v := by simp [GoMap.get, List.lookup]
      have hD := weighted_indicator_of_not_mem k (debtorsOf rest)
        (fun h => hnodup.1 (debtorsOf_userID_subset h))
      have hC := weighted_indicator_of_not_mem k (creditorsOf rest)
        (fun h => hnodup.1 (creditorsOf_userID_subset h))
      rw [hget, debtorsOf_cons, creditorsOf_cons]
      simp only
      by_cases h1 : v < -(1 / 100)
      · have h2 : ¬ v > 1 / 100 := by linarith
        have h3 : ¬ (-(1 / 100) ≤ v ∧ v ≤ 1 / 100) := fun h => by linarith [h.1]
        rw [if_pos h1, if_neg h2, if_neg h3, weighted_cons, hD, hC]
        simp
      · by_cases h2 : v > 1 / 100
        · have h3 : ¬ (-(1 / 100) ≤ v ∧ v ≤ 1 / 100) := fun h => by linarith [h.2]
          rw [if_neg h1, if_pos h2, if_neg h3, weighted_cons, hD, hC]
          simp
        · have h3 : -(1 / 100) ≤ v ∧ v ≤ 1 / 100 := ⟨not_lt.1 h1, not_lt.1 h2⟩
          rw [if_neg h1, if_neg h2, if_pos h3, hD, hC]
          simp
    · have hget : GoMap.get ((k, v) :: rest) u = GoMap.get rest u := by
        unfold GoMap.get
        rw [List.lookup_cons, beq_false_of_ne (Ne.symm hk)]
      rw [hget, ← ih hnodup.2, debtorsOf_cons, creditorsOf_cons]
      simp only
      split <;> split <;> simp [weighted_cons, hk]

/-! ## Maps and the balance calculator -/

theorem GoMap.mem_keys_set (m : GoMap) (k : Int) (v : ℚ) (u : Int) :
    u ∈ GoMap.keys (GoMap.set m k v) ↔ u = k ∨ u ∈ GoMap.keys m := by
  induction m with
  | nil => simp [GoMap.set, GoMap.keys]
  | cons p rest ih =>
    obtain ⟨k1, v1⟩ := p
    unfold GoMap.set
    split
    · rename_i h
      subst h
      simp [GoMap.keys]
    · simp only [GoMap.keys, List.map_cons, List.mem_cons] at ih ⊢
      rw [ih]
      tauto

theorem GoMap.nodup_keys_set (m : GoMap) (k : Int) (v : ℚ) (h : (GoMap.keys m).Nodup) :
    (GoMap.keys (GoMap.set m k v)).Nodup := by
  induction m with
  | nil => simp [GoMap.set, GoMap.keys]
  | cons p rest ih =>
    obtain ⟨k1, v1⟩ := p
    simp only [GoMap.keys, List.map_cons, List.nodup_cons] at h
    unfold GoMap.set
    split
    · rename_i heq
      subst heq
      simpa [GoMap.keys] using h
    · rename_i hne
      have hmem := GoMap.mem_keys_set rest k v k1
      simp only [GoMap.keys] at hmem ih ⊢
      rw [List.map_cons, List.nodup_cons, hmem]
      exact ⟨fun hc => hc.elim hne h.1, ih h.2⟩

theorem GoMap.get_set_self (m : GoMap) (k : Int) (v : ℚ) :
    GoMap.get (GoMap.set m k v) k = v := by
  induction m with
  | nil => simp [GoMap.set, GoMap.get, List.lookup]
  | cons p rest ih =>
    obtain ⟨k1, v1⟩ := p
    unfold GoMap.set
    split
    · simp [GoMap.get, List.lookup]
    · rename_i hne
      unfold GoMap.get at ih ⊢
      rw [List.lookup_cons, beq_false_of_ne (Ne.symm hne)]
      exact ih

theorem GoMap.get_set_ne (m : GoMap) (k : Int) (v : ℚ) (u : Int) (hne : u ≠ k) :
    GoMap.get (GoMap.set m k v) u = GoMap.get m u := by
  induction m with
  | nil =>
    unfold GoMap.set GoMap.get
    rw [List.lookup_cons, beq_false_of_ne hne]
  | cons p rest ih =>
    obtain ⟨k1, v1⟩ := p
    unfold GoMap.set
    split
    · rename_i heq
      subst heq
      unfold GoMap.get
      rw [List.lookup_cons, List.lookup_cons, beq_false_of_ne hne]
    · unfold GoMap.get at ih ⊢
      rw [List.lookup_cons, List.lookup_cons]
      cases u == k1
      · exact ih
      · rfl

/-- A loop that assigns `f uid` to every `uid` of a list: the keys it leaves. -/
theorem mem_keys_foldl_set (f : Int → ℚ) (users : List Int) (m : GoMap) (u : Int) :
    u ∈ GoMap.keys (users.foldl (fun m uid => GoMap.set m uid (f uid)) m) ↔
      u ∈ users ∨ u ∈ GoMap.keys m := by
  induction users generalizing m with
  | nil => simp
  | cons x rest ih =>
    rw [List.foldl_cons, ih, GoMap.mem_keys_set, List.mem_cons]
    tauto

theorem nodup_keys_foldl_set (f : Int → ℚ) (users : List Int) (m : GoMap)
    (h : (GoMap.keys m).Nodup) :
    (GoMap.keys (users.foldl (fun m uid => GoMap.set m uid (f uid)) m)).Nodup := by
  induction users generalizing m with
  | nil => exact h
  | cons x rest ih =>
    rw [List.foldl_cons]
    exact ih _ (GoMap.nodup_keys_set m x (f x) h)

/-- A loop that assigns `f uid` to every `uid` of a list: the values it leaves. -/
theorem get_foldl_set (f : Int → ℚ) (users : List Int) (m : GoMap) (u : Int) :
    GoMap.get (users.foldl (fun m uid => GoMap.set m uid (f uid)) m) u =
      if u ∈ users then f u else GoMap.get m u := by
  induction users generalizing m with
  | nil => simp
  | cons x rest ih =>
    rw [List.foldl_cons, ih]
    by_cases h1 : u ∈ rest
    · rw [if_pos h1, if_pos (List.mem_cons_of_mem _ h1)]
    · rw [if_neg h1]
      by_cases h2 : u = x
      · subst h2
        rw [if_pos (List.mem_cons_self _ _), GoMap.get_set_self]
      · rw [if_neg (by simp [h1, h2]), GoMap.get_set_ne _ _ _ _ h2]

theorem mem_foldl_addUser (keys users : List Int) (u : Int) :
    u ∈ keys.foldl addUser users ↔ u ∈ keys ∨ u ∈ users := by
  induction keys generalizing users with
  | nil => simp
  | cons x rest ih =>
    rw [List.foldl_cons, ih, List.mem_cons]
    unfold addUser
    split
    · rename_i hx
      constructor
      · tauto
      · rintro ((rfl | h) | h)
        · exact Or.inr hx
        · exact Or.inl h
        · exact Or.inr h
    · rw [List.mem_append, List.mem_singleton]
      tauto

theorem mem_allUsers (paid owed : GoMap) (u : Int) :
    u ∈ allUsers paid owed ↔ u ∈ GoMap.keys paid ∨ u ∈ GoMap.keys owed := by
  unfold allUsers
  rw [mem_foldl_addUser, mem_foldl_addUser]
  simp only [List.not_mem_nil, or_false]
  tauto

theorem mem_keys_netBalances (paid owed : GoMap) (u : Int) :
    u ∈ GoMap.keys (netBalances paid owed) ↔ u ∈ GoMap.keys paid ∨ u ∈ GoMap.keys owed := by
  unfold netBalances
  rw [mem_keys_foldl_set, mem_allUsers]
  simp [GoMap.keys]

theorem get_netBalances (paid owed : GoMap) (u : Int)
    (h : u ∈ GoMap.keys paid ∨ u ∈ GoMap.keys owed) :
    GoMap.get (netBalances paid owed) u = round2 (GoMap.get paid u - GoMap.get owed u) := by
  unfold netBalances
  rw [get_foldl_set, if_pos ((mem_allUsers paid owed u).2 h)]

theorem mem_keys_scanRows (rows : List (Int × ℚ)) (u : Int) :
    u ∈ GoMap.keys (scanRows rows) ↔ u ∈ rows.map Prod.fst := by
  have key : ∀ (m : GoMap), u ∈ GoMap.keys (rows.foldl (fun m r => GoMap.set m r.1 r.2) m) ↔
      u ∈ rows.map Prod.fst ∨ u ∈ GoMap.keys m := by
    induction rows with
    | nil => simp
    | cons r rest ih =>
      intro m
      rw [List.foldl_cons, ih, GoMap.mem_keys_set, List.map_cons, List.mem_cons]
      tauto
  unfold scanRows
  rw [key]
  simp [GoMap.keys]

theorem mem_keys_sumByUser (rows : List (Int × ℚ)) (u : Int) :
    u ∈ (sumByUser rows).map Prod.fst ↔ u ∈ rows.map Prod.fst := by
  unfold sumByUser
  rw [List.map_map]
  have : (Prod.fst ∘ fun u => (u, ((rows.filter fun r => r.1 = u).map Prod.snd).sum)) = id := by
    funext x; rfl
  rw [this, List.map_id, List.mem_dedup]

theorem mem_keys_paidMap (db : Store) (groupID u : Int) :
    u ∈ GoMap.keys (paidMap db groupID) ↔
      ∃ ep ∈ db.expense_payers, ep.user_id = u ∧
        ∃ e ∈ db.expenses, e.id = ep.expense_id ∧ e.group_id = groupID := by
  unfold paidMap
  rw [mem_keys_scanRows, mem_keys_sumByUser]
  unfold paidRows
  simp only [List.mem_map, List.mem_flatMap, List.mem_filter, decide_eq_true_eq, Prod.exists]
  constructor
  · rintro ⟨a, b, ⟨ep, hep, e, ⟨he, heq, hg⟩, hab⟩, rfl⟩
    cases hab
    exact ⟨ep, hep, rfl, e, he, heq.symm, hg⟩
  · rintro ⟨ep, hep, rfl, e, he, heq, hg⟩
    exact ⟨ep.user_id, ep.paid_amount, ⟨ep, hep, e, ⟨he, heq.symm, hg⟩, rfl⟩, rfl⟩

theorem mem_keys_owedMap (db : Store) (groupID u : Int) :
    u ∈ GoMap.keys (owedMap db groupID) ↔
      ∃ es ∈ db.expense_splits, es.user_id = u ∧
        ∃ e ∈ db.expenses, e.id = es.expense_id ∧ e.group_id = groupID := by
  unfold owedMap
  rw [mem_keys_scanRows, mem_keys_sumByUser]
  unfold owedRows
  simp only [List.mem_map, List.mem_flatMap, List.mem_filter, decide_eq_true_eq, Prod.exists]
  constructor
  · rintro ⟨a, b, ⟨es, hes, e, ⟨he, heq, hg⟩, hab⟩, rfl⟩
    cases hab
    exact ⟨es, hes, rfl, e, he, heq.symm, hg⟩
  · rintro ⟨es, hes, rfl, e, he, heq, hg⟩
    exact ⟨es.user_id, es.amount_owed, ⟨es, hes, e, ⟨he, heq.symm, hg⟩, rfl⟩, rfl⟩

theorem GetGroupBalance_eq_some (S : SliceSort) (R : MapRange) (db : Store) (groupID : Int) :
    ∃ txs, GetGroupBalance S R db groupID =
      some ⟨netBalances (paidMap db groupID) (owedMap db groupID), txs⟩ := by
  obtain ⟨txs, htxs, _⟩ :=
    minimizeDebts_total S (R.order (netBalances (paidMap db groupID) (owedMap db groupID)))
  exact ⟨txs, by unfold GetGroupBalance; simp only [htxs, Option.map_some']⟩

theorem round2_half_up (k : ℕ) : round2 (((k : ℚ) + 1 / 2) / 100) = ((k : ℚ) + 1) / 100 := by
  unfold round2 mathRound
  have hx : ((k : ℚ) + 1 / 2) / 100 * 100 = (k : ℚ) + 1 / 2 := by ring
  have hk : (0 : ℚ) ≤ (k : ℚ) := Nat.cast_nonneg k
  rw [hx, if_neg (by linarith)]
  have hf : ⌊(k : ℚ) + 1 / 2 + 1 / 2⌋ = (k : ℤ) + 1 := by
    rw [Int.floor_eq_iff]; push_cast; constructor <;> linarith
  rw [hf]; push_cast; rfl

theorem round2_half_down (k : ℕ) :
    round2 (-(((k : ℚ) + 1 / 2) / 100)) = -(((k : ℚ) + 1) / 100) := by
  unfold round2 mathRound
  have hx : -(((k : ℚ) + 1 / 2) / 100) * 100 = -((k : ℚ) + 1 / 2) := by ring
  have hk : (0 : ℚ) ≤ (k : ℚ) := Nat.cast_nonneg k
  rw [hx, if_pos (by linarith)]
  have hf : ⌊-(-((k : ℚ) + 1 / 2)) + 1 / 2⌋ = (k : ℤ) + 1 := by
    rw [Int.floor_eq_iff]; push_cast; constructor <;> linarith
  rw [hf]; push_cast; ring

/-! ## Settled claims about `GetGroupBalance` -/

/-- C10: the key set of the balance map computed by `GetGroupBalance` is exactly the
union of the users having a payer allocation and the users having a split allocation
on an expense of the group, each once: a user without activity has no entry, a user
with activity has one whatever the net. -/
theorem GetGroupBalance_keys (S : SliceSort) (R : MapRange) (db : Store) (groupID : Int) :
    ∃ resp, GetGroupBalance S R db groupID = some resp ∧
      (GoMap.keys resp.balances).Nodup ∧
      ∀ u, u ∈ GoMap.keys resp.balances ↔
        (∃ ep ∈ db.expense_payers, ep.user_id = u ∧
          ∃ e ∈ db.expenses, e.id = ep.expense_id ∧ e.group_id = groupID) ∨
        (∃ es ∈ db.expense_splits, es.user_id = u ∧
          ∃ e ∈ db.expenses, e.id = es.expense_id ∧ e.group_id = groupID) := by
  obtain ⟨txs, htxs⟩ := GetGroupBalance_eq_some S R db groupID
  refine ⟨_, htxs, ?_, fun u => ?_⟩
  · exact nodup_keys_foldl_set _ _ [] (by simp [GoMap.keys])
  · simp only
    rw [mem_keys_netBalances, mem_keys_paidMap, mem_keys_owedMap]

/-! ## The expense handlers: lemmas -/

theorem totalSplit_eq_sum (splits : List Split) :
    totalSplit splits = (splits.map Split.Amount).sum := by
  have key : ∀ (l : List Split) (a : ℚ),
      l.foldl (fun total s => total + s.Amount) a = a + (l.map Split.Amount).sum := by
    intro l
    induction l with
    | nil => intro a; simp
    | cons s rest ih =>
      intro a
      rw [List.foldl_cons, ih, List.map_cons, List.sum_cons]
      ring
  unfold totalSplit
  rw [key]
  ring

theorem insertPayers_of_ok (env : DbEnv) (expenseID : Int) (payers : List PayerSplit)
    (k : Nat) (work : Store) (h : ∀ i, i < payers.length → env.stmtFails (k + i) = false) :
    insertPayers env expenseID k payers work =
      some ⟨work.expenses, work.expense_payers ++ payerRows env expenseID k payers,
        work.expense_splits⟩ := by
  induction payers generalizing k work with
  | nil => simp [insertPayers, payerRows]
  | cons p rest ih =>
    have h0 : env.stmtFails k = false := by simpa using h 0 (by simp)
    unfold insertPayers
    rw [if_neg (by simp [h0])]
    rw [ih (k + 1) _ (fun i hi => by
      have := h (i + 1) (by simpa using hi)
      rwa [show k + (i + 1) = k + 1 + i by omega] at this)]
    simp [payerRows]

theorem insertPayers_of_fail (env : DbEnv) (expenseID : Int) (payers : List PayerSplit)
    (k : Nat) (work : Store) (i : Nat) (hi : i < payers.length)
    (h : env.stmtFails (k + i) = true) :
    insertPayers env expenseID k payers work = none := by
  induction payers generalizing k work i with
  | nil => simp at hi
  | cons p rest ih =>
    unfold insertPayers
    by_cases h0 : env.stmtFails k = true
    · rw [if_pos h0]
    · rw [if_neg h0]
      cases i with
      | zero => exact absurd h h0
      | succ j =>
        exact ih (k + 1) _ j (by simpa using hi)
          (by rwa [show k + (j + 1) = k + 1 + j by omega] at h)

theorem insertSplits_of_ok (env : DbEnv) (expenseID : Int) (splits : List Split)
    (k : Nat) (work : Store) (h : ∀ i, i < splits.length → env.stmtFails (k + i) = false) :
    insertSplits env expenseID k splits work =
      some ⟨work.expenses, work.expense_payers,
        work.expense_splits ++ splitRows env expenseID k splits⟩ := by
  induction splits generalizing k work with
  | nil => simp [insertSplits, splitRows]
  | cons p rest ih =>
    have h0 : env.stmtFails k = false := by simpa using h 0 (by simp)
    unfold insertSplits
    rw [if_neg (by simp [h0])]
    rw [ih (k + 1) _ (fun i hi => by
      have := h (i + 1) (by simpa using hi)
      rwa [show k + (i + 1) = k + 1 + i by omega] at this)]
    simp [splitRows]

theorem insertSplits_of_fail (env : DbEnv) (expenseID : Int) (splits : List Split)
    (k : Nat) (work : Store) (i : Nat) (hi : i < splits.length)
    (h : env.stmtFails (k + i) = true) :
    insertSplits env expenseID k splits work = none := by
  induction splits generalizing k work i with
  | nil => simp at hi
  | cons p rest ih =>
    unfold insertSplits
    by_cases h0 : env.stmtFails k = true
    · rw [if_pos h0]
    · rw [if_neg h0]
      cases i with
      | zero => exact absurd h h0
      | succ j =>
        exact ih (k + 1) _ j (by simpa using hi)
          (by rwa [show k + (j + 1) = k + 1 + j by omega] at h)

/-- A payer loop that gets through has written exactly the rows of `payerRows`. -/
theorem insertPayers_eq_some (env : DbEnv) (expenseID : Int) (payers : List PayerSplit)
    (k : Nat) (work done : Store) (h : insertPayers env expenseID k payers work = some done) :
    done = ⟨work.expenses, work.expense_payers ++ payerRows env expenseID k payers,
      work.expense_splits⟩ := by
  by_cases hall : ∀ i, i < payers.length → env.stmtFails (k + i) = false
  · rw [insertPayers_of_ok env expenseID payers k work hall] at h
    exact (Option.some.inj h).symm
  · push_neg at hall
    obtain ⟨i, hi, hf⟩ := hall
    rw [insertPayers_of_fail env expenseID payers k work i hi (by simpa using hf)] at h
    cases h

/-- A split loop that gets through has written exactly the rows of `splitRows`. -/
theorem insertSplits_eq_some (env : DbEnv) (expenseID : Int) (splits : List Split)
    (k : Nat) (work done : Store) (h : insertSplits env expenseID k splits work = some done) :
    done = ⟨work.expenses, work.expense_payers,
      work.expense_splits ++ splitRows env expenseID k splits⟩ := by
  by_cases hall : ∀ i, i < splits.length → env.stmtFails (k + i) = false
  · rw [insertSplits_of_ok env expenseID splits k work hall] at h
    exact (Option.some.inj h).symm
  · push_neg at hall
    obtain ⟨i, hi, hf⟩ := hall
    rw [insertSplits_of_fail env expenseID splits k work i hi (by simpa using hf)] at h
    cases h

/-- Whatever the database does, `CreateExpense` leaves the store as it was or leaves
it with the expense and both lists written, and it answers 201 exactly then. -/
theorem CreateExpense_cases (env : DbEnv) (db : Store) (groupID : Int)
    (req : CreateExpenseRequest) :
    ((CreateExpense env db groupID req).store = db ∧
        (CreateExpense env db groupID req).status ≠ 201 ∧
        (CreateExpense env db groupID req).tx ≠ TxEnd.committed) ∨
      ((CreateExpense env db groupID req).store = createdStore env db groupID req ∧
        (CreateExpense env db groupID req).status = 201 ∧
        (CreateExpense env db groupID req).tx = TxEnd.committed) := by
  unfold CreateExpense
  split
  · left; simp
  · split
    · left; simp
    · split
      · left; simp
      · split
        · left; simp
        · rename_i work hwork
          split
          · left; simp
          · rename_i done hdone
            split
            · left; simp
            · right
              have h1 := insertPayers_eq_some _ _ _ _ _ _ hwork
              have h2 := insertSplits_eq_some _ _ _ _ _ _ hdone
              subst h1
              subst h2
              simp [createdStore]

/-- Whatever the database does, `UpdateExpense` leaves the store as it was or leaves
it with the expense row updated and both lists replaced. -/
theorem UpdateExpense_cases (env : DbEnv) (db : Store) (expenseID : Int)
    (req : CreateExpenseRequest) :
    ((UpdateExpense env db expenseID req).store = db ∧
        (UpdateExpense env db expenseID req).tx ≠ TxEnd.committed) ∨
      ((UpdateExpense env db expenseID req).store = updatedStore env db expenseID req ∧
        (UpdateExpense env db expenseID req).status = 200 ∧
        (UpdateExpense env db expenseID req).tx = TxEnd.committed) := by
  unfold UpdateExpense
  split
  · left; simp
  · split
    · left; simp
    · split
      · left; simp
      · split
        · left; simp
        · rename_i work hwork
          split
          · left; simp
          · split
            · left; simp
            · rename_i done hdone
              split
              · left; simp
              · right
                have h1 := insertPayers_eq_some _ _ _ _ _ _ hwork
                subst h1
                have h2 := insertSplits_eq_some _ _ _ _ _ _ hdone
                subst h2
                simp [updatedStore]

/-- When a statement of its transaction fails, `CreateExpense` rolls back, leaves the
store as it was and answers 500. -/
theorem CreateExpense_of_stmt_fail (env : DbEnv) (db : Store) (groupID : Int)
    (req : CreateExpenseRequest)
    (hvalid : ¬ |totalSplit req.Splits - req.Amount| > 1 / 100)
    (hbegin : env.beginFails = false) (k : Nat)
    (hk : k ≤ req.Payers.length + req.Splits.length) (hfail : env.stmtFails k = true) :
    (CreateExpense env db groupID req).store = db ∧
      (CreateExpense env db groupID req).status = 500 ∧
      (CreateExpense env db groupID req).tx = TxEnd.rolledBack := by
  unfold CreateExpense
  rw [if_neg hvalid, if_neg (by simp [hbegin])]
  split
  · simp
  · rename_i h0
    split
    · simp
    · rename_i work hwork
      split
      · simp
      · rename_i done hdone
        exfalso
        by_cases hk1 : k ≤ req.Payers.length
        · have hk0 : k ≠ 0 := by rintro rfl; exact h0 hfail
          rw [insertPayers_of_fail env _ req.Payers 1 _ (k - 1) (by omega)
            (by rwa [show 1 + (k - 1) = k by omega])] at hwork
          cases hwork
        · rw [insertSplits_of_fail env _ req.Splits (1 + req.Payers.length) _
            (k - (1 + req.Payers.length)) (by omega)
            (by rwa [show 1 + req.Payers.length + (k - (1 + req.Payers.length)) = k by
              omega])] at hdone
          cases hdone

/-- When nothing fails, `CreateExpense` writes the expense and both lists. -/
theorem CreateExpense_of_ok (env : DbEnv) (db : Store) (groupID : Int)
    (req : CreateExpenseRequest)
    (hvalid : ¬ |totalSplit req.Splits - req.Amount| > 1 / 100)
    (hbegin : env.beginFails = false)
    (hstmt : ∀ k, k ≤ req.Payers.length + req.Splits.length → env.stmtFails k = false)
    (hcommit : env.commitFails = false) :
    (CreateExpense env db groupID req).store = createdStore env db groupID req ∧
      (CreateExpense env db groupID req).status = 201 ∧
      (CreateExpense env db groupID req).tx = TxEnd.committed := by
  unfold CreateExpense
  rw [if_neg hvalid, if_neg (by simp [hbegin]), if_neg (by simp [hstmt 0 (by omega)]),
    insertPayers_of_ok env _ req.Payers 1 _ (fun i hi => hstmt _ (by omega))]
  simp only
  rw [insertSplits_of_ok env _ req.Splits (1 + req.Payers.length) _
    (fun i hi => hstmt _ (by omega))]
  simp only
  rw [if_neg (by simp [hcommit])]
  simp [createdStore]

/-- When a statement of its transaction fails, `UpdateExpense` rolls back, leaves the
store as it was and answers 500. -/
theorem UpdateExpense_of_stmt_fail (env : DbEnv) (db : Store) (expenseID : Int)
    (req : CreateExpenseRequest) (hbegin : env.beginFails = false) (k : Nat)
    (hk : k ≤ req.Payers.length + req.Splits.length + 2) (hfail : env.stmtFails k = true) :
    (UpdateExpense env db expenseID req).store = db ∧
      (UpdateExpense env db expenseID req).status = 500 ∧
      (UpdateExpense env db expenseID req).tx = TxEnd.rolledBack := by
  unfold UpdateExpense
  rw [if_neg (by simp [hbegin])]
  split
  · simp
  · rename_i h0
    split
    · simp
    · rename_i h1
      split
      · simp
      · rename_i work hwork
        split
        · simp
        · rename_i h2
          split
          · simp
          · rename_i done hdone
            exfalso
            by_cases hk1 : k ≤ 1 + req.Payers.length
            · have hk0 : k ≠ 0 := by rintro rfl; exact h0 hfail
              have hk1' : k ≠ 1 := by rintro rfl; exact h1 hfail
              rw [insertPayers_of_fail env _ req.Payers 2 _ (k - 2) (by omega)
                (by rwa [show 2 + (k - 2) = k by omega])] at hwork
              cases hwork
            · have hk2 : k ≠ 2 + req.Payers.length := by rintro rfl; exact h2 hfail
              rw [insertSplits_of_fail env _ req.Splits (3 + req.Payers.length) _
                (k - (3 + req.Payers.length)) (by omega)
                (by rwa [show 3 + req.Payers.length + (k - (3 + req.Payers.length)) = k by
                  omega])] at hdone
              cases hdone

/-- When nothing fails, `UpdateExpense` updates the row and replaces both lists. -/
theorem UpdateExpense_of_ok (env : DbEnv) (db : Store) (expenseID : Int)
    (req : CreateExpenseRequest) (hbegin : env.beginFails = false)
    (hstmt : ∀ k, k ≤ req.Payers.length + req.Splits.length + 2 → env.stmtFails k = false)
    (hcommit : env.commitFails = false) :
    (UpdateExpense env db expenseID req).store = updatedStore env db expenseID req ∧
      (UpdateExpense env db expenseID req).status = 200 ∧
      (UpdateExpense env db expenseID req).tx = TxEnd.committed := by
  unfold UpdateExpense
  rw [if_neg (by simp [hbegin]), if_neg (by simp [hstmt 0 (by omega)]),
    if_neg (by simp [hstmt 1 (by omega)]),
    insertPayers_of_ok env _ req.Payers 2 _ (fun i hi => hstmt _ (by omega))]
  simp only
  rw [if_neg (by simp [hstmt (2 + req.Payers.length) (by omega)]),
    insertSplits_of_ok env _ req.Splits (3 + req.Payers.length) _
      (fun i hi => hstmt _ (by omega))]
  simp only
  rw [if_neg (by simp [hcommit])]
  simp [updatedStore]

/-! ## Settled claims about the expense handlers -/

/-- C13: `CreateExpense` and `UpdateExpense` are atomic over the store. Whatever the
database does, the store is left as it was or left with the expense row and both
allocation lists written; when a statement of the transaction fails the handler rolls
back and the store is as it was; when nothing fails everything is written. -/
theorem handlers_atomic (env : DbEnv) (db : Store) (groupID expenseID : Int)
    (req : CreateExpenseRequest) :
    (((CreateExpense env db groupID req).store = db ∧
        (CreateExpense env db groupID req).tx ≠ TxEnd.committed) ∨
      ((CreateExpense env db groupID req).store = createdStore env db groupID req ∧
        (CreateExpense env db groupID req).tx = TxEnd.committed)) ∧
    (¬ |totalSplit req.Splits - req.Amount| > 1 / 100 → env.beginFails = false →
      (∃ k, k ≤ req.Payers.length + req.Splits.length ∧ env.stmtFails k = true) →
      (CreateExpense env db groupID req).store = db ∧
      (CreateExpense env db groupID req).tx = TxEnd.rolledBack) ∧
    (¬ |totalSplit req.Splits - req.Amount| > 1 / 100 → env.beginFails = false →
      (∀ k, k ≤ req.Payers.length + req.Splits.length → env.stmtFails k = false) →
      env.commitFails = false →
      (CreateExpense env db groupID req).store = createdStore env db groupID req ∧
      (CreateExpense env db groupID req).tx = TxEnd.committed) ∧
    (((UpdateExpense env db expenseID req).store = db ∧
        (UpdateExpense env db expenseID req).tx ≠ TxEnd.committed) ∨
      ((UpdateExpense env db expenseID req).store = updatedStore env db expenseID req ∧
        (UpdateExpense env db expenseID req).tx = TxEnd.committed)) ∧
    (env.beginFails = false →
      (∃ k, k ≤ req.Payers.length + req.Splits.length + 2 ∧ env.stmtFails k = true) →
      (UpdateExpense env db expenseID req).store = db ∧
      (UpdateExpense env db expenseID req).tx = TxEnd.rolledBack) ∧
    (env.beginFails = false →
      (∀ k, k ≤ req.Payers.length + req.Splits.length + 2 → env.stmtFails k = false) →
      env.commitFails = false →
      (UpdateExpense env db expenseID req).store = updatedStore env db expenseID req ∧
      (UpdateExpense env db expenseID req).tx = TxEnd.committed) := by
  refine ⟨?_, ?_, ?_, ?_, ?_, ?_⟩
  · rcases CreateExpense_cases env db groupID req with h | h
    · exact Or.inl ⟨h.1, h.2.2⟩
    · exact Or.inr ⟨h.1, h.2.2⟩
  · rintro hv hb ⟨k, hk, hf⟩
    have h := CreateExpense_of_stmt_fail env db groupID req hv hb k hk hf
    exact ⟨h.1, h.2.2⟩
  · intro hv hb hs hc
    have h := CreateExpense_of_ok env db groupID req hv hb hs hc
    exact ⟨h.1, h.2.2⟩
  · rcases UpdateExpense_cases env db expenseID req with h | h
    · exact Or.inl h
    · exact Or.inr ⟨h.1, h.2.2⟩
  · rintro hb ⟨k, hk, hf⟩
    have h := UpdateExpense_of_stmt_fail env db expenseID req hb k hk hf
    exact ⟨h.1, h.2.2⟩
  · intro hb hs hc
    have h := UpdateExpense_of_ok env db expenseID req hb hs hc
    exact ⟨h.1, h.2.2⟩

/-- Witness of C13: the insert of the first split (statement 2) fails in
`CreateExpense`; the expense row and the payer row written before it are undone. -/
theorem handlers_atomic_witness :
    (¬ |totalSplit [⟨1, 5⟩, ⟨2, 5⟩] - 10| > 1 / 100 ∧
      (envFailingAt 2).beginFails = false ∧
      ∃ k, k ≤ [(⟨1, 10⟩ : PayerSplit)].length + [(⟨1, 5⟩ : Split), ⟨2, 5⟩].length ∧
        (envFailingAt 2).stmtFails k = true) ∧
    (CreateExpense (envFailingAt 2) ⟨[], [], []⟩ 7
        ⟨"Dinner", "", 10, "Food", [⟨1, 10⟩], [⟨1, 5⟩, ⟨2, 5⟩]⟩).store = ⟨[], [], []⟩ ∧
    (CreateExpense (envFailingAt 2) ⟨[], [], []⟩ 7
        ⟨"Dinner", "", 10, "Food", [⟨1, 10⟩], [⟨1, 5⟩, ⟨2, 5⟩]⟩).tx = TxEnd.rolledBack :=
  ⟨⟨by norm_num [totalSplit], rfl, 2, by simp, by simp [envFailingAt]⟩,
    (handlers_atomic (envFailingAt 2) ⟨[], [], []⟩ 7 1
      ⟨"Dinner", "", 10, "Food", [⟨1, 10⟩], [⟨1, 5⟩, ⟨2, 5⟩]⟩).2.1
      (by norm_num [totalSplit]) rfl ⟨2, by simp, by simp [envFailingAt]⟩⟩

theorem payerRows_expense_id (env : DbEnv) (expenseID : Int) (k : Nat)
    (payers : List PayerSplit) :
    ∀ p ∈ payerRows env expenseID k payers, p.expense_id = expenseID := by
  induction payers generalizing k with
  | nil => simp [payerRows]
  | cons x rest ih =>
    intro p hp
    unfold payerRows at hp
    rcases List.mem_cons.1 hp with rfl | h
    · rfl
    · exact ih (k + 1) p h

theorem splitRows_expense_id (env : DbEnv) (expenseID : Int) (k : Nat)
    (splits : List Split) :
    ∀ s ∈ splitRows env expenseID k splits, s.expense_id = expenseID := by
  induction splits generalizing k with
  | nil => simp [splitRows]
  | cons x rest ih =>
    intro s hs
    unfold splitRows at hs
    rcases List.mem_cons.1 hs with rfl | h
    · rfl
    · exact ih (k + 1) s h

theorem payerRows_map (env : DbEnv) (expenseID : Int) (k : Nat) (payers : List PayerSplit) :
    (payerRows env expenseID k payers).map (fun p => (p.user_id, p.paid_amount)) =
      payers.map fun p => (p.UserID, p.PaidAmount) := by
  induction payers generalizing k with
  | nil => simp [payerRows]
  | cons x rest ih => simp [payerRows, ih]

theorem splitRows_map (env : DbEnv) (expenseID : Int) (k : Nat) (splits : List Split) :
    (splitRows env expenseID k splits).map (fun s => (s.user_id, s.amount_owed)) =
      splits.map fun s => (s.UserID, s.Amount) := by
  induction splits generalizing k with
  | nil => simp [splitRows]
  | cons x rest ih => simp [splitRows, ih]

theorem filter_eq_self_of_forall {α : Type} (p : α → Bool) (l : List α)
    (h : ∀ x ∈ l, p x = true) : l.filter p = l :=
  List.filter_eq_self.2 h

theorem filter_eq_nil_of_forall {α : Type} (p : α → Bool) (l : List α)
    (h : ∀ x ∈ l, ¬ p x = true) : l.filter p = [] :=
  List.filter_eq_nil_iff.2 h

/-- The allocations of the updated expense in the updated store are the new rows,
those of the other expenses are untouched. -/
theorem updatedStore_allocations (env : DbEnv) (db : Store) (expenseID : Int)
    (req : CreateExpenseRequest) :
    ((updatedStore env db expenseID req).expense_payers.filter
        fun p => p.expense_id = expenseID) = payerRows env expenseID 2 req.Payers ∧
    ((updatedStore env db expenseID req).expense_splits.filter
        fun s => s.expense_id = expenseID) =
      splitRows env expenseID (3 + req.Payers.length) req.Splits ∧
    ((updatedStore env db expenseID req).expense_payers.filter
        fun p => ¬ p.expense_id = expenseID) =
      (db.expense_payers.filter fun p => ¬ p.expense_id = expenseID) ∧
    ((updatedStore env db expenseID req).expense_splits.filter
        fun s => ¬ s.expense_id = expenseID) =
      (db.expense_splits.filter fun s => ¬ s.expense_id = expenseID) := by
  unfold updatedStore
  simp only [List.filter_append, List.filter_filter]
  refine ⟨?_, ?_, ?_, ?_⟩
  · rw [filter_eq_nil_of_forall _ _ (by intro x _; simp),
      filter_eq_self_of_forall _ _ (by
        intro x hx; simpa using payerRows_expense_id env expenseID 2 req.Payers x hx)]
    simp
  · rw [filter_eq_nil_of_forall _ _ (by intro x _; simp),
      filter_eq_self_of_forall _ _ (by
        intro x hx; simpa using splitRows_expense_id env expenseID _ req.Splits x hx)]
    simp
  · rw [filter_eq_nil_of_forall _ (payerRows env expenseID 2 req.Payers) (by
        intro x hx; simpa using payerRows_expense_id env expenseID 2 req.Payers x hx)]
    simp
  · rw [filter_eq_nil_of_forall _ (splitRows env expenseID _ req.Splits) (by
        intro x hx; simpa using splitRows_expense_id env expenseID _ req.Splits x hx)]
    simp

/-- The updated store depends on the old allocation tables only through the rows of
the other expenses. -/
theorem updatedStore_congr (env : DbEnv) (db1 db2 : Store) (expenseID : Int)
    (req : CreateExpenseRequest) (he : db2.expenses = db1.expenses)
    (hp : (db2.expense_payers.filter fun p => ¬ p.expense_id = expenseID) =
      db1.expense_payers.filter fun p => ¬ p.expense_id = expenseID)
    (hs : (db2.expense_splits.filter fun s => ¬ s.expense_id = expenseID) =
      db1.expense_splits.filter fun s => ¬ s.expense_id = expenseID) :
    updatedStore env db2 expenseID req = updatedStore env db1 expenseID req := by
  unfold updatedStore
  rw [he, hp, hs]

/-- The answer of `GetGroupBalance` depends on the store only through the rows of its
two queries. -/
theorem GetGroupBalance_congr (S : SliceSort) (R : MapRange) (db1 db2 : Store)
    (groupID : Int) (hp : paidRows db1 groupID = paidRows db2 groupID)
    (ho : owedRows db1 groupID = owedRows db2 groupID) :
    GetGroupBalance S R db1 groupID = GetGroupBalance S R db2 groupID := by
  unfold GetGroupBalance paidMap owedMap
  rw [hp, ho]

/-- C15: `UpdateExpense` does not re-check the split sum. The request with amount 10
and a single split of 3 is rejected by `CreateExpense` with 400 and nothing written,
and accepted by `UpdateExpense` on the existing expense 1, which persists it. -/
theorem UpdateExpense_skips_validation :
    |(([⟨1, 3⟩] : List Split).map Split.Amount).sum - 10| > 1 / 100 ∧
    (CreateExpense quietEnv
        ⟨[⟨1, 7, "Dinner", "", 10, "Food", 0⟩], [⟨1, 1, 1, 10⟩], [⟨1, 1, 1, 10⟩]⟩ 7
        ⟨"Dinner", "", 10, "Food", [⟨1, 10⟩], [⟨1, 3⟩]⟩).status = 400 ∧
    (CreateExpense quietEnv
        ⟨[⟨1, 7, "Dinner", "", 10, "Food", 0⟩], [⟨1, 1, 1, 10⟩], [⟨1, 1, 1, 10⟩]⟩ 7
        ⟨"Dinner", "", 10, "Food", [⟨1, 10⟩], [⟨1, 3⟩]⟩).store.expenses =
      [⟨1, 7, "Dinner", "", 10, "Food", 0⟩] ∧
    (UpdateExpense quietEnv
        ⟨[⟨1, 7, "Dinner", "", 10, "Food", 0⟩], [⟨1, 1, 1, 10⟩], [⟨1, 1, 1, 10⟩]⟩ 1
        ⟨"Dinner", "", 10, "Food", [⟨1, 10⟩], [⟨1, 3⟩]⟩).status = 200 ∧
    (UpdateExpense quietEnv
        ⟨[⟨1, 7, "Dinner", "", 10, "Food", 0⟩], [⟨1, 1, 1, 10⟩], [⟨1, 1, 1, 10⟩]⟩ 1
        ⟨"Dinner", "", 10, "Food", [⟨1, 10⟩], [⟨1, 3⟩]⟩).tx = TxEnd.committed ∧
    (UpdateExpense quietEnv
        ⟨[⟨1, 7, "Dinner", "", 10, "Food", 0⟩], [⟨1, 1, 1, 10⟩], [⟨1, 1, 1, 10⟩]⟩ 1
        ⟨"Dinner", "", 10, "Food", [⟨1, 10⟩], [⟨1, 3⟩]⟩).store.expense_splits =
      [⟨4, 1, 1, 3⟩] ∧
    (UpdateExpense quietEnv
        ⟨[⟨1, 7, "Dinner", "", 10, "Food", 0⟩], [⟨1, 1, 1, 10⟩], [⟨1, 1, 1, 10⟩]⟩ 1
        ⟨"Dinner", "", 10, "Food", [⟨1, 10⟩], [⟨1, 3⟩]⟩).store.expenses =
      [⟨1, 7, "Dinner", "", 10, "Food", 0⟩] := by
  have hbad : |totalSplit [⟨1, 3⟩] - 10| > 1 / 100 := by
    norm_num [totalSplit, abs_eq_max_neg, max_def]
  have hcreate : CreateExpense quietEnv
      ⟨[⟨1, 7, "Dinner", "", 10, "Food", 0⟩], [⟨1, 1, 1, 10⟩], [⟨1, 1, 1, 10⟩]⟩ 7
      ⟨"Dinner", "", 10, "Food", [⟨1, 10⟩], [⟨1, 3⟩]⟩ =
      ⟨⟨[⟨1, 7, "Dinner", "", 10, "Food", 0⟩], [⟨1, 1, 1, 10⟩], [⟨1, 1, 1, 10⟩]⟩, 400,
        TxEnd.notBegun⟩ := by
    unfold CreateExpense
    rw [if_pos hbad]
  obtain ⟨hstore, hstatus, htx⟩ := UpdateExpense_of_ok quietEnv
    ⟨[⟨1, 7, "Dinner", "", 10, "Food", 0⟩], [⟨1, 1, 1, 10⟩], [⟨1, 1, 1, 10⟩]⟩ 1
    ⟨"Dinner", "", 10, "Food", [⟨1, 10⟩], [⟨1, 3⟩]⟩ rfl (fun _ _ => rfl) rfl
  refine ⟨by norm_num [abs_eq_max_neg, max_def], ?_, ?_, hstatus, htx, ?_, ?_⟩
  · rw [hcreate]
  · rw [hcreate]
  · rw [hstore]
    simp [updatedStore, splitRows, quietEnv]
  · rw [hstore]
    simp [updatedStore, updateExpenseRow]

theorem deleteExpenseRows_of_absent (db : Store) (expenseID : Int)
    (h : ∀ e ∈ db.expenses, e.id ≠ expenseID) : deleteExpenseRows db expenseID = db := by
  have hnone : (db.expenses.filter fun e => e.id = expenseID) = [] :=
    filter_eq_nil_of_forall _ _ (by intro e he; simpa using h e he)
  unfold deleteExpenseRows
  rw [hnone]
  have h1 : (db.expenses.filter fun e => ¬ e.id = expenseID) = db.expenses :=
    filter_eq_self_of_forall _ _ (by intro e he; simpa using h e he)
  rw [h1]
  simp

theorem deleteExpenseRows_of_present (db : Store) (expenseID : Int)
    (h : ∃ e ∈ db.expenses, e.id = expenseID) :
    deleteExpenseRows db expenseID =
      ⟨db.expenses.filter (fun e => ¬ e.id = expenseID),
        db.expense_payers.filter (fun p => ¬ p.expense_id = expenseID),
        db.expense_splits.filter (fun s => ¬ s.expense_id = expenseID)⟩ := by
  have hmem : ∀ x : Int,
      x ∈ (db.expenses.filter fun e => e.id = expenseID).map ExpenseRow.id ↔
        x = expenseID := by
    intro x
    simp only [List.mem_map, List.mem_filter, decide_eq_true_eq]
    constructor
    · rintro ⟨e, ⟨_, he⟩, rfl⟩
      exact he
    · rintro rfl
      obtain ⟨e, he, hid⟩ := h
      exact ⟨e, ⟨he, hid⟩, hid⟩
  unfold deleteExpenseRows
  congr 1
  · apply List.filter_congr
    intro p _
    rw [decide_eq_decide, hmem]
  · apply List.filter_congr
    intro s _
    rw [decide_eq_decide, hmem]

theorem filter_length_eq_zero_iff (db : Store) (expenseID : Int) :
    (db.expenses.filter fun e => e.id = expenseID).length = 0 ↔
      ∀ e ∈ db.expenses, e.id ≠ expenseID := by
  rw [List.length_eq_zero, List.filter_eq_nil_iff]
  constructor
  · intro h e he
    simpa using h e he
  · intro h e he
    simpa using h e he

/-- When the delete statement executes and an expense has the id, `DeleteExpense`
answers 200. -/
theorem DeleteExpense_of_present (env : DbEnv) (db : Store) (expenseID : Int)
    (hexec : env.stmtFails 0 = false) (h : ∃ e ∈ db.expenses, e.id = expenseID) :
    (DeleteExpense env db expenseID).status = 200 := by
  obtain ⟨e, he, hid⟩ := h
  unfold DeleteExpense
  rw [if_neg (by simp [hexec]), if_neg]
  rw [filter_length_eq_zero_iff]
  intro h
  exact h e he hid

/-- C16: `DeleteExpense` answers 404 only when the store holds no expense with the
given id, and then the store is as it was; when the delete statement executes, it
answers 404 if no expense has the id and 200 if one has. -/
theorem DeleteExpense_notFound (env : DbEnv) (db : Store) (expenseID : Int) :
    ((DeleteExpense env db expenseID).status = 404 →
      (∀ e ∈ db.expenses, e.id ≠ expenseID) ∧ (DeleteExpense env db expenseID).store = db) ∧
    (env.stmtFails 0 = false →
      ((DeleteExpense env db expenseID).status = 404 ↔
        ∀ e ∈ db.expenses, e.id ≠ expenseID) ∧
      ((∃ e ∈ db.expenses, e.id = expenseID) →
        (DeleteExpense env db expenseID).status = 200)) := by
  have key : (DeleteExpense env db expenseID).status = 404 →
      (∀ e ∈ db.expenses, e.id ≠ expenseID) ∧
        (DeleteExpense env db expenseID).store = db := by
    unfold DeleteExpense
    split
    · simp
    · split
      · rename_i hlen
        have habs := (filter_length_eq_zero_iff db expenseID).1 hlen
        intro _
        exact ⟨habs, deleteExpenseRows_of_absent db expenseID habs⟩
      · simp
  refine ⟨key, fun hexec => ?_⟩
  refine ⟨⟨fun h => (key h).1, fun h => ?_⟩, DeleteExpense_of_present env db expenseID hexec⟩
  unfold DeleteExpense
  rw [if_neg (by simp [hexec]), if_pos ((filter_length_eq_zero_iff db expenseID).2 h)]

/-- Witness of C16: deleting expense 2 from a store that holds only expense 1. -/
theorem DeleteExpense_notFound_witness :
    quietEnv.stmtFails 0 = false ∧
    ((DeleteExpense quietEnv
        ⟨[⟨1, 7, "Dinner", "", 10, "Food", 0⟩], [⟨1, 1, 1, 10⟩], [⟨1, 1, 1, 10⟩]⟩ 2).status
      = 404 ↔
      ∀ e ∈ ([⟨1, 7, "Dinner", "", 10, "Food", 0⟩] : List ExpenseRow), e.id ≠ 2) :=
  ⟨rfl, ((DeleteExpense_notFound quietEnv
    ⟨[⟨1, 7, "Dinner", "", 10, "Food", 0⟩], [⟨1, 1, 1, 10⟩], [⟨1, 1, 1, 10⟩]⟩ 2).2 rfl).1⟩

theorem flatMap_filter_of_nil {α β : Type} (f : α → List β) (q : α → Bool) (l : List α)
    (h : ∀ x ∈ l, q x = false → f x = []) : (l.filter q).flatMap f = l.flatMap f := by
  induction l with
  | nil => rfl
  | cons x rest ih =>
    have ih1 := ih (fun y hy => h y (List.mem_cons_of_mem _ hy))
    rw [List.filter_cons]
    cases hq : q x
    · rw [if_neg (by simp), List.flatMap_cons, h x (List.mem_cons_self _ _) hq, ih1]
      rfl
    · rw [if_pos rfl, List.flatMap_cons, List.flatMap_cons, ih1]

/-- Allocation rows of a deleted expense join with no remaining expense: the two
queries give the same rows whether or not the cascade has removed them. -/
theorem rows_after_delete (db : Store) (expenseID groupID : Int) :
    paidRows ⟨db.expenses.filter (fun e => ¬ e.id = expenseID),
        db.expense_payers.filter (fun p => ¬ p.expense_id = expenseID),
        db.expense_splits.filter (fun s => ¬ s.expense_id = expenseID)⟩ groupID =
      paidRows ⟨db.expenses.filter (fun e => ¬ e.id = expenseID), db.expense_payers,
        db.expense_splits⟩ groupID ∧
    owedRows ⟨db.expenses.filter (fun e => ¬ e.id = expenseID),
        db.expense_payers.filter (fun p => ¬ p.expense_id = expenseID),
        db.expense_splits.filter (fun s => ¬ s.expense_id = expenseID)⟩ groupID =
      owedRows ⟨db.expenses.filter (fun e => ¬ e.id = expenseID), db.expense_payers,
        db.expense_splits⟩ groupID := by
  unfold paidRows owedRows
  constructor
  · apply flatMap_filter_of_nil
    intro p _ hp
    have hpid : p.expense_id = expenseID := by simpa using hp
    rw [List.map_eq_nil_iff, List.filter_eq_nil_iff]
    intro e he
    have hne : ¬ e.id = expenseID := by simpa using (List.mem_filter.1 he).2
    simp only [decide_eq_true_eq, not_and]
    intro h1
    exact absurd (hpid ▸ h1.symm) hne
  · apply flatMap_filter_of_nil
    intro s _ hs
    have hsid : s.expense_id = expenseID := by simpa using hs
    rw [List.map_eq_nil_iff, List.filter_eq_nil_iff]
    intro e he
    have hne : ¬ e.id = expenseID := by simpa using (List.mem_filter.1 he).2
    simp only [decide_eq_true_eq, not_and]
    intro h1
    exact absurd (hsid ▸ h1.symm) hne

/-- C17: after a `DeleteExpense` that answers 200, no expense, payer allocation or
split allocation with the given id is left, every other row is untouched, and the
answer of `GetGroupBalance` is the one computed from the remaining expenses alone. -/
theorem DeleteExpense_removes (env : DbEnv) (db : Store) (expenseID : Int)
    (h200 : (DeleteExpense env db expenseID).status = 200) :
    (∀ e ∈ (DeleteExpense env db expenseID).store.expenses, e.id ≠ expenseID) ∧
    (∀ p ∈ (DeleteExpense env db expenseID).store.expense_payers,
      p.expense_id ≠ expenseID) ∧
    (∀ s ∈ (DeleteExpense env db expenseID).store.expense_splits,
      s.expense_id ≠ expenseID) ∧
    (DeleteExpense env db expenseID).store.expenses =
      db.expenses.filter (fun e => ¬ e.id = expenseID) ∧
    (DeleteExpense env db expenseID).store.expense_payers =
      db.expense_payers.filter (fun p => ¬ p.expense_id = expenseID) ∧
    (DeleteExpense env db expenseID).store.expense_splits =
      db.expense_splits.filter (fun s => ¬ s.expense_id = expenseID) ∧
    (∀ (S : SliceSort) (R : MapRange) (groupID : Int),
      GetGroupBalance S R (DeleteExpense env db expenseID).store groupID =
        GetGroupBalance S R
          ⟨db.expenses.filter (fun e => ¬ e.id = expenseID), db.expense_payers,
            db.expense_splits⟩ groupID) := by
  have hstore : (DeleteExpense env db expenseID).store =
      ⟨db.expenses.filter (fun e => ¬ e.id = expenseID),
        db.expense_payers.filter (fun p => ¬ p.expense_id = expenseID),
        db.expense_splits.filter (fun s => ¬ s.expense_id = expenseID)⟩ := by
    unfold DeleteExpense at h200 ⊢
    split at h200
    · simp at h200
    · split at h200
      · simp at h200
      · rename_i hexec hlen
        rw [if_neg hexec, if_neg hlen]
        apply deleteExpenseRows_of_present
        by_contra hno
        push_neg at hno
        exact hlen ((filter_length_eq_zero_iff db expenseID).2 hno)
  rw [hstore]
  refine ⟨?_, ?_, ?_, rfl, rfl, rfl, ?_⟩
  · intro e he
    simpa using (List.mem_filter.1 he).2
  · intro p hp
    simpa using (List.mem_filter.1 hp).2
  · intro s hs
    simpa using (List.mem_filter.1 hs).2
  · intro S R groupID
    exact GetGroupBalance_congr S R _ _ groupID (rows_after_delete db expenseID groupID).1
      (rows_after_delete db expenseID groupID).2

/-- Witness of C17: deleting expense 1 from a store that holds it. -/
theorem DeleteExpense_removes_witness :
    (DeleteExpense quietEnv
        ⟨[⟨1, 7, "Dinner", "", 10, "Food", 0⟩], [⟨1, 1, 1, 10⟩], [⟨1, 1, 1, 10⟩]⟩ 1).status
      = 200 ∧
    (DeleteExpense quietEnv
        ⟨[⟨1, 7, "Dinner", "", 10, "Food", 0⟩], [⟨1, 1, 1, 10⟩], [⟨1, 1, 1, 10⟩]⟩
        1).store.expense_payers =
      ([⟨1, 1, 1, 10⟩] : List PayerRow).filter (fun p => ¬ p.expense_id = 1) :=
  have h : (DeleteExpense quietEnv
      ⟨[⟨1, 7, "Dinner", "", 10, "Food", 0⟩], [⟨1, 1, 1, 10⟩], [⟨1, 1, 1, 10⟩]⟩ 1).status
      = 200 :=
    DeleteExpense_of_present quietEnv
      ⟨[⟨1, 7, "Dinner", "", 10, "Food", 0⟩], [⟨1, 1, 1, 10⟩], [⟨1, 1, 1, 10⟩]⟩ 1 rfl
      ⟨_, List.mem_singleton.2 rfl, rfl⟩
  ⟨h, (DeleteExpense_removes quietEnv
    ⟨[⟨1, 7, "Dinner", "", 10, "Food", 0⟩], [⟨1, 1, 1, 10⟩], [⟨1, 1, 1, 10⟩]⟩ 1 h).2.2.2.2.1⟩

/-! ## The greedy matching is not minimal -/

/-- A sorted permutation of three elements whose first is strictly before the other
two: only the order of the other two is open. -/
theorem perm_three_of_head {α : Type} {R : α → α → Prop} {l : List α} {x y z : α}
    (hp : l.Perm [x, y, z]) (hs : l.Pairwise R) (hy : ¬ R y x) (hz : ¬ R z x) :
    l = [x, y, z] ∨ l = [x, z, y] := by
  have hlen := hp.length_eq
  match l, hlen with
  | [a, b, c], _ =>
    by_cases hax : a = x
    · subst hax
      rcases perm_pair hp.cons_inv with h | h
      · rw [h]; exact Or.inl rfl
      · rw [h]; exact Or.inr rfl
    · exfalso
      have hx : x ∈ [a, b, c] := hp.mem_iff.2 (List.mem_cons_self _ _)
      have hx1 : x ∈ [b, c] := by
        rcases List.mem_cons.1 hx with h | h
        · exact absurd h.symm hax
        · exact h
      have hR : R a x := (List.pairwise_cons.1 hs).1 x hx1
      have ha : a ∈ [x, y, z] := hp.mem_iff.1 (List.mem_cons_self _ _)
      simp only [List.mem_cons, List.mem_singleton, List.not_mem_nil, or_false] at ha
      rcases ha with h | h | h
      · exact hax h
      · subst h; exact hy hR
      · subst h; exact hz hR

theorem GoMap.get_nil (u : Int) : GoMap.get [] u = 0 := rfl

theorem GoMap.get_cons (k : Int) (v : ℚ) (m : GoMap) (u : Int) :
    GoMap.get ((k, v) :: m) u = if u = k then v else GoMap.get m u := by
  unfold GoMap.get
  rw [List.lookup_cons]
  by_cases h : u = k
  · subst h; simp
  · rw [beq_false_of_ne h, if_neg h]

/-- C19: `minimizeDebts` is not a minimum-transaction solver. On the balances
`{1: -6, 2: -4, 3: 4, 4: 3, 5: 3}`, which sum to zero, every run returns four
transactions, while the three positive payments `1 pays 4 3`, `1 pays 5 3`,
`2 pays 3 4` leave every user with exactly 0. -/
theorem minimizeDebts_not_minimal (S : SliceSort) (balances : GoMap)
    (h : balances.Perm [(1, -6), (2, -4), (3, 4), (4, 3), (5, 3)]) :
    (([(1, -6), (2, -4), (3, 4), (4, 3), (5, 3)] : GoMap).map Prod.snd).sum = 0 ∧
    ∃ txs, minimizeDebts S balances = some txs ∧ txs.length = 4 ∧
      ([⟨1, 4, 3⟩, ⟨1, 5, 3⟩, ⟨2, 3, 4⟩] : List Transaction).length < txs.length ∧
      (∀ t ∈ ([⟨1, 4, 3⟩, ⟨1, 5, 3⟩, ⟨2, 3, 4⟩] : List Transaction), 0 < t.Amount) ∧
      ∀ u, remainingBalance [(1, -6), (2, -4), (3, 4), (4, 3), (5, 3)]
        [⟨1, 4, 3⟩, ⟨1, 5, 3⟩, ⟨2, 3, 4⟩] u = 0 := by
  have hd : ((debtorsOf balances).map balanceItem.Amount).Nodup :=
    (((debtorsOf_perm h).map _).nodup_iff).2 (by norm_num [debtorsOf, List.filter_cons])
  have hds : S.sort debtorLess (debtorsOf balances) = [⟨1, -6⟩, ⟨2, -4⟩] := by
    rw [sort_debtors_unique S goInsertionSort h hd]
    norm_num [goInsertionSort, insertionSortLess, insertLess, debtorsOf, debtorLess,
      List.filter_cons]
  have hcp : (S.sort creditorLess (creditorsOf balances)).Perm [⟨3, 4⟩, ⟨4, 3⟩, ⟨5, 3⟩] := by
    refine ((S.perm _ _).trans (creditorsOf_perm h)).trans ?_
    norm_num [creditorsOf, List.filter_cons]
  have hcs := perm_three_of_head hcp (S.sorted _ _ creditorLess_total creditorLess_trans)
    (by norm_num [creditorLess]) (by norm_num [creditorLess])
  have hsettle : ∀ u, remainingBalance [(1, -6), (2, -4), (3, 4), (4, 3), (5, 3)]
      [⟨1, 4, 3⟩, ⟨1, 5, 3⟩, ⟨2, 3, 4⟩] u = 0 := by
    intro u
    unfold remainingBalance paidBy receivedBy
    simp only [GoMap.get_cons, GoMap.get_nil, List.map_cons, List.map_nil, List.sum_cons,
      List.sum_nil]
    by_cases h1 : u = 1
    · subst h1; norm_num
    by_cases h2 : u = 2
    · subst h2; norm_num
    by_cases h3 : u = 3
    · subst h3; norm_num
    by_cases h4 : u = 4
    · subst h4; norm_num
    by_cases h5 : u = 5
    · subst h5; norm_num
    simp [h1, h2, h3, h4, h5, Ne.symm h1, Ne.symm h2, Ne.symm h3, Ne.symm h4, Ne.symm h5]
  refine ⟨by norm_num, ?_⟩
  unfold minimizeDebts minimizeDebtsFuel
  rw [hds, h.length_eq]
  rcases hcs with hc | hc
  · refine ⟨[⟨1, 3, 4⟩, ⟨1, 4, 2⟩, ⟨2, 4, 1⟩, ⟨2, 5, 3⟩], ?_, rfl, by simp, ?_, hsettle⟩
    · rw [hc]
      norm_num [settleLoop_pos, settleLoop_nil_left, settleLoop_nil_right, stepAmount,
        debtorsAfter, creditorsAfter, emitStep, round2, mathRound, abs_eq_max_neg, max_def,
        min_def]
    · intro t ht
      simp only [List.mem_cons, List.mem_singleton, List.not_mem_nil, or_false] at ht
      rcases ht with rfl | rfl | rfl <;> norm_num
  · refine ⟨[⟨1, 3, 4⟩, ⟨1, 5, 2⟩, ⟨2, 5, 1⟩, ⟨2, 4, 3⟩], ?_, rfl, by simp, ?_, hsettle⟩
    · rw [hc]
      norm_num [settleLoop_pos, settleLoop_nil_left, settleLoop_nil_right, stepAmount,
        debtorsAfter, creditorsAfter, emitStep, round2, mathRound, abs_eq_max_neg, max_def,
        min_def]
    · intro t ht
      simp only [List.mem_cons, List.mem_singleton, List.not_mem_nil, or_false] at ht
      rcases ht with rfl | rfl | rfl <;> norm_num

/-- Witness of C19 with the map yielded in stored order and the insertion sort. -/
theorem minimizeDebts_not_minimal_witness :
    ([(1, -6), (2, -4), (3, 4), (4, 3), (5, 3)] : GoMap).Perm
      [(1, -6), (2, -4), (3, 4), (4, 3), (5, 3)] ∧
    ∃ txs, minimizeDebts goInsertionSort [(1, -6), (2, -4), (3, 4), (4, 3), (5, 3)] = some txs ∧
      txs.length = 4 :=
  ⟨List.Perm.refl _,
    let ⟨txs, h1, h2, _⟩ := (minimizeDebts_not_minimal goInsertionSort
      [(1, -6), (2, -4), (3, 4), (4, 3), (5, 3)] (List.Perm.refl _)).2
    ⟨txs, h1, h2⟩⟩

/-! ## The values of the balance map -/

theorem sumByUser_eq (rows : List (Int × ℚ)) :
    sumByUser rows = (rows.map Prod.fst).dedup.map fun u => (u, userTotal rows u) := rfl

theorem userTotal_of_not_mem (rows : List (Int × ℚ)) (u : Int) (h : u ∉ rows.map Prod.fst) :
    userTotal rows u = 0 := by
  unfold userTotal
  rw [filter_eq_nil_of_forall]
  · rfl
  · intro r hr
    simp only [decide_eq_true_eq]
    intro hru
    exact h (List.mem_map.2 ⟨r, hr, hru⟩)

/-- The map scanned from the grouped rows holds, for every user, the total of the
user's rows. -/
theorem get_scanRows_sumByUser (rows : List (Int × ℚ)) (u : Int) :
    GoMap.get (scanRows (sumByUser rows)) u = userTotal rows u := by
  unfold scanRows
  rw [sumByUser_eq, List.foldl_map]
  have h := get_foldl_set (fun v => userTotal rows v) (rows.map Prod.fst).dedup [] u
  simp only at h
  rw [h]
  split
  · rfl
  · rename_i hu
    rw [List.mem_dedup] at hu
    rw [userTotal_of_not_mem rows u hu]
    rfl

theorem get_paidMap (db : Store) (groupID u : Int) :
    GoMap.get (paidMap db groupID) u = userTotal (paidRows db groupID) u :=
  get_scanRows_sumByUser _ u

theorem get_owedMap (db : Store) (groupID u : Int) :
    GoMap.get (owedMap db groupID) u = userTotal (owedRows db groupID) u :=
  get_scanRows_sumByUser _ u

theorem nodup_foldl_addUser (keys users : List Int) (h : users.Nodup) :
    (keys.foldl addUser users).Nodup := by
  induction keys generalizing users with
  | nil => exact h
  | cons x rest ih =>
    rw [List.foldl_cons]
    apply ih
    unfold addUser
    split
    · exact h
    · rename_i hx
      exact List.Nodup.append h (List.nodup_singleton x)
        (by intro a ha hb; rw [List.mem_singleton] at hb; subst hb; exact hx ha)

theorem nodup_allUsers (paid owed : GoMap) : (allUsers paid owed).Nodup :=
  nodup_foldl_addUser _ _ (nodup_foldl_addUser _ _ List.nodup_nil)

/-- A loop that assigns one value to each of pairwise distinct new keys appends the
entries in order. -/
theorem foldl_set_of_nodup (f : Int → ℚ) (users : List Int) (m : GoMap)
    (hnd : users.Nodup) (hdis : ∀ u ∈ users, u ∉ GoMap.keys m) :
    users.foldl (fun m uid => GoMap.set m uid (f uid)) m =
      m ++ users.map fun u => (u, f u) := by
  have hset : ∀ (m : GoMap) (k : Int) (v : ℚ), k ∉ GoMap.keys m →
      GoMap.set m k v = m ++ [(k, v)] := by
    intro m k v
    induction m with
    | nil => intro _; rfl
    | cons p rest ih =>
      obtain ⟨k1, v1⟩ := p
      intro hk
      simp only [GoMap.keys, List.map_cons, List.mem_cons, not_or] at hk
      unfold GoMap.set
      rw [if_neg (fun h => hk.1 h.symm), ih hk.2]
      rfl
  induction users generalizing m with
  | nil => simp
  | cons x rest ih =>
    rw [List.nodup_cons] at hnd
    rw [List.foldl_cons, hset m x (f x) (hdis x (List.mem_cons_self _ _)), ih _ hnd.2]
    · simp
    · intro u hu
      simp only [GoMap.keys, List.map_append, List.map_cons, List.map_nil, List.mem_append,
        List.mem_singleton, not_or]
      refine ⟨hdis u (List.mem_cons_of_mem _ hu), ?_⟩
      rintro rfl
      exact hnd.1 hu

theorem netBalances_eq_map (paid owed : GoMap) :
    netBalances paid owed =
      (allUsers paid owed).map fun u =>
        (u, round2 (GoMap.get paid u - GoMap.get owed u)) := by
  unfold netBalances
  rw [foldl_set_of_nodup _ _ [] (nodup_allUsers paid owed) (by intro u _; simp [GoMap.keys])]
  rfl

theorem userTotal_cons (r : Int × ℚ) (rows : List (Int × ℚ)) (u : Int) :
    userTotal (r :: rows) u = (if r.1 = u then r.2 else 0) + userTotal rows u := by
  unfold userTotal
  rw [List.filter_cons]
  by_cases h : r.1 = u
  · rw [if_pos (by simpa using h), if_pos h, List.map_cons, List.sum_cons]
  · rw [if_neg (by simpa using h), if_neg h]
    ring

theorem sum_map_flatMap {α β : Type} (f : α → List β) (g : β → ℚ) (l : List α) :
    ((l.flatMap f).map g).sum = (l.map fun x => ((f x).map g).sum).sum := by
  induction l with
  | nil => rfl
  | cons x rest ih =>
    rw [List.flatMap_cons, List.map_append, List.sum_append, ih, List.map_cons, List.sum_cons]

theorem sum_map_filter_const {α : Type} (q : α → Bool) (c : ℚ) (l : List α) :
    ((l.filter q).map fun _ => c).sum = (l.map fun e => if q e = true then c else 0).sum := by
  induction l with
  | nil => rfl
  | cons x rest ih =>
    rw [List.filter_cons, List.map_cons, List.sum_cons]
    cases hq : q x
    · rw [if_neg (by simp), if_neg (by simp), ih]
      ring
    · rw [if_pos rfl, if_pos rfl, List.map_cons, List.sum_cons, ih]

theorem sum_map_filter_eq_ite {α : Type} (q : α → Bool) (g : α → ℚ) (l : List α) :
    ((l.filter q).map g).sum = (l.map fun e => if q e = true then g e else 0).sum := by
  induction l with
  | nil => rfl
  | cons x rest ih =>
    rw [List.filter_cons, List.map_cons, List.sum_cons]
    cases hq : q x
    · rw [if_neg (by simp), if_neg (by simp), ih]
      ring
    · rw [if_pos rfl, if_pos rfl, List.map_cons, List.sum_cons, ih]

/-- Two nested sums over lists may be exchanged. -/
theorem sum_map_sum_comm {α β : Type} (F : α → β → ℚ) (xs : List α) (ys : List β) :
    (xs.map fun x => (ys.map fun y => F x y).sum).sum =
      (ys.map fun y => (xs.map fun x => F x y).sum).sum := by
  induction xs with
  | nil => simp
  | cons x rest ih =>
    simp only [List.map_cons, List.sum_cons]
    rw [ih, ← List.sum_map_add]

theorem sum_map_sub_list {α : Type} (f g : α → ℚ) (l : List α) :
    (l.map fun x => f x - g x).sum = (l.map f).sum - (l.map g).sum := by
  induction l with
  | nil => simp
  | cons x rest ih =>
    simp only [List.map_cons, List.sum_cons]
    rw [ih]
    ring

theorem isCents_zero : IsCents 0 := ⟨0, by simp⟩

theorem isCents_sum (l : List ℚ) (h : ∀ x ∈ l, IsCents x) : IsCents l.sum := by
  induction l with
  | nil => exact isCents_zero
  | cons x rest ih =>
    rw [List.sum_cons]
    exact (h x (List.mem_cons_self _ _)).add (ih fun y hy => h y (List.mem_cons_of_mem _ hy))

theorem isCents_userTotal (rows : List (Int × ℚ)) (h : ∀ r ∈ rows, IsCents r.2) (u : Int) :
    IsCents (userTotal rows u) := by
  unfold userTotal
  apply isCents_sum
  intro x hx
  obtain ⟨r, hr, rfl⟩ := List.mem_map.1 hx
  exact h r (List.mem_filter.1 hr).1

theorem isCents_paidRows (db : Store) (groupID : Int)
    (h : ∀ p ∈ db.expense_payers, IsCents p.paid_amount) :
    ∀ r ∈ paidRows db groupID, IsCents r.2 := by
  intro r hr
  unfold paidRows at hr
  simp only [List.mem_flatMap, List.mem_map, List.mem_filter] at hr
  obtain ⟨p, hp, _, _, rfl⟩ := hr
  exact h p hp

theorem isCents_owedRows (db : Store) (groupID : Int)
    (h : ∀ s ∈ db.expense_splits, IsCents s.amount_owed) :
    ∀ r ∈ owedRows db groupID, IsCents r.2 := by
  intro r hr
  unfold owedRows at hr
  simp only [List.mem_flatMap, List.mem_map, List.mem_filter] at hr
  obtain ⟨p, hp, _, _, rfl⟩ := hr
  exact h p hp

/-- When the stored amounts are whole cents, the balance of every user of the map is
the exact difference of the user's two totals. -/
theorem netBalances_of_cents (db : Store) (groupID : Int)
    (hp : ∀ p ∈ db.expense_payers, IsCents p.paid_amount)
    (hs : ∀ s ∈ db.expense_splits, IsCents s.amount_owed) :
    netBalances (paidMap db groupID) (owedMap db groupID) =
      (allUsers (paidMap db groupID) (owedMap db groupID)).map fun u =>
        (u, userTotal (paidRows db groupID) u - userTotal (owedRows db groupID) u) := by
  rw [netBalances_eq_map]
  apply List.map_congr_left
  intro u _
  rw [get_paidMap, get_owedMap, round2_of_isCents]
  exact (isCents_userTotal _ (isCents_paidRows db groupID hp) u).sub
    (isCents_userTotal _ (isCents_owedRows db groupID hs) u)

theorem userTotal_eq_sum_ite (rows : List (Int × ℚ)) (u : Int) :
    userTotal rows u = (rows.map fun r => if r.1 = u then r.2 else 0).sum := by
  unfold userTotal
  rw [sum_map_filter_eq_ite]
  simp only [decide_eq_true_eq]

theorem userTotal_nil (u : Int) : userTotal [] u = 0 := rfl

theorem userTotal_append (l1 l2 : List (Int × ℚ)) (u : Int) :
    userTotal (l1 ++ l2) u = userTotal l1 u + userTotal l2 u := by
  unfold userTotal
  rw [List.filter_append, List.map_append, List.sum_append]

theorem GoMap.get_of_not_mem (m : GoMap) (u : Int) (h : u ∉ GoMap.keys m) :
    GoMap.get m u = 0 := by
  induction m with
  | nil => rfl
  | cons p rest ih =>
    obtain ⟨k, v⟩ := p
    simp only [GoMap.keys, List.map_cons, List.mem_cons, not_or] at h
    rw [GoMap.get_cons, if_neg h.1]
    exact ih h.2

theorem GoMap.get_add (m : GoMap) (k : Int) (v : ℚ) (u : Int) :
    GoMap.get (GoMap.add m k v) u = GoMap.get m u + if k = u then v else 0 := by
  unfold GoMap.add
  by_cases h : k = u
  · subst h
    rw [GoMap.get_set_self, if_pos rfl]
  · rw [GoMap.get_set_ne _ _ _ _ (Ne.symm h), if_neg h]
    ring

theorem GoMap.nodup_keys_add (m : GoMap) (k : Int) (v : ℚ) (h : (GoMap.keys m).Nodup) :
    (GoMap.keys (GoMap.add m k v)).Nodup :=
  GoMap.nodup_keys_set m k _ h

/-- A loop of `m[uid] += amt` adds to every key the total of its rows. -/
theorem get_foldl_add (rows : List (Int × ℚ)) (m : GoMap) (u : Int) :
    GoMap.get (rows.foldl (fun m r => GoMap.add m r.1 r.2) m) u =
      GoMap.get m u + userTotal rows u := by
  induction rows generalizing m with
  | nil => rw [List.foldl_nil, userTotal_nil]; ring
  | cons r rest ih =>
    rw [List.foldl_cons, ih, GoMap.get_add, userTotal_cons]
    ring

theorem nodup_keys_foldl_add (rows : List (Int × ℚ)) (m : GoMap)
    (h : (GoMap.keys m).Nodup) :
    (GoMap.keys (rows.foldl (fun m r => GoMap.add m r.1 r.2) m)).Nodup := by
  induction rows generalizing m with
  | nil => exact h
  | cons r rest ih =>
    rw [List.foldl_cons]
    exact ih _ (GoMap.nodup_keys_add m r.1 r.2 h)

/-- In a map the total of the entries of a key is the value of the key. -/
theorem userTotal_of_nodup_keys (m : GoMap) (h : (GoMap.keys m).Nodup) (u : Int) :
    userTotal m u = GoMap.get m u := by
  induction m with
  | nil => rfl
  | cons p rest ih =>
    obtain ⟨k, v⟩ := p
    simp only [GoMap.keys, List.map_cons, List.nodup_cons] at h
    rw [userTotal_cons, GoMap.get_cons]
    by_cases hk : k = u
    · subst hk
      rw [if_pos rfl, if_pos rfl, userTotal_of_not_mem rest k h.1]
      ring
    · rw [if_neg hk, if_neg (Ne.symm hk), ih h.2]
      ring

/-- The payer rows of an expense as `(user, amount)` pairs, and the split rows with
the sign of a debit. -/
theorem userImpacts_eq (dir : Directory) (db : Store) (expenseID : Int) :
    userImpacts dir db expenseID =
      ((fetchSplits db expenseID).map fun r => (r.1, -r.2)).foldl
        (fun m r => GoMap.add m r.1 r.2)
        (((fetchPayers dir db expenseID).map fun r => (r.2.1, r.2.2)).foldl
          (fun m r => GoMap.add m r.1 r.2) []) := by
  unfold userImpacts
  rw [List.foldl_map, List.foldl_map]

theorem nodup_keys_userImpacts (dir : Directory) (db : Store) (expenseID : Int) :
    (GoMap.keys (userImpacts dir db expenseID)).Nodup := by
  rw [userImpacts_eq]
  exact nodup_keys_foldl_add _ _ (nodup_keys_foldl_add _ _ (by simp [GoMap.keys]))

theorem userTotal_map_neg (rows : List (Int × ℚ)) (u : Int) :
    userTotal (rows.map fun r => (r.1, -r.2)) u = -userTotal rows u := by
  induction rows with
  | nil => simp [userTotal_nil]
  | cons r rest ih =>
    rw [List.map_cons, userTotal_cons, userTotal_cons, ih]
    by_cases h : r.1 = u
    · simp only [h, if_true]; ring
    · simp only [h, if_false]; ring

/-- The impact of an expense on a user: what the user paid minus what the user owes. -/
theorem get_userImpacts (dir : Directory) (db : Store) (expenseID u : Int) :
    GoMap.get (userImpacts dir db expenseID) u =
      userTotal ((fetchPayers dir db expenseID).map fun r => (r.2.1, r.2.2)) u -
        userTotal (fetchSplits db expenseID) u := by
  rw [userImpacts_eq, get_foldl_add, get_foldl_add, userTotal_map_neg, GoMap.get_nil]
  ring

/-- The grand total of a user: the sum of the user's impacts over the rows. -/
theorem get_grandTotalsOf (rows : List ExpenseMatrixRow)
    (hnd : ∀ row ∈ rows, (GoMap.keys row.UserImpacts).Nodup) (u : Int) :
    GoMap.get (grandTotalsOf rows) u = (rows.map fun row => GoMap.get row.UserImpacts u).sum := by
  have key : ∀ (rows : List ExpenseMatrixRow) (m : GoMap),
      (∀ row ∈ rows, (GoMap.keys row.UserImpacts).Nodup) →
      GoMap.get (rows.foldl (fun totals row =>
        row.UserImpacts.foldl (fun t p => GoMap.add t p.1 p.2) totals) m) u =
        GoMap.get m u + (rows.map fun row => GoMap.get row.UserImpacts u).sum := by
    intro rows
    induction rows with
    | nil => intro m _; simp
    | cons row rest ih =>
      intro m h
      rw [List.foldl_cons, ih _ (fun r hr => h r (List.mem_cons_of_mem _ hr)), get_foldl_add,
        userTotal_of_nodup_keys _ (h row (List.mem_cons_self _ _)), List.map_cons,
        List.sum_cons]
      ring
  unfold grandTotalsOf
  rw [key rows [] hnd, GoMap.get_nil]
  ring

theorem sum_map_zero {α : Type} (l : List α) : (l.map fun _ => (0 : ℚ)).sum = 0 := by
  induction l with
  | nil => rfl
  | cons x rest ih => rw [List.map_cons, List.sum_cons, ih]; ring

/-- The paid total of a user in the group, expense by expense and payer row by payer
row. -/
theorem userTotal_paidRows (db : Store) (groupID u : Int) :
    userTotal (paidRows db groupID) u =
      (db.expenses.map fun e =>
        if e.group_id = groupID then
          (db.expense_payers.map fun ep =>
            if ep.expense_id = e.id then (if ep.user_id = u then ep.paid_amount else 0)
            else 0).sum
        else 0).sum := by
  rw [userTotal_eq_sum_ite]
  unfold paidRows
  rw [sum_map_flatMap]
  have h1 : (fun ep : PayerRow =>
      (((db.expenses.filter fun e => ep.expense_id = e.id ∧ e.group_id = groupID).map
        fun _ => (ep.user_id, ep.paid_amount)).map
          fun r : Int × ℚ => if r.1 = u then r.2 else 0).sum) =
      fun ep => (db.expenses.map fun e =>
        if e.group_id = groupID then
          (if ep.expense_id = e.id then (if ep.user_id = u then ep.paid_amount else 0) else 0)
        else 0).sum := by
    funext ep
    rw [List.map_map]
    have := sum_map_filter_const
      (fun e : ExpenseRow => decide (ep.expense_id = e.id ∧ e.group_id = groupID))
      (if ep.user_id = u then ep.paid_amount else 0) db.expenses
    simp only [decide_eq_true_eq] at this
    refine Eq.trans this ?_
    congr 1
    apply List.map_congr_left
    intro e _
    by_cases hg : e.group_id = groupID
    · by_cases he : ep.expense_id = e.id
      · rw [if_pos ⟨he, hg⟩, if_pos hg, if_pos he]
      · rw [if_neg (fun h => he h.1), if_pos hg, if_neg he]
    · rw [if_neg (fun h => hg h.2), if_neg hg]
  rw [h1, sum_map_sum_comm]
  congr 1
  apply List.map_congr_left
  intro e _
  by_cases hg : e.group_id = groupID
  · simp only [hg, if_true]
  · simp only [hg, if_false]
    exact sum_map_zero _

/-- The owed total of a user in the group, expense by expense and split row by split
row. -/
theorem userTotal_owedRows (db : Store) (groupID u : Int) :
    userTotal (owedRows db groupID) u =
      (db.expenses.map fun e =>
        if e.group_id = groupID then
          (db.expense_splits.map fun es =>
            if es.expense_id = e.id then (if es.user_id = u then es.amount_owed else 0)
            else 0).sum
        else 0).sum := by
  rw [userTotal_eq_sum_ite]
  unfold owedRows
  rw [sum_map_flatMap]
  have h1 : (fun es : SplitRow =>
      (((db.expenses.filter fun e => es.expense_id = e.id ∧ e.group_id = groupID).map
        fun _ => (es.user_id, es.amount_owed)).map
          fun r : Int × ℚ => if r.1 = u then r.2 else 0).sum) =
      fun es => (db.expenses.map fun e =>
        if e.group_id = groupID then
          (if es.expense_id = e.id then (if es.user_id = u then es.amount_owed else 0) else 0)
        else 0).sum := by
    funext es
    rw [List.map_map]
    have := sum_map_filter_const
      (fun e : ExpenseRow => decide (es.expense_id = e.id ∧ e.group_id = groupID))
      (if es.user_id = u then es.amount_owed else 0) db.expenses
    simp only [decide_eq_true_eq] at this
    refine Eq.trans this ?_
    congr 1
    apply List.map_congr_left
    intro e _
    by_cases hg : e.group_id = groupID
    · by_cases he : es.expense_id = e.id
      · rw [if_pos ⟨he, hg⟩, if_pos hg, if_pos he]
      · rw [if_neg (fun h => he h.1), if_pos hg, if_neg he]
    · rw [if_neg (fun h => hg h.2), if_neg hg]
  rw [h1, sum_map_sum_comm]
  congr 1
  apply List.map_congr_left
  intro e _
  by_cases hg : e.group_id = groupID
  · simp only [hg, if_true]
  · simp only [hg, if_false]
    exact sum_map_zero _

theorem userTotal_fetchSplits (db : Store) (expenseID u : Int) :
    userTotal (fetchSplits db expenseID) u =
      (db.expense_splits.map fun es =>
        if es.expense_id = expenseID then (if es.user_id = u then es.amount_owed else 0)
        else 0).sum := by
  rw [userTotal_eq_sum_ite]
  unfold fetchSplits
  rw [List.map_map]
  have := sum_map_filter_eq_ite (fun es : SplitRow => decide (es.expense_id = expenseID))
    (fun es => if es.user_id = u then es.amount_owed else 0) db.expense_splits
  simp only [decide_eq_true_eq] at this
  exact this

/-- For a user with exactly one row in `users`, the join with `users` in the payer
query of the report keeps each payer row of the user once. -/
theorem userTotal_fetchPayers (dir : Directory) (db : Store) (expenseID u : Int)
    (hone : (dir.users.filter fun usr => u = usr.id).length = 1) :
    userTotal ((fetchPayers dir db expenseID).map fun r => (r.2.1, r.2.2)) u =
      (db.expense_payers.map fun ep =>
        if ep.expense_id = expenseID then (if ep.user_id = u then ep.paid_amount else 0)
        else 0).sum := by
  rw [userTotal_eq_sum_ite, List.map_map]
  unfold fetchPayers
  rw [sum_map_flatMap]
  have h1 : (fun ep : PayerRow =>
      (((dir.users.filter fun usr => ep.user_id = usr.id).map fun usr =>
        (usr.name, ep.user_id, ep.paid_amount)).map
          ((fun r : Int × ℚ => if r.1 = u then r.2 else 0) ∘
            fun r : String × Int × ℚ => (r.2.1, r.2.2))).sum) =
      fun ep => if ep.user_id = u then ep.paid_amount else 0 := by
    funext ep
    rw [List.map_map]
    by_cases hu : ep.user_id = u
    · have hconst : ((dir.users.filter fun usr => ep.user_id = usr.id).map
          (((fun r : Int × ℚ => if r.1 = u then r.2 else 0) ∘
            fun r : String × Int × ℚ => (r.2.1, r.2.2)) ∘
            fun usr : UserRow => (usr.name, ep.user_id, ep.paid_amount))) =
          (dir.users.filter fun usr => u = usr.id).map fun _ => ep.paid_amount := by
        rw [hu]
        apply List.map_congr_left
        intro usr _
        simp only [Function.comp, hu, if_true]
      rw [hconst, if_pos hu]
      have hlen : ∀ (l : List UserRow) (c : ℚ), (l.map fun _ => c).sum = l.length * c := by
        intro l c
        induction l with
        | nil => simp
        | cons x rest ih =>
          rw [List.map_cons, List.sum_cons, ih, List.length_cons]
          push_cast
          ring
      rw [hlen, hone]
      push_cast
      ring
    · have hconst : ((dir.users.filter fun usr => ep.user_id = usr.id).map
          (((fun r : Int × ℚ => if r.1 = u then r.2 else 0) ∘
            fun r : String × Int × ℚ => (r.2.1, r.2.2)) ∘
            fun usr : UserRow => (usr.name, ep.user_id, ep.paid_amount))) =
          (dir.users.filter fun usr => ep.user_id = usr.id).map fun _ => (0 : ℚ) := by
        apply List.map_congr_left
        intro usr _
        simp only [Function.comp, hu, if_false]
      rw [hconst, if_neg hu, sum_map_zero]
  rw [h1]
  have := sum_map_filter_eq_ite (fun ep : PayerRow => decide (ep.expense_id = expenseID))
    (fun ep => if ep.user_id = u then ep.paid_amount else 0) db.expense_payers
  simp only [decide_eq_true_eq] at this
  exact this

/-- For a user with exactly one row in `users`, the grand total of the report is the
user's paid total minus the user's owed total in the group. -/
theorem get_grandTotals (dir : Directory) (db : Store) (groupID u : Int)
    (hone : (dir.users.filter fun usr => u = usr.id).length = 1) :
    GoMap.get (grandTotalsOf ((fetchExpenses db groupID).map (matrixRow dir db))) u =
      userTotal (paidRows db groupID) u - userTotal (owedRows db groupID) u := by
  rw [get_grandTotalsOf _ (by
    intro row hrow
    obtain ⟨e, _, rfl⟩ := List.mem_map.1 hrow
    exact nodup_keys_userImpacts dir db e.id), List.map_map]
  have hfun : ((fun row : ExpenseMatrixRow => GoMap.get row.UserImpacts u) ∘
      matrixRow dir db) = fun e =>
        (db.expense_payers.map fun ep =>
          if ep.expense_id = e.id then (if ep.user_id = u then ep.paid_amount else 0)
          else 0).sum -
        (db.expense_splits.map fun es =>
          if es.expense_id = e.id then (if es.user_id = u then es.amount_owed else 0)
          else 0).sum := by
    funext e
    simp only [Function.comp, matrixRow]
    rw [get_userImpacts, userTotal_fetchPayers dir db e.id u hone, userTotal_fetchSplits]
  rw [hfun]
  unfold fetchExpenses
  rw [((List.perm_insertionSort _ _).map _).sum_eq, sum_map_filter_eq_ite,
    userTotal_paidRows, userTotal_owedRows, ← sum_map_sub_list]
  congr 1
  apply List.map_congr_left
  intro e _
  simp only [decide_eq_true_eq]
  by_cases hg : e.group_id = groupID
  · simp only [hg, if_true]
  · simp only [hg, if_false]
    ring

/-! ## The members of the group -/

/-- The rows joined by the member query, before `ORDER BY`. -/
theorem mem_fetchMembers (dir : Directory) (groupID : Int) (m : Member) :
    m ∈ fetchMembers dir groupID ↔
      ∃ gm ∈ dir.group_members, gm.group_id = groupID ∧
        ∃ usr ∈ dir.users, gm.user_id = usr.id ∧ m = ⟨usr.id, usr.name⟩ := by
  unfold fetchMembers
  rw [(List.perm_insertionSort _ _).mem_iff]
  simp only [List.mem_flatMap, List.mem_filter, List.mem_map, decide_eq_true_eq]
  constructor
  · rintro ⟨gm, ⟨hgm, hg⟩, usr, ⟨husr, hid⟩, rfl⟩
    exact ⟨gm, hgm, hg, usr, husr, hid, rfl⟩
  · rintro ⟨gm, hgm, hg, usr, husr, hid, rfl⟩
    exact ⟨gm, ⟨hgm, hg⟩, usr, ⟨husr, hid⟩, rfl⟩

/-- With `users.id` a key, every id has at most one row, and the id of a row exactly
one. -/
theorem users_filter_length (dir : Directory) (husers : (dir.users.map UserRow.id).Nodup)
    (usr : UserRow) (husr : usr ∈ dir.users) :
    (dir.users.filter fun x => usr.id = x.id).length = 1 := by
  have hcount := List.count_eq_one_of_mem husers (List.mem_map.2 ⟨usr, husr, rfl⟩)
  rw [List.count_eq_countP, List.countP_map, List.countP_eq_length_filter] at hcount
  rw [← hcount]
  congr 1
  apply List.filter_congr
  intro x _
  simp only [Function.comp, beq_iff_eq, decide_eq_true_eq]
  by_cases h : usr.id = x.id
  · simp [h]
  · simp [h, Ne.symm h]

theorem member_has_one_user (dir : Directory) (groupID : Int)
    (husers : (dir.users.map UserRow.id).Nodup) (m : Member)
    (hm : m ∈ fetchMembers dir groupID) :
    (dir.users.filter fun usr => m.ID = usr.id).length = 1 := by
  obtain ⟨gm, _, _, usr, husr, _, rfl⟩ := (mem_fetchMembers dir groupID m).1 hm
  exact users_filter_length dir husers usr husr

/-- With `users.id` and `group_members (group_id, user_id)` keys, the members of a
group have pairwise distinct ids. -/
theorem nodup_fetchMembers_ids (dir : Directory) (groupID : Int)
    (husers : (dir.users.map UserRow.id).Nodup)
    (hmembers : ((dir.group_members.filter fun gm => gm.group_id = groupID).map
      GroupMemberRow.user_id).Nodup) :
    ((fetchMembers dir groupID).map Member.ID).Nodup := by
  unfold fetchMembers
  rw [((List.perm_insertionSort _ _).map _).nodup_iff, List.map_flatMap, List.nodup_flatMap]
  constructor
  · intro gm _
    rw [List.map_map]
    have hsub : ((dir.users.filter fun u => gm.user_id = u.id).map
        (Member.ID ∘ fun u : UserRow => (⟨u.id, u.name⟩ : Member))).Sublist
        (dir.users.map UserRow.id) := by
      have : (Member.ID ∘ fun u : UserRow => (⟨u.id, u.name⟩ : Member)) = UserRow.id := by
        funext u; rfl
      rw [this]
      exact (List.filter_sublist _).map _
    exact List.Nodup.sublist hsub husers
  · have hpw : (dir.group_members.filter fun gm => gm.group_id = groupID).Pairwise
        (fun a b => a.user_id ≠ b.user_id) := List.pairwise_map.1 hmembers
    refine hpw.imp ?_
    intro a b hab
    simp only [Function.onFun]
    intro x hxa hxb
    simp only [List.mem_map, List.mem_filter, decide_eq_true_eq] at hxa hxb
    obtain ⟨ma, ⟨ua, ⟨_, hida⟩, rfl⟩, rfl⟩ := hxa
    obtain ⟨mb, ⟨ub, ⟨_, hidb⟩, rfl⟩, hx⟩ := hxb
    simp only at hx
    exact hab (by rw [hida, hidb]; exact hx.symm)

/-! ## The balances of the members -/

/-- When the stored amounts are whole cents, the balance map reads, for every user,
as the exact difference of the user's two totals. -/
theorem get_netBalances_of_cents (db : Store) (groupID : Int)
    (hp : ∀ p ∈ db.expense_payers, IsCents p.paid_amount)
    (hs : ∀ s ∈ db.expense_splits, IsCents s.amount_owed) (u : Int) :
    GoMap.get (netBalances (paidMap db groupID) (owedMap db groupID)) u =
      userTotal (paidRows db groupID) u - userTotal (owedRows db groupID) u := by
  by_cases hu : u ∈ GoMap.keys (paidMap db groupID) ∨ u ∈ GoMap.keys (owedMap db groupID)
  · rw [get_netBalances _ _ u hu, get_paidMap, get_owedMap, round2_of_isCents]
    exact (isCents_userTotal _ (isCents_paidRows db groupID hp) u).sub
      (isCents_userTotal _ (isCents_owedRows db groupID hs) u)
  · rw [GoMap.get_of_not_mem _ u (by rw [mem_keys_netBalances]; exact hu)]
    rw [not_or] at hu
    have h1 : u ∉ (paidRows db groupID).map Prod.fst := by
      have := hu.1
      unfold paidMap at this
      rwa [mem_keys_scanRows, mem_keys_sumByUser] at this
    have h2 : u ∉ (owedRows db groupID).map Prod.fst := by
      have := hu.2
      unfold owedMap at this
      rwa [mem_keys_scanRows, mem_keys_sumByUser] at this
    rw [userTotal_of_not_mem _ u h1, userTotal_of_not_mem _ u h2]
    ring

theorem nodup_keys_netBalances (paid owed : GoMap) :
    (GoMap.keys (netBalances paid owed)).Nodup :=
  nodup_keys_foldl_set _ _ [] (by simp [GoMap.keys])

/-- The items the first loop of `minimizeDebts` collects are pairwise distinct. -/
theorem nodup_debtorsOf (balances : GoMap) (h : (GoMap.keys balances).Nodup) :
    (debtorsOf balances).Nodup := by
  apply List.Nodup.of_map balanceItem.UserID
  unfold debtorsOf
  rw [List.map_map]
  have : (balanceItem.UserID ∘ fun p : Int × ℚ => (⟨p.1, p.2⟩ : balanceItem)) = Prod.fst := by
    funext p; rfl
  rw [this]
  exact List.Nodup.sublist ((List.filter_sublist _).map _) h

theorem nodup_creditorsOf (balances : GoMap) (h : (GoMap.keys balances).Nodup) :
    (creditorsOf balances).Nodup := by
  apply List.Nodup.of_map balanceItem.UserID
  unfold creditorsOf
  rw [List.map_map]
  have : (balanceItem.UserID ∘ fun p : Int × ℚ => (⟨p.1, p.2⟩ : balanceItem)) = Prod.fst := by
    funext p; rfl
  rw [this]
  exact List.Nodup.sublist ((List.filter_sublist _).map _) h

theorem nodup_exportDebtors (members : List Member) (totals : GoMap)
    (h : (members.map Member.ID).Nodup) : (exportDebtors members totals).Nodup := by
  apply List.Nodup.of_map balanceItem.UserID
  unfold exportDebtors
  rw [List.map_map]
  have : (balanceItem.UserID ∘ fun m : Member =>
      (⟨m.ID, GoMap.get totals m.ID⟩ : balanceItem)) = Member.ID := by
    funext p; rfl
  rw [this]
  exact List.Nodup.sublist ((List.filter_sublist _).map _) h

theorem nodup_exportCreditors (members : List Member) (totals : GoMap)
    (h : (members.map Member.ID).Nodup) : (exportCreditors members totals).Nodup := by
  apply List.Nodup.of_map balanceItem.UserID
  unfold exportCreditors
  rw [List.map_map]
  have : (balanceItem.UserID ∘ fun m : Member =>
      (⟨m.ID, GoMap.get totals m.ID⟩ : balanceItem)) = Member.ID := by
    funext p; rfl
  rw [this]
  exact List.Nodup.sublist ((List.filter_sublist _).map _) h

theorem mem_exportDebtors (members : List Member) (totals : GoMap) (x : balanceItem) :
    x ∈ exportDebtors members totals ↔
      x.UserID ∈ members.map Member.ID ∧ x.Amount = GoMap.get totals x.UserID ∧
        x.Amount < -(1 / 100) := by
  unfold exportDebtors
  simp only [List.mem_map, List.mem_filter, decide_eq_true_eq]
  constructor
  · rintro ⟨m, ⟨hm, _, hlt⟩, rfl⟩
    exact ⟨⟨m, hm, rfl⟩, rfl, hlt⟩
  · rintro ⟨⟨m, hm, hid⟩, hamt, hlt⟩
    refine ⟨m, ⟨hm, ?_, ?_⟩, ?_⟩
    · rw [hid, ← hamt]; linarith
    · rw [hid, ← hamt]; exact hlt
    · cases x
      simp only at hid hamt
      rw [hid, ← hamt]

theorem mem_exportCreditors (members : List Member) (totals : GoMap) (x : balanceItem) :
    x ∈ exportCreditors members totals ↔
      x.UserID ∈ members.map Member.ID ∧ x.Amount = GoMap.get totals x.UserID ∧
        1 / 100 < x.Amount := by
  unfold exportCreditors
  simp only [List.mem_map, List.mem_filter, decide_eq_true_eq]
  constructor
  · rintro ⟨m, ⟨hm, hlt⟩, rfl⟩
    exact ⟨⟨m, hm, rfl⟩, rfl, hlt⟩
  · rintro ⟨⟨m, hm, hid⟩, hamt, hlt⟩
    refine ⟨m, ⟨hm, ?_⟩, ?_⟩
    · rw [hid, ← hamt]; exact hlt
    · cases x
      simp only at hid hamt
      rw [hid, ← hamt]

theorem GoMap.mem_of_mem_keys (m : GoMap) (u : Int) (h : u ∈ GoMap.keys m) :
    (u, GoMap.get m u) ∈ m := by
  induction m with
  | nil => simp [GoMap.keys] at h
  | cons p rest ih =>
    obtain ⟨k, v⟩ := p
    rw [GoMap.get_cons]
    by_cases hk : u = k
    · rw [if_pos hk, hk]; exact List.mem_cons_self _ _
    · rw [if_neg hk]
      simp only [GoMap.keys, List.map_cons, List.mem_cons] at h
      rcases h with h | h
      · exact absurd h hk
      · exact List.mem_cons_of_mem _ (ih h)

theorem GoMap.mem_iff_get (m : GoMap) (hnodup : (GoMap.keys m).Nodup) (u : Int) (v : ℚ) :
    (u, v) ∈ m ↔ u ∈ GoMap.keys m ∧ v = GoMap.get m u := by
  constructor
  · intro h
    exact ⟨List.mem_map.2 ⟨(u, v), h, rfl⟩, (GoMap.get_of_mem hnodup h).symm⟩
  · rintro ⟨h, rfl⟩
    exact GoMap.mem_of_mem_keys m u h

/-- The debtors `ExportGroupPDF` collects are those `minimizeDebts` collects from a
map with the same keys as there are members and the same values. -/
theorem exportDebtors_perm (members : List Member) (totals balances : GoMap)
    (hmembers : (members.map Member.ID).Nodup) (hkeys : (GoMap.keys balances).Nodup)
    (hsub : ∀ u ∈ GoMap.keys balances, u ∈ members.map Member.ID)
    (hget : ∀ u ∈ members.map Member.ID, GoMap.get totals u = GoMap.get balances u) :
    (exportDebtors members totals).Perm (debtorsOf balances) := by
  rw [List.perm_ext_iff_of_nodup (nodup_exportDebtors members totals hmembers)
    (nodup_debtorsOf balances hkeys)]
  intro x
  rw [mem_exportDebtors, mem_debtorsOf, GoMap.mem_iff_get balances hkeys]
  constructor
  · rintro ⟨hm, hamt, hlt⟩
    rw [hget _ hm] at hamt
    refine ⟨⟨?_, hamt⟩, hlt⟩
    by_contra hnot
    rw [GoMap.get_of_not_mem _ _ hnot] at hamt
    rw [hamt] at hlt
    norm_num at hlt
  · rintro ⟨⟨hk, hamt⟩, hlt⟩
    exact ⟨hsub _ hk, by rw [hget _ (hsub _ hk)]; exact hamt, hlt⟩

theorem exportCreditors_perm (members : List Member) (totals balances : GoMap)
    (hmembers : (members.map Member.ID).Nodup) (hkeys : (GoMap.keys balances).Nodup)
    (hsub : ∀ u ∈ GoMap.keys balances, u ∈ members.map Member.ID)
    (hget : ∀ u ∈ members.map Member.ID, GoMap.get totals u = GoMap.get balances u) :
    (exportCreditors members totals).Perm (creditorsOf balances) := by
  rw [List.perm_ext_iff_of_nodup (nodup_exportCreditors members totals hmembers)
    (nodup_creditorsOf balances hkeys)]
  intro x
  rw [mem_exportCreditors, mem_creditorsOf, GoMap.mem_iff_get balances hkeys]
  constructor
  · rintro ⟨hm, hamt, hlt⟩
    rw [hget _ hm] at hamt
    refine ⟨⟨?_, hamt⟩, hlt⟩
    by_contra hnot
    rw [GoMap.get_of_not_mem _ _ hnot] at hamt
    rw [hamt] at hlt
    norm_num at hlt
  · rintro ⟨⟨hk, hamt⟩, hlt⟩
    exact ⟨hsub _ hk, by rw [hget _ (hsub _ hk)]; exact hamt, hlt⟩

/-- A slice with pairwise distinct amounts has one sorted form only, whatever the
sort and the order it starts from. -/
theorem sort_debtorLess_unique (S1 S2 : SliceSort) {l1 l2 : List balanceItem}
    (h : l1.Perm l2) (hdist : (l1.map balanceItem.Amount).Nodup) :
    S1.sort debtorLess l1 = S2.sort debtorLess l2 := by
  have hp1 := S1.perm debtorLess l1
  have hp2 := (S2.perm debtorLess l2).trans h.symm
  have hs : ∀ l : List balanceItem, l.Perm l1 →
      l.Pairwise (fun a b => debtorLess b a = false) →
      l.Sorted (fun a b => a.Amount < b.Amount) := by
    intro l hl hsorted
    have hnd : (l.map balanceItem.Amount).Nodup := ((hl.map _).nodup_iff).2 hdist
    have hne : l.Pairwise (fun a b => a.Amount ≠ b.Amount) := List.pairwise_map.1 hnd
    refine (hsorted.and hne).imp ?_
    rintro a b ⟨hle, hab⟩
    unfold debtorLess at hle
    simp only [decide_eq_false_iff_not, not_lt] at hle
    exact lt_of_le_of_ne hle hab
  haveI : IsAntisymm balanceItem (fun a b => a.Amount < b.Amount) :=
    ⟨fun a b h1 h2 => absurd h1 (not_lt.2 h2.le)⟩
  exact List.eq_of_perm_of_sorted (hp1.trans hp2.symm)
    (hs _ hp1 (S1.sorted _ _ debtorLess_total debtorLess_trans))
    (hs _ hp2 (S2.sorted _ _ debtorLess_total debtorLess_trans))

theorem sort_creditorLess_unique (S1 S2 : SliceSort) {l1 l2 : List balanceItem}
    (h : l1.Perm l2) (hdist : (l1.map balanceItem.Amount).Nodup) :
    S1.sort creditorLess l1 = S2.sort creditorLess l2 := by
  have hp1 := S1.perm creditorLess l1
  have hp2 := (S2.perm creditorLess l2).trans h.symm
  have hs : ∀ l : List balanceItem, l.Perm l1 →
      l.Pairwise (fun a b => creditorLess b a = false) →
      l.Sorted (fun a b => b.Amount < a.Amount) := by
    intro l hl hsorted
    have hnd : (l.map balanceItem.Amount).Nodup := ((hl.map _).nodup_iff).2 hdist
    have hne : l.Pairwise (fun a b => a.Amount ≠ b.Amount) := List.pairwise_map.1 hnd
    refine (hsorted.and hne).imp ?_
    rintro a b ⟨hle, hab⟩
    unfold creditorLess at hle
    simp only [gt_iff_lt, decide_eq_false_iff_not, not_lt] at hle
    exact lt_of_le_of_ne hle (Ne.symm hab)
  haveI : IsAntisymm balanceItem (fun a b => b.Amount < a.Amount) :=
    ⟨fun a b h1 h2 => absurd h1 (not_lt.2 h2.le)⟩
  exact List.eq_of_perm_of_sorted (hp1.trans hp2.symm)
    (hs _ hp1 (S1.sorted _ _ creditorLess_total creditorLess_trans))
    (hs _ hp2 (S2.sorted _ _ creditorLess_total creditorLess_trans))

/-! ## The two matching loops -/

theorem exportLoop_nil_left (fuel : Nat) (ds : List balanceItem) :
    exportLoop fuel [] ds = some [] := by
  cases fuel <;> simp [exportLoop]

theorem exportLoop_nil_right (fuel : Nat) (cs : List balanceItem) :
    exportLoop fuel cs [] = some [] := by
  cases fuel <;> cases cs <;> simp [exportLoop]

/-- On whole cents the loop of `ExportGroupPDF` walks through the same states as the
loop of `minimizeDebts` and records the same payments, those of exactly 0.01 apart:
`minimizeDebts` records them (`amount > 0`), `ExportGroupPDF` does not
(`amount > 0.01`). -/
theorem exportLoop_eq_filter (fuel : Nat) (ds cs : List balanceItem) (h : CentsInv ds cs)
    (txs : List Transaction) (hrun : settleLoop fuel ds cs = some txs) :
    exportLoop fuel cs (ds.map fun d => ⟨d.UserID, -d.Amount⟩) =
      some (txs.filter fun t => t.Amount > 1 / 100) := by
  induction fuel generalizing ds cs txs with
  | zero =>
    cases ds with
    | nil =>
      rw [settleLoop_nil_left] at hrun
      cases hrun
      rw [List.map_nil, exportLoop_nil_right]; rfl
    | cons d ds =>
      cases cs with
      | nil =>
        rw [settleLoop_nil_right] at hrun
        cases hrun
        rw [exportLoop_nil_left]; rfl
      | cons c cs => simp [settleLoop] at hrun
  | succ fuel ih =>
    cases ds with
    | nil =>
      rw [settleLoop_nil_left] at hrun
      cases hrun
      rw [List.map_nil, exportLoop_nil_right]; rfl
    | cons d ds =>
      cases cs with
      | nil =>
        rw [settleLoop_nil_right] at hrun
        cases hrun
        rw [exportLoop_nil_left]; rfl
      | cons c cs =>
        have hd : d.Amount ≤ -(1 / 100) := h.1.1 d (List.mem_cons_self _ _)
        have hc : 1 / 100 ≤ c.Amount := h.1.2 c (List.mem_cons_self _ _)
        have hdc := h.2.1 d (List.mem_cons_self _ _)
        have hcc := h.2.2 c (List.mem_cons_self _ _)
        have hamt : stepAmount d c = if -d.Amount < c.Amount then -d.Amount else c.Amount := by
          rw [stepAmount_of_cents hd hdc hcc, min_def]
          by_cases h1 : -d.Amount < c.Amount
          · rw [if_pos h1, if_pos h1.le]
          · rw [if_neg h1]
            by_cases h2 : -d.Amount ≤ c.Amount
            · rw [if_pos h2]; exact le_antisymm h2 (not_lt.1 h1)
            · rw [if_neg h2]
        have hge : 1 / 100 ≤ stepAmount d c := stepAmount_ge hd hc
        have hle : stepAmount d c ≤ -d.Amount := by
          rw [stepAmount_of_cents hd hdc hcc]; exact min_le_left _ _
        rw [settleLoop_succ] at hrun
        cases hrest : settleLoop fuel (debtorsAfter d ds (stepAmount d c))
            (creditorsAfter c cs (stepAmount d c)) with
        | none => rw [hrest] at hrun; simp at hrun
        | some rest =>
          rw [hrest, Option.map_some', Option.some.injEq] at hrun
          have hrec := ih _ _ (centsInv_step h) rest hrest
          have hds : (debtorsAfter d ds (stepAmount d c)).map
              (fun d => (⟨d.UserID, -d.Amount⟩ : balanceItem)) =
              if -d.Amount - stepAmount d c < 1 / 100
                then ds.map fun d => (⟨d.UserID, -d.Amount⟩ : balanceItem)
                else ⟨d.UserID, -d.Amount - stepAmount d c⟩ ::
                  ds.map fun d => (⟨d.UserID, -d.Amount⟩ : balanceItem) := by
            unfold debtorsAfter
            rw [abs_of_nonpos (by linarith : d.Amount + stepAmount d c ≤ 0)]
            have : -(d.Amount + stepAmount d c) = -d.Amount - stepAmount d c := by ring
            rw [this]
            split
            · rfl
            · rw [List.map_cons, this]
          rw [hds] at hrec
          unfold creditorsAfter at hrec
          rw [List.map_cons, exportLoop]
          simp only
          rw [if_neg (not_lt.2 hc), if_neg (not_lt.2 (by linarith : 1 / 100 ≤ -d.Amount)),
            ← hamt, hrec, Option.map_some', ← hrun]
          unfold emitStep
          rw [if_pos (by linarith : stepAmount d c > 0), List.filter_cons]
          by_cases hbig : stepAmount d c > 1 / 100
          · rw [if_pos hbig]; simp only [hbig, decide_True, if_true]
          · rw [if_neg hbig]; simp only [hbig, decide_False]; rfl

/-- The loop of `ExportGroupPDF` ends: every iteration moves at least one of the two
cursors, so one iteration per creditor and debtor is enough. -/
theorem exportLoop_total (fuel : Nat) (cs ds : List balanceItem)
    (hfuel : cs.length + ds.length ≤ fuel + 1) : ∃ txs, exportLoop fuel cs ds = some txs := by
  induction fuel generalizing cs ds with
  | zero =>
    cases cs with
    | nil => exact ⟨[], exportLoop_nil_left _ _⟩
    | cons c cs =>
      cases ds with
      | nil => exact ⟨[], exportLoop_nil_right _ _⟩
      | cons d ds => simp at hfuel; omega
  | succ fuel ih =>
    cases cs with
    | nil => exact ⟨[], exportLoop_nil_left _ _⟩
    | cons c cs =>
      cases ds with
      | nil => exact ⟨[], exportLoop_nil_right _ _⟩
      | cons d ds =>
        simp only [List.length_cons] at hfuel
        rw [exportLoop]
        by_cases hc : c.Amount < 1 / 100
        · rw [if_pos hc]
          exact ih cs (d :: ds) (by simp only [List.length_cons]; omega)
        · rw [if_neg hc]
          by_cases hd : d.Amount < 1 / 100
          · rw [if_pos hd]
            exact ih (c :: cs) ds (by simp only [List.length_cons]; omega)
          · rw [if_neg hd]
            by_cases hlt : d.Amount < c.Amount
            · simp only [if_pos hlt, sub_self]
              rw [if_pos (by norm_num : (0 : ℚ) < 1 / 100)]
              obtain ⟨rest, hrest⟩ := ih
                (if c.Amount - d.Amount < 1 / 100 then cs
                  else ⟨c.UserID, c.Amount - d.Amount⟩ :: cs) ds
                (by split <;> first | omega | (simp only [List.length_cons]; omega))
              rw [hrest]
              exact ⟨_, rfl⟩
            · simp only [if_neg hlt, sub_self]
              rw [if_pos (by norm_num : (0 : ℚ) < 1 / 100)]
              obtain ⟨rest, hrest⟩ := ih cs
                (if d.Amount - c.Amount < 1 / 100 then ds
                  else ⟨d.UserID, d.Amount - c.Amount⟩ :: ds)
                (by split <;> first | omega | (simp only [List.length_cons]; omega))
              rw [hrest]
              exact ⟨_, rfl⟩

/-- The handler `ExportGroupPDF` answers on every state of the tables. -/
theorem ExportGroupPDF_total (S : SliceSort) (dir : Directory) (db : Store) (groupID : Int) :
    ∃ r, ExportGroupPDF S dir db groupID = some r := by
  unfold ExportGroupPDF
  cases fetchGroupName dir groupID with
  | none => exact ⟨_, rfl⟩
  | some name =>
    obtain ⟨txs, htxs⟩ := exportLoop_total
      ((exportCreditors (fetchMembers dir groupID)
          (grandTotalsOf ((fetchExpenses db groupID).map (matrixRow dir db)))).length +
        (exportDebtors (fetchMembers dir groupID)
          (grandTotalsOf ((fetchExpenses db groupID).map (matrixRow dir db)))).length)
      (S.sort creditorLess (exportCreditors (fetchMembers dir groupID)
        (grandTotalsOf ((fetchExpenses db groupID).map (matrixRow dir db)))))
      ((S.sort debtorLess (exportDebtors (fetchMembers dir groupID)
        (grandTotalsOf ((fetchExpenses db groupID).map (matrixRow dir db))))).map
          fun d => ⟨d.UserID, -d.Amount⟩)
      (by rw [List.length_map, (S.perm _ _).length_eq, (S.perm _ _).length_eq]; omega)
    simp only [exportSettle, htxs, Option.map_some']
    exact ⟨_, rfl⟩

theorem fetchGroupName_of_mem (dir : Directory) (groupID : Int)
    (h : ∃ g ∈ dir.groups, g.id = groupID) : ∃ name, fetchGroupName dir groupID = some name := by
  obtain ⟨g, hg, hid⟩ := h
  unfold fetchGroupName
  cases hfind : dir.groups.find? fun g => g.id = groupID with
  | none =>
    rw [List.find?_eq_none] at hfind
    exact absurd (by simpa using hid) (hfind g hg)
  | some g1 => exact ⟨g1.name, rfl⟩

theorem isCents_netBalances (db : Store) (groupID : Int)
    (hp : ∀ p ∈ db.expense_payers, IsCents p.paid_amount)
    (hs : ∀ s ∈ db.expense_splits, IsCents s.amount_owed) :
    ∀ p ∈ netBalances (paidMap db groupID) (owedMap db groupID), IsCents p.2 := by
  intro p hmem
  rw [netBalances_of_cents db groupID hp hs, List.mem_map] at hmem
  obtain ⟨u, _, rfl⟩ := hmem
  exact (isCents_userTotal _ (isCents_paidRows db groupID hp) u).sub
    (isCents_userTotal _ (isCents_owedRows db groupID hs) u)

/-! ## The impacts and the totals of the report -/

/-- The payer query of `ExportGroupPDF` joins `users`; when `users.id` is a key and
every payer row refers to a user, as the schema declares, the join neither drops nor
repeats a payer row. -/
theorem userTotal_fetchPayers_of_schema (dir : Directory) (db : Store) (expenseID u : Int)
    (husers : (dir.users.map UserRow.id).Nodup)
    (hfk : ∀ ep ∈ db.expense_payers, ep.user_id ∈ dir.users.map UserRow.id) :
    userTotal ((fetchPayers dir db expenseID).map fun r => (r.2.1, r.2.2)) u =
      (db.expense_payers.map fun ep =>
        if ep.expense_id = expenseID then (if ep.user_id = u then ep.paid_amount else 0)
        else 0).sum := by
  by_cases hu : u ∈ dir.users.map UserRow.id
  · obtain ⟨usr, husr, rfl⟩ := List.mem_map.1 hu
    exact userTotal_fetchPayers dir db expenseID usr.id (users_filter_length dir husers usr husr)
  · have hne : ∀ ep ∈ db.expense_payers, ep.user_id ≠ u := by
      intro ep hep heq
      exact hu (heq ▸ hfk ep hep)
    rw [userTotal_of_not_mem]
    · symm
      apply List.sum_eq_zero
      intro x hx
      obtain ⟨ep, hep, rfl⟩ := List.mem_map.1 hx
      rw [if_neg (hne ep hep)]
      simp
    · intro hmem
      rw [List.map_map] at hmem
      obtain ⟨r, hr, hru⟩ := List.mem_map.1 hmem
      unfold fetchPayers at hr
      simp only [List.mem_flatMap, List.mem_filter, List.mem_map] at hr
      obtain ⟨ep, ⟨hep, _⟩, usr, _, rfl⟩ := hr
      exact hne ep hep hru

/-- The impact of a user in the row of an expense, read off the two tables. -/
theorem get_userImpacts_of_schema (dir : Directory) (db : Store) (expenseID u : Int)
    (husers : (dir.users.map UserRow.id).Nodup)
    (hfk : ∀ ep ∈ db.expense_payers, ep.user_id ∈ dir.users.map UserRow.id) :
    GoMap.get (userImpacts dir db expenseID) u =
      ((db.expense_payers.filter fun ep => ep.expense_id = expenseID ∧ ep.user_id = u).map
          PayerRow.paid_amount).sum -
        ((db.expense_splits.filter fun es => es.expense_id = expenseID ∧ es.user_id = u).map
          SplitRow.amount_owed).sum := by
  rw [get_userImpacts, userTotal_fetchPayers_of_schema dir db expenseID u husers hfk,
    userTotal_fetchSplits, sum_map_filter_eq_ite, sum_map_filter_eq_ite]
  congr 1
  · apply congrArg
    apply List.map_congr_left
    intro ep _
    by_cases h1 : ep.expense_id = expenseID <;> by_cases h2 : ep.user_id = u <;> simp [h1, h2]
  · apply congrArg
    apply List.map_congr_left
    intro es _
    by_cases h1 : es.expense_id = expenseID <;> by_cases h2 : es.user_id = u <;> simp [h1, h2]

/-- On tables that meet the keys of the schema, the grand total of every user is the
user's paid total minus the user's owed total in the group. -/
theorem get_grandTotals_of_schema (dir : Directory) (db : Store) (groupID u : Int)
    (husers : (dir.users.map UserRow.id).Nodup)
    (hfk : ∀ ep ∈ db.expense_payers, ep.user_id ∈ dir.users.map UserRow.id) :
    GoMap.get (grandTotalsOf ((fetchExpenses db groupID).map (matrixRow dir db))) u =
      userTotal (paidRows db groupID) u - userTotal (owedRows db groupID) u := by
  rw [get_grandTotalsOf _ (by
    intro row hrow
    obtain ⟨e, _, rfl⟩ := List.mem_map.1 hrow
    exact nodup_keys_userImpacts dir db e.id), List.map_map]
  have hfun : ((fun row : ExpenseMatrixRow => GoMap.get row.UserImpacts u) ∘
      matrixRow dir db) = fun e =>
        (db.expense_payers.map fun ep =>
          if ep.expense_id = e.id then (if ep.user_id = u then ep.paid_amount else 0)
          else 0).sum -
        (db.expense_splits.map fun es =>
          if es.expense_id = e.id then (if es.user_id = u then es.amount_owed else 0)
          else 0).sum := by
    funext e
    simp only [Function.comp, matrixRow]
    rw [get_userImpacts, userTotal_fetchPayers_of_schema dir db e.id u husers hfk,
      userTotal_fetchSplits]
  rw [hfun]
  unfold fetchExpenses
  rw [((List.perm_insertionSort _ _).map _).sum_eq, sum_map_filter_eq_ite,
    userTotal_paidRows, userTotal_owedRows, ← sum_map_sub_list]
  congr 1
  apply List.map_congr_left
  intro e _
  simp only [decide_eq_true_eq]
  by_cases hg : e.group_id = groupID
  · simp only [hg, if_true]
  · simp only [hg, if_false]
    ring

theorem forall_two_map_right {α β : Type} (R : α → β → Prop) (f : α → β) (l : List α)
    (h : ∀ x ∈ l, R x (f x)) : List.Forall₂ R l (l.map f) := by
  induction l with
  | nil => exact List.Forall₂.nil
  | cons x rest ih =>
    exact List.Forall₂.cons (h x (List.mem_cons_self _ _))
      (ih fun y hy => h y (List.mem_cons_of_mem _ hy))

/-- The report of an existing group. -/
theorem ExportGroupPDF_of_group (S : SliceSort) (dir : Directory) (db : Store) (groupID : Int)
    (hgroup : ∃ g ∈ dir.groups, g.id = groupID) :
    ∃ name payments, ExportGroupPDF S dir db groupID =
      some ⟨200, some ⟨name, fetchMembers dir groupID,
        (fetchExpenses db groupID).map (matrixRow dir db),
        grandTotalsOf ((fetchExpenses db groupID).map (matrixRow dir db)), payments⟩⟩ := by
  obtain ⟨name, hname⟩ := fetchGroupName_of_mem dir groupID hgroup
  obtain ⟨r, hr⟩ := ExportGroupPDF_total S dir db groupID
  unfold ExportGroupPDF at hr ⊢
  rw [hname] at hr ⊢
  cases hexp : exportSettle S (fetchMembers dir groupID)
      (grandTotalsOf ((fetchExpenses db groupID).map (matrixRow dir db))) with
  | none => rw [hexp] at hr; simp at hr
  | some txs => exact ⟨name, _, rfl⟩

/-- C21: for every existing group, on tables that meet the keys of the schema
(`users.id` unique, every payer row referring to a user), `ExportGroupPDF` builds one
row per expense of the group, in which the impact of every user is the sum of the
user's paid amounts for the expense minus the sum of the user's owed amounts for it;
the grand total of every user is the sum of the user's impacts over the rows, and it
is the difference `paidMap[uid] - owedMap[uid]` that `GetGroupBalance` forms before
rounding. -/
theorem ExportGroupPDF_impacts (S : SliceSort) (dir : Directory) (db : Store) (groupID : Int)
    (hgroup : ∃ g ∈ dir.groups, g.id = groupID)
    (husers : (dir.users.map UserRow.id).Nodup)
    (hfk : ∀ ep ∈ db.expense_payers, ep.user_id ∈ dir.users.map UserRow.id) :
    ∃ report, ExportGroupPDF S dir db groupID = some ⟨200, some report⟩ ∧
      List.Forall₂
        (fun e row => ∀ u, GoMap.get row.UserImpacts u =
          ((db.expense_payers.filter fun ep => ep.expense_id = e.id ∧ ep.user_id = u).map
              PayerRow.paid_amount).sum -
            ((db.expense_splits.filter fun es => es.expense_id = e.id ∧ es.user_id = u).map
              SplitRow.amount_owed).sum)
        (fetchExpenses db groupID) report.matrixRows ∧
      (∀ u, GoMap.get report.grandTotals u =
        (report.matrixRows.map fun row => GoMap.get row.UserImpacts u).sum) ∧
      (∀ u, GoMap.get report.grandTotals u =
        GoMap.get (paidMap db groupID) u - GoMap.get (owedMap db groupID) u) := by
  obtain ⟨name, payments, hrep⟩ := ExportGroupPDF_of_group S dir db groupID hgroup
  refine ⟨_, hrep, ?_, ?_, ?_⟩
  · apply forall_two_map_right
    intro e _ u
    exact get_userImpacts_of_schema dir db e.id u husers hfk
  · intro u
    apply get_grandTotalsOf
    intro row hrow
    obtain ⟨e, _, rfl⟩ := List.mem_map.1 hrow
    exact nodup_keys_userImpacts dir db e.id
  · intro u
    simp only
    rw [get_paidMap, get_owedMap]
    exact get_grandTotals_of_schema dir db groupID u husers hfk

/-- Witness of C21: group 7 of four members with one expense paid 7 and 3 by users 3
and 4 and owed 6 and 4 by users 1 and 2. -/
theorem ExportGroupPDF_impacts_witness :
    ((∃ g ∈ tripDirectory.groups, g.id = 7) ∧
      (tripDirectory.users.map UserRow.id).Nodup ∧
      (∀ ep ∈ untiedStore.expense_payers, ep.user_id ∈ tripDirectory.users.map UserRow.id)) ∧
    ∃ report, ExportGroupPDF goInsertionSort tripDirectory untiedStore 7 =
        some ⟨200, some report⟩ ∧
      List.Forall₂
        (fun e row => ∀ u, GoMap.get row.UserImpacts u =
          ((untiedStore.expense_payers.filter fun ep =>
              ep.expense_id = e.id ∧ ep.user_id = u).map PayerRow.paid_amount).sum -
            ((untiedStore.expense_splits.filter fun es =>
              es.expense_id = e.id ∧ es.user_id = u).map SplitRow.amount_owed).sum)
        (fetchExpenses untiedStore 7) report.matrixRows ∧
      (∀ u, GoMap.get report.grandTotals u =
        (report.matrixRows.map fun row => GoMap.get row.UserImpacts u).sum) ∧
      (∀ u, GoMap.get report.grandTotals u =
        GoMap.get (paidMap untiedStore 7) u - GoMap.get (owedMap untiedStore 7) u) :=
  have hgroup : ∃ g ∈ tripDirectory.groups, g.id = 7 :=
    ⟨⟨7, "Trip", 1, 0⟩, by simp [tripDirectory], rfl⟩
  have husers : (tripDirectory.users.map UserRow.id).Nodup := by
    simp [tripDirectory]
  have hfk : ∀ ep ∈ untiedStore.expense_payers,
      ep.user_id ∈ tripDirectory.users.map UserRow.id := by
    intro ep hep
    simp only [untiedStore, List.mem_cons, List.mem_singleton, List.not_mem_nil,
      or_false] at hep
    rcases hep with rfl | rfl <;> simp [tripDirectory]
  ⟨⟨hgroup, husers, hfk⟩,
    ExportGroupPDF_impacts goInsertionSort tripDirectory untiedStore 7 hgroup husers hfk⟩

/-! ## No user is settled beyond the balance -/

theorem paidBy_nil (u : Int) : paidBy [] u = 0 := rfl

theorem receivedBy_nil (u : Int) : receivedBy [] u = 0 := rfl

theorem paidBy_emitStep (d c : balanceItem) (amount : ℚ) (rest : List Transaction) (u : Int)
    (hpos : amount > 0) :
    paidBy (emitStep d c amount rest) u =
      (if d.UserID = u then 1 else 0) * amount + paidBy rest u := by
  unfold emitStep paidBy
  rw [if_pos hpos, List.map_cons, List.sum_cons]
  by_cases h : d.UserID = u
  · simp only [h, if_true]; ring
  · simp only [h, if_false]; ring

theorem receivedBy_emitStep (d c : balanceItem) (amount : ℚ) (rest : List Transaction)
    (u : Int) (hpos : amount > 0) :
    receivedBy (emitStep d c amount rest) u =
      (if c.UserID = u then 1 else 0) * amount + receivedBy rest u := by
  unfold emitStep receivedBy
  rw [if_pos hpos, List.map_cons, List.sum_cons]
  by_cases h : c.UserID = u
  · simp only [h, if_true]; ring
  · simp only [h, if_false]; ring

theorem weighted_indicator_nonpos (u : Int) (ds : List balanceItem)
    (h : ∀ d ∈ ds, d.Amount ≤ -(1 / 100)) :
    weighted (fun v => if v = u then 1 else 0) ds ≤ 0 := by
  induction ds with
  | nil => simp [weighted]
  | cons d ds ih =>
    rw [weighted_cons]
    have hd := h d (List.mem_cons_self _ _)
    have := ih (fun x hx => h x (List.mem_cons_of_mem _ hx))
    by_cases hu : d.UserID = u
    · rw [if_pos hu]; linarith
    · rw [if_neg hu]; linarith

theorem weighted_indicator_nonneg (u : Int) (cs : List balanceItem)
    (h : ∀ c ∈ cs, 1 / 100 ≤ c.Amount) :
    0 ≤ weighted (fun v => if v = u then 1 else 0) cs := by
  induction cs with
  | nil => simp [weighted]
  | cons c cs ih =>
    rw [weighted_cons]
    have hc := h c (List.mem_cons_self _ _)
    have := ih (fun x hx => h x (List.mem_cons_of_mem _ hx))
    by_cases hu : c.UserID = u
    · rw [if_pos hu]; linarith
    · rw [if_neg hu]; linarith

/-- On whole cents the transactions of the loop take from a user no more than the
debt the debtor slice holds of the user, and give a user no more than the credit the
creditor slice holds of the user. -/
theorem settleLoop_no_oversettle (u : Int) (fuel : Nat) (ds cs : List balanceItem)
    (txs : List Transaction) (h : CentsInv ds cs) (hrun : settleLoop fuel ds cs = some txs) :
    paidBy txs u ≤ -weighted (fun v => if v = u then 1 else 0) ds ∧
      receivedBy txs u ≤ weighted (fun v => if v = u then 1 else 0) cs := by
  induction fuel generalizing ds cs txs with
  | zero =>
    have hD := weighted_indicator_nonpos u ds h.1.1
    have hC := weighted_indicator_nonneg u cs h.1.2
    cases ds with
    | nil =>
      rw [settleLoop_nil_left] at hrun; cases hrun
      rw [paidBy_nil, receivedBy_nil]
      exact ⟨by linarith, hC⟩
    | cons d ds =>
      cases cs with
      | nil =>
        rw [settleLoop_nil_right] at hrun; cases hrun
        rw [paidBy_nil, receivedBy_nil]
        exact ⟨by linarith, hC⟩
      | cons c cs => simp [settleLoop] at hrun
  | succ fuel ih =>
    have hD := weighted_indicator_nonpos u ds h.1.1
    have hC := weighted_indicator_nonneg u cs h.1.2
    cases ds with
    | nil =>
      rw [settleLoop_nil_left] at hrun; cases hrun
      rw [paidBy_nil, receivedBy_nil]
      exact ⟨by linarith, hC⟩
    | cons d ds =>
      cases cs with
      | nil =>
        rw [settleLoop_nil_right] at hrun; cases hrun
        rw [paidBy_nil, receivedBy_nil]
        exact ⟨by linarith, hC⟩
      | cons c cs =>
        rw [settleLoop_succ] at hrun
        cases hrest : settleLoop fuel (debtorsAfter d ds (stepAmount d c))
            (creditorsAfter c cs (stepAmount d c)) with
        | none => rw [hrest] at hrun; simp at hrun
        | some rest =>
          rw [hrest, Option.map_some', Option.some.injEq] at hrun
          obtain ⟨ih1, ih2⟩ := ih _ _ rest (centsInv_step h) hrest
          rw [weighted_debtorsAfter _ h] at ih1
          rw [weighted_creditorsAfter _ h] at ih2
          have hpos : stepAmount d c > 0 := by
            have := stepAmount_ge (h.1.1 d (List.mem_cons_self _ _))
              (h.1.2 c (List.mem_cons_self _ _))
            linarith
          rw [← hrun, paidBy_emitStep d c _ rest u hpos, receivedBy_emitStep d c _ rest u hpos]
          constructor <;> linarith

/-- What the debtor slice holds of a user: the user's balance if it is below -0.01. -/
theorem weighted_indicator_debtorsOf (balances : GoMap) (hnodup : (GoMap.keys balances).Nodup)
    (u : Int) :
    weighted (fun v => if v = u then 1 else 0) (debtorsOf balances) =
      if GoMap.get balances u < -(1 / 100) then GoMap.get balances u else 0 := by
  induction balances with
  | nil => simp [weighted, debtorsOf, GoMap.get_nil]
  | cons p rest ih =>
    obtain ⟨k, v⟩ := p
    simp only [GoMap.keys, List.map_cons, List.nodup_cons] at hnodup
    rw [GoMap.get_cons, debtorsOf_cons]
    by_cases hk : u = k
    · subst hk
      have hD := weighted_indicator_of_not_mem u (debtorsOf rest)
        (fun h => hnodup.1 (debtorsOf_userID_subset h))
      rw [if_pos rfl]
      simp only
      by_cases h1 : v < -(1 / 100)
      · rw [if_pos h1, if_pos h1, weighted_cons, hD]
        simp
      · rw [if_neg h1, if_neg h1, hD]
    · rw [if_neg hk, ← ih hnodup.2]
      simp only
      split
      · rw [weighted_cons, if_neg (fun h => hk h.symm)]
        ring
      · rfl

/-- What the creditor slice holds of a user: the user's balance if it is above 0.01. -/
theorem weighted_indicator_creditorsOf (balances : GoMap)
    (hnodup : (GoMap.keys balances).Nodup) (u : Int) :
    weighted (fun v => if v = u then 1 else 0) (creditorsOf balances) =
      if GoMap.get balances u > 1 / 100 then GoMap.get balances u else 0 := by
  induction balances with
  | nil => simp [weighted, creditorsOf, GoMap.get_nil]
  | cons p rest ih =>
    obtain ⟨k, v⟩ := p
    simp only [GoMap.keys, List.map_cons, List.nodup_cons] at hnodup
    rw [GoMap.get_cons, creditorsOf_cons]
    by_cases hk : u = k
    · subst hk
      have hC := weighted_indicator_of_not_mem u (creditorsOf rest)
        (fun h => hnodup.1 (creditorsOf_userID_subset h))
      rw [if_pos rfl]
      simp only
      by_cases h1 : v > 1 / 100
      · rw [if_pos h1, if_pos h1, weighted_cons, hC]
        simp
      · rw [if_neg h1, if_neg h1, hC]
    · rw [if_neg hk, ← ih hnodup.2]
      simp only
      split
      · rw [weighted_cons, if_neg (fun h => hk h.symm)]
        ring
      · rfl

/-! ## Rounding to binary64: the error and the range -/

theorem log2Fuel_spec (fuel n : Nat) (hn : 0 < n) (hf : n ≤ fuel) :
    2 ^ log2Fuel fuel n ≤ n ∧ n < 2 ^ (log2Fuel fuel n + 1) := by
  induction fuel generalizing n with
  | zero => omega
  | succ fuel ih =>
    unfold log2Fuel
    by_cases h2 : n < 2
    · rw [if_pos h2]
      constructor
      · simpa using hn
      · simpa using h2
    · rw [if_neg h2]
      obtain ⟨h1, h3⟩ := ih (n / 2) (by omega) (by omega)
      rw [pow_succ, pow_succ (2 : ℕ) (log2Fuel fuel (n / 2) + 1)]
      constructor
      · omega
      · omega

theorem bitLog_spec (n : Nat) (hn : 0 < n) : 2 ^ bitLog n ≤ n ∧ n < 2 ^ (bitLog n + 1) :=
  log2Fuel_spec n n hn (le_refl n)

theorem abs_eq_natAbs_div_den (q : ℚ) : |q| = (q.num.natAbs : ℚ) / (q.den : ℚ) := by
  have h1 : |q| = |(q.num : ℚ)| / |(q.den : ℚ)| := by
    rw [← abs_div, Rat.num_div_den]
  rw [h1, Nat.abs_cast, ← Int.cast_abs, Int.abs_eq_natAbs, Int.cast_natCast]

/-- The binade of a nonzero rational brackets it between two powers of two. -/
theorem binade_spec (q : ℚ) (hq : q ≠ 0) :
    (2 : ℚ) ^ binade q ≤ |q| ∧ |q| < (2 : ℚ) ^ (binade q + 1) := by
  have hn : 0 < q.num.natAbs := Int.natAbs_pos.2 (Rat.num_ne_zero.2 hq)
  have hd : 0 < q.den := q.den_pos
  obtain ⟨hn1, hn2⟩ := bitLog_spec _ hn
  obtain ⟨hd1, hd2⟩ := bitLog_spec _ hd
  have hn1q : (2 : ℚ) ^ bitLog q.num.natAbs ≤ (q.num.natAbs : ℚ) := by exact_mod_cast hn1
  have hn2q : (q.num.natAbs : ℚ) < (2 : ℚ) ^ (bitLog q.num.natAbs + 1) := by exact_mod_cast hn2
  have hd1q : (2 : ℚ) ^ bitLog q.den ≤ (q.den : ℚ) := by exact_mod_cast hd1
  have hd2q : (q.den : ℚ) < (2 : ℚ) ^ (bitLog q.den + 1) := by exact_mod_cast hd2
  have hdpos : (0 : ℚ) < (q.den : ℚ) := by exact_mod_cast hd
  have habs := abs_eq_natAbs_div_den q
  have hpa : (0 : ℚ) < (2 : ℚ) ^ bitLog q.num.natAbs := by positivity
  have hpb : (0 : ℚ) < (2 : ℚ) ^ bitLog q.den := by positivity
  have hz : ∀ k : ℤ, (2 : ℚ) ^ ((bitLog q.num.natAbs : ℤ) - (bitLog q.den : ℤ) + k) =
      (2 : ℚ) ^ bitLog q.num.natAbs / (2 : ℚ) ^ bitLog q.den * (2 : ℚ) ^ k := by
    intro k
    rw [zpow_add₀ (by norm_num : (2 : ℚ) ≠ 0), zpow_sub₀ (by norm_num : (2 : ℚ) ≠ 0),
      zpow_natCast, zpow_natCast]
  have hupper : |q| < (2 : ℚ) ^ ((bitLog q.num.natAbs : ℤ) - (bitLog q.den : ℤ) + 1) := by
    rw [hz 1, habs, div_lt_iff₀ hdpos]
    have : (2 : ℚ) ^ (bitLog q.num.natAbs + 1) =
        (2 : ℚ) ^ bitLog q.num.natAbs / (2 : ℚ) ^ bitLog q.den * (2 : ℚ) ^ (1 : ℤ) *
          (2 : ℚ) ^ bitLog q.den := by
      field_simp
      ring
    calc (q.num.natAbs : ℚ) < (2 : ℚ) ^ (bitLog q.num.natAbs + 1) := hn2q
      _ = (2 : ℚ) ^ bitLog q.num.natAbs / (2 : ℚ) ^ bitLog q.den * (2 : ℚ) ^ (1 : ℤ) *
          (2 : ℚ) ^ bitLog q.den := this
      _ ≤ _ := by
        apply mul_le_mul_of_nonneg_left hd1q
        positivity
  have hlower : (2 : ℚ) ^ ((bitLog q.num.natAbs : ℤ) - (bitLog q.den : ℤ) + (-1)) ≤ |q| := by
    rw [hz (-1), habs, le_div_iff₀ hdpos]
    have h2 : (2 : ℚ) ^ (-1 : ℤ) = 1 / 2 := by norm_num
    rw [h2]
    have h3 : (2 : ℚ) ^ (bitLog q.den + 1) = 2 * (2 : ℚ) ^ bitLog q.den := by
      rw [pow_succ]; ring
    rw [h3] at hd2q
    calc (2 : ℚ) ^ bitLog q.num.natAbs / (2 : ℚ) ^ bitLog q.den * (1 / 2) * (q.den : ℚ)
        ≤ (2 : ℚ) ^ bitLog q.num.natAbs / (2 : ℚ) ^ bitLog q.den * (1 / 2) *
          (2 * (2 : ℚ) ^ bitLog q.den) := by
          apply mul_le_mul_of_nonneg_left hd2q.le
          positivity
      _ = (2 : ℚ) ^ bitLog q.num.natAbs := by field_simp; ring
      _ ≤ _ := hn1q
  unfold binade
  split
  · rename_i h
    exact ⟨h, hupper⟩
  · rename_i h
    refine ⟨?_, ?_⟩
    · rw [sub_eq_add_neg]; exact hlower
    · rw [sub_add_cancel]; exact lt_of_not_le h

theorem abs_roundHalfEven_sub_le (x : ℚ) : |(roundHalfEven x : ℚ) - x| ≤ 1 / 2 := by
  have h1 := Int.floor_le x
  have h2 := Int.lt_floor_add_one x
  unfold roundHalfEven
  rw [abs_le]
  split
  · constructor <;> linarith
  · split
    · push_cast; constructor <;> linarith
    · split
      · constructor <;> linarith
      · push_cast; constructor <;> linarith

theorem roundHalfEven_le (x : ℚ) (N : ℤ) (h : x ≤ N) : roundHalfEven x ≤ N := by
  have h1 := Int.floor_le x
  have hfl : ⌊x⌋ ≤ N := by
    have := Int.floor_mono h
    rwa [Int.floor_intCast] at this
  by_cases heq : ⌊x⌋ = N
  · have hx : x = N := le_antisymm h (by rw [← heq]; exact h1)
    unfold roundHalfEven
    rw [if_pos (by rw [hx, Int.floor_intCast]; norm_num)]
    exact hfl
  · have : ⌊x⌋ + 1 ≤ N := by omega
    unfold roundHalfEven
    split
    · exact hfl
    · split
      · exact this
      · split
        · exact hfl
        · exact this

theorem le_roundHalfEven (x : ℚ) (N : ℤ) (h : (N : ℚ) ≤ x) : N ≤ roundHalfEven x := by
  have hfl : N ≤ ⌊x⌋ := Int.le_floor.2 h
  unfold roundHalfEven
  split
  · exact hfl
  · split
    · omega
    · split
      · exact hfl
      · omega

theorem ulp_pos (q : ℚ) : 0 < ulp q := by
  unfold ulp
  positivity

theorem roundNearest_zero : roundNearest 0 = 0 := by
  unfold roundNearest
  simp [roundHalfEven]

theorem abs_roundNearest_sub_le_ulp (q : ℚ) : |roundNearest q - q| ≤ ulp q / 2 := by
  have hu := ulp_pos q
  have h := abs_roundHalfEven_sub_le (q / ulp q)
  unfold roundNearest
  have : (roundHalfEven (q / ulp q) : ℚ) * ulp q - q =
      ((roundHalfEven (q / ulp q) : ℚ) - q / ulp q) * ulp q := by
    field_simp
  rw [this, abs_mul, abs_of_pos hu]
  calc |(roundHalfEven (q / ulp q) : ℚ) - q / ulp q| * ulp q ≤ 1 / 2 * ulp q :=
        mul_le_mul_of_nonneg_right h hu.le
    _ = ulp q / 2 := by ring

/-- The unit roundoff `2^-53` and half the least subnormal `2^-1075`. -/
theorem abs_roundNearest_sub_le (q : ℚ) :
    |roundNearest q - q| ≤ |q| / 2 ^ (53 : ℕ) + 1 / 2 ^ (1075 : ℕ) := by
  by_cases hq : q = 0
  · subst hq
    rw [roundNearest_zero]
    simp
  · have h := abs_roundNearest_sub_le_ulp q
    obtain ⟨hb, _⟩ := binade_spec q hq
    have hulp : ulp q ≤ |q| / 2 ^ (52 : ℕ) + 1 / 2 ^ (1074 : ℕ) := by
      unfold ulp
      by_cases he : -1022 ≤ binade q
      · rw [max_eq_left he, zpow_sub₀ (by norm_num : (2 : ℚ) ≠ 0)]
        have : (2 : ℚ) ^ (52 : ℤ) = 2 ^ (52 : ℕ) := by norm_cast
        rw [this]
        have h1 : (2 : ℚ) ^ binade q / 2 ^ (52 : ℕ) ≤ |q| / 2 ^ (52 : ℕ) :=
          div_le_div_of_nonneg_right hb (by positivity)
        have h2 : (0 : ℚ) ≤ 1 / 2 ^ (1074 : ℕ) := by positivity
        linarith
      · rw [max_eq_right (by omega)]
        have : (2 : ℚ) ^ ((-1022 : ℤ) - 52) = 1 / 2 ^ (1074 : ℕ) := by
          rw [show ((-1022 : ℤ) - 52) = -((1074 : ℕ) : ℤ) by norm_num, zpow_neg, zpow_natCast]
          simp
        rw [this]
        have : (0 : ℚ) ≤ |q| / 2 ^ (52 : ℕ) := by positivity
        linarith
    have e1 : |q| / 2 ^ (53 : ℕ) = |q| / 2 ^ (52 : ℕ) / 2 := by
      rw [pow_succ]; field_simp
    have e2 : (1 : ℚ) / 2 ^ (1075 : ℕ) = 1 / 2 ^ (1074 : ℕ) / 2 := by
      rw [pow_succ]; field_simp
    rw [e1, e2]
    linarith

theorem abs_roundNearest_le_mul_ulp (q : ℚ) (N : ℤ) (h : |q| ≤ (N : ℚ) * ulp q) :
    |roundNearest q| ≤ (N : ℚ) * ulp q := by
  have hu := ulp_pos q
  have hx : |q / ulp q| ≤ (N : ℚ) := by
    rw [abs_div, abs_of_pos hu, div_le_iff₀ hu]
    exact h
  rw [abs_le] at hx
  have h1 : roundHalfEven (q / ulp q) ≤ N := roundHalfEven_le _ _ hx.2
  have h2 : -N ≤ roundHalfEven (q / ulp q) :=
    le_roundHalfEven _ _ (by push_cast; exact hx.1)
  have h3 : |(roundHalfEven (q / ulp q) : ℚ)| ≤ (N : ℚ) := by
    rw [abs_le]
    constructor
    · exact_mod_cast h2
    · exact_mod_cast h1
  unfold roundNearest
  rw [abs_mul, abs_of_pos hu]
  exact mul_le_mul_of_nonneg_right h3 hu.le

/-- Rounding does not leave an interval whose ends are powers of two. -/
theorem abs_roundNearest_le_zpow (q : ℚ) (k : ℤ) (hk : -1022 ≤ k) (h : |q| ≤ (2 : ℚ) ^ k) :
    |roundNearest q| ≤ (2 : ℚ) ^ k := by
  by_cases hq : q = 0
  · subst hq
    rw [roundNearest_zero, abs_zero]
    positivity
  · obtain ⟨hb1, hb2⟩ := binade_spec q hq
    have two_ne : (2 : ℚ) ≠ 0 := by norm_num
    by_cases hcase : max (binade q) (-1022) + 1 ≤ k
    · have hulp : ((2 ^ (53 : ℕ) : ℤ) : ℚ) * ulp q = (2 : ℚ) ^ (max (binade q) (-1022) + 1) := by
        unfold ulp
        push_cast
        rw [show (9007199254740992 : ℚ) = (2 : ℚ) ^ (53 : ℤ) by norm_num, ← zpow_add₀ two_ne]
        congr 1
        ring
      have hle : |q| ≤ ((2 ^ (53 : ℕ) : ℤ) : ℚ) * ulp q := by
        rw [hulp]
        refine hb2.le.trans ?_
        exact zpow_le_zpow_right₀ (by norm_num) (by
          have := le_max_left (binade q) (-1022); omega)
      refine (abs_roundNearest_le_mul_ulp q _ hle).trans ?_
      rw [hulp]
      exact zpow_le_zpow_right₀ (by norm_num) hcase
    · have hbk : binade q ≤ k := by
        have := hb1.trans h
        exact (zpow_le_zpow_iff_right₀ (by norm_num : (1 : ℚ) < 2)).1 this
      have hek : max (binade q) (-1022) = k := by
        have := max_le hbk hk
        omega
      have hulp : ((2 ^ (52 : ℕ) : ℤ) : ℚ) * ulp q = (2 : ℚ) ^ k := by
        unfold ulp
        rw [hek]
        push_cast
        rw [show (4503599627370496 : ℚ) = (2 : ℚ) ^ (52 : ℤ) by norm_num, ← zpow_add₀ two_ne]
        congr 1
        ring
      have := abs_roundNearest_le_mul_ulp q (2 ^ (52 : ℕ)) (by rw [hulp]; exact h)
      rwa [hulp] at this

/-- No overflow: the result of an operation whose exact result is at most `2^1023` in
magnitude is finite. -/
theorem F64.ofRat_eq_fin (q : ℚ) (h : |q| ≤ (2 : ℚ) ^ (1023 : ℕ)) :
    F64.ofRat q = F64.fin (roundNearest q) := by
  have h1 := abs_roundNearest_le_zpow q 1023 (by norm_num) (by
    rw [show ((1023 : ℤ)) = ((1023 : ℕ) : ℤ) by norm_num, zpow_natCast]; exact h)
  rw [show ((1023 : ℤ)) = ((1023 : ℕ) : ℤ) by norm_num, zpow_natCast] at h1
  unfold F64.ofRat
  rw [if_neg]
  intro hc
  have : (2 : ℚ) ^ (1023 : ℕ) < (2 : ℚ) ^ (1024 : ℕ) := by
    rw [pow_succ]
    have : (0 : ℚ) < 2 ^ (1023 : ℕ) := by positivity
    linarith
  linarith

/-- The same for a bound given as a natural power of two. -/
theorem abs_roundNearest_le_pow (q : ℚ) (k : ℕ) (h : |q| ≤ (2 : ℚ) ^ k) :
    |roundNearest q| ≤ (2 : ℚ) ^ k := by
  have := abs_roundNearest_le_zpow q k (by omega) (by rw [zpow_natCast]; exact h)
  rwa [zpow_natCast] at this

/-! ## One step of the matching loop on binary64 -/

namespace Binary64

theorem centValue_eq : centValue = 5764607523034235 / 576460752303423488 := by
  unfold centValue
  decide!

theorem cent_eq : F64.cent = F64.fin centValue := by
  unfold F64.cent centValue
  decide!

theorem mul_fin (a b : ℚ) : F64.mul (F64.fin a) (F64.fin b) = F64.ofRat (a * b) := rfl

theorem add_fin (a b : ℚ) : F64.add (F64.fin a) (F64.fin b) = F64.ofRat (a + b) := rfl

theorem sub_fin (a b : ℚ) : F64.sub (F64.fin a) (F64.fin b) = F64.ofRat (a - b) := by
  unfold F64.sub F64.neg
  rw [add_fin, sub_eq_add_neg]

theorem div_fin (a b : ℚ) (hb : b ≠ 0) : F64.div (F64.fin a) (F64.fin b) = F64.ofRat (a / b) := by
  show (if b = 0 then (if a = 0 then F64.nan else F64.inf (decide (a < 0)))
    else F64.ofRat (a / b)) = _
  rw [if_neg hb]

theorem abs_fin (a : ℚ) : F64.abs (F64.fin a) = F64.fin |a| := rfl

theorem round_fin (a : ℚ) : F64.round (F64.fin a) = F64.fin (mathRound a) := rfl

theorem lt_fin (a b : ℚ) : F64.lt (F64.fin a) (F64.fin b) = decide (a < b) := rfl

theorem min_fin (a b : ℚ) : F64.min (F64.fin a) (F64.fin b) = F64.fin (min a b) := by
  unfold F64.min
  simp only [lt_fin]
  by_cases h : a < b
  · simp [h, min_eq_left h.le]
  · simp [h, min_eq_right (not_lt.1 h)]

theorem magnitudeBound_le : magnitudeBound * 100 ≤ (2 : ℚ) ^ (1023 : ℕ) := by
  unfold magnitudeBound
  have h1 : (100 : ℚ) ≤ 2 ^ (7 : ℕ) := by norm_num
  have h2 : (2 : ℚ) ^ (40 : ℕ) * 2 ^ (7 : ℕ) ≤ 2 ^ (1023 : ℕ) := by
    rw [← pow_add]
    exact pow_le_pow_right₀ (by norm_num) (by norm_num)
  have h3 : (0 : ℚ) ≤ 2 ^ (40 : ℕ) := by positivity
  nlinarith

/-- The rounding error of an operation on amounts of magnitude at most `2^41`. -/
theorem abs_roundNearest_sub_le_of_le (q : ℚ) (h : |q| ≤ 2 ^ (47 : ℕ)) :
    |roundNearest q - q| ≤ 1 / 2 ^ (5 : ℕ) := by
  have h1 := abs_roundNearest_sub_le q
  have h2 : |q| / 2 ^ (53 : ℕ) ≤ 2 ^ (47 : ℕ) / 2 ^ (53 : ℕ) :=
    div_le_div_of_nonneg_right h (by positivity)
  have h3 : (1 : ℚ) / 2 ^ (1075 : ℕ) ≤ 1 / 2 ^ (53 : ℕ) :=
    one_div_le_one_div_of_le (by positivity) (pow_le_pow_right₀ (by norm_num) (by norm_num))
  have h4 : (2 : ℚ) ^ (47 : ℕ) / 2 ^ (53 : ℕ) + 1 / 2 ^ (53 : ℕ) ≤ 1 / 2 ^ (5 : ℕ) := by
    norm_num
  linarith

theorem abs_roundNearest_sub_le_small (q : ℚ) (h : |q| ≤ 2 ^ (41 : ℕ)) :
    |roundNearest q - q| ≤ 1 / 2 ^ (11 : ℕ) := by
  have h1 := abs_roundNearest_sub_le q
  have h2 : |q| / 2 ^ (53 : ℕ) ≤ 2 ^ (41 : ℕ) / 2 ^ (53 : ℕ) :=
    div_le_div_of_nonneg_right h (by positivity)
  have h3 : (1 : ℚ) / 2 ^ (1075 : ℕ) ≤ 1 / 2 ^ (53 : ℕ) :=
    one_div_le_one_div_of_le (by positivity) (pow_le_pow_right₀ (by norm_num) (by norm_num))
  have h4 : (2 : ℚ) ^ (41 : ℕ) / 2 ^ (53 : ℕ) + 1 / 2 ^ (53 : ℕ) ≤ 1 / 2 ^ (11 : ℕ) := by
    norm_num
  linarith

/-- On a finite amount of magnitude at most `2^40` the expression
`math.Round(x*100) / 100` does not overflow. -/
theorem round2_fin (x : ℚ) (h : |x| ≤ magnitudeBound) :
    F64.round2 (F64.fin x) = F64.fin (round2Value x) := by
  have hB := magnitudeBound_le
  have h100 : |x * 100| ≤ (2 : ℚ) ^ (47 : ℕ) := by
    rw [abs_mul]
    unfold magnitudeBound at h
    have : |(100 : ℚ)| ≤ 2 ^ (7 : ℕ) := by norm_num [abs_of_pos]
    calc |x| * |(100 : ℚ)| ≤ 2 ^ (40 : ℕ) * 2 ^ (7 : ℕ) :=
          mul_le_mul h this (abs_nonneg _) (by positivity)
      _ = 2 ^ (47 : ℕ) := by rw [← pow_add]
  have hbig : (2 : ℚ) ^ (47 : ℕ) ≤ 2 ^ (1023 : ℕ) :=
    pow_le_pow_right₀ (by norm_num) (by norm_num)
  have hx := abs_roundNearest_le_pow _ 47 h100
  have hz := abs_mathRound_sub_le (roundNearest (x * 100))
  have hz1 : |mathRound (roundNearest (x * 100)) / 100| ≤ 2 ^ (47 : ℕ) := by
    rw [abs_div, abs_of_pos (by norm_num : (0 : ℚ) < 100)]
    have : |mathRound (roundNearest (x * 100))| ≤ 2 ^ (47 : ℕ) + 1 / 2 := by
      have := abs_sub_abs_le_abs_sub (mathRound (roundNearest (x * 100)))
        (roundNearest (x * 100))
      linarith
    have h47 : (1 : ℚ) ≤ 2 ^ (47 : ℕ) := one_le_pow₀ (by norm_num)
    rw [div_le_iff₀ (by norm_num)]
    linarith
  unfold F64.round2 F64.hundred
  rw [mul_fin, F64.ofRat_eq_fin _ (h100.trans hbig), round_fin, div_fin _ _ (by norm_num),
    F64.ofRat_eq_fin _ (hz1.trans hbig)]
  rfl

/-- Within the bound, `math.Round(x*100) / 100` is the binary64 number nearest to a
whole number of cents, and that number of cents is within half a cent of `x`, up to
the rounding of the multiplication. -/
theorem round2Value_spec (x : ℚ) (h : |x| ≤ magnitudeBound) :
    ∃ k : ℤ, round2Value x = roundNearest ((k : ℚ) / 100) ∧
      |(k : ℚ) / 100 - x| ≤ 1 / 200 + 1 / 2 ^ (12 : ℕ) ∧
      |round2Value x - x| ≤ 1 / 200 + 1 / 2 ^ (10 : ℕ) := by
  obtain ⟨k, hk⟩ := mathRound_eq_intCast (roundNearest (x * 100))
  have h100 : |x * 100| ≤ (2 : ℚ) ^ (47 : ℕ) := by
    rw [abs_mul]
    unfold magnitudeBound at h
    have : |(100 : ℚ)| ≤ 2 ^ (7 : ℕ) := by norm_num [abs_of_pos]
    calc |x| * |(100 : ℚ)| ≤ 2 ^ (40 : ℕ) * 2 ^ (7 : ℕ) :=
          mul_le_mul h this (abs_nonneg _) (by positivity)
      _ = 2 ^ (47 : ℕ) := by rw [← pow_add]
  have e1 := abs_roundNearest_sub_le (x * 100)
  have e1' : |roundNearest (x * 100) - x * 100| ≤ 1 / 2 ^ (6 : ℕ) + 1 / 2 ^ (1075 : ℕ) := by
    have : |x * 100| / 2 ^ (53 : ℕ) ≤ 2 ^ (47 : ℕ) / 2 ^ (53 : ℕ) :=
      div_le_div_of_nonneg_right h100 (by positivity)
    have h4 : (2 : ℚ) ^ (47 : ℕ) / 2 ^ (53 : ℕ) = 1 / 2 ^ (6 : ℕ) := by norm_num
    linarith
  have e2 := abs_mathRound_sub_le (roundNearest (x * 100))
  rw [hk] at e2
  have htiny : (1 : ℚ) / 2 ^ (1075 : ℕ) ≤ 1 / 2 ^ (53 : ℕ) :=
    one_div_le_one_div_of_le (by positivity) (pow_le_pow_right₀ (by norm_num) (by norm_num))
  have hk100 : |(k : ℚ) / 100 - x| ≤ 1 / 200 + 1 / 2 ^ (12 : ℕ) := by
    have : (k : ℚ) / 100 - x =
        (((k : ℚ) - roundNearest (x * 100)) + (roundNearest (x * 100) - x * 100)) / 100 := by
      ring
    rw [this, abs_div, abs_of_pos (by norm_num : (0 : ℚ) < 100), div_le_iff₀ (by norm_num)]
    have := abs_add ((k : ℚ) - roundNearest (x * 100)) (roundNearest (x * 100) - x * 100)
    have hnum : (1 : ℚ) / 2 + (1 / 2 ^ (6 : ℕ) + 1 / 2 ^ (53 : ℕ)) ≤
        (1 / 200 + 1 / 2 ^ (12 : ℕ)) * 100 := by norm_num
    linarith
  have hkabs : |(k : ℚ) / 100| ≤ 2 ^ (41 : ℕ) := by
    have h1 := abs_sub_abs_le_abs_sub ((k : ℚ) / 100) x
    unfold magnitudeBound at h
    have h41 : (2 : ℚ) ^ (41 : ℕ) = 2 * 2 ^ (40 : ℕ) := by rw [pow_succ]; ring
    have h40 : (1 : ℚ) ≤ 2 ^ (40 : ℕ) := one_le_pow₀ (by norm_num)
    have hsmall : (1 : ℚ) / 200 + 1 / 2 ^ (12 : ℕ) ≤ 1 := by norm_num
    linarith
  have e3 := abs_roundNearest_sub_le_small _ hkabs
  refine ⟨k, ?_, hk100, ?_⟩
  · unfold round2Value
    rw [hk]
  · unfold round2Value
    rw [hk]
    have : roundNearest ((k : ℚ) / 100) - x =
        (roundNearest ((k : ℚ) / 100) - (k : ℚ) / 100) + ((k : ℚ) / 100 - x) := by ring
    rw [this]
    have := abs_add (roundNearest ((k : ℚ) / 100) - (k : ℚ) / 100) ((k : ℚ) / 100 - x)
    have hnum : (1 : ℚ) / 2 ^ (11 : ℕ) + (1 / 200 + 1 / 2 ^ (12 : ℕ)) ≤
        1 / 200 + 1 / 2 ^ (10 : ℕ) := by norm_num
    linarith
end Binary64

namespace Binary64

theorem settleLoop_nil_left_f (fuel : Nat) (cs : List balanceItem) :
    settleLoop fuel [] cs = some [] := by
  cases fuel <;> simp [settleLoop]

theorem settleLoop_nil_right_f (fuel : Nat) (ds : List balanceItem) :
    settleLoop fuel ds [] = some [] := by
  cases fuel <;> cases ds <;> simp [settleLoop]

theorem settleLoop_succ_f (fuel : Nat) (d c : balanceItem) (ds cs : List balanceItem) :
    settleLoop (fuel + 1) (d :: ds) (c :: cs) =
      (settleLoop fuel (debtorsAfter d ds (stepAmount d c))
        (creditorsAfter c cs (stepAmount d c))).map (emitStep d c (stepAmount d c)) := by
  simp [settleLoop]

/-- The loop equation in the form used to evaluate the loop on concrete slices. -/
theorem settleLoop_pos_f (fuel : Nat) (hfuel : 0 < fuel) (d c : balanceItem)
    (ds cs : List balanceItem) :
    settleLoop fuel (d :: ds) (c :: cs) =
      (settleLoop (fuel - 1) (debtorsAfter d ds (stepAmount d c))
        (creditorsAfter c cs (stepAmount d c))).map (emitStep d c (stepAmount d c)) := by
  obtain ⟨k, rfl⟩ : ∃ k, fuel = k + 1 := ⟨fuel - 1, by omega⟩
  rw [settleLoop_succ_f]; rfl

/-- A run that ends within its fuel ends with the same result on more fuel. -/
theorem settleLoop_fuel_mono_f (fuel fuel1 : Nat) (ds cs : List balanceItem)
    (txs : List Transaction) (h : settleLoop fuel ds cs = some txs) (hle : fuel ≤ fuel1) :
    settleLoop fuel1 ds cs = some txs := by
  induction fuel generalizing fuel1 ds cs txs with
  | zero =>
    cases ds with
    | nil => rw [settleLoop_nil_left_f] at h ⊢; exact h
    | cons d ds =>
      cases cs with
      | nil => rw [settleLoop_nil_right_f] at h ⊢; exact h
      | cons c cs => simp [settleLoop] at h
  | succ fuel ih =>
    cases ds with
    | nil => rw [settleLoop_nil_left_f] at h ⊢; exact h
    | cons d ds =>
      cases cs with
      | nil => rw [settleLoop_nil_right_f] at h ⊢; exact h
      | cons c cs =>
        obtain ⟨k, rfl⟩ : ∃ k, fuel1 = k + 1 := ⟨fuel1 - 1, by omega⟩
        rw [settleLoop_succ_f] at h ⊢
        cases hrest : settleLoop fuel (debtorsAfter d ds (stepAmount d c))
            (creditorsAfter c cs (stepAmount d c)) with
        | none => rw [hrest] at h; cases h
        | some rest =>
          rw [hrest] at h
          rw [ih k _ _ rest hrest (by omega)]
          exact h

theorem magnitudeBound_eq : magnitudeBound = 1099511627776 := by
  unfold magnitudeBound; norm_num

/-- What one iteration computes from two heads that meet the invariant. -/
theorem step_spec {d c : balanceItem} {ds cs : List balanceItem}
    (h : LoopInv (d :: ds) (c :: cs)) :
    ∃ vd vc : ℚ, d.Amount = F64.fin vd ∧ c.Amount = F64.fin vc ∧
      -magnitudeBound ≤ vd ∧ vd ≤ -centValue ∧ centValue ≤ vc ∧ vc ≤ magnitudeBound ∧
      stepAmount d c = F64.fin (round2Value (min (-vd) vc)) ∧
      debtorsAfter d ds (stepAmount d c) =
        (if |roundNearest (vd + round2Value (min (-vd) vc))| < centValue then ds
          else ⟨d.UserID, F64.fin (roundNearest (vd + round2Value (min (-vd) vc)))⟩ :: ds) ∧
      creditorsAfter c cs (stepAmount d c) =
        (if roundNearest (vc - round2Value (min (-vd) vc)) < centValue then cs
          else ⟨c.UserID, F64.fin (roundNearest (vc - round2Value (min (-vd) vc)))⟩ :: cs) := by
  obtain ⟨vd, hd, hd1, hd2⟩ := h.1 d (List.mem_cons_self _ _)
  obtain ⟨vc, hc, hc1, hc2⟩ := h.2 c (List.mem_cons_self _ _)
  have hcv := centValue_eq
  have hB := magnitudeBound_eq
  have hm1 : centValue ≤ min (-vd) vc := le_min (by linarith) hc1
  have hm2 : min (-vd) vc ≤ magnitudeBound := (min_le_right _ _).trans hc2
  have hmabs : |min (-vd) vc| ≤ magnitudeBound := by
    rw [abs_of_nonneg (by rw [hcv] at hm1; linarith [hm1])]
    exact hm2
  obtain ⟨k, _, _, hw⟩ := round2Value_spec _ hmabs
  rw [abs_le] at hw
  have hmd : min (-vd) vc ≤ -vd := min_le_left _ _
  have hmc : min (-vd) vc ≤ vc := min_le_right _ _
  have hE : (1 : ℚ) / 200 + 1 / 2 ^ (10 : ℕ) ≤ 6 / 1000 := by norm_num
  have hbig : (2 : ℚ) ^ (41 : ℕ) ≤ 2 ^ (1023 : ℕ) :=
    pow_le_pow_right₀ (by norm_num) (by norm_num)
  have h41 : (2 : ℚ) ^ (41 : ℕ) = 2199023255552 := by norm_num
  have hamt : stepAmount d c = F64.fin (round2Value (min (-vd) vc)) := by
    unfold stepAmount
    rw [hd, hc, abs_fin, min_fin, abs_of_nonpos (by rw [hcv] at hd2; linarith),
      round2_fin _ hmabs]
  have hsumD : |vd + round2Value (min (-vd) vc)| ≤ (2 : ℚ) ^ (41 : ℕ) := by
    rw [abs_le, h41]
    rw [hcv] at hd2 hm1
    rw [hB] at hd1 hm2
    constructor <;> linarith [hw.1, hw.2]
  have hsumC : |vc - round2Value (min (-vd) vc)| ≤ (2 : ℚ) ^ (41 : ℕ) := by
    rw [abs_le, h41]
    rw [hcv] at hc1 hm1
    rw [hB] at hc2 hm2
    constructor <;> linarith [hw.1, hw.2]
  refine ⟨vd, vc, hd, hc, hd1, hd2, hc1, hc2, hamt, ?_, ?_⟩
  · unfold debtorsAfter
    rw [hamt, hd, add_fin, F64.ofRat_eq_fin _ (hsumD.trans hbig), abs_fin, cent_eq, lt_fin]
    simp only [decide_eq_true_eq]
  · unfold creditorsAfter
    rw [hamt, hc, sub_fin, F64.ofRat_eq_fin _ (hsumC.trans hbig), cent_eq, lt_fin]
    simp only [decide_eq_true_eq]

/-- The numbers of one iteration: the amount is positive and within 0.006 of the
smaller of the debt and the credit; the smaller side is left with less than 0.01. -/
theorem step_bounds {vd vc : ℚ} (hd1 : -magnitudeBound ≤ vd) (hd2 : vd ≤ -centValue)
    (hc1 : centValue ≤ vc) (hc2 : vc ≤ magnitudeBound) :
    0 < round2Value (min (-vd) vc) ∧
      |round2Value (min (-vd) vc) - min (-vd) vc| ≤ 1 / 200 + 1 / 2 ^ (10 : ℕ) ∧
      |roundNearest (vd + round2Value (min (-vd) vc))| ≤ magnitudeBound ∧
      roundNearest (vd + round2Value (min (-vd) vc)) < centValue ∧
      |roundNearest (vc - round2Value (min (-vd) vc))| ≤ magnitudeBound ∧
      (-vd ≤ vc → |roundNearest (vd + round2Value (min (-vd) vc))| < centValue) ∧
      (vc ≤ -vd → roundNearest (vc - round2Value (min (-vd) vc)) < centValue) := by
  have hcv := centValue_eq
  have hB := magnitudeBound_eq
  have hm1 : centValue ≤ min (-vd) vc := le_min (by linarith) hc1
  have hm2 : min (-vd) vc ≤ magnitudeBound := (min_le_right _ _).trans hc2
  have hmabs : |min (-vd) vc| ≤ magnitudeBound := by
    rw [abs_of_nonneg (by rw [hcv] at hm1; linarith [hm1])]
    exact hm2
  obtain ⟨k, _, _, hw⟩ := round2Value_spec _ hmabs
  have hw' := abs_le.1 hw
  have hmd : min (-vd) vc ≤ -vd := min_le_left _ _
  have hmc : min (-vd) vc ≤ vc := min_le_right _ _
  have h41 : (2 : ℚ) ^ (41 : ℕ) = 2199023255552 := by norm_num
  have h40 : (2 : ℚ) ^ (40 : ℕ) = 1099511627776 := by norm_num
  have h11 : (1 : ℚ) / 2 ^ (11 : ℕ) = 1 / 2048 := by norm_num
  have h10 : (1 : ℚ) / 2 ^ (10 : ℕ) = 1 / 1024 := by norm_num
  rw [h10] at hw'
  rw [hcv] at hd2 hc1 hm1
  rw [hB] at hd1 hc2 hm2
  have hsumD : |vd + round2Value (min (-vd) vc)| ≤ (2 : ℚ) ^ (40 : ℕ) := by
    rw [abs_le, h40]
    constructor <;> linarith [hw'.1, hw'.2]
  have hsumC : |vc - round2Value (min (-vd) vc)| ≤ (2 : ℚ) ^ (40 : ℕ) := by
    rw [abs_le, h40]
    constructor <;> linarith [hw'.1, hw'.2]
  have hD40 := abs_roundNearest_le_pow _ 40 hsumD
  have hC40 := abs_roundNearest_le_pow _ 40 hsumC
  have eD := abs_le.1 (abs_roundNearest_sub_le_small _ (hsumD.trans (by rw [h40, h41]; norm_num)))
  have eC := abs_le.1 (abs_roundNearest_sub_le_small _ (hsumC.trans (by rw [h40, h41]; norm_num)))
  rw [h11] at eD eC
  rw [hcv, hB]
  rw [h40] at hD40 hC40
  refine ⟨by linarith [hw'.1], hw, hD40, by linarith [hw'.2, eD.2], hC40, ?_, ?_⟩
  · intro hle
    rw [min_eq_left hle] at hw' eD ⊢
    rw [abs_lt]
    constructor <;> linarith [hw'.1, hw'.2, eD.1, eD.2]
  · intro hle
    rw [min_eq_right hle] at hw' eC ⊢
    linarith [hw'.1, hw'.2, eC.1, eC.2]

theorem loopInv_step_f {d c : balanceItem} {ds cs : List balanceItem}
    (h : LoopInv (d :: ds) (c :: cs)) :
    LoopInv (debtorsAfter d ds (stepAmount d c)) (creditorsAfter c cs (stepAmount d c)) := by
  obtain ⟨vd, vc, _, _, hd1, hd2, hc1, hc2, _, hD, hC⟩ := step_spec h
  obtain ⟨_, _, hDB, hDlt, hCB, _, _⟩ := step_bounds hd1 hd2 hc1 hc2
  rw [hD, hC]
  constructor
  · intro x hx
    split at hx
    · exact h.1 x (List.mem_cons_of_mem _ hx)
    · rename_i hkeep
      rcases List.mem_cons.1 hx with rfl | hx1
      · refine ⟨_, rfl, (abs_le.1 hDB).1, ?_⟩
        rw [not_lt] at hkeep
        rcases le_or_lt 0 (roundNearest (vd + round2Value (min (-vd) vc))) with hs | hs
        · rw [abs_of_nonneg hs] at hkeep
          linarith
        · rw [abs_of_neg hs] at hkeep
          linarith
      · exact h.1 x (List.mem_cons_of_mem _ hx1)
  · intro x hx
    split at hx
    · exact h.2 x (List.mem_cons_of_mem _ hx)
    · rename_i hkeep
      rcases List.mem_cons.1 hx with rfl | hx1
      · exact ⟨_, rfl, not_lt.1 hkeep, (abs_le.1 hCB).2⟩
      · exact h.2 x (List.mem_cons_of_mem _ hx1)

theorem step_length_le_f {d c : balanceItem} {ds cs : List balanceItem}
    (h : LoopInv (d :: ds) (c :: cs)) :
    (debtorsAfter d ds (stepAmount d c)).length +
      (creditorsAfter c cs (stepAmount d c)).length ≤ ds.length + cs.length + 1 := by
  obtain ⟨vd, vc, _, _, hd1, hd2, hc1, hc2, _, hD, hC⟩ := step_spec h
  obtain ⟨_, _, _, _, _, hdropD, hdropC⟩ := step_bounds hd1 hd2 hc1 hc2
  rw [hD, hC]
  rcases le_total (-vd) vc with hle | hle
  · rw [if_pos (hdropD hle)]
    split <;> first | omega | (simp only [List.length_cons]; omega)
  · rw [if_pos (hdropC hle)]
    split <;> first | omega | (simp only [List.length_cons]; omega)

theorem emitStep_pos_f (d c : balanceItem) (w : ℚ) (hw : 0 < w) (rest : List Transaction) :
    emitStep d c (F64.fin w) rest = ⟨d.UserID, c.UserID, F64.fin w⟩ :: rest := by
  unfold emitStep
  rw [lt_fin, if_pos (by simpa using hw)]

/-- Under the invariant the loop ends within `len(debtors) + len(creditors) - 1`
iterations and appends one transaction per iteration. -/
theorem settleLoop_total_f (fuel : Nat) (ds cs : List balanceItem) (h : LoopInv ds cs)
    (hfuel : ds.length + cs.length ≤ fuel + 1) :
    ∃ txs, settleLoop fuel ds cs = some txs ∧ txs.length ≤ ds.length + cs.length - 1 := by
  induction fuel generalizing ds cs with
  | zero =>
    cases ds with
    | nil => exact ⟨[], settleLoop_nil_left_f _ _, by simp⟩
    | cons d ds =>
      cases cs with
      | nil => exact ⟨[], settleLoop_nil_right_f _ _, by simp⟩
      | cons c cs => simp at hfuel; omega
  | succ fuel ih =>
    cases ds with
    | nil => exact ⟨[], settleLoop_nil_left_f _ _, by simp⟩
    | cons d ds =>
      cases cs with
      | nil => exact ⟨[], settleLoop_nil_right_f _ _, by simp⟩
      | cons c cs =>
        have hlen := step_length_le_f h
        simp only [List.length_cons] at hfuel
        obtain ⟨rest, hrest, hrlen⟩ := ih _ _ (loopInv_step_f h) (by omega)
        obtain ⟨vd, vc, _, _, hd1, hd2, hc1, hc2, hamt, _, _⟩ := step_spec h
        obtain ⟨hpos, _⟩ := step_bounds hd1 hd2 hc1 hc2
        refine ⟨emitStep d c (stepAmount d c) rest, ?_, ?_⟩
        · rw [settleLoop_succ_f, hrest]; rfl
        · rw [hamt, emitStep_pos_f d c _ hpos]
          simp only [List.length_cons]
          omega

end Binary64

/-! ## Whole cents on binary64 -/

theorem mathRound_eq_of_near (x : ℚ) (a : ℤ) (h : |x - (a : ℚ)| < 1 / 2) :
    mathRound x = (a : ℚ) := by
  rw [abs_lt] at h
  unfold mathRound
  split
  · have hf : ⌊-x + 1 / 2⌋ = -a := by
      rw [Int.floor_eq_iff]; push_cast; constructor <;> linarith [h.1, h.2]
    rw [hf]; push_cast; ring
  · have hf : ⌊x + 1 / 2⌋ = a := by
      rw [Int.floor_eq_iff]; constructor <;> linarith [h.1, h.2]
    rw [hf]

theorem F64.centsOf_fin_of_near (v : ℚ) (k : ℤ) (h : |v - (k : ℚ) / 100| < 1 / 200) :
    F64.centsOf (F64.fin v) = k := by
  rw [abs_lt] at h
  show (if v < 0 then -⌊-(v * 100) + 1 / 2⌋ else ⌊v * 100 + 1 / 2⌋) = k
  split
  · have hf : ⌊-(v * 100) + 1 / 2⌋ = -k := by
      rw [Int.floor_eq_iff]; push_cast; constructor <;> linarith [h.1, h.2]
    rw [hf]; ring
  · rw [Int.floor_eq_iff]; constructor <;> linarith [h.1, h.2]

namespace Binary64

theorem centsBound_eq : (centsBound : ℚ) = 274877906944 := by
  unfold centsBound; norm_num

theorem driftBound_le (j : Nat) (hj : j ≤ 1024) : driftBound j ≤ 1025 / 524288 := by
  unfold driftBound
  have h19 : (2 : ℚ) ^ (19 : ℕ) = 524288 := by norm_num
  rw [h19, div_le_div_iff₀ (by norm_num) (by norm_num)]
  have : (j : ℚ) ≤ 1024 := by exact_mod_cast hj
  linarith

theorem driftBound_succ (j : Nat) : driftBound (j + 1) = driftBound j + 1 / 2 ^ (19 : ℕ) := by
  unfold driftBound
  push_cast
  ring

theorem driftBound_pos (j : Nat) : 0 < driftBound j := by
  unfold driftBound
  positivity

/-- The rounding error of an operation on amounts of magnitude at most `2^33`. -/
theorem abs_roundNearest_sub_le_33 (q : ℚ) (h : |q| ≤ 2 ^ (33 : ℕ)) :
    |roundNearest q - q| ≤ 1 / 2 ^ (20 : ℕ) + 1 / 2 ^ (1075 : ℕ) := by
  have h1 := abs_roundNearest_sub_le q
  have h2 : |q| / 2 ^ (53 : ℕ) ≤ 2 ^ (33 : ℕ) / 2 ^ (53 : ℕ) :=
    div_le_div_of_nonneg_right h (by positivity)
  have h4 : (2 : ℚ) ^ (33 : ℕ) / 2 ^ (53 : ℕ) = 1 / 2 ^ (20 : ℕ) := by norm_num
  linarith

theorem abs_roundNearest_sub_le_32 (q : ℚ) (h : |q| ≤ 2 ^ (32 : ℕ)) :
    |roundNearest q - q| ≤ 1 / 2 ^ (21 : ℕ) + 1 / 2 ^ (1075 : ℕ) := by
  have h1 := abs_roundNearest_sub_le q
  have h2 : |q| / 2 ^ (53 : ℕ) ≤ 2 ^ (32 : ℕ) / 2 ^ (53 : ℕ) :=
    div_le_div_of_nonneg_right h (by positivity)
  have h4 : (2 : ℚ) ^ (32 : ℕ) / 2 ^ (53 : ℕ) = 1 / 2 ^ (21 : ℕ) := by norm_num
  linarith

theorem tiny_le : (1 : ℚ) / 2 ^ (1075 : ℕ) ≤ 1 / 2 ^ (53 : ℕ) :=
  one_div_le_one_div_of_le (by positivity) (pow_le_pow_right₀ (by norm_num) (by norm_num))

/-- The `float64` nearest to a bounded whole number of cents is finite and within
`2^-20` of it. -/
theorem ofCents_spec (n : ℤ) (hn : |n| ≤ centsBound) :
    F64.ofCents n = F64.fin (roundNearest ((n : ℚ) / 100)) ∧
      |roundNearest ((n : ℚ) / 100) - (n : ℚ) / 100| ≤ 1 / 2 ^ (20 : ℕ) := by
  have hq : |(n : ℚ)| ≤ 274877906944 := by
    rw [← centsBound_eq, ← Int.cast_abs]
    exact_mod_cast hn
  have h32 : |(n : ℚ) / 100| ≤ 2 ^ (32 : ℕ) := by
    rw [abs_div, abs_of_pos (by norm_num : (0 : ℚ) < 100), div_le_iff₀ (by norm_num)]
    have : (2 : ℚ) ^ (32 : ℕ) = 4294967296 := by norm_num
    rw [this]
    linarith
  have hbig : (2 : ℚ) ^ (32 : ℕ) ≤ 2 ^ (1023 : ℕ) :=
    pow_le_pow_right₀ (by norm_num) (by norm_num)
  refine ⟨?_, ?_⟩
  · unfold F64.ofCents
    exact F64.ofRat_eq_fin _ (h32.trans hbig)
  · have := abs_roundNearest_sub_le_32 _ h32
    have ht := tiny_le
    have h2 : (1 : ℚ) / 2 ^ (21 : ℕ) + 1 / 2 ^ (53 : ℕ) ≤ 1 / 2 ^ (20 : ℕ) := by norm_num
    linarith

theorem centsOf_ofCents (n : ℤ) (hn : |n| ≤ centsBound) : F64.centsOf (F64.ofCents n) = n := by
  obtain ⟨h1, h2⟩ := ofCents_spec n hn
  rw [h1]
  apply F64.centsOf_fin_of_near
  have : (1 : ℚ) / 2 ^ (20 : ℕ) < 1 / 200 := by norm_num
  linarith

end Binary64

namespace Binary64

/-- One iteration on whole cents: the amount is the `float64` nearest to
`min(-kd, kc)` cents, where `kd` and `kc` are the cents of the two heads, and each
head is left within the next drift bound of its cents less (more) that amount. -/
theorem step_cents {j : Nat} {d c : balanceItem} {ds cs : List balanceItem} (hj : j < 1024)
    (h : CentsInv j (d :: ds) (c :: cs)) :
    ∃ (kd kc : ℤ), -centsBound ≤ kd ∧ kd ≤ -1 ∧ 1 ≤ kc ∧ kc ≤ centsBound ∧
      F64.centsOf d.Amount = kd ∧ F64.centsOf c.Amount = kc ∧
      stepAmount d c = F64.ofCents (min (-kd) kc) ∧
      (debtorsAfter d ds (stepAmount d c) = ds ∨
        ∃ v : ℚ, debtorsAfter d ds (stepAmount d c) = ⟨d.UserID, F64.fin v⟩ :: ds ∧
          |v - ((kd + min (-kd) kc : ℤ) : ℚ) / 100| ≤ driftBound (j + 1)) ∧
      (creditorsAfter c cs (stepAmount d c) = cs ∨
        ∃ v : ℚ, creditorsAfter c cs (stepAmount d c) = ⟨c.UserID, F64.fin v⟩ :: cs ∧
          |v - ((kc - min (-kd) kc : ℤ) : ℚ) / 100| ≤ driftBound (j + 1)) := by
  obtain ⟨hinv, hD, hC⟩ := h
  obtain ⟨vd, vc, hd, hc, hd1, hd2, hc1, hc2, hamt, hDa, hCa⟩ := step_spec hinv
  obtain ⟨vd', kd, hd', hdn, hkd1, hkd2⟩ := hD d (List.mem_cons_self _ _)
  obtain ⟨vc', kc, hc', hcn, hkc1, hkc2⟩ := hC c (List.mem_cons_self _ _)
  rw [hd] at hd'
  rw [hc] at hc'
  cases hd'
  cases hc'
  have hδ := driftBound_le j hj.le
  have hcv := centsBound_eq
  have hcent := centValue_eq
  have hB := magnitudeBound_eq
  rw [hcent] at hd2 hc1
  have hdn' := abs_le.1 hdn
  have hcn' := abs_le.1 hcn
  have hkd1q : -(274877906944 : ℚ) ≤ (kd : ℚ) := by
    rw [← hcv]; exact_mod_cast hkd1
  have hkc2q : (kc : ℚ) ≤ 274877906944 := by
    rw [← hcv]; exact_mod_cast hkc2
  have hkdneg : (kd : ℚ) < 0 := by linarith [hdn'.1]
  have hkcpos : (0 : ℚ) < (kc : ℚ) := by linarith [hcn'.2]
  have hkd : kd ≤ -1 := by
    have : kd < 0 := by exact_mod_cast hkdneg
    omega
  have hkc : 1 ≤ kc := by
    have : 0 < kc := by exact_mod_cast hkcpos
    omega
  have ha1 : 1 ≤ min (-kd) kc := le_min (by omega) hkc
  have ha2 : min (-kd) kc ≤ centsBound := (min_le_right _ _).trans hkc2
  have haabs : |min (-kd) kc| ≤ centsBound := by
    rw [abs_of_nonneg (by omega)]; exact ha2
  have haq : ((min (-kd) kc : ℤ) : ℚ) / 100 = min (-(kd : ℚ) / 100) ((kc : ℚ) / 100) := by
    rw [Int.cast_min, Int.cast_neg]
    rcases le_total (-(kd : ℚ)) (kc : ℚ) with hle | hle
    · rw [min_eq_left hle, min_eq_left (div_le_div_of_nonneg_right hle (by norm_num))]
    · rw [min_eq_right hle, min_eq_right (div_le_div_of_nonneg_right hle (by norm_num))]
  have hm : |min (-vd) vc - ((min (-kd) kc : ℤ) : ℚ) / 100| ≤ driftBound j := by
    rw [haq]
    refine (abs_min_sub_min_le_max _ _ _ _).trans (max_le ?_ hcn)
    have : -vd - -(kd : ℚ) / 100 = -(vd - (kd : ℚ) / 100) := by ring
    rw [this, abs_neg]
    exact hdn
  have hm' := abs_le.1 hm
  have ha1q : (1 : ℚ) ≤ ((min (-kd) kc : ℤ) : ℚ) := by exact_mod_cast ha1
  have ha2q : ((min (-kd) kc : ℤ) : ℚ) ≤ 274877906944 := by
    rw [← hcv]; exact_mod_cast ha2
  -- the multiplication and `math.Round` recover the cents
  have h100 : |min (-vd) vc * 100| ≤ (2 : ℚ) ^ (47 : ℕ) := by
    have h47 : (2 : ℚ) ^ (47 : ℕ) = 140737488355328 := by norm_num
    rw [h47, abs_le]
    constructor <;> linarith [hm'.1, hm'.2]
  have e1 := abs_le.1 (abs_roundNearest_sub_le_of_le _ h100)
  have h5 : (1 : ℚ) / 2 ^ (5 : ℕ) = 1 / 32 := by norm_num
  rw [h5] at e1
  have hround : mathRound (roundNearest (min (-vd) vc * 100)) = ((min (-kd) kc : ℤ) : ℚ) := by
    apply mathRound_eq_of_near
    rw [abs_lt]
    constructor <;> linarith [hm'.1, hm'.2, e1.1, e1.2]
  have hval : round2Value (min (-vd) vc) = roundNearest (((min (-kd) kc : ℤ) : ℚ) / 100) := by
    unfold round2Value
    rw [hround]
  obtain ⟨hofc, _⟩ := ofCents_spec _ haabs
  have h32 : |((min (-kd) kc : ℤ) : ℚ) / 100| ≤ 2 ^ (32 : ℕ) := by
    have : (2 : ℚ) ^ (32 : ℕ) = 4294967296 := by norm_num
    rw [this, abs_of_nonneg (by positivity), div_le_iff₀ (by norm_num)]
    linarith
  have ew := abs_le.1 (abs_roundNearest_sub_le_32 _ h32)
  have ht := tiny_le
  have h21 : (1 : ℚ) / 2 ^ (21 : ℕ) = 1 / 2097152 := by norm_num
  have h20 : (1 : ℚ) / 2 ^ (20 : ℕ) = 1 / 1048576 := by norm_num
  have h53 : (1 : ℚ) / 2 ^ (53 : ℕ) = 1 / 9007199254740992 := by norm_num
  have h33 : (2 : ℚ) ^ (33 : ℕ) = 8589934592 := by norm_num
  rw [h21] at ew
  rw [h53] at ht
  have hdrift : driftBound (j + 1) = driftBound j + 1 / 524288 := by
    rw [driftBound_succ]; norm_num
  have hkdc : F64.centsOf d.Amount = kd := by
    rw [hd]
    exact F64.centsOf_fin_of_near _ _ (lt_of_le_of_lt hdn (by linarith))
  have hkcc : F64.centsOf c.Amount = kc := by
    rw [hc]
    exact F64.centsOf_fin_of_near _ _ (lt_of_le_of_lt hcn (by linarith))
  refine ⟨kd, kc, hkd1, hkd, hkc, hkc2, hkdc, hkcc, ?_, ?_, ?_⟩
  · rw [hamt, hval, hofc]
  · rw [hDa]
    split
    · exact Or.inl rfl
    · refine Or.inr ⟨_, rfl, ?_⟩
      rw [hval]
      have hs : |vd + roundNearest (((min (-kd) kc : ℤ) : ℚ) / 100)| ≤ 2 ^ (33 : ℕ) := by
        rw [h33, abs_le]
        constructor <;> linarith [ew.1, ew.2, hdn'.1, hdn'.2]
      have es := abs_le.1 (abs_roundNearest_sub_le_33 _ hs)
      rw [h20] at es
      rw [hdrift, Int.cast_add, abs_le]
      constructor <;> linarith [ew.1, ew.2, hdn'.1, hdn'.2, es.1, es.2]
  · rw [hCa]
    split
    · exact Or.inl rfl
    · refine Or.inr ⟨_, rfl, ?_⟩
      rw [hval]
      have hs : |vc - roundNearest (((min (-kd) kc : ℤ) : ℚ) / 100)| ≤ 2 ^ (33 : ℕ) := by
        rw [h33, abs_le]
        constructor <;> linarith [ew.1, ew.2, hcn'.1, hcn'.2]
      have es := abs_le.1 (abs_roundNearest_sub_le_33 _ hs)
      rw [h20] at es
      rw [hdrift, Int.cast_sub, abs_le]
      constructor <;> linarith [ew.1, ew.2, hcn'.1, hcn'.2, es.1, es.2]

theorem driftBound_mono (j : Nat) : driftBound j ≤ driftBound (j + 1) := by
  rw [driftBound_succ]
  have : (0 : ℚ) ≤ 1 / 2 ^ (19 : ℕ) := by positivity
  linarith

theorem centsInv_step_f {j : Nat} {d c : balanceItem} {ds cs : List balanceItem} (hj : j < 1024)
    (h : CentsInv j (d :: ds) (c :: cs)) :
    CentsInv (j + 1) (debtorsAfter d ds (stepAmount d c))
      (creditorsAfter c cs (stepAmount d c)) := by
  obtain ⟨kd, kc, hkd1, hkd2, hkc1, hkc2, _, _, _, hDa, hCa⟩ := step_cents hj h
  have hmono := driftBound_mono j
  have htailD : ∀ x ∈ ds, ∃ (v : ℚ) (k : ℤ), x.Amount = F64.fin v ∧
      |v - (k : ℚ) / 100| ≤ driftBound (j + 1) ∧ -centsBound ≤ k ∧ k ≤ 0 := by
    intro x hx
    obtain ⟨v, k, h1, h2, h3, h4⟩ := h.2.1 x (List.mem_cons_of_mem _ hx)
    exact ⟨v, k, h1, h2.trans hmono, h3, h4⟩
  have htailC : ∀ x ∈ cs, ∃ (v : ℚ) (k : ℤ), x.Amount = F64.fin v ∧
      |v - (k : ℚ) / 100| ≤ driftBound (j + 1) ∧ 0 ≤ k ∧ k ≤ centsBound := by
    intro x hx
    obtain ⟨v, k, h1, h2, h3, h4⟩ := h.2.2 x (List.mem_cons_of_mem _ hx)
    exact ⟨v, k, h1, h2.trans hmono, h3, h4⟩
  have ha1 : 1 ≤ min (-kd) kc := le_min (by omega) hkc1
  have ha2 : min (-kd) kc ≤ -kd := min_le_left _ _
  have ha3 : min (-kd) kc ≤ kc := min_le_right _ _
  refine ⟨loopInv_step_f h.1, ?_, ?_⟩
  · rcases hDa with hDa | ⟨v, hDa, hv⟩
    · rw [hDa]; exact htailD
    · rw [hDa]
      intro x hx
      rcases List.mem_cons.1 hx with rfl | hx1
      · exact ⟨v, _, rfl, hv, by omega, by omega⟩
      · exact htailD x hx1
  · rcases hCa with hCa | ⟨v, hCa, hv⟩
    · rw [hCa]; exact htailC
    · rw [hCa]
      intro x hx
      rcases List.mem_cons.1 hx with rfl | hx1
      · exact ⟨v, _, rfl, hv, by omega, by omega⟩
      · exact htailC x hx1

end Binary64

/-! ## The result of a rounding is a binary64 value -/

theorem roundHalfEven_intCast (z : ℤ) : roundHalfEven (z : ℚ) = z := by
  unfold roundHalfEven
  rw [Int.floor_intCast, sub_self, if_pos (by norm_num)]

/-- A whole multiple of its own unit in the last place is not changed by rounding. -/
theorem roundNearest_of_mul_ulp (r : ℚ) (z : ℤ) (h : r = (z : ℚ) * ulp r) :
    roundNearest r = r := by
  have hu := ulp_pos r
  have hdiv : r / ulp r = (z : ℚ) := by
    rw [div_eq_iff hu.ne']
    exact h
  unfold roundNearest
  rw [hdiv, roundHalfEven_intCast]
  exact h.symm

/-- Rounding is idempotent: what `roundNearest` returns is a `float64` value. -/
theorem roundNearest_idem (q : ℚ) : roundNearest (roundNearest q) = roundNearest q := by
  have two_ne : (2 : ℚ) ≠ 0 := by norm_num
  by_cases hr : roundNearest q = 0
  · rw [hr, roundNearest_zero]
  have hq : q ≠ 0 := by
    intro h0
    rw [h0, roundNearest_zero] at hr
    exact hr rfl
  have he : -1022 ≤ max (binade q) (-1022) := le_max_right _ _
  have hqle : |q| ≤ (2 : ℚ) ^ (max (binade q) (-1022) + 1) :=
    (binade_spec q hq).2.le.trans
      (zpow_le_zpow_right₀ (by norm_num) (by have := le_max_left (binade q) (-1022); omega))
  have hrle := abs_roundNearest_le_zpow q _ (by omega) hqle
  obtain ⟨hb1, hb2⟩ := binade_spec _ hr
  have hble : binade (roundNearest q) ≤ max (binade q) (-1022) + 1 :=
    (zpow_le_zpow_iff_right₀ (by norm_num : (1 : ℚ) < 2)).1 (hb1.trans hrle)
  rcases lt_or_le (binade (roundNearest q)) (max (binade q) (-1022) + 1) with hlt | hge
  · -- the result lies in a binade not above that of `q`
    have he' : max (binade (roundNearest q)) (-1022) ≤ max (binade q) (-1022) :=
      max_le (by omega) he
    obtain ⟨n, hn⟩ := Int.eq_ofNat_of_zero_le (sub_nonneg.2 he')
    obtain ⟨m, hm⟩ : ∃ m : ℤ, roundNearest q = (m : ℚ) * ulp q := ⟨_, rfl⟩
    apply roundNearest_of_mul_ulp _ (m * 2 ^ n)
    have hsplit : max (binade q) (-1022) - 52 =
        (n : ℤ) + (max (binade (roundNearest q)) (-1022) - 52) := by omega
    have hu : ulp q = (2 : ℚ) ^ n * ulp (roundNearest q) := by
      unfold ulp
      rw [hsplit, zpow_add₀ two_ne, zpow_natCast]
    calc roundNearest q = (m : ℚ) * ulp q := hm
      _ = (m : ℚ) * ((2 : ℚ) ^ n * ulp (roundNearest q)) := by rw [hu]
      _ = ((m * 2 ^ n : ℤ) : ℚ) * ulp (roundNearest q) := by push_cast; ring
  · -- the result is the power of two that ends the binade of `q`
    have hbeq : binade (roundNearest q) = max (binade q) (-1022) + 1 := le_antisymm hble hge
    have habs : |roundNearest q| = (2 : ℚ) ^ (max (binade q) (-1022) + 1) := by
      refine le_antisymm hrle ?_
      rw [← hbeq]
      exact hb1
    have hu : ulp (roundNearest q) = (2 : ℚ) ^ (max (binade q) (-1022) + 1 - 52) := by
      unfold ulp
      rw [hbeq, max_eq_left (by omega)]
    have hpow : (2 : ℚ) ^ (max (binade q) (-1022) + 1) =
        (2 : ℚ) ^ (52 : ℕ) * (2 : ℚ) ^ (max (binade q) (-1022) + 1 - 52) := by
      rw [← zpow_natCast, ← zpow_add₀ two_ne]
      congr 1
      push_cast
      ring
    rcases le_or_lt 0 (roundNearest q) with hpos | hneg
    · rw [abs_of_nonneg hpos] at habs
      apply roundNearest_of_mul_ulp _ (2 ^ (52 : ℕ))
      rw [hu, habs, hpow]
      norm_num
    · rw [abs_of_neg hneg] at habs
      apply roundNearest_of_mul_ulp _ (-(2 ^ (52 : ℕ)))
      have hval : roundNearest q = -(2 : ℚ) ^ (max (binade q) (-1022) + 1) := by linarith
      rw [hu, hval, hpow]
      norm_num

/-! ## The number of transactions on binary64 -/

namespace Binary64

theorem mem_debtorsOf_f {balances : GoMap} {x : balanceItem} :
    x ∈ debtorsOf balances ↔
      (x.UserID, x.Amount) ∈ balances ∧ F64.lt x.Amount (F64.neg F64.cent) = true := by
  unfold debtorsOf
  simp only [List.mem_map, List.mem_filter]
  constructor
  · rintro ⟨p, ⟨hp, hlt⟩, rfl⟩
    exact ⟨hp, hlt⟩
  · rintro ⟨hp, hlt⟩
    exact ⟨(x.UserID, x.Amount), ⟨hp, hlt⟩, rfl⟩

theorem mem_creditorsOf_f {balances : GoMap} {x : balanceItem} :
    x ∈ creditorsOf balances ↔
      (x.UserID, x.Amount) ∈ balances ∧ F64.lt x.Amount (F64.neg F64.cent) = false ∧
        F64.lt F64.cent x.Amount = true := by
  unfold creditorsOf
  simp only [List.mem_map, List.mem_filter, Bool.and_eq_true, Bool.not_eq_true']
  constructor
  · rintro ⟨p, ⟨hp, h1, h2⟩, rfl⟩
    exact ⟨hp, h1, h2⟩
  · rintro ⟨hp, h1, h2⟩
    exact ⟨(x.UserID, x.Amount), ⟨hp, h1, h2⟩, rfl⟩

theorem length_debtorsOf_add_creditorsOf_le_f (balances : GoMap) :
    (debtorsOf balances).length + (creditorsOf balances).length ≤ balances.length := by
  induction balances with
  | nil => simp [debtorsOf, creditorsOf]
  | cons p rest ih =>
    unfold debtorsOf creditorsOf at ih ⊢
    simp only [List.filter_cons, List.length_map] at ih ⊢
    cases h : F64.lt p.2 (F64.neg F64.cent) <;> cases h2 : F64.lt F64.cent p.2 <;>
      simp <;> omega

theorem loopInv_init_f (S : SliceSort) (balances : GoMap) (hb : Bounded balances) :
    LoopInv (S.sort debtorLess (debtorsOf balances))
      (S.sort creditorLess (creditorsOf balances)) := by
  constructor
  · intro d hd
    obtain ⟨hmem, hlt⟩ := mem_debtorsOf_f.1 ((S.perm _ _).mem_iff.1 hd)
    obtain ⟨v, hv, hvb⟩ := hb _ hmem
    simp only at hv
    rw [hv, cent_eq] at hlt
    unfold F64.neg at hlt
    rw [lt_fin] at hlt
    exact ⟨v, hv, (abs_le.1 hvb).1, (of_decide_eq_true hlt).le⟩
  · intro c hc
    obtain ⟨hmem, _, hlt⟩ := mem_creditorsOf_f.1 ((S.perm _ _).mem_iff.1 hc)
    obtain ⟨v, hv, hvb⟩ := hb _ hmem
    simp only at hv
    rw [hv, cent_eq, lt_fin] at hlt
    exact ⟨v, hv, (of_decide_eq_true hlt).le, (abs_le.1 hvb).2⟩

/-- On a bounded map the loop ends within one iteration per entry, whatever the sort. -/
theorem minimizeDebts_total_f (S : SliceSort) (balances : GoMap) (hb : Bounded balances) :
    ∃ txs, (∀ fuel, balances.length ≤ fuel → minimizeDebts fuel S balances = some txs) ∧
      txs.length ≤ (debtorsOf balances).length + (creditorsOf balances).length - 1 := by
  have hlen := length_debtorsOf_add_creditorsOf_le_f balances
  obtain ⟨txs, hrun, hbound⟩ := settleLoop_total_f balances.length _ _
    (loopInv_init_f S balances hb)
    (by rw [(S.perm _ _).length_eq, (S.perm _ _).length_eq]; omega)
  rw [(S.perm _ _).length_eq, (S.perm _ _).length_eq] at hbound
  exact ⟨txs, fun fuel hfuel => settleLoop_fuel_mono_f _ _ _ _ _ hrun hfuel, hbound⟩

/-- C1, as stated, fails on `float64`: the map `{1: -1000000000000006, 2: 2000000000000000}`
has one debtor and one creditor, and `minimizeDebts` returns 55 transactions. The
product `amount*100` is past `2^53` and is rounded, so the debtor is left with a
remainder that the next iterations pay again. -/
theorem minimizeDebts_exceeds_bound :
    (debtorsOf [(1, F64.fin (-1000000000000006)), (2, F64.fin 2000000000000000)]).length = 1 ∧
    (creditorsOf [(1, F64.fin (-1000000000000006)), (2, F64.fin 2000000000000000)]).length = 1 ∧
    ∃ txs, (∀ fuel, 60 ≤ fuel → minimizeDebts fuel goInsertionSort
        [(1, F64.fin (-1000000000000006)), (2, F64.fin 2000000000000000)] = some txs) ∧
      txs.length = 55 := by
  refine ⟨by decide!, by decide!, ?_⟩
  have hlen : (minimizeDebts 60 goInsertionSort
      [(1, F64.fin (-1000000000000006)), (2, F64.fin 2000000000000000)]).map List.length =
      some 55 := by decide!
  cases hrun : minimizeDebts 60 goInsertionSort
      [(1, F64.fin (-1000000000000006)), (2, F64.fin 2000000000000000)] with
  | none => rw [hrun] at hlen; cases hlen
  | some txs =>
    rw [hrun] at hlen
    refine ⟨txs, fun fuel hfuel => ?_, by simpa using hlen⟩
    exact settleLoop_fuel_mono_f _ _ _ _ _ hrun hfuel

/-- C1, amended: for every balance map whose values are finite and of magnitude at most
`2^40` (about `1.1 * 10^12`), with at least one debtor and at least one creditor,
whatever the iteration order and the sort, `minimizeDebts` on `float64` ends within one
iteration per entry and returns at most (number of debtors) + (number of creditors) - 1
transactions. -/
theorem minimizeDebts_length_le_of_bounded (S : SliceSort) (balances : GoMap)
    (hb : Bounded balances)
    (hd : 0 < (debtorsOf balances).length) (hc : 0 < (creditorsOf balances).length) :
    ∃ txs, (∀ fuel, balances.length ≤ fuel → minimizeDebts fuel S balances = some txs) ∧
      txs.length + 1 ≤ (debtorsOf balances).length + (creditorsOf balances).length := by
  obtain ⟨txs, hrun, hlen⟩ := minimizeDebts_total_f S balances hb
  exact ⟨txs, hrun, by omega⟩

/-- Witness of the amended C1 on the balances `{1: -0.12, 2: -0.09, 3: 0.21}`. -/
theorem minimizeDebts_length_le_of_bounded_witness :
    (Bounded [(1, F64.ofRat (-(12 / 100))), (2, F64.ofRat (-(9 / 100))),
        (3, F64.ofRat (21 / 100))] ∧
      0 < (debtorsOf [(1, F64.ofRat (-(12 / 100))), (2, F64.ofRat (-(9 / 100))),
        (3, F64.ofRat (21 / 100))]).length ∧
      0 < (creditorsOf [(1, F64.ofRat (-(12 / 100))), (2, F64.ofRat (-(9 / 100))),
        (3, F64.ofRat (21 / 100))]).length) ∧
    ∃ txs, (∀ fuel, ([(1, F64.ofRat (-(12 / 100))), (2, F64.ofRat (-(9 / 100))),
          (3, F64.ofRat (21 / 100))] : GoMap).length ≤ fuel →
        minimizeDebts fuel goInsertionSort [(1, F64.ofRat (-(12 / 100))),
          (2, F64.ofRat (-(9 / 100))), (3, F64.ofRat (21 / 100))] = some txs) ∧
      txs.length + 1 ≤
        (debtorsOf [(1, F64.ofRat (-(12 / 100))), (2, F64.ofRat (-(9 / 100))),
          (3, F64.ofRat (21 / 100))]).length +
        (creditorsOf [(1, F64.ofRat (-(12 / 100))), (2, F64.ofRat (-(9 / 100))),
          (3, F64.ofRat (21 / 100))]).length :=
  have hb : Bounded [(1, F64.ofRat (-(12 / 100))), (2, F64.ofRat (-(9 / 100))),
      (3, F64.ofRat (21 / 100))] := by
    intro p hp
    simp only [List.mem_cons, List.mem_singleton, List.not_mem_nil, or_false] at hp
    rcases hp with rfl | rfl | rfl
    · exact ⟨roundNearest (-(12 / 100)), by decide!, by unfold magnitudeBound; decide!⟩
    · exact ⟨roundNearest (-(9 / 100)), by decide!, by unfold magnitudeBound; decide!⟩
    · exact ⟨roundNearest (21 / 100), by decide!, by unfold magnitudeBound; decide!⟩
  ⟨⟨hb, by decide!, by decide!⟩,
    minimizeDebts_length_le_of_bounded goInsertionSort _ hb (by decide!) (by decide!)⟩

end Binary64

/-! ## The amounts emitted on binary64 -/

namespace Binary64

/-- The amount of an iteration under the invariant: the binary64 number nearest to a
whole, positive number of cents that is within half a cent (and the rounding of the
multiplication) of the smaller of the debt and the credit. -/
theorem stepAmount_cents {d c : balanceItem} {ds cs : List balanceItem}
    (h : LoopInv (d :: ds) (c :: cs)) :
    ∃ (vd vc : ℚ) (k : ℤ), d.Amount = F64.fin vd ∧ c.Amount = F64.fin vc ∧ 1 ≤ k ∧
      stepAmount d c = F64.ofRat ((k : ℚ) / 100) ∧
      |(k : ℚ) / 100 - min |vd| vc| ≤ 1 / 200 + 1 / 2 ^ (12 : ℕ) ∧
      emitStep d c (stepAmount d c) = List.cons ⟨d.UserID, c.UserID, stepAmount d c⟩ := by
  obtain ⟨vd, vc, hd, hc, hd1, hd2, hc1, hc2, hamt, _, _⟩ := step_spec h
  obtain ⟨hpos, _⟩ := step_bounds hd1 hd2 hc1 hc2
  have hcv := centValue_eq
  have hB := magnitudeBound_eq
  have hm1 : centValue ≤ min (-vd) vc := le_min (by linarith) hc1
  have hm2 : min (-vd) vc ≤ magnitudeBound := (min_le_right _ _).trans hc2
  have hmabs : |min (-vd) vc| ≤ magnitudeBound := by
    rw [abs_of_nonneg (by rw [hcv] at hm1; linarith [hm1])]
    exact hm2
  obtain ⟨k, hk, hk100, _⟩ := round2Value_spec _ hmabs
  have hk100' := abs_le.1 hk100
  have h12 : (1 : ℚ) / 2 ^ (12 : ℕ) = 1 / 4096 := by norm_num
  rw [h12] at hk100'
  rw [hcv] at hm1
  rw [hB] at hm2
  have hkpos : (0 : ℚ) < (k : ℚ) := by linarith [hk100'.1]
  have hk1 : 1 ≤ k := by exact_mod_cast hkpos
  have hkle : |(k : ℚ) / 100| ≤ (2 : ℚ) ^ (1023 : ℕ) := by
    have hbig : (2 : ℚ) ^ (41 : ℕ) ≤ 2 ^ (1023 : ℕ) :=
      pow_le_pow_right₀ (by norm_num) (by norm_num)
    have h41 : (2 : ℚ) ^ (41 : ℕ) = 2199023255552 := by norm_num
    rw [abs_of_nonneg (by positivity)]
    linarith [hk100'.2]
  refine ⟨vd, vc, k, hd, hc, hk1, ?_, ?_, ?_⟩
  · rw [hamt, hk, F64.ofRat_eq_fin _ hkle]
  · rw [abs_of_nonpos (by rw [hcv] at hd2; linarith : vd ≤ 0)]
    exact hk100
  · funext rest
    rw [hamt, emitStep_pos_f d c _ hpos]

/-- Under the invariant every amount the loop appends is the binary64 number nearest to
a whole, positive number of cents. -/
theorem settleLoop_mem_f (fuel : Nat) (ds cs : List balanceItem) (txs : List Transaction)
    (h : LoopInv ds cs) (hrun : settleLoop fuel ds cs = some txs) :
    ∀ t ∈ txs, ∃ k : ℤ, 1 ≤ k ∧ t.Amount = F64.ofRat ((k : ℚ) / 100) := by
  induction fuel generalizing ds cs txs with
  | zero =>
    cases ds with
    | nil => rw [settleLoop_nil_left_f] at hrun; cases hrun; intro t ht; cases ht
    | cons d ds =>
      cases cs with
      | nil => rw [settleLoop_nil_right_f] at hrun; cases hrun; intro t ht; cases ht
      | cons c cs => simp [settleLoop] at hrun
  | succ fuel ih =>
    cases ds with
    | nil => rw [settleLoop_nil_left_f] at hrun; cases hrun; intro t ht; cases ht
    | cons d ds =>
      cases cs with
      | nil => rw [settleLoop_nil_right_f] at hrun; cases hrun; intro t ht; cases ht
      | cons c cs =>
        rw [settleLoop_succ_f] at hrun
        cases hrest : settleLoop fuel (debtorsAfter d ds (stepAmount d c))
            (creditorsAfter c cs (stepAmount d c)) with
        | none => rw [hrest] at hrun; simp at hrun
        | some rest =>
          rw [hrest, Option.map_some', Option.some.injEq] at hrun
          obtain ⟨vd, vc, k, _, _, hk1, hamt, _, hemit⟩ := stepAmount_cents h
          rw [hemit] at hrun
          intro t ht
          rw [← hrun] at ht
          rcases List.mem_cons.1 ht with rfl | ht1
          · exact ⟨k, hk1, hamt⟩
          · exact ih _ _ rest (loopInv_step_f h) hrest t ht1

/-- C18, as stated, fails on `float64`. On `{1: -1e308, 2: 1e308}` the product
`amount*100` overflows and the one transaction returned carries `+Inf`. On
`{1: -1000000000000006, 2: 2000000000000000}` the first transaction carries
`1000000000000006.125`, an eighth away from the smaller of the debt and the credit,
which is itself a whole number. -/
theorem minimizeDebts_amount_not_rounded :
    minimizeDebts 2 goInsertionSort
        [(1, F64.ofRat (-(10 ^ 308))), (2, F64.ofRat (10 ^ 308))] =
      some [⟨1, 2, F64.inf false⟩] ∧
    (minimizeDebts 60 goInsertionSort
        [(1, F64.fin (-1000000000000006)), (2, F64.fin 2000000000000000)]).map List.head? =
      some (some ⟨1, 2, F64.fin (8000000000000049 / 8)⟩) ∧
    |(8000000000000049 / 8 : ℚ) - min |(-1000000000000006 : ℚ)| 2000000000000000| = 1 / 8 := by
  refine ⟨by decide!, by decide!, by decide!⟩

/-- C18, amended: for every balance map whose values are finite and of magnitude at
most `2^40`, whatever the iteration order and the sort, `minimizeDebts` on `float64`
returns, and every amount it returns is the `float64` nearest to a whole, positive
number of cents. The slices the loop starts from meet the loop invariant, and every
iteration entered on slices that meet it appends one transaction, from the head debtor
to the head creditor, whose amount is the `float64` nearest to `k/100` for a whole
number `k` within `0.005 + 2^-12` of the smaller of the debt and the credit of the two
heads, and leaves slices that meet the invariant again. -/
theorem minimizeDebts_amounts_cents (S : SliceSort) (balances : GoMap) (hb : Bounded balances) :
    (∃ txs, (∀ fuel, balances.length ≤ fuel → minimizeDebts fuel S balances = some txs) ∧
      ∀ t ∈ txs, ∃ k : ℤ, 1 ≤ k ∧ t.Amount = F64.ofRat ((k : ℚ) / 100)) ∧
    LoopInv (S.sort debtorLess (debtorsOf balances))
      (S.sort creditorLess (creditorsOf balances)) ∧
    ∀ (fuel : Nat) (d c : balanceItem) (ds cs : List balanceItem),
      LoopInv (d :: ds) (c :: cs) →
      settleLoop (fuel + 1) (d :: ds) (c :: cs) =
        (settleLoop fuel (debtorsAfter d ds (stepAmount d c))
          (creditorsAfter c cs (stepAmount d c))).map
            (List.cons ⟨d.UserID, c.UserID, stepAmount d c⟩) ∧
      LoopInv (debtorsAfter d ds (stepAmount d c)) (creditorsAfter c cs (stepAmount d c)) ∧
      ∃ (vd vc : ℚ) (k : ℤ), d.Amount = F64.fin vd ∧ c.Amount = F64.fin vc ∧ 1 ≤ k ∧
        stepAmount d c = F64.ofRat ((k : ℚ) / 100) ∧
        |(k : ℚ) / 100 - min |vd| vc| ≤ 1 / 200 + 1 / 2 ^ (12 : ℕ) := by
  refine ⟨?_, loopInv_init_f S balances hb, ?_⟩
  · obtain ⟨txs, hrun, _⟩ := minimizeDebts_total_f S balances hb
    exact ⟨txs, hrun, settleLoop_mem_f _ _ _ txs (loopInv_init_f S balances hb)
      (hrun balances.length (le_refl _))⟩
  · intro fuel d c ds cs h
    obtain ⟨vd, vc, k, hd, hc, hk1, hamt, hk, hemit⟩ := stepAmount_cents h
    refine ⟨?_, loopInv_step_f h, vd, vc, k, hd, hc, hk1, hamt, hk⟩
    rw [settleLoop_succ_f, hemit]

/-- Witness of the amended C18 on the balances `{1: -1.115, 2: 5}`. -/
theorem minimizeDebts_amounts_cents_witness :
    Bounded [(1, F64.ofRat (-(1115 / 1000))), (2, F64.fin 5)] ∧
    ((∃ txs, (∀ fuel,
        ([(1, F64.ofRat (-(1115 / 1000))), (2, F64.fin 5)] : GoMap).length ≤ fuel →
        minimizeDebts fuel goInsertionSort
          [(1, F64.ofRat (-(1115 / 1000))), (2, F64.fin 5)] = some txs) ∧
      ∀ t ∈ txs, ∃ k : ℤ, 1 ≤ k ∧ t.Amount = F64.ofRat ((k : ℚ) / 100)) ∧
    LoopInv (goInsertionSort.sort debtorLess
        (debtorsOf [(1, F64.ofRat (-(1115 / 1000))), (2, F64.fin 5)]))
      (goInsertionSort.sort creditorLess
        (creditorsOf [(1, F64.ofRat (-(1115 / 1000))), (2, F64.fin 5)])) ∧
    ∀ (fuel : Nat) (d c : balanceItem) (ds cs : List balanceItem),
      LoopInv (d :: ds) (c :: cs) →
      settleLoop (fuel + 1) (d :: ds) (c :: cs) =
        (settleLoop fuel (debtorsAfter d ds (stepAmount d c))
          (creditorsAfter c cs (stepAmount d c))).map
            (List.cons ⟨d.UserID, c.UserID, stepAmount d c⟩) ∧
      LoopInv (debtorsAfter d ds (stepAmount d c)) (creditorsAfter c cs (stepAmount d c)) ∧
      ∃ (vd vc : ℚ) (k : ℤ), d.Amount = F64.fin vd ∧ c.Amount = F64.fin vc ∧ 1 ≤ k ∧
        stepAmount d c = F64.ofRat ((k : ℚ) / 100) ∧
        |(k : ℚ) / 100 - min |vd| vc| ≤ 1 / 200 + 1 / 2 ^ (12 : ℕ)) :=
  have hb : Bounded [(1, F64.ofRat (-(1115 / 1000))), (2, F64.fin 5)] := by
    intro p hp
    simp only [List.mem_cons, List.mem_singleton, List.not_mem_nil, or_false] at hp
    rcases hp with rfl | rfl
    · exact ⟨roundNearest (-(1115 / 1000)), by decide!, by unfold magnitudeBound; decide!⟩
    · exact ⟨5, rfl, by unfold magnitudeBound; decide!⟩
  ⟨hb, minimizeDebts_amounts_cents goInsertionSort _ hb⟩

end Binary64

/-! ## No user is settled beyond the balance, on binary64 -/

namespace Binary64

theorem paidCents_cons (t : Transaction) (rest : List Transaction) (u : Int) :
    paidCents (t :: rest) u =
      (if t.FromUser = u then F64.centsOf t.Amount else 0) + paidCents rest u := by
  unfold paidCents
  rw [List.map_cons, List.sum_cons]

theorem receivedCents_cons (t : Transaction) (rest : List Transaction) (u : Int) :
    receivedCents (t :: rest) u =
      (if t.ToUser = u then F64.centsOf t.Amount else 0) + receivedCents rest u := by
  unfold receivedCents
  rw [List.map_cons, List.sum_cons]

theorem centsHeld_cons (u : Int) (x : balanceItem) (l : List balanceItem) :
    centsHeld u (x :: l) = (if x.UserID = u then F64.centsOf x.Amount else 0) + centsHeld u l := by
  unfold centsHeld
  rw [List.map_cons, List.sum_cons]

theorem centsHeld_nil (u : Int) : centsHeld u [] = 0 := rfl

theorem centsOf_of_centsInv_debtor {j : Nat} {ds cs : List balanceItem} (hj : j ≤ 1024)
    (h : CentsInv j ds cs) : ∀ d ∈ ds, F64.centsOf d.Amount ≤ 0 := by
  intro d hd
  obtain ⟨v, k, hv, hn, _, hk⟩ := h.2.1 d hd
  have hδ := driftBound_le j hj
  rw [hv, F64.centsOf_fin_of_near v k (lt_of_le_of_lt hn (by linarith))]
  exact hk

theorem centsOf_of_centsInv_creditor {j : Nat} {ds cs : List balanceItem} (hj : j ≤ 1024)
    (h : CentsInv j ds cs) : ∀ c ∈ cs, 0 ≤ F64.centsOf c.Amount := by
  intro c hc
  obtain ⟨v, k, hv, hn, hk, _⟩ := h.2.2 c hc
  have hδ := driftBound_le j hj
  rw [hv, F64.centsOf_fin_of_near v k (lt_of_le_of_lt hn (by linarith))]
  exact hk

theorem centsHeld_nonpos (u : Int) (l : List balanceItem)
    (h : ∀ x ∈ l, F64.centsOf x.Amount ≤ 0) : centsHeld u l ≤ 0 := by
  induction l with
  | nil => simp [centsHeld]
  | cons x rest ih =>
    rw [centsHeld_cons]
    have h1 := h x (List.mem_cons_self _ _)
    have h2 := ih (fun y hy => h y (List.mem_cons_of_mem _ hy))
    split <;> omega

theorem centsHeld_nonneg (u : Int) (l : List balanceItem)
    (h : ∀ x ∈ l, 0 ≤ F64.centsOf x.Amount) : 0 ≤ centsHeld u l := by
  induction l with
  | nil => simp [centsHeld]
  | cons x rest ih =>
    rw [centsHeld_cons]
    have h1 := h x (List.mem_cons_self _ _)
    have h2 := ih (fun y hy => h y (List.mem_cons_of_mem _ hy))
    split <;> omega

/-- On whole cents the transactions of the loop take from a user no more cents than the
debtor slice holds of the user, and give a user no more than the creditor slice holds. -/
theorem settleLoop_no_oversettle_f (u : Int) (fuel j : Nat) (ds cs : List balanceItem)
    (txs : List Transaction) (h : CentsInv j ds cs)
    (hJ : j + ds.length + cs.length ≤ 1024)
    (hrun : settleLoop fuel ds cs = some txs) :
    paidCents txs u ≤ -centsHeld u ds ∧ receivedCents txs u ≤ centsHeld u cs ∧
      ∀ t ∈ txs, ∃ k : ℤ, 1 ≤ k ∧ k ≤ centsBound ∧ t.Amount = F64.ofCents k := by
  induction fuel generalizing j ds cs txs with
  | zero =>
    have hD := centsHeld_nonpos u ds (centsOf_of_centsInv_debtor (by omega) h)
    have hC := centsHeld_nonneg u cs (centsOf_of_centsInv_creditor (by omega) h)
    cases ds with
    | nil =>
      rw [settleLoop_nil_left_f] at hrun; cases hrun
      exact ⟨by simp [paidCents, centsHeld], by simpa [receivedCents] using hC,
        fun t ht => by cases ht⟩
    | cons d ds =>
      cases cs with
      | nil =>
        rw [settleLoop_nil_right_f] at hrun; cases hrun
        exact ⟨by simpa [paidCents] using hD, by simp [receivedCents, centsHeld],
          fun t ht => by cases ht⟩
      | cons c cs => simp [settleLoop] at hrun
  | succ fuel ih =>
    have hD := centsHeld_nonpos u ds (centsOf_of_centsInv_debtor (by omega) h)
    have hC := centsHeld_nonneg u cs (centsOf_of_centsInv_creditor (by omega) h)
    cases ds with
    | nil =>
      rw [settleLoop_nil_left_f] at hrun; cases hrun
      exact ⟨by simp [paidCents, centsHeld], by simpa [receivedCents] using hC,
        fun t ht => by cases ht⟩
    | cons d ds =>
      cases cs with
      | nil =>
        rw [settleLoop_nil_right_f] at hrun; cases hrun
        exact ⟨by simpa [paidCents] using hD, by simp [receivedCents, centsHeld],
          fun t ht => by cases ht⟩
      | cons c cs =>
        simp only [List.length_cons] at hJ
        have hj : j < 1024 := by omega
        rw [settleLoop_succ_f] at hrun
        cases hrest : settleLoop fuel (debtorsAfter d ds (stepAmount d c))
            (creditorsAfter c cs (stepAmount d c)) with
        | none => rw [hrest] at hrun; simp at hrun
        | some rest =>
          rw [hrest, Option.map_some', Option.some.injEq] at hrun
          have hlen := step_length_le_f h.1
          obtain ⟨ih1, ih2, ih3⟩ := ih (j + 1) _ _ rest (centsInv_step_f hj h) (by omega) hrest
          obtain ⟨kd, kc, hkd1, hkd2, hkc1, hkc2, hkd, hkc, hamt, hDa, hCa⟩ := step_cents hj h
          obtain ⟨_, _, _, _, _, _, _, _, hemit⟩ := stepAmount_cents h.1
          have ha1 : 1 ≤ min (-kd) kc := le_min (by omega) hkc1
          have ha2 : min (-kd) kc ≤ -kd := min_le_left _ _
          have ha3 : min (-kd) kc ≤ kc := min_le_right _ _
          have hacents : F64.centsOf (stepAmount d c) = min (-kd) kc := by
            rw [hamt]
            exact centsOf_ofCents _ (by rw [abs_of_nonneg (by omega)]; omega)
          have hδ := driftBound_le (j + 1) (by omega)
          rw [hemit] at hrun
          rw [← hrun, paidCents_cons, receivedCents_cons, centsHeld_cons, centsHeld_cons,
            hkd, hkc]
          simp only
          rw [hacents]
          refine ⟨?_, ?_, ?_⟩
          · rcases hDa with hDa | ⟨v, hDa, hv⟩
            · rw [hDa] at ih1
              split <;> omega
            · rw [hDa, centsHeld_cons] at ih1
              simp only at ih1
              rw [F64.centsOf_fin_of_near v _ (lt_of_le_of_lt hv (by linarith))] at ih1
              split at ih1 <;> rename_i hu <;> simp only [hu, if_true, if_false] <;> omega
          · rcases hCa with hCa | ⟨v, hCa, hv⟩
            · rw [hCa] at ih2
              split <;> omega
            · rw [hCa, centsHeld_cons] at ih2
              simp only at ih2
              rw [F64.centsOf_fin_of_near v _ (lt_of_le_of_lt hv (by linarith))] at ih2
              split at ih2 <;> rename_i hu <;> simp only [hu, if_true, if_false] <;> omega
          · intro t ht
            rcases List.mem_cons.1 ht with rfl | ht1
            · exact ⟨_, ha1, by omega, hamt⟩
            · exact ih3 t ht1

end Binary64

namespace Binary64

theorem centsHeld_perm (u : Int) {l1 l2 : List balanceItem} (h : l1.Perm l2) :
    centsHeld u l1 = centsHeld u l2 :=
  (h.map _).sum_eq

theorem centsHeld_of_not_mem (u : Int) (l : List balanceItem)
    (h : u ∉ l.map balanceItem.UserID) : centsHeld u l = 0 := by
  induction l with
  | nil => rfl
  | cons x rest ih =>
    simp only [List.map_cons, List.mem_cons, not_or] at h
    rw [centsHeld_cons, ih h.2, if_neg (fun hx => h.1 hx.symm)]
    rfl

theorem debtorsOf_cons_f (p : Int × F64) (rest : GoMap) :
    debtorsOf (p :: rest) =
      if F64.lt p.2 (F64.neg F64.cent) = true then ⟨p.1, p.2⟩ :: debtorsOf rest
      else debtorsOf rest := by
  unfold debtorsOf
  rw [List.filter_cons]
  split <;> rfl

theorem creditorsOf_cons_f (p : Int × F64) (rest : GoMap) :
    creditorsOf (p :: rest) =
      if (!F64.lt p.2 (F64.neg F64.cent) && F64.lt F64.cent p.2) = true then
        ⟨p.1, p.2⟩ :: creditorsOf rest
      else creditorsOf rest := by
  unfold creditorsOf
  rw [List.filter_cons]
  split <;> rfl

theorem userID_debtorsOf_subset {balances : GoMap} {u : Int}
    (h : u ∈ (debtorsOf balances).map balanceItem.UserID) : u ∈ balances.map Prod.fst := by
  obtain ⟨x, hx, rfl⟩ := List.mem_map.1 h
  exact List.mem_map.2 ⟨_, (mem_debtorsOf_f.1 hx).1, rfl⟩

theorem userID_creditorsOf_subset {balances : GoMap} {u : Int}
    (h : u ∈ (creditorsOf balances).map balanceItem.UserID) : u ∈ balances.map Prod.fst := by
  obtain ⟨x, hx, rfl⟩ := List.mem_map.1 h
  exact List.mem_map.2 ⟨_, (mem_creditorsOf_f.1 hx).1, rfl⟩

/-- What the debtor slice holds of the user of an entry of a map: the cents of the entry
if it is a debtor's, else nothing. -/
theorem centsHeld_debtorsOf (balances : GoMap) (hnodup : (balances.map Prod.fst).Nodup)
    (p : Int × F64) (hp : p ∈ balances) :
    centsHeld p.1 (debtorsOf balances) =
      if F64.lt p.2 (F64.neg F64.cent) = true then F64.centsOf p.2 else 0 := by
  induction balances with
  | nil => cases hp
  | cons q rest ih =>
    rw [List.map_cons, List.nodup_cons] at hnodup
    rw [debtorsOf_cons_f]
    rcases List.mem_cons.1 hp with rfl | hmem
    · have h0 := centsHeld_of_not_mem p.1 (debtorsOf rest)
        (fun h => hnodup.1 (userID_debtorsOf_subset h))
      split
      · rw [centsHeld_cons, h0, if_pos rfl]; simp
      · exact h0
    · have hne : q.1 ≠ p.1 := fun h => hnodup.1 (h ▸ List.mem_map.2 ⟨p, hmem, rfl⟩)
      rw [← ih hnodup.2 hmem]
      split
      · rw [centsHeld_cons, if_neg hne]; simp
      · rfl

theorem centsHeld_creditorsOf (balances : GoMap) (hnodup : (balances.map Prod.fst).Nodup)
    (p : Int × F64) (hp : p ∈ balances) :
    centsHeld p.1 (creditorsOf balances) =
      if (!F64.lt p.2 (F64.neg F64.cent) && F64.lt F64.cent p.2) = true then F64.centsOf p.2
      else 0 := by
  induction balances with
  | nil => cases hp
  | cons q rest ih =>
    rw [List.map_cons, List.nodup_cons] at hnodup
    rw [creditorsOf_cons_f]
    rcases List.mem_cons.1 hp with rfl | hmem
    · have h0 := centsHeld_of_not_mem p.1 (creditorsOf rest)
        (fun h => hnodup.1 (userID_creditorsOf_subset h))
      split
      · rw [centsHeld_cons, h0, if_pos rfl]; simp
      · exact h0
    · have hne : q.1 ≠ p.1 := fun h => hnodup.1 (h ▸ List.mem_map.2 ⟨p, hmem, rfl⟩)
      rw [← ih hnodup.2 hmem]
      split
      · rw [centsHeld_cons, if_neg hne]; simp
      · rfl

theorem bounded_of_wholeCents (balances : GoMap) (h : WholeCents balances) :
    Bounded balances := by
  intro p hp
  obtain ⟨n, hn, hb⟩ := h p hp
  obtain ⟨h1, h2⟩ := ofCents_spec n hb
  refine ⟨_, hn.trans h1, ?_⟩
  have hq : |(n : ℚ)| ≤ 274877906944 := by
    rw [← centsBound_eq, ← Int.cast_abs]
    exact_mod_cast hb
  have h3 := abs_sub_abs_le_abs_sub (roundNearest ((n : ℚ) / 100)) ((n : ℚ) / 100)
  have h4 : |(n : ℚ) / 100| ≤ 274877906944 / 100 := by
    rw [abs_div, abs_of_pos (by norm_num : (0 : ℚ) < 100)]
    exact div_le_div_of_nonneg_right hq (by norm_num)
  have h20 : (1 : ℚ) / 2 ^ (20 : ℕ) = 1 / 1048576 := by norm_num
  rw [magnitudeBound_eq]
  rw [h20] at h2
  linarith

theorem centsInv_init_f (S : SliceSort) (balances : GoMap) (h : WholeCents balances) :
    CentsInv 0 (S.sort debtorLess (debtorsOf balances))
      (S.sort creditorLess (creditorsOf balances)) := by
  have hinv := loopInv_init_f S balances (bounded_of_wholeCents balances h)
  have hcv := centValue_eq
  have h20 : (1 : ℚ) / 2 ^ (20 : ℕ) = 1 / 1048576 := by norm_num
  have hdr : driftBound 0 = 1 / 524288 := by unfold driftBound; norm_num
  refine ⟨hinv, ?_, ?_⟩
  · intro d hd
    obtain ⟨v, hv, _, hv2⟩ := hinv.1 d hd
    obtain ⟨hmem, _⟩ := mem_debtorsOf_f.1 ((S.perm _ _).mem_iff.1 hd)
    obtain ⟨n, hn, hb⟩ := h _ hmem
    obtain ⟨h1, h2⟩ := ofCents_spec n hb
    simp only at hn
    rw [hn, h1] at hv
    cases hv
    have h2' := abs_le.1 h2
    rw [h20] at h2'
    rw [hcv] at hv2
    have hneg : (n : ℚ) < 0 := by linarith [h2'.1]
    refine ⟨_, n, hn.trans h1, ?_, (abs_le.1 hb).1, ?_⟩
    · rw [hdr, abs_le]; constructor <;> linarith [h2'.1, h2'.2]
    · have : n < 0 := by exact_mod_cast hneg
      omega
  · intro c hc
    obtain ⟨v, hv, hv1, _⟩ := hinv.2 c hc
    obtain ⟨hmem, _⟩ := mem_creditorsOf_f.1 ((S.perm _ _).mem_iff.1 hc)
    obtain ⟨n, hn, hb⟩ := h _ hmem
    obtain ⟨h1, h2⟩ := ofCents_spec n hb
    simp only at hn
    rw [hn, h1] at hv
    cases hv
    have h2' := abs_le.1 h2
    rw [h20] at h2'
    rw [hcv] at hv1
    have hpos : (0 : ℚ) < (n : ℚ) := by linarith [h2'.2]
    refine ⟨_, n, hn.trans h1, ?_, ?_, (abs_le.1 hb).2⟩
    · rw [hdr, abs_le]; constructor <;> linarith [h2'.1, h2'.2]
    · have : 0 < n := by exact_mod_cast hpos
      omega

/-- C22, as stated, fails on `float64`: the values of
`{1: -1000000000000006, 2: 2000000000000000}` are whole numbers, and the 55 transactions
`minimizeDebts` returns have user 1 pay 2000000000000000.13 in all, against a debt of
1000000000000006. -/
theorem minimizeDebts_oversettles :
    F64.fin (-1000000000000006) = F64.ofCents (-100000000000000600) ∧
    F64.fin 2000000000000000 = F64.ofCents 200000000000000000 ∧
    ∃ txs, (∀ fuel, 60 ≤ fuel → minimizeDebts fuel goInsertionSort
        [(1, F64.fin (-1000000000000006)), (2, F64.fin 2000000000000000)] = some txs) ∧
      paidCents txs 1 = 200000000000000013 ∧
      ¬ paidCents txs 1 ≤ 100000000000000600 := by
  refine ⟨by decide!, by decide!, ?_⟩
  have hsum : (minimizeDebts 60 goInsertionSort
      [(1, F64.fin (-1000000000000006)), (2, F64.fin 2000000000000000)]).map
        (fun txs => paidCents txs 1) = some 200000000000000013 := by decide!
  cases hrun : minimizeDebts 60 goInsertionSort
      [(1, F64.fin (-1000000000000006)), (2, F64.fin 2000000000000000)] with
  | none => rw [hrun] at hsum; cases hsum
  | some txs =>
    rw [hrun, Option.map_some', Option.some.injEq] at hsum
    refine ⟨txs, fun fuel hfuel => settleLoop_fuel_mono_f _ _ _ _ _ hrun hfuel, hsum, ?_⟩
    rw [hsum]
    decide

/-- C22, amended: for every balance map with distinct keys and at most 1024 entries whose
values are the `float64` nearest to whole numbers of cents of magnitude at most `2^38`
cents, whatever the iteration order and the sort, every amount `minimizeDebts` returns
is the `float64` nearest to a whole, positive number of cents, and, counted in cents,
the amounts a user pays sum to at most the user's debt (to nothing for a user not in
debt) and the amounts a user receives sum to at most the user's credit (to nothing for
a user not in credit). -/
theorem minimizeDebts_no_oversettle_cents (S : SliceSort) (balances : GoMap)
    (hnodup : (balances.map Prod.fst).Nodup) (hcents : WholeCents balances)
    (hlen : balances.length ≤ 1024) :
    ∃ txs, (∀ fuel, balances.length ≤ fuel → minimizeDebts fuel S balances = some txs) ∧
      (∀ t ∈ txs, ∃ k : ℤ, 1 ≤ k ∧ t.Amount = F64.ofCents k ∧ F64.centsOf t.Amount = k) ∧
      ∀ (u : Int) (n : ℤ), (u, F64.ofCents n) ∈ balances → |n| ≤ centsBound →
        paidCents txs u ≤ max 0 (-n) ∧ receivedCents txs u ≤ max 0 n := by
  obtain ⟨txs, hrun, _⟩ := minimizeDebts_total_f S balances (bounded_of_wholeCents _ hcents)
  have hlenDC := length_debtorsOf_add_creditorsOf_le_f balances
  have hall := fun u => settleLoop_no_oversettle_f u balances.length 0 _ _ txs
    (centsInv_init_f S balances hcents)
    (by rw [(S.perm _ _).length_eq, (S.perm _ _).length_eq]; omega)
    (hrun balances.length (le_refl _))
  have h1 := fun u => (hall u).1
  have h2 := fun u => (hall u).2.1
  have h3 := (hall 0).2.2
  refine ⟨txs, hrun, ?_, ?_⟩
  · intro t ht
    obtain ⟨k, hk1, hk2, hk⟩ := h3 t ht
    refine ⟨k, hk1, hk, ?_⟩
    rw [hk]
    exact centsOf_ofCents k (by rw [abs_of_nonneg (by omega)]; exact hk2)
  · intro u n hmem hn
    have hp := h1 u
    have hr := h2 u
    rw [centsHeld_perm u (S.perm _ _),
      centsHeld_debtorsOf balances hnodup (u, F64.ofCents n) hmem] at hp
    rw [centsHeld_perm u (S.perm _ _),
      centsHeld_creditorsOf balances hnodup (u, F64.ofCents n) hmem] at hr
    simp only at hp hr
    rw [centsOf_ofCents n hn] at hp hr
    constructor
    · split at hp
      · exact hp.trans (le_max_right _ _)
      · exact hp.trans (by simp)
    · split at hr
      · exact hr.trans (le_max_right _ _)
      · exact hr.trans (le_max_left _ _)

theorem wholeCents_pair (a b : Int) (m n : ℤ) (hm : |m| ≤ centsBound) (hn : |n| ≤ centsBound) :
    WholeCents [(a, F64.ofCents m), (b, F64.ofCents n)] := by
  intro p hp
  simp only [List.mem_cons, List.mem_singleton, List.not_mem_nil, or_false] at hp
  rcases hp with rfl | rfl
  · exact ⟨m, rfl, hm⟩
  · exact ⟨n, rfl, hn⟩

theorem minimizeDebts_no_oversettle_cents_witness :
    ([(1, F64.ofCents (-1250)), (2, F64.ofCents 1250)] : GoMap).length ≤ 1024 ∧
    ∃ txs, (∀ fuel, 2 ≤ fuel → minimizeDebts fuel goInsertionSort
        [(1, F64.ofCents (-1250)), (2, F64.ofCents 1250)] = some txs) ∧
      (∀ t ∈ txs, ∃ k : ℤ, 1 ≤ k ∧ t.Amount = F64.ofCents k ∧ F64.centsOf t.Amount = k) ∧
      ∀ (u : Int) (n : ℤ),
        (u, F64.ofCents n) ∈ ([(1, F64.ofCents (-1250)), (2, F64.ofCents 1250)] : GoMap) →
        |n| ≤ centsBound →
        paidCents txs u ≤ max 0 (-n) ∧ receivedCents txs u ≤ max 0 n :=
  ⟨by decide, minimizeDebts_no_oversettle_cents goInsertionSort
    [(1, F64.ofCents (-1250)), (2, F64.ofCents 1250)] (by decide)
    (wholeCents_pair 1 2 (-1250) 1250 (by unfold centsBound; norm_num)
      (by unfold centsBound; norm_num))
    (by decide)⟩

end Binary64

/-! ## `GetGroupBalance` on binary64: the net balance -/

namespace Binary64

theorem GoMap.mem_keys_set_f (m : GoMap) (k : Int) (v : F64) (u : Int) :
    u ∈ GoMap.keys (GoMap.set m k v) ↔ u = k ∨ u ∈ GoMap.keys m := by
  induction m with
  | nil => simp [GoMap.set, GoMap.keys]
  | cons p rest ih =>
    obtain ⟨k1, v1⟩ := p
    unfold GoMap.set
    split
    · rename_i h
      subst h
      simp [GoMap.keys]
    · simp only [GoMap.keys, List.map_cons, List.mem_cons] at ih ⊢
      rw [ih]
      tauto

theorem GoMap.get_set_self_f (m : GoMap) (k : Int) (v : F64) :
    GoMap.get (GoMap.set m k v) k = v := by
  induction m with
  | nil => simp [GoMap.set, GoMap.get, List.lookup]
  | cons p rest ih =>
    obtain ⟨k1, v1⟩ := p
    unfold GoMap.set
    split
    · simp [GoMap.get, List.lookup]
    · rename_i hne
      unfold GoMap.get at ih ⊢
      rw [List.lookup_cons, beq_false_of_ne (Ne.symm hne)]
      exact ih

theorem GoMap.get_set_ne_f (m : GoMap) (k : Int) (v : F64) (u : Int) (hne : u ≠ k) :
    GoMap.get (GoMap.set m k v) u = GoMap.get m u := by
  induction m with
  | nil =>
    unfold GoMap.set GoMap.get
    rw [List.lookup_cons, beq_false_of_ne hne]
  | cons p rest ih =>
    obtain ⟨k1, v1⟩ := p
    unfold GoMap.set
    split
    · rename_i heq
      subst heq
      unfold GoMap.get
      rw [List.lookup_cons, List.lookup_cons, beq_false_of_ne hne]
    · unfold GoMap.get at ih ⊢
      rw [List.lookup_cons, List.lookup_cons]
      cases u == k1
      · exact ih
      · rfl

theorem GoMap.get_of_not_mem_f (m : GoMap) (u : Int) (hu : u ∉ GoMap.keys m) :
    GoMap.get m u = F64.fin 0 := by
  induction m with
  | nil => simp [GoMap.get]
  | cons p rest ih =>
    obtain ⟨k, v⟩ := p
    simp only [GoMap.keys, List.map_cons, List.mem_cons, not_or] at hu
    unfold GoMap.get at ih ⊢
    rw [List.lookup_cons, beq_false_of_ne hu.1]
    exact ih hu.2

theorem GoMap.mem_of_get_f (m : GoMap) (u : Int) (hu : u ∈ GoMap.keys m) :
    (u, GoMap.get m u) ∈ m := by
  induction m with
  | nil => simp [GoMap.keys] at hu
  | cons p rest ih =>
    obtain ⟨k, v⟩ := p
    unfold GoMap.get
    rw [List.lookup_cons]
    by_cases h : u = k
    · subst h
      simp
    · rw [beq_false_of_ne h]
      simp only [GoMap.keys, List.map_cons, List.mem_cons] at hu
      exact List.mem_cons_of_mem _ (ih (hu.resolve_left h))

/-- A loop that assigns `f uid` to every `uid` of a list: the keys it leaves. -/
theorem mem_keys_foldl_set_f (f : Int → F64) (users : List Int) (m : GoMap) (u : Int) :
    u ∈ GoMap.keys (users.foldl (fun m uid => GoMap.set m uid (f uid)) m) ↔
      u ∈ users ∨ u ∈ GoMap.keys m := by
  induction users generalizing m with
  | nil => simp
  | cons x rest ih =>
    rw [List.foldl_cons, ih, GoMap.mem_keys_set_f, List.mem_cons]
    tauto

/-- A loop that assigns `f uid` to every `uid` of a list: the values it leaves. -/
theorem get_foldl_set_f (f : Int → F64) (users : List Int) (m : GoMap) (u : Int) :
    GoMap.get (users.foldl (fun m uid => GoMap.set m uid (f uid)) m) u =
      if u ∈ users then f u else GoMap.get m u := by
  induction users generalizing m with
  | nil => simp
  | cons x rest ih =>
    rw [List.foldl_cons, ih]
    by_cases h1 : u ∈ rest
    · rw [if_pos h1, if_pos (List.mem_cons_of_mem _ h1)]
    · rw [if_neg h1]
      by_cases h2 : u = x
      · subst h2
        rw [if_pos (List.mem_cons_self _ _), GoMap.get_set_self_f]
      · rw [if_neg (by simp [h1, h2]), GoMap.get_set_ne_f _ _ _ _ h2]

theorem mem_allUsers_f (paid owed : GoMap) (u : Int) :
    u ∈ allUsers paid owed ↔ u ∈ GoMap.keys paid ∨ u ∈ GoMap.keys owed := by
  unfold allUsers
  rw [mem_foldl_addUser, mem_foldl_addUser]
  simp only [List.not_mem_nil, or_false]
  tauto

theorem mem_keys_netBalances_f (paid owed : GoMap) (u : Int) :
    u ∈ GoMap.keys (netBalances paid owed) ↔ u ∈ GoMap.keys paid ∨ u ∈ GoMap.keys owed := by
  unfold netBalances
  rw [mem_keys_foldl_set_f, mem_allUsers_f]
  simp [GoMap.keys]

theorem get_netBalances_f (paid owed : GoMap) (u : Int)
    (h : u ∈ GoMap.keys paid ∨ u ∈ GoMap.keys owed) :
    GoMap.get (netBalances paid owed) u =
      F64.round2 (F64.sub (GoMap.get paid u) (GoMap.get owed u)) := by
  unfold netBalances
  rw [get_foldl_set_f, if_pos ((mem_allUsers_f paid owed u).2 h)]

/-- On a value within `2^-9` of a whole number of cents, `math.Round(x*100) / 100`
returns the `float64` nearest to that number of cents. -/
theorem round2_of_near_cents (x : ℚ) (k : ℤ) (hk : |k| ≤ centsBound)
    (h : |x - (k : ℚ) / 100| ≤ 1 / 2 ^ (9 : ℕ)) :
    F64.round2 (F64.fin x) = F64.ofCents k := by
  have hq : |(k : ℚ)| ≤ 274877906944 := by
    rw [← centsBound_eq, ← Int.cast_abs]
    exact_mod_cast hk
  have hq' := abs_le.1 hq
  have h' := abs_le.1 h
  have h9 : (1 : ℚ) / 2 ^ (9 : ℕ) = 1 / 512 := by norm_num
  rw [h9] at h'
  have hx : |x| ≤ magnitudeBound := by
    rw [magnitudeBound_eq, abs_le]
    constructor <;> linarith [h'.1, h'.2, hq'.1, hq'.2]
  have h100 : |x * 100| ≤ (2 : ℚ) ^ (47 : ℕ) := by
    have h47 : (2 : ℚ) ^ (47 : ℕ) = 140737488355328 := by norm_num
    rw [h47, abs_le]
    constructor <;> linarith [h'.1, h'.2, hq'.1, hq'.2]
  have e1 := abs_le.1 (abs_roundNearest_sub_le_of_le _ h100)
  have h5 : (1 : ℚ) / 2 ^ (5 : ℕ) = 1 / 32 := by norm_num
  rw [h5] at e1
  have hround : mathRound (roundNearest (x * 100)) = (k : ℚ) := by
    apply mathRound_eq_of_near
    rw [abs_lt]
    constructor <;> linarith [h'.1, h'.2, e1.1, e1.2]
  rw [round2_fin x hx, (ofCents_spec k hk).1]
  unfold round2Value
  rw [hround]

/-- The difference of two totals in whole cents, rounded as `GetGroupBalance` does, is
the `float64` nearest to the difference in cents. -/
theorem round2_sub_ofCents (P O : ℤ) (hP : |P| ≤ 2 ^ (37 : ℕ)) (hO : |O| ≤ 2 ^ (37 : ℕ)) :
    F64.round2 (F64.sub (F64.ofCents P) (F64.ofCents O)) = F64.ofCents (P - O) := by
  have hcb : centsBound = 2 ^ (38 : ℕ) := rfl
  have hP' : |P| ≤ centsBound := by rw [hcb]; exact hP.trans (by norm_num)
  have hO' : |O| ≤ centsBound := by rw [hcb]; exact hO.trans (by norm_num)
  have hPO : |P - O| ≤ centsBound := by
    rw [hcb]
    have := abs_sub P O
    have h2 : (2 : ℤ) ^ (38 : ℕ) = 2 ^ (37 : ℕ) + 2 ^ (37 : ℕ) := by norm_num
    omega
  obtain ⟨hp1, hp2⟩ := ofCents_spec P hP'
  obtain ⟨ho1, ho2⟩ := ofCents_spec O hO'
  have hPq : |(P : ℚ)| ≤ 137438953472 := by
    have : |P| ≤ 137438953472 := by norm_num at hP; exact hP
    rw [← Int.cast_abs]
    exact_mod_cast this
  have hOq : |(O : ℚ)| ≤ 137438953472 := by
    have : |O| ≤ 137438953472 := by norm_num at hO; exact hO
    rw [← Int.cast_abs]
    exact_mod_cast this
  have hPq' := abs_le.1 hPq
  have hOq' := abs_le.1 hOq
  have h20 : (1 : ℚ) / 2 ^ (20 : ℕ) = 1 / 1048576 := by norm_num
  rw [h20] at hp2 ho2
  have hp2' := abs_le.1 hp2
  have ho2' := abs_le.1 ho2
  have h33 : |roundNearest ((P : ℚ) / 100) - roundNearest ((O : ℚ) / 100)| ≤
      2 ^ (33 : ℕ) := by
    have : (2 : ℚ) ^ (33 : ℕ) = 8589934592 := by norm_num
    rw [this, abs_le]
    constructor <;> linarith [hp2'.1, hp2'.2, ho2'.1, ho2'.2, hPq'.1, hPq'.2, hOq'.1, hOq'.2]
  have es := abs_le.1 (abs_roundNearest_sub_le_33 _ h33)
  have ht := tiny_le
  have h53 : (1 : ℚ) / 2 ^ (53 : ℕ) = 1 / 9007199254740992 := by norm_num
  rw [h20] at es
  rw [h53] at ht
  rw [hp1, ho1, sub_fin, F64.ofRat_eq_fin _ (h33.trans
    (pow_le_pow_right₀ (by norm_num) (by norm_num)))]
  apply round2_of_near_cents _ _ hPO
  have h9 : (1 : ℚ) / 2 ^ (9 : ℕ) = 1 / 512 := by norm_num
  rw [h9, Int.cast_sub, abs_le]
  constructor <;> linarith [hp2'.1, hp2'.2, ho2'.1, ho2'.2, es.1, es.2]

/-- The difference of two finite totals of magnitude at most `2^38`, rounded as
`GetGroupBalance` does, is the `float64` nearest to a whole number of cents that is
within `0.005 + 2^-11` of the difference; it is finite, of magnitude at most `2^40`. -/
theorem round2_sub_spec (p o : ℚ) (hp : |p| ≤ 2 ^ (38 : ℕ)) (ho : |o| ≤ 2 ^ (38 : ℕ)) :
    ∃ k : ℤ, F64.round2 (F64.sub (F64.fin p) (F64.fin o)) = F64.ofRat ((k : ℚ) / 100) ∧
      |(k : ℚ) / 100 - (p - o)| ≤ 1 / 200 + 1 / 2 ^ (11 : ℕ) ∧
      F64.ofRat ((k : ℚ) / 100) = F64.fin (roundNearest ((k : ℚ) / 100)) ∧
      |roundNearest ((k : ℚ) / 100)| ≤ magnitudeBound := by
  have h38 : (2 : ℚ) ^ (38 : ℕ) = 274877906944 := by norm_num
  have h39 : (2 : ℚ) ^ (39 : ℕ) = 549755813888 := by norm_num
  have h40 : (2 : ℚ) ^ (40 : ℕ) = 1099511627776 := by norm_num
  rw [h38] at hp ho
  have hp' := abs_le.1 hp
  have ho' := abs_le.1 ho
  have hd : |p - o| ≤ 2 ^ (39 : ℕ) := by
    rw [h39, abs_le]; constructor <;> linarith [hp'.1, hp'.2, ho'.1, ho'.2]
  have hx := abs_roundNearest_le_pow _ 39 hd
  have e0 := abs_roundNearest_sub_le (p - o)
  have ht := tiny_le
  have h53 : (1 : ℚ) / 2 ^ (53 : ℕ) = 1 / 9007199254740992 := by norm_num
  have h53' : (2 : ℚ) ^ (53 : ℕ) = 9007199254740992 := by norm_num
  rw [h53] at ht
  rw [h53'] at e0
  rw [h39] at hd hx
  have e0' : |roundNearest (p - o) - (p - o)| ≤ 1 / 8192 := by
    have : |p - o| / 9007199254740992 ≤ 549755813888 / 9007199254740992 :=
      div_le_div_of_nonneg_right hd (by norm_num)
    have h2 : (549755813888 : ℚ) / 9007199254740992 = 1 / 16384 := by norm_num
    linarith
  have e0'' := abs_le.1 e0'
  have hxB : |roundNearest (p - o)| ≤ magnitudeBound := by
    rw [magnitudeBound_eq]; linarith
  obtain ⟨k, hk1, hk2, _⟩ := round2Value_spec _ hxB
  have h12 : (1 : ℚ) / 2 ^ (12 : ℕ) = 1 / 4096 := by norm_num
  have h11 : (1 : ℚ) / 2 ^ (11 : ℕ) = 1 / 2048 := by norm_num
  rw [h12] at hk2
  have hk2' := abs_le.1 hk2
  have hx' := abs_le.1 hx
  have hkq : |(k : ℚ) / 100| ≤ 2 ^ (40 : ℕ) := by
    rw [h40, abs_le]; constructor <;> linarith [hk2'.1, hk2'.2, hx'.1, hx'.2]
  have hfin := F64.ofRat_eq_fin ((k : ℚ) / 100)
    (hkq.trans (pow_le_pow_right₀ (by norm_num) (by norm_num)))
  refine ⟨k, ?_, ?_, hfin, ?_⟩
  · rw [sub_fin, F64.ofRat_eq_fin _ (by
      rw [← h39] at hd
      exact hd.trans (pow_le_pow_right₀ (by norm_num) (by norm_num))),
      round2_fin _ hxB, hk1, hfin]
  · rw [h11, abs_le]
    constructor <;> linarith [hk2'.1, hk2'.2, e0''.1, e0''.2]
  · unfold magnitudeBound
    exact abs_roundNearest_le_pow _ 40 hkq

theorem GoMap.mem_set_f (m : GoMap) (k : Int) (v : F64) (p : Int × F64)
    (h : p ∈ GoMap.set m k v) : p = (k, v) ∨ p ∈ m := by
  induction m with
  | nil =>
    unfold GoMap.set at h
    exact Or.inl (List.mem_singleton.1 h)
  | cons q rest ih =>
    obtain ⟨k1, v1⟩ := q
    unfold GoMap.set at h
    split at h
    · rcases List.mem_cons.1 h with h1 | h1
      · exact Or.inl h1
      · exact Or.inr (List.mem_cons_of_mem _ h1)
    · rcases List.mem_cons.1 h with h1 | h1
      · exact Or.inr (h1 ▸ List.mem_cons_self _ _)
      · exact (ih h1).imp id (List.mem_cons_of_mem _)

theorem mem_foldl_set_f (f : Int → F64) (users : List Int) (m : GoMap) (p : Int × F64)
    (h : p ∈ users.foldl (fun m uid => GoMap.set m uid (f uid)) m) :
    p ∈ m ∨ ∃ uid ∈ users, p = (uid, f uid) := by
  induction users generalizing m with
  | nil => exact Or.inl h
  | cons x rest ih =>
    rw [List.foldl_cons] at h
    rcases ih _ h with h1 | ⟨uid, huid, hp⟩
    · rcases GoMap.mem_set_f m x (f x) p h1 with h2 | h2
      · exact Or.inr ⟨x, List.mem_cons_self _ _, h2⟩
      · exact Or.inl h2
    · exact Or.inr ⟨uid, List.mem_cons_of_mem _ huid, hp⟩

/-- A total read from a map whose values are finite and bounded is finite and bounded,
the zero of an absent key included. -/
theorem get_bounded (m : GoMap) (hm : ∀ p ∈ m, ∃ v : ℚ, p.2 = F64.fin v ∧ |v| ≤ 2 ^ (38 : ℕ))
    (u : Int) : ∃ v : ℚ, GoMap.get m u = F64.fin v ∧ |v| ≤ 2 ^ (38 : ℕ) := by
  by_cases hu : u ∈ GoMap.keys m
  · exact hm _ (GoMap.mem_of_get_f m u hu)
  · exact ⟨0, GoMap.get_of_not_mem_f m u hu, by rw [abs_zero]; positivity⟩

theorem bounded_netBalances (paid owed : GoMap) (h : TotalsBounded paid owed) :
    Bounded (netBalances paid owed) := by
  intro p hp
  unfold netBalances at hp
  rcases mem_foldl_set_f _ _ _ _ hp with h1 | ⟨uid, _, rfl⟩
  · cases h1
  · obtain ⟨vp, hvp, hbp⟩ := get_bounded paid
      (fun q hq => h q (List.mem_append_left _ hq)) uid
    obtain ⟨vo, hvo, hbo⟩ := get_bounded owed
      (fun q hq => h q (List.mem_append_right _ hq)) uid
    obtain ⟨k, hk1, _, hk3, hk4⟩ := round2_sub_spec vp vo hbp hbo
    refine ⟨_, ?_, hk4⟩
    show F64.round2 (F64.sub (GoMap.get paid uid) (GoMap.get owed uid)) = _
    rw [hvp, hvo, hk1, hk3]

theorem GetGroupBalance_eq_some_f (S : SliceSort) (R : MapRange) (db : Store) (groupID : Int)
    (h : TotalsBounded (paidMap db groupID) (owedMap db groupID)) :
    ∃ txs, ∀ fuel, (netBalances (paidMap db groupID) (owedMap db groupID)).length ≤ fuel →
      GetGroupBalance fuel S R db groupID =
        some ⟨netBalances (paidMap db groupID) (owedMap db groupID), txs⟩ := by
  have hb : Bounded (R.order (netBalances (paidMap db groupID) (owedMap db groupID))) :=
    fun p hp => bounded_netBalances _ _ h p ((R.perm _).mem_iff.1 hp)
  obtain ⟨txs, hrun, _⟩ := minimizeDebts_total_f S _ hb
  refine ⟨txs, fun fuel hfuel => ?_⟩
  unfold GetGroupBalance
  rw [hrun fuel (by rw [(R.perm _).length_eq]; exact hfuel)]
  rfl

/-- C9, as stated, fails on `float64`. A paid total of 0.015, read into the nearest
`float64`, lies below 0.015, so two decimals with halves away from zero give 0.01;
`GetGroupBalance` computes the `float64` of 0.02, because the product by 100 is rounded
to 1.5. A paid total of 0.145 gives the `float64` of 0.14 where the decimal rounds to
0.15, and 1.005 gives 1 where the decimal rounds to 1.01. -/
theorem GetGroupBalance_net_not_half_away :
    GoMap.get (netBalances [(1, F64.ofRat (15 / 1000))] []) 1 = F64.ofRat (2 / 100) ∧
    F64.ofRat (15 / 1000) = F64.fin (roundNearest (15 / 1000)) ∧
    roundNearest (15 / 1000) < 15 / 1000 ∧
    round2 (roundNearest (15 / 1000)) = 1 / 100 ∧
    F64.ofRat (2 / 100) ≠ F64.ofRat (1 / 100) ∧
    GoMap.get (netBalances [(1, F64.ofRat (145 / 1000))] []) 1 = F64.ofRat (14 / 100) ∧
    round2 (145 / 1000) = 15 / 100 ∧
    F64.ofRat (14 / 100) ≠ F64.ofRat (15 / 100) ∧
    GoMap.get (netBalances [(1, F64.ofRat (1005 / 1000))] []) 1 = F64.fin 1 ∧
    round2 (1005 / 1000) = 101 / 100 := by
  refine ⟨by decide!, by decide!, by decide!, by decide!, by decide!, by decide!, by decide!,
    by decide!, by decide!, by decide!⟩

/-- C9, amended: for every pair of per-user paid totals and owed totals, the balance
`GetGroupBalance` computes for each user appearing in either is
`math.Round((paid - owed)*100) / 100` in `float64`, a missing total taken as 0. For
totals of magnitude at most `2^38` this is the `float64` nearest to a whole number of
cents within `0.005 + 2^-11` of `paid - owed`; for totals that are the `float64`
nearest to whole numbers of cents, at most `2^37` cents each, it is the `float64`
nearest to the difference of the two numbers of cents; a net of 0.125 gives the
`float64` of 0.13 and a net of -0.125 that of -0.13. The handler returns this map
whenever the totals it reads are of magnitude at most `2^38`. -/
theorem GetGroupBalance_net_nearest :
    (∀ (S : SliceSort) (R : MapRange) (db : Store) (groupID : Int),
      TotalsBounded (paidMap db groupID) (owedMap db groupID) →
      ∃ txs, ∀ fuel, (netBalances (paidMap db groupID) (owedMap db groupID)).length ≤ fuel →
        GetGroupBalance fuel S R db groupID =
          some ⟨netBalances (paidMap db groupID) (owedMap db groupID), txs⟩) ∧
    (∀ (paid owed : GoMap) (u : Int), u ∈ GoMap.keys paid ∨ u ∈ GoMap.keys owed →
      GoMap.get (netBalances paid owed) u =
        F64.round2 (F64.sub (GoMap.get paid u) (GoMap.get owed u))) ∧
    (∀ (m : GoMap) (u : Int), u ∉ GoMap.keys m → GoMap.get m u = F64.fin 0) ∧
    (∀ p o : ℚ, |p| ≤ 2 ^ (38 : ℕ) → |o| ≤ 2 ^ (38 : ℕ) →
      ∃ k : ℤ, F64.round2 (F64.sub (F64.fin p) (F64.fin o)) = F64.ofRat ((k : ℚ) / 100) ∧
        |(k : ℚ) / 100 - (p - o)| ≤ 1 / 200 + 1 / 2 ^ (11 : ℕ)) ∧
    (∀ P O : ℤ, |P| ≤ 2 ^ (37 : ℕ) → |O| ≤ 2 ^ (37 : ℕ) →
      F64.round2 (F64.sub (F64.ofCents P) (F64.ofCents O)) = F64.ofCents (P - O)) ∧
    F64.round2 (F64.sub (F64.fin (1 / 8)) (F64.fin 0)) = F64.ofRat (13 / 100) ∧
    F64.round2 (F64.sub (F64.fin 0) (F64.fin (1 / 8))) = F64.ofRat (-(13 / 100)) := by
  refine ⟨GetGroupBalance_eq_some_f, get_netBalances_f, GoMap.get_of_not_mem_f, ?_,
    round2_sub_ofCents, by decide!, by decide!⟩
  intro p o hp ho
  obtain ⟨k, hk1, hk2, _⟩ := round2_sub_spec p o hp ho
  exact ⟨k, hk1, hk2⟩

/-- Witness of the amended C9: user 1 paid 10.13 and owes 10, user 2 paid nothing and
owes 0.13. -/
theorem GetGroupBalance_net_nearest_witness :
    ((2 : Int) ∈ GoMap.keys [(1, F64.ofCents 1013)] ∨
      (2 : Int) ∈ GoMap.keys [(1, F64.ofCents 1000), (2, F64.ofCents 13)]) ∧
    GoMap.get (netBalances [(1, F64.ofCents 1013)]
        [(1, F64.ofCents 1000), (2, F64.ofCents 13)]) 2 =
      F64.round2 (F64.sub (GoMap.get [(1, F64.ofCents 1013)] 2)
        (GoMap.get [(1, F64.ofCents 1000), (2, F64.ofCents 13)] 2)) ∧
    (|(0 : ℤ)| ≤ 2 ^ (37 : ℕ) ∧ |(13 : ℤ)| ≤ 2 ^ (37 : ℕ)) ∧
    F64.round2 (F64.sub (F64.ofCents 0) (F64.ofCents 13)) = F64.ofCents (0 - 13) :=
  ⟨Or.inr (by simp [GoMap.keys]),
    GetGroupBalance_net_nearest.2.1 [(1, F64.ofCents 1013)]
      [(1, F64.ofCents 1000), (2, F64.ofCents 13)] 2 (Or.inr (by simp [GoMap.keys])),
    ⟨by norm_num, by norm_num⟩,
    GetGroupBalance_net_nearest.2.2.2.2.1 0 13 (by norm_num) (by norm_num)⟩

end Binary64

/-! ## The validation of `CreateExpense` on binary64 -/

namespace Binary64

/-- The rounding error of an operation on amounts of magnitude at most `2^34`. -/
theorem abs_roundNearest_sub_le_34 (q : ℚ) (h : |q| ≤ 2 ^ (34 : ℕ)) :
    |roundNearest q - q| ≤ 1 / 2 ^ (19 : ℕ) + 1 / 2 ^ (1075 : ℕ) := by
  have h1 := abs_roundNearest_sub_le q
  have h2 : |q| / 2 ^ (53 : ℕ) ≤ 2 ^ (34 : ℕ) / 2 ^ (53 : ℕ) :=
    div_le_div_of_nonneg_right h (by positivity)
  have h4 : (2 : ℚ) ^ (34 : ℕ) / 2 ^ (53 : ℕ) = 1 / 2 ^ (19 : ℕ) := by norm_num
  linarith

/-- The running total of the validation loop over splits in cents: finite, and off the
exact total by at most `2^-18` per split. -/
theorem foldl_add_cents (splits : List Split) (ns : List ℤ) (w : ℚ) (s : ℤ) (j : Nat)
    (hmap : splits.map Split.Amount = ns.map F64.ofCents)
    (hb : ∀ n ∈ ns, |n| < 10000000000)
    (hlen : j + ns.length ≤ 100)
    (hw : |w - (s : ℚ) / 100| ≤ (j : ℚ) / 2 ^ (18 : ℕ))
    (hs : |s| ≤ (j : ℤ) * 10000000000) :
    ∃ v : ℚ, splits.foldl (fun total x => F64.add total x.Amount) (F64.fin w) = F64.fin v ∧
      |v - ((s + ns.sum : ℤ) : ℚ) / 100| ≤ ((j + ns.length : ℕ) : ℚ) / 2 ^ (18 : ℕ) := by
  induction splits generalizing ns w s j with
  | nil =>
    cases ns with
    | nil => exact ⟨w, rfl, by simpa using hw⟩
    | cons n rest => simp at hmap
  | cons x xs ih =>
    cases ns with
    | nil => simp at hmap
    | cons n rest =>
      rw [List.map_cons, List.map_cons, List.cons.injEq] at hmap
      obtain ⟨hx, hrest⟩ := hmap
      have hn := hb n (List.mem_cons_self _ _)
      have hcb : |n| ≤ centsBound := by
        have : centsBound = 274877906944 := by unfold centsBound; norm_num
        omega
      obtain ⟨h1, h2⟩ := ofCents_spec n hcb
      rw [List.length_cons] at hlen
      have hj : (j : ℚ) ≤ 99 := by
        have : j ≤ 99 := by omega
        exact_mod_cast this
      have hj0 : (0 : ℚ) ≤ (j : ℚ) := by positivity
      have hnq : |(n : ℚ)| < 10000000000 := by
        rw [← Int.cast_abs]; exact_mod_cast hn
      have hsq : |(s : ℚ)| ≤ (j : ℚ) * 10000000000 := by
        rw [← Int.cast_abs]; exact_mod_cast hs
      have hnq' := abs_lt.1 hnq
      have hsq' := abs_le.1 hsq
      have hw' := abs_le.1 hw
      have h20 : (1 : ℚ) / 2 ^ (20 : ℕ) = 1 / 1048576 := by norm_num
      have h19 : (1 : ℚ) / 2 ^ (19 : ℕ) = 1 / 524288 := by norm_num
      have h18 : (2 : ℚ) ^ (18 : ℕ) = 262144 := by norm_num
      have h34 : (2 : ℚ) ^ (34 : ℕ) = 17179869184 := by norm_num
      have h53 : (1 : ℚ) / 2 ^ (53 : ℕ) = 1 / 9007199254740992 := by norm_num
      have ht := tiny_le
      rw [h53] at ht
      rw [h20] at h2
      rw [h18] at hw'
      have h2' := abs_le.1 h2
      have hsum : |w + roundNearest ((n : ℚ) / 100)| ≤ 2 ^ (34 : ℕ) := by
        rw [h34, abs_le]
        constructor <;> linarith [h2'.1, h2'.2, hw'.1, hw'.2, hsq'.1, hsq'.2, hnq'.1, hnq'.2]
      have es := abs_le.1 (abs_roundNearest_sub_le_34 _ hsum)
      rw [h19] at es
      have hstep : F64.add (F64.fin w) x.Amount =
          F64.fin (roundNearest (w + roundNearest ((n : ℚ) / 100))) := by
        rw [hx, h1, add_fin, F64.ofRat_eq_fin _ (hsum.trans
          (pow_le_pow_right₀ (by norm_num) (by norm_num)))]
      rw [List.foldl_cons, hstep]
      obtain ⟨v, hv1, hv2⟩ := ih rest (roundNearest (w + roundNearest ((n : ℚ) / 100)))
        (s + n) (j + 1) hrest (fun m hm => hb m (List.mem_cons_of_mem _ hm)) (by omega)
        (by
          rw [h18, Int.cast_add, abs_le]
          push_cast
          constructor <;> linarith [h2'.1, h2'.2, hw'.1, hw'.2, es.1, es.2])
        (by
          have := abs_add s n
          push_cast
          linarith)
      refine ⟨v, hv1, ?_⟩
      have e1 : s + (n :: rest).sum = s + n + rest.sum := by
        rw [List.sum_cons]; ring
      have e2 : j + (rest.length + 1) = j + 1 + rest.length := by ring
      rw [e1, List.length_cons, e2]
      exact hv2

/-- The validation test of `CreateExpense` on a request in cents with at most 100
splits: it fires when the decimals differ by 0.02 or more and does not fire when they
are equal. -/
theorem validation_of_cents (splits : List Split) (amount : F64) (a : ℤ) (ns : List ℤ)
    (hamt : amount = F64.ofCents a) (ha : |a| < 10000000000)
    (hmap : splits.map Split.Amount = ns.map F64.ofCents)
    (hb : ∀ n ∈ ns, |n| < 10000000000) (hlen : ns.length ≤ 100) :
    (2 ≤ |ns.sum - a| →
      F64.lt F64.cent (F64.abs (F64.sub (totalSplit splits) amount)) = true) ∧
    (ns.sum = a →
      F64.lt F64.cent (F64.abs (F64.sub (totalSplit splits) amount)) = false) := by
  obtain ⟨v, hv1, hv2⟩ := foldl_add_cents splits ns 0 0 0 hmap hb (by omega)
    (by simp) (by simp)
  have hcb : |a| ≤ centsBound := by
    have : centsBound = 274877906944 := by unfold centsBound; norm_num
    omega
  obtain ⟨h1, h2⟩ := ofCents_spec a hcb
  have hlenq : ((0 + ns.length : ℕ) : ℚ) ≤ 100 := by
    have : 0 + ns.length ≤ 100 := by omega
    exact_mod_cast this
  have h18 : (2 : ℚ) ^ (18 : ℕ) = 262144 := by norm_num
  have h20 : (1 : ℚ) / 2 ^ (20 : ℕ) = 1 / 1048576 := by norm_num
  have h19 : (1 : ℚ) / 2 ^ (19 : ℕ) = 1 / 524288 := by norm_num
  have h34 : (2 : ℚ) ^ (34 : ℕ) = 17179869184 := by norm_num
  have h53 : (1 : ℚ) / 2 ^ (53 : ℕ) = 1 / 9007199254740992 := by norm_num
  have ht := tiny_le
  rw [h53] at ht
  rw [h18] at hv2
  rw [h20] at h2
  have hv2' : |v - ((0 + ns.sum : ℤ) : ℚ) / 100| ≤ 100 / 262144 :=
    hv2.trans (div_le_div_of_nonneg_right hlenq (by norm_num))
  rw [zero_add] at hv2'
  have hv := abs_le.1 hv2'
  have h2' := abs_le.1 h2
  have haq : |(a : ℚ)| < 10000000000 := by
    rw [← Int.cast_abs]; exact_mod_cast ha
  have haq' := abs_lt.1 haq
  have hsumq : |((ns.sum : ℤ) : ℚ)| ≤ 1000000000000 := by
    have key : ∀ l : List ℤ, (∀ n ∈ l, |n| < 10000000000) →
        |l.sum| ≤ (l.length : ℤ) * 10000000000 := by
      intro l
      induction l with
      | nil => intro _; simp
      | cons n rest ih =>
        intro h
        have h1 := h n (List.mem_cons_self _ _)
        have h2 := ih (fun m hm => h m (List.mem_cons_of_mem _ hm))
        have h3 := abs_add n rest.sum
        rw [List.sum_cons, List.length_cons]
        push_cast
        linarith
    have h3 := key ns hb
    have h4 : (ns.length : ℤ) ≤ 100 := by exact_mod_cast hlen
    have h5 : |ns.sum| ≤ 1000000000000 := by linarith
    rw [← Int.cast_abs]
    exact_mod_cast h5
  have hsumq' := abs_le.1 hsumq
  have hdiff : |v - roundNearest ((a : ℚ) / 100)| ≤ 2 ^ (34 : ℕ) := by
    rw [h34, abs_le]
    constructor <;> linarith [hv.1, hv.2, h2'.1, h2'.2, haq'.1, haq'.2, hsumq'.1, hsumq'.2]
  have es := abs_le.1 (abs_roundNearest_sub_le_34 _ hdiff)
  rw [h19] at es
  have hval : F64.abs (F64.sub (totalSplit splits) amount) =
      F64.fin |roundNearest (v - roundNearest ((a : ℚ) / 100))| := by
    unfold totalSplit
    rw [hv1, hamt, h1, sub_fin, F64.ofRat_eq_fin _ (hdiff.trans
      (pow_le_pow_right₀ (by norm_num) (by norm_num))), abs_fin]
  rw [hval, cent_eq, lt_fin, centValue_eq]
  constructor
  · intro hge
    rw [decide_eq_true_eq]
    have hgeq : (2 : ℚ) ≤ |((ns.sum : ℤ) : ℚ) - (a : ℚ)| := by
      rw [← Int.cast_sub, ← Int.cast_abs]
      exact_mod_cast hge
    rcases le_abs'.1 hgeq with hneg | hpos
    · rw [lt_abs]
      right
      linarith [hv.1, hv.2, h2'.1, h2'.2, es.1, es.2]
    · rw [lt_abs]
      left
      linarith [hv.1, hv.2, h2'.1, h2'.2, es.1, es.2]
  · intro heq
    rw [decide_eq_false_iff_not, not_lt, abs_le]
    have heq' : ((ns.sum : ℤ) : ℚ) = (a : ℚ) := by exact_mod_cast heq
    constructor <;> linarith [hv.1, hv.2, h2'.1, h2'.2, es.1, es.2]

/-- The answer 400 of `CreateExpense` comes from the validation test and from nowhere
else, and it leaves the store alone. -/
theorem CreateExpense_status_400 (F : FloatFormat) (env : DbEnv) (db : Store) (groupID : Int)
    (req : CreateExpenseRequest) :
    ((CreateExpense F env db groupID req).status = 400 ↔
      F64.lt F64.cent (F64.abs (F64.sub (totalSplit req.Splits) req.Amount)) = true) ∧
    ((CreateExpense F env db groupID req).status = 400 →
      (CreateExpense F env db groupID req).tx = TxEnd.notBegun ∧
      (CreateExpense F env db groupID req).store = db) := by
  by_cases hv : F64.lt F64.cent (F64.abs (F64.sub (totalSplit req.Splits) req.Amount)) = true
  · have hres : CreateExpense F env db groupID req = ⟨db, 400, TxEnd.notBegun⟩ := by
      unfold CreateExpense; rw [if_pos hv]
    rw [hres]
    exact ⟨⟨fun _ => hv, fun _ => rfl⟩, fun _ => ⟨rfl, rfl⟩⟩
  · have hne : (CreateExpense F env db groupID req).status ≠ 400 := by
      unfold CreateExpense
      rw [if_neg hv]
      split
      · simp
      · split
        · simp
        · split
          · simp
          · split
            · simp
            · split
              · simp
              · split <;> simp
    exact ⟨⟨fun h => absurd h hne, fun h => absurd h hv⟩, fun h => absurd h hne⟩

/-- C12, as stated, fails on `float64`. With an amount of 0.04 and one split of 0.03 the
decimals differ by exactly 0.01, not by more, and `CreateExpense` answers 400: the
difference of the two `float64` is 0.010000000000000002. With 0.03 and 0.02 the
difference is again 0.01 and the request is accepted. With an amount of `10^16` and
splits of `10^16` and 1 the sum of the splits is `10^16` in `float64`, so 400 is not
answered although the splits exceed the amount by 1. -/
theorem CreateExpense_validation_inexact :
    (CreateExpense exactDigits quietEnv ⟨[], [], []⟩ 7
      ⟨"Dinner", "", F64.ofRat (4 / 100), "Food", [], [⟨1, F64.ofRat (3 / 100)⟩]⟩).status
        = 400 ∧
    ¬ (|(3 / 100 : ℚ) - 4 / 100| > 1 / 100) ∧
    (CreateExpense exactDigits quietEnv ⟨[], [], []⟩ 7
      ⟨"Dinner", "", F64.ofRat (3 / 100), "Food", [], [⟨1, F64.ofRat (2 / 100)⟩]⟩).status
        = 201 ∧
    (CreateExpense exactDigits quietEnv ⟨[], [], []⟩ 7
      ⟨"Dinner", "", F64.fin 10000000000000000, "Food", [],
        [⟨1, F64.fin 10000000000000000⟩, ⟨2, F64.fin 1⟩]⟩).status ≠ 400 ∧
    totalSplit [⟨1, F64.fin 10000000000000000⟩, ⟨2, F64.fin 1⟩] =
      F64.fin 10000000000000000 ∧
    |((10000000000000000 : ℚ) + 1) - 10000000000000000| > 1 / 100 := by
  refine ⟨by decide!, by norm_num [abs_of_neg], by decide!, by decide!, by decide!, by norm_num⟩

/-- C12, amended: on a decoded request `CreateExpense` answers 400 if and only if the
test `math.Abs(totalSplit-req.Amount) > 0.01` holds in `float64`; when it does, no
transaction is begun and the store is as it was; the answer 400 does not depend on
the payers list. For a request with at most 100 splits whose amounts are read from
two-decimal numbers below `10^8`, 400 is answered when the sum of the splits differs
from the amount by 0.02 or more and is not answered when the two are equal. -/
theorem CreateExpense_validation_cents (F : FloatFormat) (env : DbEnv) (db : Store)
    (groupID : Int) (req : CreateExpenseRequest) :
    ((CreateExpense F env db groupID req).status = 400 ↔
      F64.lt F64.cent (F64.abs (F64.sub (totalSplit req.Splits) req.Amount)) = true) ∧
    ((CreateExpense F env db groupID req).status = 400 →
      (CreateExpense F env db groupID req).tx = TxEnd.notBegun ∧
      (CreateExpense F env db groupID req).store = db) ∧
    (∀ payers : List PayerSplit,
      ((CreateExpense F env db groupID
          ⟨req.Title, req.Description, req.Amount, req.Category, payers, req.Splits⟩).status
        = 400 ↔ (CreateExpense F env db groupID req).status = 400)) ∧
    (∀ (a : ℤ) (ns : List ℤ), req.Amount = F64.ofCents a → |a| < 10000000000 →
      req.Splits.map Split.Amount = ns.map F64.ofCents →
      (∀ n ∈ ns, |n| < 10000000000) → ns.length ≤ 100 →
      (2 ≤ |ns.sum - a| → (CreateExpense F env db groupID req).status = 400) ∧
      (ns.sum = a → (CreateExpense F env db groupID req).status ≠ 400)) := by
  obtain ⟨h1, h2⟩ := CreateExpense_status_400 F env db groupID req
  refine ⟨h1, h2, fun payers => ?_, fun a ns hamt ha hmap hb hlen => ?_⟩
  · rw [h1, (CreateExpense_status_400 F env db groupID _).1]
  · obtain ⟨hfire, hquiet⟩ := validation_of_cents req.Splits req.Amount a ns hamt ha hmap hb hlen
    refine ⟨fun hge => h1.2 (hfire hge), fun heq h400 => ?_⟩
    have := h1.1 h400
    rw [hquiet heq] at this
    cases this

/-- Witness of the amended C12: splits of 3.10 and 4.15 against an amount of 10.00. -/
theorem CreateExpense_validation_cents_witness :
    ((F64.ofCents 1000 = F64.ofCents 1000 ∧ |(1000 : ℤ)| < 10000000000 ∧
      ([⟨1, F64.ofCents 310⟩, ⟨2, F64.ofCents 415⟩] : List Split).map Split.Amount =
        [310, 415].map F64.ofCents ∧
      (∀ n ∈ ([310, 415] : List ℤ), |n| < 10000000000) ∧
      ([310, 415] : List ℤ).length ≤ 100 ∧ 2 ≤ |([310, 415] : List ℤ).sum - 1000|)) ∧
    (CreateExpense exactDigits quietEnv ⟨[], [], []⟩ 7
        ⟨"Dinner", "", F64.ofCents 1000, "Food", [⟨1, F64.ofCents 1000⟩],
          [⟨1, F64.ofCents 310⟩, ⟨2, F64.ofCents 415⟩]⟩).status = 400 :=
  have hb : ∀ n ∈ ([310, 415] : List ℤ), |n| < 10000000000 := by
    intro n hn
    simp only [List.mem_cons, List.mem_singleton, List.not_mem_nil, or_false] at hn
    rcases hn with rfl | rfl <;> norm_num
  ⟨⟨rfl, by norm_num, rfl, hb, by decide, by decide⟩,
    ((CreateExpense_validation_cents exactDigits quietEnv ⟨[], [], []⟩ 7
      ⟨"Dinner", "", F64.ofCents 1000, "Food", [⟨1, F64.ofCents 1000⟩],
        [⟨1, F64.ofCents 310⟩, ⟨2, F64.ofCents 415⟩]⟩).2.2.2 1000 [310, 415] rfl
        (by norm_num) rfl hb (by decide)).1 (by decide)⟩

end Binary64

/-! ## The expense handlers on binary64: what the columns store -/

namespace Binary64

/-- A text that reads back as a `float64` of magnitude at most `2^28` is within `2^-24`
of it. -/
theorem abs_text_sub_le (F : FloatFormat) (v : ℚ) (hv : roundNearest v = v)
    (hb : |v| ≤ 2 ^ (28 : ℕ)) : |F.text v - v| ≤ 1 / 2 ^ (24 : ℕ) := by
  have h1 := abs_roundNearest_sub_le (F.text v)
  rw [F.roundTrip v hv] at h1
  have h2 := abs_sub_abs_le_abs_sub (F.text v) v
  rw [abs_sub_comm] at h1
  have ht := tiny_le
  have h53 : (2 : ℚ) ^ (53 : ℕ) = 9007199254740992 := by norm_num
  have h28 : (2 : ℚ) ^ (28 : ℕ) = 268435456 := by norm_num
  have h24 : (1 : ℚ) / 2 ^ (24 : ℕ) = 1 / 16777216 := by norm_num
  rw [h53] at h1 ht
  rw [h28] at hb
  rw [h24]
  have h3 : |F.text v| / 9007199254740992 = |F.text v| * (1 / 9007199254740992) := by ring
  rw [h3] at h1
  have hnn := abs_nonneg (F.text v)
  linarith

/-- The column stores a two-decimal amount it can hold as it is. -/
theorem storeDecimal_ofCents (F : FloatFormat) (n : ℤ) (hn : |n| < 10000000000) :
    storeDecimal F (F64.ofCents n) = some ((n : ℚ) / 100) := by
  have hcb : |n| ≤ centsBound := by
    have : centsBound = 274877906944 := by unfold centsBound; norm_num
    omega
  obtain ⟨h1, h2⟩ := ofCents_spec n hcb
  have hq : |(n : ℚ)| < 10000000000 := by
    rw [← Int.cast_abs]
    exact_mod_cast hn
  have hq' := abs_lt.1 hq
  have h20 : (1 : ℚ) / 2 ^ (20 : ℕ) = 1 / 1048576 := by norm_num
  have h24 : (1 : ℚ) / 2 ^ (24 : ℕ) = 1 / 16777216 := by norm_num
  have h28 : (2 : ℚ) ^ (28 : ℕ) = 268435456 := by norm_num
  rw [h20] at h2
  have h2' := abs_le.1 h2
  have hvb : |roundNearest ((n : ℚ) / 100)| ≤ 2 ^ (28 : ℕ) := by
    rw [h28, abs_le]
    constructor <;> linarith [h2'.1, h2'.2, hq'.1, hq'.2]
  have ht := abs_text_sub_le F _ (roundNearest_idem _) hvb
  rw [h24] at ht
  have ht' := abs_le.1 ht
  have hround : round2 (F.text (roundNearest ((n : ℚ) / 100))) = (n : ℚ) / 100 := by
    unfold round2
    rw [mathRound_eq_of_near _ n (by
      rw [abs_lt]
      constructor <;> linarith [h2'.1, h2'.2, ht'.1, ht'.2])]
  rw [h1]
  show (if |round2 (F.text (roundNearest ((n : ℚ) / 100)))| < 100000000 then
    some (round2 (F.text (roundNearest ((n : ℚ) / 100)))) else none) = _
  rw [hround, if_pos (by
    rw [abs_lt]
    constructor <;> linarith [hq'.1, hq'.2])]

/-- What the column stores is a whole number of cents. -/
theorem isCents_of_storeDecimal (F : FloatFormat) (x : F64) (q : ℚ)
    (h : storeDecimal F x = some q) : IsCents q := by
  cases x with
  | fin v =>
    have h' : (if |round2 (F.text v)| < 100000000 then some (round2 (F.text v)) else none) =
        some q := h
    split at h'
    · cases h'
      exact round2_eq_cents _
    · cases h'
  | inf s => cases h
  | nan => cases h

theorem insertPayers_eq_stored (F : FloatFormat) (env : DbEnv) (expenseID : Int) (k : Nat)
    (payers : List PayerSplit) (work : Store)
    (h : ∀ p ∈ payers, ∃ q, storeDecimal F p.PaidAmount = some q) :
    insertPayers F env expenseID k payers work =
      SplitUp.insertPayers env expenseID k (storedPayers F payers) work := by
  induction payers generalizing k work with
  | nil => rfl
  | cons payer rest ih =>
    obtain ⟨q, hq⟩ := h payer (List.mem_cons_self _ _)
    have hs : storedPayers F (payer :: rest) = ⟨payer.UserID, q⟩ :: storedPayers F rest := by
      unfold storedPayers
      rw [List.filterMap_cons, hq]
      rfl
    rw [hs]
    unfold insertPayers SplitUp.insertPayers
    rw [hq]
    split
    · rfl
    · exact ih _ _ (fun p hp => h p (List.mem_cons_of_mem _ hp))

theorem insertSplits_eq_stored (F : FloatFormat) (env : DbEnv) (expenseID : Int) (k : Nat)
    (splits : List Split) (work : Store)
    (h : ∀ s ∈ splits, ∃ q, storeDecimal F s.Amount = some q) :
    insertSplits F env expenseID k splits work =
      SplitUp.insertSplits env expenseID k (storedSplits F splits) work := by
  induction splits generalizing k work with
  | nil => rfl
  | cons split rest ih =>
    obtain ⟨q, hq⟩ := h split (List.mem_cons_self _ _)
    have hs : storedSplits F (split :: rest) = ⟨split.UserID, q⟩ :: storedSplits F rest := by
      unfold storedSplits
      rw [List.filterMap_cons, hq]
      rfl
    rw [hs]
    unfold insertSplits SplitUp.insertSplits
    rw [hq]
    split
    · rfl
    · exact ih _ _ (fun s hs => h s (List.mem_cons_of_mem _ hs))

theorem length_storedPayers (F : FloatFormat) (payers : List PayerSplit)
    (h : ∀ p ∈ payers, ∃ q, storeDecimal F p.PaidAmount = some q) :
    (storedPayers F payers).length = payers.length := by
  induction payers with
  | nil => rfl
  | cons payer rest ih =>
    obtain ⟨q, hq⟩ := h payer (List.mem_cons_self _ _)
    unfold storedPayers at ih ⊢
    rw [List.filterMap_cons, hq]
    simp only [Option.map_some', List.length_cons]
    rw [ih (fun p hp => h p (List.mem_cons_of_mem _ hp))]

theorem length_storedSplits (F : FloatFormat) (splits : List Split)
    (h : ∀ s ∈ splits, ∃ q, storeDecimal F s.Amount = some q) :
    (storedSplits F splits).length = splits.length := by
  induction splits with
  | nil => rfl
  | cons split rest ih =>
    obtain ⟨q, hq⟩ := h split (List.mem_cons_self _ _)
    unfold storedSplits at ih ⊢
    rw [List.filterMap_cons, hq]
    simp only [Option.map_some', List.length_cons]
    rw [ih (fun s hs => h s (List.mem_cons_of_mem _ hs))]

/-- On a request whose amounts all fit their columns, `UpdateExpense` does what the
handler over decimals does on the request as stored. -/
theorem UpdateExpense_eq_stored (F : FloatFormat) (env : DbEnv) (db : Store) (expenseID : Int)
    (req : CreateExpenseRequest) (h : Storable F req) :
    UpdateExpense F env db expenseID req =
      SplitUp.UpdateExpense env db expenseID (storedRequest F req) := by
  obtain ⟨⟨a, ha⟩, hp, hs⟩ := h
  have hrow : updateExpenseRow expenseID req a =
      SplitUp.updateExpenseRow expenseID (storedRequest F req) := by
    funext e
    unfold updateExpenseRow SplitUp.updateExpenseRow storedRequest
    rw [ha]
    rfl
  unfold UpdateExpense SplitUp.UpdateExpense
  rw [ha]
  simp only
  rw [hrow]
  have hlen : (storedRequest F req).Payers.length = req.Payers.length :=
    length_storedPayers F req.Payers hp
  rw [hlen]
  have hP : (storedRequest F req).Payers = storedPayers F req.Payers := rfl
  have hS : (storedRequest F req).Splits = storedSplits F req.Splits := rfl
  rw [hP, hS]
  split
  · rfl
  split
  · rfl
  split
  · rfl
  rw [insertPayers_eq_stored F env expenseID 2 req.Payers _ hp]
  cases SplitUp.insertPayers env expenseID 2 (storedPayers F req.Payers)
      ⟨db.expenses.map (SplitUp.updateExpenseRow expenseID (storedRequest F req)),
        db.expense_payers.filter (fun p => ¬ p.expense_id = expenseID),
        db.expense_splits⟩ with
  | none => rfl
  | some work =>
    simp only
    split
    · rfl
    rw [insertSplits_eq_stored F env expenseID _ req.Splits _ hs]

theorem storable_of_inCents (F : FloatFormat) (req : CreateExpenseRequest) (h : InCents req) :
    Storable F req := by
  obtain ⟨⟨n, hn, hb⟩, hp, hs⟩ := h
  refine ⟨⟨_, by rw [hn]; exact storeDecimal_ofCents F n hb⟩, fun p hmem => ?_, fun s hmem => ?_⟩
  · obtain ⟨m, hm, hmb⟩ := hp p hmem
    exact ⟨_, by rw [hm]; exact storeDecimal_ofCents F m hmb⟩
  · obtain ⟨m, hm, hmb⟩ := hs s hmem
    exact ⟨_, by rw [hm]; exact storeDecimal_ofCents F m hmb⟩

/-- Read back into `float64`, the stored payers of a request in cents are the payers of
the request. -/
theorem storedPayers_readback (F : FloatFormat) (payers : List PayerSplit)
    (h : ∀ p ∈ payers, ∃ n : ℤ, p.PaidAmount = F64.ofCents n ∧ |n| < 10000000000) :
    (storedPayers F payers).map (fun p => (p.UserID, F64.ofRat p.PaidAmount)) =
      payers.map fun p => (p.UserID, p.PaidAmount) := by
  induction payers with
  | nil => rfl
  | cons payer rest ih =>
    obtain ⟨n, hn, hb⟩ := h payer (List.mem_cons_self _ _)
    have hq : storeDecimal F payer.PaidAmount = some ((n : ℚ) / 100) := by
      rw [hn]; exact storeDecimal_ofCents F n hb
    have hs : storedPayers F (payer :: rest) =
        ⟨payer.UserID, (n : ℚ) / 100⟩ :: storedPayers F rest := by
      unfold storedPayers
      rw [List.filterMap_cons, hq]
      rfl
    rw [hs, List.map_cons, List.map_cons, ih (fun p hp => h p (List.mem_cons_of_mem _ hp)), hn]
    rfl

/-- Read back into `float64`, the stored splits of a request in cents are the splits of
the request. -/
theorem storedSplits_readback (F : FloatFormat) (splits : List Split)
    (h : ∀ s ∈ splits, ∃ n : ℤ, s.Amount = F64.ofCents n ∧ |n| < 10000000000) :
    (storedSplits F splits).map (fun s => (s.UserID, F64.ofRat s.Amount)) =
      splits.map fun s => (s.UserID, s.Amount) := by
  induction splits with
  | nil => rfl
  | cons split rest ih =>
    obtain ⟨n, hn, hb⟩ := h split (List.mem_cons_self _ _)
    have hq : storeDecimal F split.Amount = some ((n : ℚ) / 100) := by
      rw [hn]; exact storeDecimal_ofCents F n hb
    have hs : storedSplits F (split :: rest) =
        ⟨split.UserID, (n : ℚ) / 100⟩ :: storedSplits F rest := by
      unfold storedSplits
      rw [List.filterMap_cons, hq]
      rfl
    rw [hs, List.map_cons, List.map_cons, ih (fun s hs => h s (List.mem_cons_of_mem _ hs)), hn]
    rfl

/-- C14, as stated, fails on the schema of `migrations.go`: the allocation columns are
`DECIMAL(10, 2)`. Updating expense 1 with a payer of 10.125 answers 200 and commits,
and the payer row then stored carries 10.13, which read back is not the request's
10.125; the expense row and the split of 5.125 are rounded likewise. -/
theorem UpdateExpense_rounds_amounts :
    (UpdateExpense exactDigits quietEnv
      ⟨[⟨1, 7, "Dinner", "", 10, "Food", 0⟩], [⟨1, 1, 1, 10⟩], [⟨1, 1, 1, 10⟩]⟩ 1
      ⟨"Dinner", "", F64.fin (81 / 8), "Food", [⟨2, F64.fin (81 / 8)⟩],
        [⟨1, F64.fin 5⟩, ⟨2, F64.fin (41 / 8)⟩]⟩).status = 200 ∧
    (UpdateExpense exactDigits quietEnv
      ⟨[⟨1, 7, "Dinner", "", 10, "Food", 0⟩], [⟨1, 1, 1, 10⟩], [⟨1, 1, 1, 10⟩]⟩ 1
      ⟨"Dinner", "", F64.fin (81 / 8), "Food", [⟨2, F64.fin (81 / 8)⟩],
        [⟨1, F64.fin 5⟩, ⟨2, F64.fin (41 / 8)⟩]⟩).tx = TxEnd.committed ∧
    (UpdateExpense exactDigits quietEnv
      ⟨[⟨1, 7, "Dinner", "", 10, "Food", 0⟩], [⟨1, 1, 1, 10⟩], [⟨1, 1, 1, 10⟩]⟩ 1
      ⟨"Dinner", "", F64.fin (81 / 8), "Food", [⟨2, F64.fin (81 / 8)⟩],
        [⟨1, F64.fin 5⟩, ⟨2, F64.fin (41 / 8)⟩]⟩).store.expense_payers =
      [⟨2, 1, 2, 1013 / 100⟩] ∧
    (UpdateExpense exactDigits quietEnv
      ⟨[⟨1, 7, "Dinner", "", 10, "Food", 0⟩], [⟨1, 1, 1, 10⟩], [⟨1, 1, 1, 10⟩]⟩ 1
      ⟨"Dinner", "", F64.fin (81 / 8), "Food", [⟨2, F64.fin (81 / 8)⟩],
        [⟨1, F64.fin 5⟩, ⟨2, F64.fin (41 / 8)⟩]⟩).store.expense_splits =
      [⟨4, 1, 1, 5⟩, ⟨5, 1, 2, 513 / 100⟩] ∧
    F64.ofRat (1013 / 100) ≠ F64.fin (81 / 8) ∧
    F64.ofRat (513 / 100) ≠ F64.fin (41 / 8) := by
  refine ⟨by decide!, by decide!, by decide!, by decide!, by decide!, by decide!⟩

/-- C14, amended: after an `UpdateExpense` on an existing expense that goes through
(nothing fails, the transaction commits), with a request whose amounts are read from
two-decimal numbers the columns can hold, the expense row carries the request's
fields, the expense's payer allocations are exactly the request's payers and its
split allocations exactly the request's splits (the stored decimals read back as the
request's `float64` amounts), the allocations of the other expenses are untouched, and
the resulting store, hence every balance `GetGroupBalance` computes from it, does not
depend on the discarded allocations. -/
theorem UpdateExpense_replaces_cents (F : FloatFormat) (env : DbEnv) (db : Store)
    (expenseID : Int) (req : CreateExpenseRequest)
    (hex : ∃ e ∈ db.expenses, e.id = expenseID)
    (hbegin : env.beginFails = false)
    (hstmt : ∀ k, k ≤ req.Payers.length + req.Splits.length + 2 → env.stmtFails k = false)
    (hcommit : env.commitFails = false)
    (hcents : InCents req) :
    (UpdateExpense F env db expenseID req).status = 200 ∧
    (UpdateExpense F env db expenseID req).tx = TxEnd.committed ∧
    (∃ e ∈ (UpdateExpense F env db expenseID req).store.expenses, e.id = expenseID ∧
      F64.ofRat e.amount = req.Amount ∧ e.title = req.Title ∧
      e.description = req.Description ∧ e.category = req.Category) ∧
    (((UpdateExpense F env db expenseID req).store.expense_payers.filter
        fun p => p.expense_id = expenseID).map
          (fun p => (p.user_id, F64.ofRat p.paid_amount)) =
      req.Payers.map fun p => (p.UserID, p.PaidAmount)) ∧
    (((UpdateExpense F env db expenseID req).store.expense_splits.filter
        fun s => s.expense_id = expenseID).map
          (fun s => (s.user_id, F64.ofRat s.amount_owed)) =
      req.Splits.map fun s => (s.UserID, s.Amount)) ∧
    (((UpdateExpense F env db expenseID req).store.expense_payers.filter
        fun p => ¬ p.expense_id = expenseID) =
      db.expense_payers.filter fun p => ¬ p.expense_id = expenseID) ∧
    (((UpdateExpense F env db expenseID req).store.expense_splits.filter
        fun s => ¬ s.expense_id = expenseID) =
      db.expense_splits.filter fun s => ¬ s.expense_id = expenseID) ∧
    (∀ db2 : Store, db2.expenses = db.expenses →
      (db2.expense_payers.filter fun p => ¬ p.expense_id = expenseID) =
        (db.expense_payers.filter fun p => ¬ p.expense_id = expenseID) →
      (db2.expense_splits.filter fun s => ¬ s.expense_id = expenseID) =
        (db.expense_splits.filter fun s => ¬ s.expense_id = expenseID) →
      (UpdateExpense F env db2 expenseID req).store =
        (UpdateExpense F env db expenseID req).store ∧
      ∀ (fuel : Nat) (S : SliceSort) (R : MapRange) (groupID : Int),
        GetGroupBalance fuel S R (UpdateExpense F env db2 expenseID req).store groupID =
          GetGroupBalance fuel S R (UpdateExpense F env db expenseID req).store groupID) := by
  have hst := storable_of_inCents F req hcents
  have hlenP := length_storedPayers F req.Payers hst.2.1
  have hlenS := length_storedSplits F req.Splits hst.2.2
  have hstmt' : ∀ k, k ≤ (storedRequest F req).Payers.length +
      (storedRequest F req).Splits.length + 2 → env.stmtFails k = false := by
    intro k hk
    apply hstmt
    have h1 : (storedRequest F req).Payers.length = req.Payers.length := hlenP
    have h2 : (storedRequest F req).Splits.length = req.Splits.length := hlenS
    omega
  obtain ⟨hstore, hstatus, htx⟩ :=
    UpdateExpense_of_ok env db expenseID (storedRequest F req) hbegin hstmt' hcommit
  obtain ⟨h1, h2, h3, h4⟩ := updatedStore_allocations env db expenseID (storedRequest F req)
  rw [UpdateExpense_eq_stored F env db expenseID req hst, hstore]
  refine ⟨hstatus, htx, ?_, ?_, ?_, h3, h4, ?_⟩
  · obtain ⟨e, he, hid⟩ := hex
    obtain ⟨⟨n, hn, hb⟩, _, _⟩ := hcents
    refine ⟨SplitUp.updateExpenseRow expenseID (storedRequest F req) e,
      List.mem_map.2 ⟨e, he, rfl⟩, ?_⟩
    unfold SplitUp.updateExpenseRow
    rw [if_pos hid]
    refine ⟨hid, ?_, rfl, rfl, rfl⟩
    show F64.ofRat ((storeDecimal F req.Amount).getD 0) = req.Amount
    rw [hn, storeDecimal_ofCents F n hb]
    rfl
  · rw [h1]
    have hmap := payerRows_map env expenseID 2 (storedRequest F req).Payers
    have hcomp : (payerRows env expenseID 2 (storedRequest F req).Payers).map
        (fun p => (p.user_id, F64.ofRat p.paid_amount)) =
        ((payerRows env expenseID 2 (storedRequest F req).Payers).map
          (fun p => (p.user_id, p.paid_amount))).map (fun p => (p.1, F64.ofRat p.2)) := by
      rw [List.map_map]; rfl
    rw [hcomp, hmap, List.map_map]
    exact storedPayers_readback F req.Payers hcents.2.1
  · rw [h2]
    have hmap := splitRows_map env expenseID (3 + (storedRequest F req).Payers.length)
      (storedRequest F req).Splits
    have hcomp : (splitRows env expenseID (3 + (storedRequest F req).Payers.length)
        (storedRequest F req).Splits).map
        (fun s => (s.user_id, F64.ofRat s.amount_owed)) =
        ((splitRows env expenseID (3 + (storedRequest F req).Payers.length)
          (storedRequest F req).Splits).map
          (fun s => (s.user_id, s.amount_owed))).map (fun p => (p.1, F64.ofRat p.2)) := by
      rw [List.map_map]; rfl
    rw [hcomp, hmap, List.map_map]
    exact storedSplits_readback F req.Splits hcents.2.2
  · intro db2 he hp hs
    have hstore2 :=
      (UpdateExpense_of_ok env db2 expenseID (storedRequest F req) hbegin hstmt' hcommit).1
    have heq := updatedStore_congr env db db2 expenseID (storedRequest F req) he hp hs
    rw [UpdateExpense_eq_stored F env db2 expenseID req hst, hstore2, heq]
    exact ⟨rfl, fun _ _ _ _ => rfl⟩

theorem inCents_example :
    InCents ⟨"Dinner", "", F64.ofCents 1000, "Food", [⟨2, F64.ofCents 1000⟩],
      [⟨1, F64.ofCents 475⟩, ⟨2, F64.ofCents 525⟩]⟩ := by
  refine ⟨⟨1000, rfl, by norm_num⟩, fun p hp => ?_, fun s hs => ?_⟩
  · simp only [List.mem_singleton] at hp
    subst hp
    exact ⟨1000, rfl, by norm_num⟩
  · simp only [List.mem_cons, List.mem_singleton, List.not_mem_nil, or_false] at hs
    rcases hs with rfl | rfl
    · exact ⟨475, rfl, by norm_num⟩
    · exact ⟨525, rfl, by norm_num⟩

/-- Witness of the amended C14: expense 1, paid and owed by user 1, is updated to be
paid by user 2 and owed 4.75 by user 1 and 5.25 by user 2. -/
theorem UpdateExpense_replaces_cents_witness :
    ((∃ e ∈ ([⟨1, 7, "Dinner", "", 10, "Food", 0⟩] : List ExpenseRow), e.id = 1) ∧
      quietEnv.beginFails = false ∧
      (∀ k, k ≤ [(⟨2, F64.ofCents 1000⟩ : PayerSplit)].length +
          [(⟨1, F64.ofCents 475⟩ : Split), ⟨2, F64.ofCents 525⟩].length + 2 →
        quietEnv.stmtFails k = false) ∧
      quietEnv.commitFails = false ∧
      InCents ⟨"Dinner", "", F64.ofCents 1000, "Food", [⟨2, F64.ofCents 1000⟩],
        [⟨1, F64.ofCents 475⟩, ⟨2, F64.ofCents 525⟩]⟩) ∧
    (((UpdateExpense exactDigits quietEnv
          ⟨[⟨1, 7, "Dinner", "", 10, "Food", 0⟩], [⟨1, 1, 1, 10⟩], [⟨1, 1, 1, 10⟩]⟩ 1
          ⟨"Dinner", "", F64.ofCents 1000, "Food", [⟨2, F64.ofCents 1000⟩],
            [⟨1, F64.ofCents 475⟩, ⟨2, F64.ofCents 525⟩]⟩).store.expense_splits.filter
        fun s => s.expense_id = 1).map (fun s => (s.user_id, F64.ofRat s.amount_owed)) =
      ([⟨1, F64.ofCents 475⟩, ⟨2, F64.ofCents 525⟩] : List Split).map
        fun s => (s.UserID, s.Amount)) :=
  ⟨⟨⟨_, List.mem_singleton.2 rfl, rfl⟩, rfl, fun _ _ => rfl, rfl, inCents_example⟩,
    (UpdateExpense_replaces_cents exactDigits quietEnv
      ⟨[⟨1, 7, "Dinner", "", 10, "Food", 0⟩], [⟨1, 1, 1, 10⟩], [⟨1, 1, 1, 10⟩]⟩ 1
      ⟨"Dinner", "", F64.ofCents 1000, "Food", [⟨2, F64.ofCents 1000⟩],
        [⟨1, F64.ofCents 475⟩, ⟨2, F64.ofCents 525⟩]⟩
      ⟨_, List.mem_singleton.2 rfl, rfl⟩ rfl (fun _ _ => rfl) rfl inCents_example).2.2.2.2.1⟩

end Binary64

/-! ## Settling the group on binary64 -/

namespace Binary64

/-- One iteration on whole cents, in cents only: the amount is `min(-kd, kc)` cents;
the debtor is dropped with at most one cent of debt left or kept with `kd` plus the
amount; the creditor is dropped with at most one cent of credit left or kept with `kc`
less the amount. -/
theorem step_cents_full {j : Nat} {d c : balanceItem} {ds cs : List balanceItem}
    (hj : j < 1024) (h : CentsInv j (d :: ds) (c :: cs)) :
    ∃ a : ℤ, 1 ≤ a ∧ a ≤ -F64.centsOf d.Amount ∧ a ≤ F64.centsOf c.Amount ∧
      F64.centsOf (stepAmount d c) = a ∧
      emitStep d c (stepAmount d c) = List.cons ⟨d.UserID, c.UserID, stepAmount d c⟩ ∧
      ((debtorsAfter d ds (stepAmount d c) = ds ∧ -1 ≤ F64.centsOf d.Amount + a) ∨
        ∃ x, debtorsAfter d ds (stepAmount d c) = x :: ds ∧ x.UserID = d.UserID ∧
          F64.centsOf x.Amount = F64.centsOf d.Amount + a) ∧
      ((creditorsAfter c cs (stepAmount d c) = cs ∧ F64.centsOf c.Amount - a ≤ 1) ∨
        ∃ x, creditorsAfter c cs (stepAmount d c) = x :: cs ∧ x.UserID = c.UserID ∧
          F64.centsOf x.Amount = F64.centsOf c.Amount - a) := by
  obtain ⟨kd, kc, hkd1, hkd2, hkc1, hkc2, hkd, hkc, hamt, hDa, hCa⟩ := step_cents hj h
  obtain ⟨vd, vc, hd, hc, _, _, _, _, hamt', hDs, hCs⟩ := step_spec h.1
  obtain ⟨_, _, _, _, _, _, _, _, hemit⟩ := stepAmount_cents h.1
  obtain ⟨vd', kd', hd', hdn, _, _⟩ := h.2.1 d (List.mem_cons_self _ _)
  obtain ⟨vc', kc', hc', hcn, _, _⟩ := h.2.2 c (List.mem_cons_self _ _)
  have hδ := driftBound_le j hj.le
  have hδ1 := driftBound_le (j + 1) (by omega)
  have hkd' : kd' = kd := by
    rw [← hkd, hd']
    exact (F64.centsOf_fin_of_near _ _ (lt_of_le_of_lt hdn (by linarith))).symm
  have hkc' : kc' = kc := by
    rw [← hkc, hc']
    exact (F64.centsOf_fin_of_near _ _ (lt_of_le_of_lt hcn (by linarith))).symm
  rw [hd] at hd'
  rw [hc] at hc'
  cases hd'
  cases hc'
  subst hkd' hkc'
  have ha1 : 1 ≤ min (-kd') kc' := le_min (by omega) hkc1
  have ha2 : min (-kd') kc' ≤ -kd' := min_le_left _ _
  have ha3 : min (-kd') kc' ≤ kc' := min_le_right _ _
  have haabs : |min (-kd') kc'| ≤ centsBound := by
    rw [abs_of_nonneg (by omega)]; omega
  obtain ⟨hofc, hofe⟩ := ofCents_spec _ haabs
  have hA : round2Value (min (-vd) vc) = roundNearest (((min (-kd') kc' : ℤ) : ℚ) / 100) := by
    exact F64.fin.inj (hamt'.symm.trans (hamt.trans hofc))
  have hacents : F64.centsOf (stepAmount d c) = min (-kd') kc' := by
    rw [hamt]
    exact centsOf_ofCents _ haabs
  have hcv := centValue_eq
  have hcb := centsBound_eq
  have h20 : (1 : ℚ) / 2 ^ (20 : ℕ) = 1 / 1048576 := by norm_num
  have h33 : (2 : ℚ) ^ (33 : ℕ) = 8589934592 := by norm_num
  have h53 : (1 : ℚ) / 2 ^ (53 : ℕ) = 1 / 9007199254740992 := by norm_num
  have ht := tiny_le
  rw [h53] at ht
  rw [h20] at hofe
  have hofe' := abs_le.1 hofe
  have hdn' := abs_le.1 hdn
  have hcn' := abs_le.1 hcn
  have hkd1q : -(274877906944 : ℚ) ≤ (kd' : ℚ) := by
    rw [← hcb]; exact_mod_cast hkd1
  have hkc2q : (kc' : ℚ) ≤ 274877906944 := by
    rw [← hcb]; exact_mod_cast hkc2
  have ha1q : (1 : ℚ) ≤ ((min (-kd') kc' : ℤ) : ℚ) := by exact_mod_cast ha1
  have ha2q : ((min (-kd') kc' : ℤ) : ℚ) ≤ -(kd' : ℚ) := by exact_mod_cast ha2
  have ha3q : ((min (-kd') kc' : ℤ) : ℚ) ≤ (kc' : ℚ) := by exact_mod_cast ha3
  have hkd2q : (kd' : ℚ) ≤ -1 := by exact_mod_cast hkd2
  refine ⟨min (-kd') kc', ha1, by rw [hkd]; exact ha2, by rw [hkc]; exact ha3, hacents, hemit,
    ?_, ?_⟩
  · rcases hDa with hdrop | ⟨v, hkeep, hv⟩
    · left
      refine ⟨hdrop, ?_⟩
      rw [hkd]
      rw [hDs, hA] at hdrop
      split at hdrop
      · rename_i hlt
        have hs : |vd + roundNearest (((min (-kd') kc' : ℤ) : ℚ) / 100)| ≤ 2 ^ (33 : ℕ) := by
          rw [h33, abs_le]
          constructor <;> linarith [hofe'.1, hofe'.2, hdn'.1, hdn'.2]
        have es := abs_le.1 (abs_roundNearest_sub_le_33 _ hs)
        rw [h20] at es
        rw [hcv, abs_lt] at hlt
        have hq : (-2 : ℚ) < (kd' : ℚ) + ((min (-kd') kc' : ℤ) : ℚ) := by
          linarith [hofe'.1, hofe'.2, hdn'.1, hdn'.2, es.1, es.2, hlt.1]
        have : (-2 : ℤ) < kd' + min (-kd') kc' := by exact_mod_cast hq
        omega
      · exact absurd (congrArg List.length hdrop) (by simp)
    · right
      refine ⟨_, hkeep, rfl, ?_⟩
      rw [hkd]
      exact F64.centsOf_fin_of_near _ _ (lt_of_le_of_lt hv (by linarith))
  · rcases hCa with hdrop | ⟨v, hkeep, hv⟩
    · left
      refine ⟨hdrop, ?_⟩
      rw [hkc]
      rw [hCs, hA] at hdrop
      split at hdrop
      · rename_i hlt
        have hs : |vc - roundNearest (((min (-kd') kc' : ℤ) : ℚ) / 100)| ≤ 2 ^ (33 : ℕ) := by
          rw [h33, abs_le]
          constructor <;> linarith [hofe'.1, hofe'.2, hcn'.1, hcn'.2]
        have es := abs_le.1 (abs_roundNearest_sub_le_33 _ hs)
        rw [h20] at es
        rw [hcv] at hlt
        have hq : (kc' : ℚ) - ((min (-kd') kc' : ℤ) : ℚ) < 2 := by
          linarith [hofe'.1, hofe'.2, hcn'.1, hcn'.2, es.1, es.2, hlt]
        have : kc' - min (-kd') kc' < 2 := by exact_mod_cast hq
        omega
      · exact absurd (congrArg List.length hdrop) (by simp)
    · right
      refine ⟨_, hkeep, rfl, ?_⟩
      rw [hkc]
      exact F64.centsOf_fin_of_near _ _ (lt_of_le_of_lt hv (by linarith))

theorem heldTotal_cons (x : balanceItem) (l : List balanceItem) :
    heldTotal (x :: l) = F64.centsOf x.Amount + heldTotal l := by
  unfold heldTotal
  rw [List.map_cons, List.sum_cons]

theorem flowTotal_cons (t : Transaction) (rest : List Transaction) :
    flowTotal (t :: rest) = F64.centsOf t.Amount + flowTotal rest := by
  unfold flowTotal
  rw [List.map_cons, List.sum_cons]

theorem entriesOf_cons (u : Int) (x : balanceItem) (l : List balanceItem) :
    entriesOf u (x :: l) = (if x.UserID = u then 1 else 0) + entriesOf u l := by
  unfold entriesOf
  rw [List.map_cons, List.sum_cons]

theorem entriesOf_nonneg (u : Int) (l : List balanceItem) : 0 ≤ entriesOf u l := by
  induction l with
  | nil => simp [entriesOf]
  | cons x rest ih =>
    rw [entriesOf_cons]
    split <;> omega

/-- Of a slice of debts a user holds no more than the whole slice does. -/
theorem heldTotal_le_centsHeld (u : Int) (l : List balanceItem)
    (h : ∀ x ∈ l, F64.centsOf x.Amount ≤ 0) : heldTotal l ≤ centsHeld u l := by
  induction l with
  | nil => simp [heldTotal, centsHeld]
  | cons x rest ih =>
    rw [heldTotal_cons, centsHeld_cons]
    have h1 := h x (List.mem_cons_self _ _)
    have h2 := ih (fun y hy => h y (List.mem_cons_of_mem _ hy))
    split <;> omega

/-- Of a slice of credits a user holds no more than the whole slice does. -/
theorem centsHeld_le_heldTotal (u : Int) (l : List balanceItem)
    (h : ∀ x ∈ l, 0 ≤ F64.centsOf x.Amount) : centsHeld u l ≤ heldTotal l := by
  induction l with
  | nil => simp [heldTotal, centsHeld]
  | cons x rest ih =>
    rw [heldTotal_cons, centsHeld_cons]
    have h1 := h x (List.mem_cons_self _ _)
    have h2 := ih (fun y hy => h y (List.mem_cons_of_mem _ hy))
    split <;> omega

/-- What the loop leaves unpaid, on whole cents. No user is left with more than the
slice is left with in all; and either every debtor entry is left with at most one
cent, or every creditor entry is. -/
theorem settleLoop_residual_f (fuel j : Nat) (ds cs : List balanceItem)
    (txs : List Transaction) (h : CentsInv j ds cs)
    (hJ : j + ds.length + cs.length ≤ 1024)
    (hrun : settleLoop fuel ds cs = some txs) :
    (∀ u, -centsHeld u ds - paidCents txs u ≤ -heldTotal ds - flowTotal txs) ∧
    (∀ u, centsHeld u cs - receivedCents txs u ≤ heldTotal cs - flowTotal txs) ∧
    (((∀ u, -centsHeld u ds - paidCents txs u ≤ entriesOf u ds) ∧
        -heldTotal ds - flowTotal txs ≤ ds.length) ∨
      ((∀ u, centsHeld u cs - receivedCents txs u ≤ entriesOf u cs) ∧
        heldTotal cs - flowTotal txs ≤ cs.length)) := by
  induction fuel generalizing j ds cs txs with
  | zero =>
    have hD := centsOf_of_centsInv_debtor (by omega) h
    have hC := centsOf_of_centsInv_creditor (by omega) h
    cases ds with
    | nil =>
      rw [settleLoop_nil_left_f] at hrun; cases hrun
      refine ⟨fun u => by simp [centsHeld, paidCents, heldTotal, flowTotal], fun u => ?_,
        Or.inl ⟨fun u => by simp [centsHeld, paidCents, entriesOf],
          by simp [heldTotal, flowTotal]⟩⟩
      have := centsHeld_le_heldTotal u cs hC
      simp only [receivedCents, flowTotal, List.map_nil, List.sum_nil]
      omega
    | cons d ds =>
      cases cs with
      | nil =>
        rw [settleLoop_nil_right_f] at hrun; cases hrun
        refine ⟨fun u => ?_, fun u => by simp [centsHeld, receivedCents, heldTotal, flowTotal],
          Or.inr ⟨fun u => by simp [centsHeld, receivedCents, entriesOf],
            by simp [heldTotal, flowTotal]⟩⟩
        have := heldTotal_le_centsHeld u (d :: ds) hD
        simp only [paidCents, flowTotal, List.map_nil, List.sum_nil]
        omega
      | cons c cs => simp [settleLoop] at hrun
  | succ fuel ih =>
    have hD := centsOf_of_centsInv_debtor (by omega) h
    have hC := centsOf_of_centsInv_creditor (by omega) h
    cases ds with
    | nil =>
      rw [settleLoop_nil_left_f] at hrun; cases hrun
      refine ⟨fun u => by simp [centsHeld, paidCents, heldTotal, flowTotal], fun u => ?_,
        Or.inl ⟨fun u => by simp [centsHeld, paidCents, entriesOf],
          by simp [heldTotal, flowTotal]⟩⟩
      have := centsHeld_le_heldTotal u cs hC
      simp only [receivedCents, flowTotal, List.map_nil, List.sum_nil]
      omega
    | cons d ds =>
      cases cs with
      | nil =>
        rw [settleLoop_nil_right_f] at hrun; cases hrun
        refine ⟨fun u => ?_, fun u => by simp [centsHeld, receivedCents, heldTotal, flowTotal],
          Or.inr ⟨fun u => by simp [centsHeld, receivedCents, entriesOf],
            by simp [heldTotal, flowTotal]⟩⟩
        have := heldTotal_le_centsHeld u (d :: ds) hD
        simp only [paidCents, flowTotal, List.map_nil, List.sum_nil]
        omega
      | cons c cs =>
        simp only [List.length_cons] at hJ
        have hj : j < 1024 := by omega
        rw [settleLoop_succ_f] at hrun
        cases hrest : settleLoop fuel (debtorsAfter d ds (stepAmount d c))
            (creditorsAfter c cs (stepAmount d c)) with
        | none => rw [hrest] at hrun; simp at hrun
        | some rest =>
          rw [hrest, Option.map_some', Option.some.injEq] at hrun
          have hlen := step_length_le_f h.1
          obtain ⟨ih1, ih2, ih3⟩ := ih (j + 1) _ _ rest (centsInv_step_f hj h) (by omega) hrest
          obtain ⟨a, ha1, ha2, ha3, hacents, hemit, hDa, hCa⟩ := step_cents_full hj h
          rw [hemit] at hrun
          subst hrun
          have hpaid : ∀ u, paidCents (⟨d.UserID, c.UserID, stepAmount d c⟩ :: rest) u =
              (if d.UserID = u then a else 0) + paidCents rest u := by
            intro u; rw [paidCents_cons, hacents]
          have hrecv : ∀ u, receivedCents (⟨d.UserID, c.UserID, stepAmount d c⟩ :: rest) u =
              (if c.UserID = u then a else 0) + receivedCents rest u := by
            intro u; rw [receivedCents_cons, hacents]
          have hflow : flowTotal (⟨d.UserID, c.UserID, stepAmount d c⟩ :: rest) =
              a + flowTotal rest := by
            rw [flowTotal_cons, hacents]
          simp only [hpaid, hrecv, hflow, centsHeld_cons, heldTotal_cons, entriesOf_cons,
            List.length_cons]
          refine ⟨fun u => ?_, fun u => ?_, ?_⟩
          · have := ih1 u
            rcases hDa with ⟨hdrop, hres⟩ | ⟨x, hkeep, hxu, hxc⟩
            · rw [hdrop] at this
              split <;> omega
            · rw [hkeep, centsHeld_cons, heldTotal_cons, hxu, hxc] at this
              split at this <;> rename_i hu <;> simp only [hu, if_true, if_false] <;> omega
          · have := ih2 u
            rcases hCa with ⟨hdrop, hres⟩ | ⟨x, hkeep, hxu, hxc⟩
            · rw [hdrop] at this
              split <;> omega
            · rw [hkeep, centsHeld_cons, heldTotal_cons, hxu, hxc] at this
              split at this <;> rename_i hu <;> simp only [hu, if_true, if_false] <;> omega
          · rcases ih3 with ⟨hp, ht⟩ | ⟨hp, ht⟩
            · left
              rcases hDa with ⟨hdrop, hres⟩ | ⟨x, hkeep, hxu, hxc⟩
              · rw [hdrop] at hp ht
                refine ⟨fun u => ?_, by push_cast; omega⟩
                have := hp u
                split <;> omega
              · rw [hkeep] at hp ht
                rw [heldTotal_cons, hxc, List.length_cons] at ht
                refine ⟨fun u => ?_, by push_cast at ht ⊢; omega⟩
                have := hp u
                rw [centsHeld_cons, entriesOf_cons, hxu, hxc] at this
                split at this <;> rename_i hu <;> simp only [hu, if_true, if_false] <;> omega
            · right
              rcases hCa with ⟨hdrop, hres⟩ | ⟨x, hkeep, hxu, hxc⟩
              · rw [hdrop] at hp ht
                refine ⟨fun u => ?_, by push_cast; omega⟩
                have := hp u
                split <;> omega
              · rw [hkeep] at hp ht
                rw [heldTotal_cons, hxc, List.length_cons] at ht
                refine ⟨fun u => ?_, by push_cast at ht ⊢; omega⟩
                have := hp u
                rw [centsHeld_cons, entriesOf_cons, hxu, hxc] at this
                split at this <;> rename_i hu <;> simp only [hu, if_true, if_false] <;> omega

end Binary64

namespace Binary64

/-- How the first loop of `minimizeDebts` classifies a whole number of cents: a debtor
from two cents of debt, a creditor from two cents of credit. -/
theorem cents_class (n : ℤ) (hn : |n| ≤ centsBound) :
    (F64.lt (F64.ofCents n) (F64.neg F64.cent) = true → n ≤ -2) ∧
    (F64.lt (F64.ofCents n) (F64.neg F64.cent) = false → -1 ≤ n) ∧
    (F64.lt F64.cent (F64.ofCents n) = true → 2 ≤ n) ∧
    (F64.lt F64.cent (F64.ofCents n) = false → n ≤ 1) := by
  obtain ⟨h1, h2⟩ := ofCents_spec n hn
  have hcv := centValue_eq
  have h20 : (1 : ℚ) / 2 ^ (20 : ℕ) = 1 / 1048576 := by norm_num
  rw [h20] at h2
  have h2' := abs_le.1 h2
  have hneg : F64.neg F64.cent = F64.fin (-centValue) := by rw [cent_eq]; rfl
  have hm1 : F64.lt (F64.ofCents (-1)) (F64.neg F64.cent) = false := by decide!
  have hp1 : F64.lt F64.cent (F64.ofCents 1) = false := by decide!
  refine ⟨fun h => ?_, fun h => ?_, fun h => ?_, fun h => ?_⟩
  · by_contra hcon
    have hlt := h
    rw [h1, hneg, lt_fin, decide_eq_true_eq, hcv] at hlt
    have hq : (n : ℚ) < 0 := by linarith [h2'.1]
    have hn0 : n < 0 := by exact_mod_cast hq
    have : n = -1 := by omega
    subst this
    rw [hm1] at h
    cases h
  · rw [h1, hneg, lt_fin, decide_eq_false_iff_not, not_lt, hcv] at h
    have hq : (-2 : ℚ) < (n : ℚ) := by linarith [h2'.2]
    have : (-2 : ℤ) < n := by exact_mod_cast hq
    omega
  · by_contra hcon
    have hlt := h
    rw [h1, cent_eq, lt_fin, decide_eq_true_eq, hcv] at hlt
    have hq : (0 : ℚ) < (n : ℚ) := by linarith [h2'.2]
    have hn0 : 0 < n := by exact_mod_cast hq
    have : n = 1 := by omega
    subst this
    rw [hp1] at h
    cases h
  · rw [h1, cent_eq, lt_fin, decide_eq_false_iff_not, not_lt, hcv] at h
    have hq : (n : ℚ) < 2 := by linarith [h2'.1]
    have : n < 2 := by exact_mod_cast hq
    omega

/-- The entries of a balance map of whole cents fall in three classes; the cents of
those that are neither debtors nor creditors are -1, 0 or 1 each. -/
theorem classes_cents (balances : GoMap) (h : WholeCents balances) :
    ((debtorsOf balances).length : ℤ) + (creditorsOf balances).length ≤ balances.length ∧
    |(balances.map fun p => F64.centsOf p.2).sum - heldTotal (debtorsOf balances) -
        heldTotal (creditorsOf balances)| ≤
      (balances.length : ℤ) - (debtorsOf balances).length - (creditorsOf balances).length ∧
    ((∃ p ∈ balances, F64.lt p.2 (F64.neg F64.cent) = false ∧ F64.lt F64.cent p.2 = false) →
      (1 : ℤ) ≤ (balances.length : ℤ) - (debtorsOf balances).length -
        (creditorsOf balances).length) := by
  induction balances with
  | nil =>
    refine ⟨by simp [debtorsOf, creditorsOf], by simp [debtorsOf, creditorsOf, heldTotal], ?_⟩
    rintro ⟨p, hp, _⟩
    cases hp
  | cons p rest ih =>
    obtain ⟨ih1, ih2, ih3⟩ := ih (fun q hq => h q (List.mem_cons_of_mem _ hq))
    obtain ⟨n, hn, hb⟩ := h p (List.mem_cons_self _ _)
    obtain ⟨k, x⟩ := p
    simp only at hn
    subst hn
    obtain ⟨c1, c2, c3, c4⟩ := cents_class n hb
    have hcn : F64.centsOf (F64.ofCents n) = n := centsOf_ofCents n hb
    rw [debtorsOf_cons_f, creditorsOf_cons_f, List.map_cons, List.sum_cons,
      List.length_cons]
    simp only [hcn]
    rw [abs_le] at ih2 ⊢
    cases hd : F64.lt (F64.ofCents n) (F64.neg F64.cent)
    · cases hc : F64.lt F64.cent (F64.ofCents n)
      · have hlo := c2 hd
        have hhi := c4 hc
        simp only [Bool.false_eq_true, if_false, Bool.not_false, Bool.and_false]
        refine ⟨by push_cast; omega, ⟨by push_cast; omega, by push_cast; omega⟩, fun _ => ?_⟩
        push_cast
        omega
      · simp only [Bool.false_eq_true, if_false, Bool.not_false, Bool.and_true, if_true,
          List.length_cons, heldTotal_cons, hcn]
        refine ⟨by push_cast; omega, ⟨by push_cast; omega, by push_cast; omega⟩, ?_⟩
        rintro ⟨q, hq, hq1, hq2⟩
        rcases List.mem_cons.1 hq with rfl | hq'
        · simp only at hq2
          rw [hc] at hq2
          cases hq2
        · have := ih3 ⟨q, hq', hq1, hq2⟩
          push_cast
          omega
    · simp only [if_true, Bool.not_true, Bool.false_and, Bool.false_eq_true, if_false,
        List.length_cons, heldTotal_cons, hcn]
      refine ⟨by push_cast; omega, ⟨by push_cast; omega, by push_cast; omega⟩, ?_⟩
      rintro ⟨q, hq, hq1, hq2⟩
      rcases List.mem_cons.1 hq with rfl | hq'
      · simp only at hq1
        rw [hd] at hq1
        cases hq1
      · have := ih3 ⟨q, hq', hq1, hq2⟩
        push_cast
        omega

theorem heldTotal_perm {l1 l2 : List balanceItem} (h : l1.Perm l2) :
    heldTotal l1 = heldTotal l2 :=
  (h.map _).sum_eq

theorem entriesOf_perm (u : Int) {l1 l2 : List balanceItem} (h : l1.Perm l2) :
    entriesOf u l1 = entriesOf u l2 :=
  (h.map _).sum_eq

theorem entriesOf_of_not_mem (u : Int) (l : List balanceItem)
    (h : u ∉ l.map balanceItem.UserID) : entriesOf u l = 0 := by
  induction l with
  | nil => rfl
  | cons x rest ih =>
    simp only [List.map_cons, List.mem_cons, not_or] at h
    rw [entriesOf_cons, ih h.2, if_neg (fun hx => h.1 hx.symm)]
    rfl

theorem entriesOf_le_one (u : Int) (l : List balanceItem)
    (h : (l.map balanceItem.UserID).Nodup) : entriesOf u l ≤ 1 := by
  induction l with
  | nil => simp [entriesOf]
  | cons x rest ih =>
    rw [List.map_cons, List.nodup_cons] at h
    rw [entriesOf_cons]
    split
    · rename_i hx
      rw [entriesOf_of_not_mem u rest (hx ▸ h.1)]
      omega
    · have := ih h.2
      omega

theorem nodup_debtorsOf_f (balances : GoMap) (h : (balances.map Prod.fst).Nodup) :
    ((debtorsOf balances).map balanceItem.UserID).Nodup := by
  unfold debtorsOf
  rw [List.map_map]
  exact h.sublist ((List.filter_sublist _).map _)

theorem nodup_creditorsOf_f (balances : GoMap) (h : (balances.map Prod.fst).Nodup) :
    ((creditorsOf balances).map balanceItem.UserID).Nodup := by
  unfold creditorsOf
  rw [List.map_map]
  exact h.sublist ((List.filter_sublist _).map _)

theorem paidCents_nonneg (txs : List Transaction) (u : Int)
    (h : ∀ t ∈ txs, 0 ≤ F64.centsOf t.Amount) : 0 ≤ paidCents txs u := by
  induction txs with
  | nil => simp [paidCents]
  | cons t rest ih =>
    rw [paidCents_cons]
    have h1 := h t (List.mem_cons_self _ _)
    have h2 := ih (fun y hy => h y (List.mem_cons_of_mem _ hy))
    split <;> omega

theorem receivedCents_nonneg (txs : List Transaction) (u : Int)
    (h : ∀ t ∈ txs, 0 ≤ F64.centsOf t.Amount) : 0 ≤ receivedCents txs u := by
  induction txs with
  | nil => simp [receivedCents]
  | cons t rest ih =>
    rw [receivedCents_cons]
    have h1 := h t (List.mem_cons_self _ _)
    have h2 := ih (fun y hy => h y (List.mem_cons_of_mem _ hy))
    split <;> omega

end Binary64

namespace Binary64

/-- C2, as stated, fails. The balances `{1: -0.03, 2: 0.01, 3: 0.01, 4: 0.01}` are
multiples of 0.01 and sum to zero; no user is a creditor, `minimizeDebts` returns no
transaction and user 1 is left with -0.03. The balances `{1: -0.12, 2: -0.09,
3: -0.06, 4: 0.11, 5: 0.08, 6: 0.05, 7: 0.03}` sum to zero as well; each debtor is
dropped with a cent of debt left, since in `float64` a remainder such as
`-0.06 + 0.05` passes the test `< 0.01`, three transactions are returned and user 7
is left with 0.03. -/
theorem minimizeDebts_leaves_cents :
    ((([(1, F64.ofCents (-3)), (2, F64.ofCents 1), (3, F64.ofCents 1),
        (4, F64.ofCents 1)] : GoMap).map fun p => F64.centsOf p.2).sum = 0 ∧
      minimizeDebts 4 goInsertionSort [(1, F64.ofCents (-3)), (2, F64.ofCents 1),
        (3, F64.ofCents 1), (4, F64.ofCents 1)] = some [] ∧
      remainingCents (1, F64.ofCents (-3)) [] = -3) ∧
    (([(1, F64.ofCents (-12)), (2, F64.ofCents (-9)), (3, F64.ofCents (-6)),
        (4, F64.ofCents 11), (5, F64.ofCents 8), (6, F64.ofCents 5),
        (7, F64.ofCents 3)] : GoMap).map fun p => F64.centsOf p.2).sum = 0 ∧
    minimizeDebts 7 goInsertionSort [(1, F64.ofCents (-12)), (2, F64.ofCents (-9)),
        (3, F64.ofCents (-6)), (4, F64.ofCents 11), (5, F64.ofCents 8), (6, F64.ofCents 5),
        (7, F64.ofCents 3)] =
      some [⟨1, 4, F64.ofCents 11⟩, ⟨2, 5, F64.ofCents 8⟩, ⟨3, 6, F64.ofCents 5⟩] ∧
    remainingCents (7, F64.ofCents 3)
      [⟨1, 4, F64.ofCents 11⟩, ⟨2, 5, F64.ofCents 8⟩, ⟨3, 6, F64.ofCents 5⟩] = 3 ∧
    F64.lt (F64.abs (F64.add (F64.ofCents (-6)) (F64.ofCents 5))) F64.cent = true := by
  refine ⟨⟨by decide!, by decide!, by decide!⟩, by decide!, by decide!, by decide!, by decide!⟩

/-- C2, amended: for every balance map with distinct keys and at most 1024 entries
whose values are the `float64` nearest to whole numbers of cents, at most `2^38` cents
each, summing to zero, whatever the iteration order and the sort: once all the
transactions `minimizeDebts` returns are carried out, every user's remaining net
balance, in cents, is at least minus the number of entries that are not debtors and at
most the number of entries that are not creditors. -/
theorem minimizeDebts_settles_within (S : SliceSort) (balances : GoMap)
    (hnodup : (balances.map Prod.fst).Nodup) (hcents : WholeCents balances)
    (hlen : balances.length ≤ 1024)
    (hsum : (balances.map fun p => F64.centsOf p.2).sum = 0) :
    ∃ txs, (∀ fuel, balances.length ≤ fuel → minimizeDebts fuel S balances = some txs) ∧
      ∀ p ∈ balances,
        -((balances.length : ℤ) - (debtorsOf balances).length) ≤ remainingCents p txs ∧
        remainingCents p txs ≤ (balances.length : ℤ) - (creditorsOf balances).length := by
  obtain ⟨txs, hrun, _⟩ := minimizeDebts_total_f S balances (bounded_of_wholeCents _ hcents)
  have hlenDC := length_debtorsOf_add_creditorsOf_le_f balances
  have hinit := centsInv_init_f S balances hcents
  have hJ : 0 + (S.sort debtorLess (debtorsOf balances)).length +
      (S.sort creditorLess (creditorsOf balances)).length ≤ 1024 := by
    rw [(S.perm _ _).length_eq, (S.perm _ _).length_eq]; omega
  have hrun0 := hrun balances.length (le_refl _)
  have hover := fun u => settleLoop_no_oversettle_f u balances.length 0 _ _ txs hinit hJ hrun0
  obtain ⟨hres1, hres2, hres3⟩ := settleLoop_residual_f balances.length 0 _ _ txs hinit hJ hrun0
  obtain ⟨hcl1, hcl2, hcl3⟩ := classes_cents balances hcents
  rw [hsum, abs_le] at hcl2
  have hamounts : ∀ t ∈ txs, 0 ≤ F64.centsOf t.Amount := by
    intro t ht
    obtain ⟨k, hk1, hk2, hk⟩ := (hover 0).2.2 t ht
    rw [hk, centsOf_ofCents k (by rw [abs_of_nonneg (by omega)]; exact hk2)]
    omega
  rw [heldTotal_perm (S.perm debtorLess (debtorsOf balances))] at hres1 hres3
  rw [heldTotal_perm (S.perm creditorLess (creditorsOf balances))] at hres2 hres3
  rw [(S.perm _ _).length_eq, (S.perm _ _).length_eq] at hres3
  refine ⟨txs, hrun, fun p hp => ?_⟩
  obtain ⟨u, x⟩ := p
  obtain ⟨n, hn, hb⟩ := hcents _ hp
  simp only at hn
  subst hn
  obtain ⟨c1, c2, c3, c4⟩ := cents_class n hb
  have hcn : F64.centsOf (F64.ofCents n) = n := centsOf_ofCents n hb
  have hpaid0 := paidCents_nonneg txs u hamounts
  have hrecv0 := receivedCents_nonneg txs u hamounts
  obtain ⟨ho1, ho2, _⟩ := hover u
  have hr1 := hres1 u
  have hr2 := hres2 u
  have heD : entriesOf u (S.sort debtorLess (debtorsOf balances)) ≤ 1 := by
    rw [entriesOf_perm u (S.perm _ _)]
    exact entriesOf_le_one u _ (nodup_debtorsOf_f balances hnodup)
  have heC : entriesOf u (S.sort creditorLess (creditorsOf balances)) ≤ 1 := by
    rw [entriesOf_perm u (S.perm _ _)]
    exact entriesOf_le_one u _ (nodup_creditorsOf_f balances hnodup)
  have hhD := centsHeld_debtorsOf balances hnodup (u, F64.ofCents n) hp
  have hhC := centsHeld_creditorsOf balances hnodup (u, F64.ofCents n) hp
  rw [centsHeld_perm u (S.perm debtorLess (debtorsOf balances))] at ho1 hr1
  rw [centsHeld_perm u (S.perm creditorLess (creditorsOf balances))] at ho2 hr2
  have hper : (∀ v, -centsHeld v (S.sort debtorLess (debtorsOf balances)) -
      paidCents txs v ≤ entriesOf v (S.sort debtorLess (debtorsOf balances))) →
      -centsHeld u (debtorsOf balances) - paidCents txs u ≤ 1 := by
    intro hall
    have := hall u
    rw [centsHeld_perm u (S.perm _ _)] at this
    omega
  have hperC : (∀ v, centsHeld v (S.sort creditorLess (creditorsOf balances)) -
      receivedCents txs v ≤ entriesOf v (S.sort creditorLess (creditorsOf balances))) →
      centsHeld u (creditorsOf balances) - receivedCents txs u ≤ 1 := by
    intro hall
    have := hall u
    rw [centsHeld_perm u (S.perm _ _)] at this
    omega
  simp only at hhD hhC
  rw [hcn] at hhD hhC
  have hDnil : (debtorsOf balances).length = 0 → heldTotal (debtorsOf balances) = 0 := by
    intro h0
    rw [List.length_eq_zero.1 h0]
    rfl
  have hCnil : (creditorsOf balances).length = 0 → heldTotal (creditorsOf balances) = 0 := by
    intro h0
    rw [List.length_eq_zero.1 h0]
    rfl
  have hHD := heldTotal_le_centsHeld u (S.sort debtorLess (debtorsOf balances))
    (centsOf_of_centsInv_debtor (by omega) hinit)
  have hHC := centsHeld_le_heldTotal u (S.sort creditorLess (creditorsOf balances))
    (centsOf_of_centsInv_creditor (by omega) hinit)
  rw [heldTotal_perm (S.perm debtorLess (debtorsOf balances)),
    centsHeld_perm u (S.perm debtorLess (debtorsOf balances))] at hHD
  rw [heldTotal_perm (S.perm creditorLess (creditorsOf balances)),
    centsHeld_perm u (S.perm creditorLess (creditorsOf balances))] at hHC
  unfold remainingCents
  simp only
  rw [hcn]
  cases hd : F64.lt (F64.ofCents n) (F64.neg F64.cent)
  · cases hc : F64.lt F64.cent (F64.ofCents n)
    · -- neither a debtor nor a creditor
      have hlo := c2 hd
      have hhi := c4 hc
      have hs := hcl3 ⟨_, hp, hd, hc⟩
      rw [hd] at hhD
      rw [hd, hc] at hhC
      simp only [Bool.false_eq_true, if_false, Bool.not_false, Bool.and_false] at hhD hhC
      rw [hhD] at ho1
      rw [hhC] at ho2
      constructor <;> omega
    · -- a creditor
      have hlo := c3 hc
      rw [hd] at hhD
      rw [hd, hc] at hhC
      simp only [Bool.false_eq_true, if_false, Bool.not_false, Bool.and_true, if_true]
        at hhD hhC
      rw [hhD] at ho1 hr1
      rw [hhC] at ho2 hr2 hHC
      have hpos : 1 ≤ (balances.length : ℤ) - (creditorsOf balances).length := by
        by_contra hcon
        have hd0 : (debtorsOf balances).length = 0 := by omega
        have := hDnil hd0
        omega
      rcases hres3 with ⟨hp1, ht1⟩ | ⟨hp2, ht2⟩
      · constructor <;> omega
      · have := hperC hp2
        rw [hhC] at this
        constructor <;> omega
  · -- a debtor
    have hhi := c1 hd
    rw [hd] at hhD hhC
    simp only [if_true, Bool.not_true, Bool.false_and, Bool.false_eq_true, if_false]
      at hhD hhC
    rw [hhD] at ho1 hr1 hHD
    rw [hhC] at ho2 hr2
    have hpos : 1 ≤ (balances.length : ℤ) - (debtorsOf balances).length := by
      by_contra hcon
      have hc0 : (creditorsOf balances).length = 0 := by omega
      have := hCnil hc0
      omega
    rcases hres3 with ⟨hp1, ht1⟩ | ⟨hp2, ht2⟩
    · have := hper hp1
      rw [hhD] at this
      constructor <;> omega
    · constructor <;> omega

/-- Witness of the amended C2 on the seven balances `-0.12, -0.09, -0.06, 0.11, 0.08,
0.05, 0.03`. -/
theorem minimizeDebts_settles_within_witness :
    ([(1, F64.ofCents (-12)), (2, F64.ofCents (-9)), (3, F64.ofCents (-6)),
        (4, F64.ofCents 11), (5, F64.ofCents 8), (6, F64.ofCents 5),
        (7, F64.ofCents 3)] : GoMap).length ≤ 1024 ∧
    ∃ txs, (∀ fuel, 7 ≤ fuel → minimizeDebts fuel goInsertionSort
        [(1, F64.ofCents (-12)), (2, F64.ofCents (-9)), (3, F64.ofCents (-6)),
          (4, F64.ofCents 11), (5, F64.ofCents 8), (6, F64.ofCents 5),
          (7, F64.ofCents 3)] = some txs) ∧
      ∀ p ∈ ([(1, F64.ofCents (-12)), (2, F64.ofCents (-9)), (3, F64.ofCents (-6)),
          (4, F64.ofCents 11), (5, F64.ofCents 8), (6, F64.ofCents 5),
          (7, F64.ofCents 3)] : GoMap),
        -(((7 : ℕ) : ℤ) - (debtorsOf [(1, F64.ofCents (-12)), (2, F64.ofCents (-9)),
          (3, F64.ofCents (-6)), (4, F64.ofCents 11), (5, F64.ofCents 8),
          (6, F64.ofCents 5), (7, F64.ofCents 3)]).length) ≤ remainingCents p txs ∧
        remainingCents p txs ≤ ((7 : ℕ) : ℤ) - (creditorsOf [(1, F64.ofCents (-12)),
          (2, F64.ofCents (-9)), (3, F64.ofCents (-6)), (4, F64.ofCents 11),
          (5, F64.ofCents 8), (6, F64.ofCents 5), (7, F64.ofCents 3)]).length :=
  ⟨by decide, minimizeDebts_settles_within goInsertionSort
    [(1, F64.ofCents (-12)), (2, F64.ofCents (-9)), (3, F64.ofCents (-6)),
      (4, F64.ofCents 11), (5, F64.ofCents 8), (6, F64.ofCents 5), (7, F64.ofCents 3)]
    (by decide)
    (by
      intro p hp
      simp only [List.mem_cons, List.mem_singleton, List.not_mem_nil, or_false] at hp
      rcases hp with rfl | rfl | rfl | rfl | rfl | rfl | rfl
      · exact ⟨-12, rfl, by unfold centsBound; norm_num⟩
      · exact ⟨-9, rfl, by unfold centsBound; norm_num⟩
      · exact ⟨-6, rfl, by unfold centsBound; norm_num⟩
      · exact ⟨11, rfl, by unfold centsBound; norm_num⟩
      · exact ⟨8, rfl, by unfold centsBound; norm_num⟩
      · exact ⟨5, rfl, by unfold centsBound; norm_num⟩
      · exact ⟨3, rfl, by unfold centsBound; norm_num⟩)
    (by decide) (by decide!)⟩

end Binary64

/-! ## Multiples of 0.25: binary64 is exact -/

namespace Binary64

/-- A multiple of 0.25 of magnitude at most `2^50` is a `float64`. -/
theorem roundNearest_quarter (n : ℤ) (h : |(n : ℚ) / 4| ≤ 2 ^ (50 : ℕ)) :
    roundNearest ((n : ℚ) / 4) = (n : ℚ) / 4 := by
  have two_ne : (2 : ℚ) ≠ 0 := by norm_num
  by_cases hn : n = 0
  · subst hn
    simpa using roundNearest_zero
  have hq : (n : ℚ) / 4 ≠ 0 := by
    have : (n : ℚ) ≠ 0 := by exact_mod_cast hn
    exact div_ne_zero this (by norm_num)
  obtain ⟨hb1, hb2⟩ := binade_spec _ hq
  have hone : (1 : ℚ) / 4 ≤ |(n : ℚ) / 4| := by
    rw [abs_div, ← Int.cast_abs]
    have h1 : (1 : ℤ) ≤ |n| := Int.one_le_abs hn
    have h2 : (1 : ℚ) ≤ ((|n| : ℤ) : ℚ) := by exact_mod_cast h1
    have h3 : |(4 : ℚ)| = 4 := abs_of_pos (by norm_num)
    rw [h3]
    linarith
  have hlo : -2 ≤ binade ((n : ℚ) / 4) := by
    by_contra hneg
    have hle : binade ((n : ℚ) / 4) + 1 ≤ -2 := by omega
    have h1 : (2 : ℚ) ^ (binade ((n : ℚ) / 4) + 1) ≤ 2 ^ (-2 : ℤ) :=
      zpow_le_zpow_right₀ (by norm_num) hle
    have h2 : (2 : ℚ) ^ (-2 : ℤ) = 1 / 4 := by norm_num [zpow_neg]
    rw [h2] at h1
    linarith
  have hhi : binade ((n : ℚ) / 4) ≤ 50 := by
    have h1 : (2 : ℚ) ^ binade ((n : ℚ) / 4) ≤ 2 ^ ((50 : ℕ) : ℤ) := by
      rw [zpow_natCast]; exact hb1.trans h
    exact (zpow_le_zpow_iff_right₀ (by norm_num : (1 : ℚ) < 2)).1 h1
  obtain ⟨k, hk⟩ := Int.eq_ofNat_of_zero_le (show 0 ≤ 50 - binade ((n : ℚ) / 4) by omega)
  apply roundNearest_of_mul_ulp _ (n * 2 ^ k)
  have hu : ulp ((n : ℚ) / 4) = (2 : ℚ) ^ (binade ((n : ℚ) / 4) - 52) := by
    unfold ulp
    rw [max_eq_left (by omega)]
  have hpow : (2 : ℚ) ^ k * (2 : ℚ) ^ (binade ((n : ℚ) / 4) - 52) = 1 / 4 := by
    rw [← zpow_natCast, ← zpow_add₀ two_ne, ← hk]
    have : 50 - binade ((n : ℚ) / 4) + (binade ((n : ℚ) / 4) - 52) = -2 := by ring
    rw [this]
    norm_num [zpow_neg]
  rw [hu]
  push_cast
  rw [mul_assoc, hpow]
  ring

theorem ofRat_quarter {x : ℚ} (hx : IsQuarter x) (hb : |x| ≤ 2 ^ (50 : ℕ)) :
    F64.ofRat x = F64.fin x := by
  obtain ⟨n, rfl⟩ := hx
  rw [F64.ofRat_eq_fin _ (hb.trans (pow_le_pow_right₀ (by norm_num) (by norm_num))),
    roundNearest_quarter n hb]

theorem IsQuarter.add_isQuarter {x y : ℚ} (hx : IsQuarter x) (hy : IsQuarter y) : IsQuarter (x + y) := by
  obtain ⟨n, rfl⟩ := hx
  obtain ⟨m, rfl⟩ := hy
  exact ⟨n + m, by push_cast; ring⟩

theorem IsQuarter.sub_isQuarter {x y : ℚ} (hx : IsQuarter x) (hy : IsQuarter y) : IsQuarter (x - y) := by
  obtain ⟨n, rfl⟩ := hx
  obtain ⟨m, rfl⟩ := hy
  exact ⟨n - m, by push_cast; ring⟩

theorem IsQuarter.neg_isQuarter {x : ℚ} (hx : IsQuarter x) : IsQuarter (-x) := by
  obtain ⟨n, rfl⟩ := hx
  exact ⟨-n, by push_cast; ring⟩

theorem IsQuarter.abs {x : ℚ} (hx : IsQuarter x) : IsQuarter |x| := by
  rcases abs_choice x with h | h
  · rw [h]; exact hx
  · rw [h]; exact hx.neg_isQuarter

theorem IsQuarter.zero : IsQuarter 0 := ⟨0, by simp⟩

theorem IsQuarter.isCents {x : ℚ} (hx : IsQuarter x) : IsCents x := by
  obtain ⟨n, rfl⟩ := hx
  exact ⟨n * 25, by push_cast; ring⟩

theorem IsQuarter.sum {l : List ℚ} (h : ∀ x ∈ l, IsQuarter x) : IsQuarter l.sum := by
  induction l with
  | nil => exact IsQuarter.zero
  | cons a l ih =>
    rw [List.sum_cons]
    exact (h a (List.mem_cons_self _ _)).add_isQuarter (ih fun x hx => h x (List.mem_cons_of_mem _ hx))

/-- A multiple of 0.25 that is not below 0.01 is at least 0.25. -/
theorem IsQuarter.ge_of_pos {x : ℚ} (hx : IsQuarter x) (h : 0 < x) : 1 / 4 ≤ x := by
  obtain ⟨n, rfl⟩ := hx
  have hn : (0 : ℚ) < (n : ℚ) := by linarith
  have h1 : (1 : ℤ) ≤ n := by
    have : (0 : ℤ) < n := by exact_mod_cast hn
    omega
  have h2 : (1 : ℚ) ≤ (n : ℚ) := by exact_mod_cast h1
  linarith

theorem add_quarter {a b : ℚ} (ha : IsQuarter a) (hb : IsQuarter b)
    (h : |a + b| ≤ 2 ^ (50 : ℕ)) : F64.add (F64.fin a) (F64.fin b) = F64.fin (a + b) := by
  rw [add_fin, ofRat_quarter (ha.add_isQuarter hb) h]

theorem sub_quarter {a b : ℚ} (ha : IsQuarter a) (hb : IsQuarter b)
    (h : |a - b| ≤ 2 ^ (50 : ℕ)) : F64.sub (F64.fin a) (F64.fin b) = F64.fin (a - b) := by
  rw [sub_fin, ofRat_quarter (ha.sub_isQuarter hb) h]

/-- On a multiple of 0.25, `math.Round(x*100) / 100` returns its argument. -/
theorem round2_quarter {x : ℚ} (hx : IsQuarter x) (hb : |x| ≤ 2 ^ (43 : ℕ)) :
    F64.round2 (F64.fin x) = F64.fin x := by
  obtain ⟨n, rfl⟩ := hx
  have e1 : (n : ℚ) / 4 * 100 = ((n * 25 * 4 : ℤ) : ℚ) / 4 := by push_cast; ring
  have e3 : (n : ℚ) / 4 * 100 = ((n * 25 : ℤ) : ℚ) := by push_cast; ring
  have h100 : |((n * 25 * 4 : ℤ) : ℚ) / 4| ≤ 2 ^ (50 : ℕ) := by
    rw [← e1, abs_mul]
    have h1 : |(100 : ℚ)| ≤ 2 ^ (7 : ℕ) := by norm_num [abs_of_pos]
    have h2 : (2 : ℚ) ^ (43 : ℕ) * 2 ^ (7 : ℕ) = 2 ^ (50 : ℕ) := by norm_num
    calc |(n : ℚ) / 4| * |(100 : ℚ)| ≤ 2 ^ (43 : ℕ) * 2 ^ (7 : ℕ) :=
          mul_le_mul hb h1 (abs_nonneg _) (by positivity)
      _ = 2 ^ (50 : ℕ) := h2
  have hn50 : |(n : ℚ) / 4| ≤ 2 ^ (50 : ℕ) :=
    hb.trans (pow_le_pow_right₀ (by norm_num) (by norm_num))
  unfold F64.round2 F64.hundred
  rw [mul_fin, e1, ofRat_quarter ⟨n * 25 * 4, rfl⟩ h100, ← e1, e3, round_fin,
    mathRound_intCast, div_fin _ _ (by norm_num)]
  have e2 : ((n * 25 : ℤ) : ℚ) / 100 = (n : ℚ) / 4 := by push_cast; ring
  rw [e2, ofRat_quarter ⟨n, rfl⟩ hn50]

/-- A multiple of 0.25 is above 0.01 in `float64` exactly when it is in decimal. -/
theorem lt_cent_quarter {x : ℚ} (hx : IsQuarter x) :
    F64.lt F64.cent (F64.fin x) = decide (x > 1 / 100) := by
  obtain ⟨n, rfl⟩ := hx
  rw [cent_eq, lt_fin, centValue_eq]
  by_cases h : (1 : ℤ) ≤ n
  · have hq : (1 : ℚ) ≤ (n : ℚ) := by exact_mod_cast h
    rw [decide_eq_true (by linarith), decide_eq_true (by linarith)]
  · have hq : (n : ℚ) ≤ 0 := by
      have : n ≤ 0 := by omega
      exact_mod_cast this
    rw [decide_eq_false (by linarith), decide_eq_false (by linarith)]

/-- A multiple of 0.25 is below 0.01 in `float64` exactly when it is in decimal. -/
theorem quarter_lt_cent {x : ℚ} (hx : IsQuarter x) :
    F64.lt (F64.fin x) F64.cent = decide (x < 1 / 100) := by
  obtain ⟨n, rfl⟩ := hx
  rw [cent_eq, lt_fin, centValue_eq]
  by_cases h : (1 : ℤ) ≤ n
  · have hq : (1 : ℚ) ≤ (n : ℚ) := by exact_mod_cast h
    rw [decide_eq_false (by linarith), decide_eq_false (by linarith)]
  · have hq : (n : ℚ) ≤ 0 := by
      have : n ≤ 0 := by omega
      exact_mod_cast this
    rw [decide_eq_true (by linarith), decide_eq_true (by linarith)]

/-- A multiple of 0.25 is below -0.01 in `float64` exactly when it is in decimal. -/
theorem quarter_lt_neg_cent {x : ℚ} (hx : IsQuarter x) :
    F64.lt (F64.fin x) (F64.neg F64.cent) = decide (x < -(1 / 100)) := by
  obtain ⟨n, rfl⟩ := hx
  have hneg : F64.neg F64.cent = F64.fin (-centValue) := by rw [cent_eq]; rfl
  rw [hneg, lt_fin, centValue_eq]
  by_cases h : n ≤ (-1 : ℤ)
  · have hq : (n : ℚ) ≤ -1 := by exact_mod_cast h
    rw [decide_eq_true (by linarith), decide_eq_true (by linarith)]
  · have hq : (0 : ℚ) ≤ (n : ℚ) := by
      have : 0 ≤ n := by omega
      exact_mod_cast this
    rw [decide_eq_false (by linarith), decide_eq_false (by linarith)]

end Binary64

/-! ## Maps of multiples of 0.25 -/

namespace Binary64

theorem get_liftMap (m : SplitUp.GoMap) (u : Int) :
    GoMap.get (liftMap m) u = F64.fin (SplitUp.GoMap.get m u) := by
  induction m with
  | nil => rfl
  | cons p rest ih =>
    obtain ⟨k, v⟩ := p
    rw [SplitUp.GoMap.get_cons]
    unfold GoMap.get liftMap at ih ⊢
    rw [List.map_cons, List.lookup_cons]
    by_cases h : u = k
    · subst h
      simp
    · rw [beq_false_of_ne h, if_neg h]
      exact ih

theorem set_liftMap (m : SplitUp.GoMap) (k : Int) (v : ℚ) :
    GoMap.set (liftMap m) k (F64.fin v) = liftMap (SplitUp.GoMap.set m k v) := by
  induction m with
  | nil => rfl
  | cons p rest ih =>
    obtain ⟨k1, v1⟩ := p
    unfold liftMap at ih ⊢
    rw [List.map_cons]
    unfold GoMap.set SplitUp.GoMap.set
    by_cases h : k1 = k
    · rw [if_pos h, if_pos h]
      rfl
    · rw [if_neg h, if_neg h, List.map_cons, ih]

theorem keys_liftMap (m : SplitUp.GoMap) : GoMap.keys (liftMap m) = SplitUp.GoMap.keys m := by
  unfold GoMap.keys SplitUp.GoMap.keys liftMap
  rw [List.map_map]
  rfl

theorem length_liftMap (m : SplitUp.GoMap) : (liftMap m).length = m.length := by
  unfold liftMap
  rw [List.length_map]

theorem rowsWeight_nil : rowsWeight [] = 0 := rfl

theorem rowsWeight_cons (r : Int × ℚ) (rows : List (Int × ℚ)) :
    rowsWeight (r :: rows) = |r.2| + rowsWeight rows := by
  unfold rowsWeight
  rw [List.map_cons, List.sum_cons]

theorem rowsWeight_nonneg (rows : List (Int × ℚ)) : 0 ≤ rowsWeight rows := by
  induction rows with
  | nil => exact le_refl _
  | cons r rows ih =>
    rw [rowsWeight_cons]
    exact add_nonneg (abs_nonneg _) ih

theorem rowsWeight_append (l1 l2 : List (Int × ℚ)) :
    rowsWeight (l1 ++ l2) = rowsWeight l1 + rowsWeight l2 := by
  unfold rowsWeight
  rw [List.map_append, List.sum_append]

theorem abs_le_rowsWeight (rows : List (Int × ℚ)) (r : Int × ℚ) (h : r ∈ rows) :
    |r.2| ≤ rowsWeight rows := by
  induction rows with
  | nil => simp at h
  | cons a rows ih =>
    rw [rowsWeight_cons]
    rcases List.mem_cons.1 h with h1 | h1
    · subst h1
      linarith [rowsWeight_nonneg rows]
    · linarith [ih h1, abs_nonneg a.2]

/-- The assignment `m[k] = v` changes the weight of the map by the change of the value
of `k`. -/
theorem rowsWeight_set (m : SplitUp.GoMap) (k : Int) (v : ℚ) :
    rowsWeight (SplitUp.GoMap.set m k v) = rowsWeight m - |SplitUp.GoMap.get m k| + |v| := by
  induction m with
  | nil =>
    unfold SplitUp.GoMap.set
    rw [rowsWeight_cons, rowsWeight_nil, SplitUp.GoMap.get_nil]
    simp
  | cons p rest ih =>
    obtain ⟨k1, v1⟩ := p
    unfold SplitUp.GoMap.set
    rw [SplitUp.GoMap.get_cons]
    by_cases h : k1 = k
    · rw [if_pos h, if_pos h.symm, rowsWeight_cons, rowsWeight_cons]
      simp only
      ring
    · rw [if_neg h, if_neg (Ne.symm h), rowsWeight_cons, rowsWeight_cons, ih]
      simp only
      ring

theorem abs_get_le_rowsWeight (m : SplitUp.GoMap) (k : Int) :
    |SplitUp.GoMap.get m k| ≤ rowsWeight m := by
  induction m with
  | nil =>
    rw [SplitUp.GoMap.get_nil, rowsWeight_nil]
    simp
  | cons p rest ih =>
    obtain ⟨k1, v1⟩ := p
    rw [SplitUp.GoMap.get_cons, rowsWeight_cons]
    by_cases h : k = k1
    · rw [if_pos h]
      linarith [rowsWeight_nonneg rest]
    · rw [if_neg h]
      linarith [abs_nonneg v1]

theorem rowsWeight_add_le (m : SplitUp.GoMap) (k : Int) (a : ℚ) :
    rowsWeight (SplitUp.GoMap.add m k a) ≤ rowsWeight m + |a| := by
  unfold SplitUp.GoMap.add
  rw [rowsWeight_set]
  linarith [abs_add (SplitUp.GoMap.get m k) a]

theorem isQuarter_get (m : SplitUp.GoMap) (h : ∀ p ∈ m, IsQuarter p.2) (k : Int) :
    IsQuarter (SplitUp.GoMap.get m k) := by
  induction m with
  | nil => exact IsQuarter.zero
  | cons p rest ih =>
    obtain ⟨k1, v1⟩ := p
    rw [SplitUp.GoMap.get_cons]
    by_cases hk : k = k1
    · rw [if_pos hk]
      exact h (k1, v1) (List.mem_cons_self _ _)
    · rw [if_neg hk]
      exact ih fun p hp => h p (List.mem_cons_of_mem _ hp)

theorem isQuarter_set (m : SplitUp.GoMap) (h : ∀ p ∈ m, IsQuarter p.2) (k : Int) (v : ℚ)
    (hv : IsQuarter v) : ∀ p ∈ SplitUp.GoMap.set m k v, IsQuarter p.2 := by
  induction m with
  | nil =>
    intro p hp
    unfold SplitUp.GoMap.set at hp
    rw [List.mem_singleton] at hp
    subst hp
    exact hv
  | cons q rest ih =>
    obtain ⟨k1, v1⟩ := q
    intro p hp
    unfold SplitUp.GoMap.set at hp
    by_cases hk : k1 = k
    · rw [if_pos hk] at hp
      rcases List.mem_cons.1 hp with h1 | h1
      · subst h1; exact hv
      · exact h p (List.mem_cons_of_mem _ h1)
    · rw [if_neg hk] at hp
      rcases List.mem_cons.1 hp with h1 | h1
      · subst h1; exact h (k1, v1) (List.mem_cons_self _ _)
      · exact ih (fun p hp => h p (List.mem_cons_of_mem _ hp)) p h1

theorem isQuarter_add (m : SplitUp.GoMap) (h : ∀ p ∈ m, IsQuarter p.2) (k : Int) (a : ℚ)
    (ha : IsQuarter a) : ∀ p ∈ SplitUp.GoMap.add m k a, IsQuarter p.2 :=
  isQuarter_set m h k _ ((isQuarter_get m h k).add_isQuarter ha)

/-- On a map of multiples of 0.25 of bounded weight `m[k] += a` is exact. -/
theorem add_liftMap (m : SplitUp.GoMap) (h : ∀ p ∈ m, IsQuarter p.2) (k : Int) (a : ℚ)
    (ha : IsQuarter a) (hw : rowsWeight m + |a| ≤ 2 ^ (50 : ℕ)) :
    GoMap.add (liftMap m) k (F64.fin a) = liftMap (SplitUp.GoMap.add m k a) := by
  unfold GoMap.add SplitUp.GoMap.add
  rw [get_liftMap, add_quarter (isQuarter_get m h k) ha, set_liftMap]
  exact (abs_add _ _).trans (by linarith [abs_get_le_rowsWeight m k])

theorem isQuarter_foldl_add (rows : List (Int × ℚ)) (m : SplitUp.GoMap)
    (h : ∀ p ∈ m, IsQuarter p.2) (hr : ∀ r ∈ rows, IsQuarter r.2) :
    ∀ p ∈ rows.foldl (fun m r => SplitUp.GoMap.add m r.1 r.2) m, IsQuarter p.2 := by
  induction rows generalizing m with
  | nil => exact h
  | cons r rows ih =>
    rw [List.foldl_cons]
    exact ih _ (isQuarter_add m h r.1 r.2 (hr r (List.mem_cons_self _ _)))
      fun x hx => hr x (List.mem_cons_of_mem _ hx)

theorem rowsWeight_foldl_add_le (rows : List (Int × ℚ)) (m : SplitUp.GoMap) :
    rowsWeight (rows.foldl (fun m r => SplitUp.GoMap.add m r.1 r.2) m) ≤
      rowsWeight m + rowsWeight rows := by
  induction rows generalizing m with
  | nil => rw [List.foldl_nil, rowsWeight_nil, add_zero]
  | cons r rows ih =>
    rw [List.foldl_cons, rowsWeight_cons]
    linarith [ih (SplitUp.GoMap.add m r.1 r.2), rowsWeight_add_le m r.1 r.2]

/-- A loop of `m[uid] += amt` over multiples of 0.25 of bounded weight is exact. -/
theorem foldl_add_liftMap (rows : List (Int × ℚ)) (m : SplitUp.GoMap)
    (h : ∀ p ∈ m, IsQuarter p.2) (hr : ∀ r ∈ rows, IsQuarter r.2)
    (hw : rowsWeight m + rowsWeight rows ≤ 2 ^ (50 : ℕ)) :
    rows.foldl (fun m r => GoMap.add m r.1 (F64.fin r.2)) (liftMap m) =
      liftMap (rows.foldl (fun m r => SplitUp.GoMap.add m r.1 r.2) m) := by
  induction rows generalizing m with
  | nil => rfl
  | cons r rows ih =>
    rw [rowsWeight_cons] at hw
    rw [List.foldl_cons, List.foldl_cons,
      add_liftMap m h r.1 r.2 (hr r (List.mem_cons_self _ _))
        (by linarith [rowsWeight_nonneg rows])]
    exact ih _ (isQuarter_add m h r.1 r.2 (hr r (List.mem_cons_self _ _)))
      (fun x hx => hr x (List.mem_cons_of_mem _ hx))
      (by linarith [rowsWeight_add_le m r.1 r.2])

end Binary64

/-! ## The totals of `ExportGroupPDF` on multiples of 0.25 -/

namespace Binary64

theorem scanOrZero_quarter {x : ℚ} (hx : IsQuarter x) (hb : |x| ≤ 2 ^ (50 : ℕ)) :
    scanOrZero x = F64.fin x := by
  unfold scanOrZero scanAmount
  rw [ofRat_quarter hx hb]
  rfl

theorem isQuarter_fetchPayers (dir : Directory) (db : Store) (expenseID : Int)
    (hp : ∀ p ∈ db.expense_payers, IsQuarter p.paid_amount) :
    ∀ r ∈ (fetchPayers dir db expenseID).map fun r => (r.2.1, r.2.2), IsQuarter r.2 := by
  intro r hr
  obtain ⟨x, hx, rfl⟩ := List.mem_map.1 hr
  unfold fetchPayers at hx
  obtain ⟨ep, hep, hx⟩ := List.mem_flatMap.1 hx
  obtain ⟨u, _, rfl⟩ := List.mem_map.1 hx
  exact hp ep (List.mem_filter.1 hep).1

theorem isQuarter_fetchSplits (db : Store) (expenseID : Int)
    (hs : ∀ s ∈ db.expense_splits, IsQuarter s.amount_owed) :
    ∀ r ∈ fetchSplits db expenseID, IsQuarter r.2 := by
  intro r hr
  unfold fetchSplits at hr
  obtain ⟨es, hes, rfl⟩ := List.mem_map.1 hr
  exact hs es (List.mem_filter.1 hes).1

theorem rowsWeight_map_neg (rows : List (Int × ℚ)) :
    rowsWeight (rows.map fun r => (r.1, -r.2)) = rowsWeight rows := by
  induction rows with
  | nil => rfl
  | cons r rows ih =>
    rw [List.map_cons, rowsWeight_cons, rowsWeight_cons, ih]
    simp only [abs_neg]

/-- The loop of `m[uid] += amt` over rows scanned from multiples of 0.25. -/
theorem foldl_add_scan (rows : List (Int × ℚ)) (m : SplitUp.GoMap)
    (h : ∀ p ∈ m, IsQuarter p.2) (hr : ∀ r ∈ rows, IsQuarter r.2)
    (hw : rowsWeight m + rowsWeight rows ≤ 2 ^ (50 : ℕ)) :
    rows.foldl (fun m r => GoMap.add m r.1 (scanOrZero r.2)) (liftMap m) =
      liftMap (rows.foldl (fun m r => SplitUp.GoMap.add m r.1 r.2) m) := by
  rw [← foldl_add_liftMap rows m h hr hw]
  apply List.foldl_ext
  intro a b hb
  rw [scanOrZero_quarter (hr b hb)]
  linarith [abs_le_rowsWeight rows b hb, rowsWeight_nonneg m]

/-- The loop of `m[uid] -= amt` over rows scanned from multiples of 0.25. -/
theorem foldl_subtract_scan (rows : List (Int × ℚ)) (m : SplitUp.GoMap)
    (h : ∀ p ∈ m, IsQuarter p.2) (hr : ∀ r ∈ rows, IsQuarter r.2)
    (hw : rowsWeight m + rowsWeight rows ≤ 2 ^ (50 : ℕ)) :
    rows.foldl (fun m r => GoMap.subtract m r.1 (scanOrZero r.2)) (liftMap m) =
      liftMap (rows.foldl (fun m r => SplitUp.GoMap.add m r.1 (-r.2)) m) := by
  have h1 : rows.foldl (fun m r => SplitUp.GoMap.add m r.1 (-r.2)) m =
      (rows.map fun r => (r.1, -r.2)).foldl (fun m r => SplitUp.GoMap.add m r.1 r.2) m := by
    rw [List.foldl_map]
  rw [h1, ← foldl_add_liftMap _ m h
    (by
      intro r hmem
      obtain ⟨x, hx, rfl⟩ := List.mem_map.1 hmem
      exact (hr x hx).neg_isQuarter)
    (by rw [rowsWeight_map_neg]; exact hw), List.foldl_map]
  apply List.foldl_ext
  intro a b hb
  rw [scanOrZero_quarter (hr b hb)]
  · rfl
  · linarith [abs_le_rowsWeight rows b hb, rowsWeight_nonneg m]

/-- The map `e.UserImpacts` of an expense whose rows are multiples of 0.25 is built
without error, and its weight is at most that of the rows. -/
theorem userImpacts_liftMap (dir : Directory) (db : Store) (expenseID : Int)
    (hp : ∀ p ∈ db.expense_payers, IsQuarter p.paid_amount)
    (hs : ∀ s ∈ db.expense_splits, IsQuarter s.amount_owed)
    (hw : rowsWeight ((fetchPayers dir db expenseID).map fun r => (r.2.1, r.2.2)) +
      rowsWeight (fetchSplits db expenseID) ≤ 2 ^ (50 : ℕ)) :
    userImpacts dir db expenseID = liftMap (SplitUp.userImpacts dir db expenseID) ∧
      (∀ p ∈ SplitUp.userImpacts dir db expenseID, IsQuarter p.2) ∧
      rowsWeight (SplitUp.userImpacts dir db expenseID) ≤
        rowsWeight ((fetchPayers dir db expenseID).map fun r => (r.2.1, r.2.2)) +
          rowsWeight (fetchSplits db expenseID) := by
  have hq1 := isQuarter_fetchPayers dir db expenseID hp
  have hq2 := isQuarter_fetchSplits db expenseID hs
  have e0 : (fetchPayers dir db expenseID).foldl
      (fun m r => SplitUp.GoMap.add m r.2.1 r.2.2) [] =
      ((fetchPayers dir db expenseID).map fun r => (r.2.1, r.2.2)).foldl
        (fun m r => SplitUp.GoMap.add m r.1 r.2) [] := by
    rw [List.foldl_map]
  have e1 : (fetchPayers dir db expenseID).foldl
      (fun m r => GoMap.add m r.2.1 (scanOrZero r.2.2)) [] =
      liftMap ((fetchPayers dir db expenseID).foldl
        (fun m r => SplitUp.GoMap.add m r.2.1 r.2.2) []) := by
    rw [e0, ← foldl_add_scan _ [] (fun p hp => absurd hp (List.not_mem_nil _)) hq1
      (by rw [rowsWeight_nil]; linarith [rowsWeight_nonneg (fetchSplits db expenseID)]),
      List.foldl_map]
    rfl
  have hq3 := isQuarter_foldl_add _ [] (fun p hp => absurd hp (List.not_mem_nil _)) hq1
  have hw3 := rowsWeight_foldl_add_le
    ((fetchPayers dir db expenseID).map fun r => (r.2.1, r.2.2)) []
  rw [rowsWeight_nil, zero_add, ← e0] at hw3
  rw [← e0] at hq3
  have e2 : (fetchSplits db expenseID).foldl (fun m r => SplitUp.GoMap.add m r.1 (-r.2))
      ((fetchPayers dir db expenseID).foldl (fun m r => SplitUp.GoMap.add m r.2.1 r.2.2) []) =
      ((fetchSplits db expenseID).map fun r => (r.1, -r.2)).foldl
        (fun m r => SplitUp.GoMap.add m r.1 r.2)
        ((fetchPayers dir db expenseID).foldl
          (fun m r => SplitUp.GoMap.add m r.2.1 r.2.2) []) := by
    rw [List.foldl_map]
  have hneg : ∀ r ∈ (fetchSplits db expenseID).map fun r => (r.1, -r.2), IsQuarter r.2 := by
    intro r hmem
    obtain ⟨x, hx, rfl⟩ := List.mem_map.1 hmem
    exact (hq2 x hx).neg_isQuarter
  refine ⟨?_, ?_, ?_⟩
  · unfold userImpacts SplitUp.userImpacts
    rw [e1]
    exact foldl_subtract_scan _ _ hq3 hq2 (by linarith)
  · unfold SplitUp.userImpacts
    rw [e2]
    exact isQuarter_foldl_add _ _ hq3 hneg
  · unfold SplitUp.userImpacts
    rw [e2]
    have := rowsWeight_foldl_add_le ((fetchSplits db expenseID).map fun r => (r.1, -r.2))
      ((fetchPayers dir db expenseID).foldl (fun m r => SplitUp.GoMap.add m r.2.1 r.2.2) [])
    rw [rowsWeight_map_neg] at this
    linarith

end Binary64

namespace Binary64

/-- The weight of the rows of one expense. -/
theorem expenseWeight_nonneg (dir : Directory) (db : Store) (es : List ExpenseRow) :
    0 ≤ (es.map fun e =>
      rowsWeight ((fetchPayers dir db e.id).map fun r => (r.2.1, r.2.2)) +
        rowsWeight (fetchSplits db e.id)).sum := by
  apply List.sum_nonneg
  intro x hx
  obtain ⟨e, _, rfl⟩ := List.mem_map.1 hx
  exact add_nonneg (rowsWeight_nonneg _) (rowsWeight_nonneg _)

/-- The loop that adds the impacts of every expense to `grandTotals`, from any map of
multiples of 0.25: exact while the weights stay within `2^50`. -/
theorem grandTotals_foldl_liftMap (dir : Directory) (db : Store)
    (hp : ∀ p ∈ db.expense_payers, IsQuarter p.paid_amount)
    (hs : ∀ s ∈ db.expense_splits, IsQuarter s.amount_owed)
    (es : List ExpenseRow) (m : SplitUp.GoMap) (hm : ∀ p ∈ m, IsQuarter p.2)
    (hw : rowsWeight m + (es.map fun e =>
      rowsWeight ((fetchPayers dir db e.id).map fun r => (r.2.1, r.2.2)) +
        rowsWeight (fetchSplits db e.id)).sum ≤ 2 ^ (50 : ℕ)) :
    (es.map (matrixRow dir db)).foldl (fun totals row =>
        row.UserImpacts.foldl (fun t p => GoMap.add t p.1 p.2) totals) (liftMap m) =
      liftMap ((es.map (SplitUp.matrixRow dir db)).foldl (fun totals row =>
        row.UserImpacts.foldl (fun t p => SplitUp.GoMap.add t p.1 p.2) totals) m) ∧
    (∀ p ∈ (es.map (SplitUp.matrixRow dir db)).foldl (fun totals row =>
        row.UserImpacts.foldl (fun t p => SplitUp.GoMap.add t p.1 p.2) totals) m,
      IsQuarter p.2) ∧
    rowsWeight ((es.map (SplitUp.matrixRow dir db)).foldl (fun totals row =>
        row.UserImpacts.foldl (fun t p => SplitUp.GoMap.add t p.1 p.2) totals) m) ≤
      rowsWeight m + (es.map fun e =>
        rowsWeight ((fetchPayers dir db e.id).map fun r => (r.2.1, r.2.2)) +
          rowsWeight (fetchSplits db e.id)).sum := by
  induction es generalizing m with
  | nil =>
    refine ⟨rfl, hm, ?_⟩
    simp
  | cons e es ih =>
    rw [List.map_cons, List.sum_cons] at hw
    have hrest := expenseWeight_nonneg dir db es
    obtain ⟨hui, huiq, huiw⟩ := userImpacts_liftMap dir db e.id hp hs
      (by linarith [rowsWeight_nonneg m])
    have hstep : (matrixRow dir db e).UserImpacts.foldl
        (fun t p => GoMap.add t p.1 p.2) (liftMap m) =
        liftMap ((SplitUp.matrixRow dir db e).UserImpacts.foldl
          (fun t p => SplitUp.GoMap.add t p.1 p.2) m) := by
      have h1 : (matrixRow dir db e).UserImpacts =
          liftMap (SplitUp.userImpacts dir db e.id) := hui
      have h2 : (SplitUp.matrixRow dir db e).UserImpacts =
          SplitUp.userImpacts dir db e.id := rfl
      rw [h1, h2, ← foldl_add_liftMap _ m hm huiq (by linarith)]
      unfold liftMap
      rw [List.foldl_map]
    have hq1 : ∀ p ∈ (SplitUp.matrixRow dir db e).UserImpacts.foldl
        (fun t p => SplitUp.GoMap.add t p.1 p.2) m, IsQuarter p.2 :=
      isQuarter_foldl_add _ m hm huiq
    have hw1 : rowsWeight ((SplitUp.matrixRow dir db e).UserImpacts.foldl
        (fun t p => SplitUp.GoMap.add t p.1 p.2) m) ≤
        rowsWeight m + rowsWeight (SplitUp.userImpacts dir db e.id) :=
      rowsWeight_foldl_add_le _ m
    obtain ⟨g1, g2, g3⟩ := ih _ hq1 (by linarith)
    rw [List.map_cons, List.map_cons, List.map_cons, List.foldl_cons, List.foldl_cons,
      List.sum_cons, hstep]
    exact ⟨g1, g2, by linarith⟩

/-- The map `grandTotals` of a group whose rows are multiples of 0.25 is built without
error. -/
theorem grandTotals_liftMap (dir : Directory) (db : Store) (groupID : Int)
    (hp : ∀ p ∈ db.expense_payers, IsQuarter p.paid_amount)
    (hs : ∀ s ∈ db.expense_splits, IsQuarter s.amount_owed)
    (hw : exportWeight dir db groupID ≤ 2 ^ (50 : ℕ)) :
    grandTotalsOf ((fetchExpenses db groupID).map (matrixRow dir db)) =
      liftMap (SplitUp.grandTotalsOf
        ((fetchExpenses db groupID).map (SplitUp.matrixRow dir db))) ∧
    (∀ p ∈ SplitUp.grandTotalsOf ((fetchExpenses db groupID).map (SplitUp.matrixRow dir db)),
      IsQuarter p.2) ∧
    rowsWeight (SplitUp.grandTotalsOf
      ((fetchExpenses db groupID).map (SplitUp.matrixRow dir db))) ≤
        exportWeight dir db groupID := by
  have h := grandTotals_foldl_liftMap dir db hp hs (fetchExpenses db groupID) []
    (fun p hp => absurd hp (List.not_mem_nil _))
    (by rw [rowsWeight_nil, zero_add]; exact hw)
  rw [rowsWeight_nil, zero_add] at h
  exact h

end Binary64

/-! ## The balance map of `GetGroupBalance` on multiples of 0.25 -/

namespace Binary64

theorem isQuarter_userTotal (rows : List (Int × ℚ)) (h : ∀ r ∈ rows, IsQuarter r.2) (u : Int) :
    IsQuarter (userTotal rows u) := by
  unfold userTotal
  apply IsQuarter.sum
  intro x hx
  obtain ⟨r, hr, rfl⟩ := List.mem_map.1 hx
  exact h r (List.mem_filter.1 hr).1

theorem abs_userTotal_le (rows : List (Int × ℚ)) (u : Int) :
    |userTotal rows u| ≤ rowsWeight rows := by
  induction rows with
  | nil =>
    rw [userTotal_nil, rowsWeight_nil]
    simp
  | cons r rows ih =>
    rw [userTotal_cons, rowsWeight_cons]
    split
    · exact (abs_add _ _).trans (by linarith)
    · rw [zero_add]
      linarith [abs_nonneg r.2]

theorem isQuarter_paidRows (db : Store) (groupID : Int)
    (h : ∀ p ∈ db.expense_payers, IsQuarter p.paid_amount) :
    ∀ r ∈ paidRows db groupID, IsQuarter r.2 := by
  intro r hr
  unfold paidRows at hr
  simp only [List.mem_flatMap, List.mem_map, List.mem_filter] at hr
  obtain ⟨p, hp, _, _, rfl⟩ := hr
  exact h p hp

theorem isQuarter_owedRows (db : Store) (groupID : Int)
    (h : ∀ s ∈ db.expense_splits, IsQuarter s.amount_owed) :
    ∀ r ∈ owedRows db groupID, IsQuarter r.2 := by
  intro r hr
  unfold owedRows at hr
  simp only [List.mem_flatMap, List.mem_map, List.mem_filter] at hr
  obtain ⟨p, hp, _, _, rfl⟩ := hr
  exact h p hp

theorem scanAmount_quarter {x : ℚ} (hx : IsQuarter x) (hb : |x| ≤ 2 ^ (50 : ℕ)) :
    scanAmount x = some (F64.fin x) := by
  unfold scanAmount
  rw [ofRat_quarter hx hb]

/-- The scan loop over totals that are multiples of 0.25 stores each total as it is. -/
theorem foldl_scan_liftMap (rows : List (Int × ℚ)) (m : SplitUp.GoMap)
    (hr : ∀ r ∈ rows, IsQuarter r.2 ∧ |r.2| ≤ 2 ^ (50 : ℕ)) :
    rows.foldl (fun m r =>
        match scanAmount r.2 with
        | some amount => GoMap.set m r.1 amount
        | none => m) (liftMap m) =
      liftMap (rows.foldl (fun m r => SplitUp.GoMap.set m r.1 r.2) m) := by
  induction rows generalizing m with
  | nil => rfl
  | cons r rows ih =>
    obtain ⟨h1, h2⟩ := hr r (List.mem_cons_self _ _)
    rw [List.foldl_cons, List.foldl_cons]
    simp only [scanAmount_quarter h1 h2]
    rw [set_liftMap]
    exact ih _ fun x hx => hr x (List.mem_cons_of_mem _ hx)

theorem scanRows_sumByUser_liftMap (rows : List (Int × ℚ)) (h : ∀ r ∈ rows, IsQuarter r.2)
    (hw : rowsWeight rows ≤ 2 ^ (50 : ℕ)) :
    scanRows (sumByUser rows) = liftMap (SplitUp.scanRows (sumByUser rows)) := by
  unfold scanRows SplitUp.scanRows
  apply foldl_scan_liftMap _ []
  intro r hr
  rw [sumByUser_eq] at hr
  obtain ⟨u, _, rfl⟩ := List.mem_map.1 hr
  exact ⟨isQuarter_userTotal rows h u, (abs_userTotal_le rows u).trans hw⟩

theorem allUsers_liftMap (paid owed : SplitUp.GoMap) :
    allUsers (liftMap paid) (liftMap owed) = SplitUp.allUsers paid owed := by
  unfold allUsers SplitUp.allUsers
  rw [keys_liftMap, keys_liftMap]

/-- A loop of assignments `m[uid] = v` whose values are held without error. -/
theorem foldl_set_liftMap (vf : Int → F64) (ve : Int → ℚ) (users : List Int)
    (h : ∀ u ∈ users, vf u = F64.fin (ve u)) (m : SplitUp.GoMap) :
    users.foldl (fun m uid => GoMap.set m uid (vf uid)) (liftMap m) =
      liftMap (users.foldl (fun m uid => SplitUp.GoMap.set m uid (ve uid)) m) := by
  induction users generalizing m with
  | nil => rfl
  | cons u users ih =>
    rw [List.foldl_cons, List.foldl_cons, h u (List.mem_cons_self _ _), set_liftMap]
    exact ih (fun x hx => h x (List.mem_cons_of_mem _ hx)) _

/-- The balance map of a group whose stored amounts are multiples of 0.25 is computed
without error: it is the decimal balance map. -/
theorem netBalances_liftMap (db : Store) (groupID : Int)
    (hp : ∀ p ∈ db.expense_payers, IsQuarter p.paid_amount)
    (hs : ∀ s ∈ db.expense_splits, IsQuarter s.amount_owed)
    (hw : balanceWeight db groupID ≤ 2 ^ (40 : ℕ)) :
    netBalances (paidMap db groupID) (owedMap db groupID) =
      liftMap (SplitUp.netBalances (SplitUp.paidMap db groupID)
        (SplitUp.owedMap db groupID)) := by
  unfold balanceWeight at hw
  have hw1 := rowsWeight_nonneg (paidRows db groupID)
  have hw2 := rowsWeight_nonneg (owedRows db groupID)
  have h40 : (2 : ℚ) ^ (40 : ℕ) ≤ 2 ^ (43 : ℕ) := pow_le_pow_right₀ (by norm_num) (by norm_num)
  have h43 : (2 : ℚ) ^ (43 : ℕ) ≤ 2 ^ (50 : ℕ) := pow_le_pow_right₀ (by norm_num) (by norm_num)
  have hqp := isQuarter_paidRows db groupID hp
  have hqo := isQuarter_owedRows db groupID hs
  have e1 : paidMap db groupID = liftMap (SplitUp.paidMap db groupID) :=
    scanRows_sumByUser_liftMap _ hqp (by linarith)
  have e2 : owedMap db groupID = liftMap (SplitUp.owedMap db groupID) :=
    scanRows_sumByUser_liftMap _ hqo (by linarith)
  rw [e1, e2]
  unfold netBalances SplitUp.netBalances
  rw [allUsers_liftMap]
  apply foldl_set_liftMap _ _ _ _ []
  intro u _
  have hq1 := isQuarter_userTotal _ hqp u
  have hq2 := isQuarter_userTotal _ hqo u
  have hb : |userTotal (paidRows db groupID) u - userTotal (owedRows db groupID) u| ≤
      2 ^ (40 : ℕ) := by
    have := abs_sub (userTotal (paidRows db groupID) u) (userTotal (owedRows db groupID) u)
    linarith [abs_userTotal_le (paidRows db groupID) u,
      abs_userTotal_le (owedRows db groupID) u]
  rw [get_liftMap, get_liftMap, get_paidMap, get_owedMap,
    sub_quarter hq1 hq2 (by linarith), round2_quarter (hq1.sub_isQuarter hq2) (by linarith),
    round2_of_isCents (hq1.sub_isQuarter hq2).isCents]

/-- The values of the decimal balance map of such a group are multiples of 0.25 of
magnitude at most the weight of the rows. -/
theorem isQuarter_netBalances (db : Store) (groupID : Int)
    (hp : ∀ p ∈ db.expense_payers, IsQuarter p.paid_amount)
    (hs : ∀ s ∈ db.expense_splits, IsQuarter s.amount_owed) :
    ∀ p ∈ SplitUp.netBalances (SplitUp.paidMap db groupID) (SplitUp.owedMap db groupID),
      IsQuarter p.2 ∧ |p.2| ≤ balanceWeight db groupID := by
  intro p hmem
  rw [netBalances_of_cents db groupID (fun p h => (hp p h).isCents)
    (fun s h => (hs s h).isCents), List.mem_map] at hmem
  obtain ⟨u, _, rfl⟩ := hmem
  refine ⟨(isQuarter_userTotal _ (isQuarter_paidRows db groupID hp) u).sub_isQuarter
    (isQuarter_userTotal _ (isQuarter_owedRows db groupID hs) u), ?_⟩
  unfold balanceWeight
  have := abs_sub (userTotal (paidRows db groupID) u) (userTotal (owedRows db groupID) u)
  simp only
  linarith [abs_userTotal_le (paidRows db groupID) u,
    abs_userTotal_le (owedRows db groupID) u]

end Binary64

/-! ## The loop of `minimizeDebts` on multiples of 0.25 -/

namespace Binary64

theorem IsQuarter.min_isQuarter {x y : ℚ} (hx : IsQuarter x) (hy : IsQuarter y) : IsQuarter (min x y) := by
  rcases min_choice x y with h | h
  · rw [h]; exact hx
  · rw [h]; exact hy

theorem pow43_le_pow50 : (2 : ℚ) ^ (43 : ℕ) ≤ 2 ^ (50 : ℕ) :=
  pow_le_pow_right₀ (by norm_num) (by norm_num)

theorem quarterItems_cons {x : SplitUp.balanceItem} {l : List SplitUp.balanceItem}
    (hx : IsQuarter x.Amount ∧ |x.Amount| ≤ 2 ^ (43 : ℕ)) (hl : QuarterItems l) :
    QuarterItems (x :: l) := by
  intro y hy
  rcases List.mem_cons.1 hy with h | h
  · subst h; exact hx
  · exact hl y h

theorem quarterItems_tail {x : SplitUp.balanceItem} {l : List SplitUp.balanceItem}
    (h : QuarterItems (x :: l)) : QuarterItems l :=
  fun y hy => h y (List.mem_cons_of_mem _ hy)

/-- The amount of a step between a debtor and a creditor that are multiples of 0.25: the
smaller of the two magnitudes, in decimal and in `float64`. -/
theorem stepAmount_quarter {d c : SplitUp.balanceItem}
    (hd : IsQuarter d.Amount) (hc : IsQuarter c.Amount)
    (hdneg : d.Amount ≤ -(1 / 100)) (hcpos : 1 / 100 ≤ c.Amount)
    (hcb : |c.Amount| ≤ 2 ^ (43 : ℕ)) :
    SplitUp.stepAmount d c = min (-d.Amount) c.Amount ∧
      stepAmount (liftItem d) (liftItem c) = F64.fin (min (-d.Amount) c.Amount) ∧
      IsQuarter (min (-d.Amount) c.Amount) ∧ 0 < min (-d.Amount) c.Amount := by
  have habs : |d.Amount| = -d.Amount := abs_of_nonpos (by linarith)
  have hq : IsQuarter (min (-d.Amount) c.Amount) := hd.neg_isQuarter.min_isQuarter hc
  have hpos : 0 < min (-d.Amount) c.Amount := lt_min (by linarith) (by linarith)
  have hb : |min (-d.Amount) c.Amount| ≤ 2 ^ (43 : ℕ) := by
    rw [abs_of_pos hpos]
    exact (min_le_right _ _).trans ((le_abs_self _).trans hcb)
  refine ⟨?_, ?_, hq, hpos⟩
  · unfold SplitUp.stepAmount
    rw [habs, round2_of_isCents hq.isCents]
  · unfold stepAmount liftItem
    simp only
    rw [abs_fin, min_fin, habs, round2_quarter hq hb]

theorem debtorsAfter_liftItem {d : SplitUp.balanceItem} (ds : List SplitUp.balanceItem)
    {a : ℚ} (hd : IsQuarter d.Amount) (ha : IsQuarter a)
    (hb : |d.Amount + a| ≤ 2 ^ (50 : ℕ)) :
    debtorsAfter (liftItem d) (ds.map liftItem) (F64.fin a) =
      (SplitUp.debtorsAfter d ds a).map liftItem := by
  unfold debtorsAfter SplitUp.debtorsAfter liftItem
  simp only
  rw [add_quarter hd ha hb, abs_fin, quarter_lt_cent (hd.add_isQuarter ha).abs]
  by_cases h : |d.Amount + a| < 1 / 100
  · rw [if_pos h, if_pos (decide_eq_true h)]
  · rw [if_neg h, if_neg (by simpa using h)]
    rfl

theorem creditorsAfter_liftItem {c : SplitUp.balanceItem} (cs : List SplitUp.balanceItem)
    {a : ℚ} (hc : IsQuarter c.Amount) (ha : IsQuarter a)
    (hb : |c.Amount - a| ≤ 2 ^ (50 : ℕ)) :
    creditorsAfter (liftItem c) (cs.map liftItem) (F64.fin a) =
      (SplitUp.creditorsAfter c cs a).map liftItem := by
  unfold creditorsAfter SplitUp.creditorsAfter liftItem
  simp only
  rw [sub_quarter hc ha hb, quarter_lt_cent (hc.sub_isQuarter ha)]
  by_cases h : c.Amount - a < 1 / 100
  · rw [if_pos h, if_pos (decide_eq_true h)]
  · rw [if_neg h, if_neg (by simpa using h)]
    rfl

theorem emitStep_liftTx (d c : SplitUp.balanceItem) (a : ℚ) (rest : List SplitUp.Transaction) :
    emitStep (liftItem d) (liftItem c) (F64.fin a) (rest.map liftTx) =
      (SplitUp.emitStep d c a rest).map liftTx := by
  unfold emitStep SplitUp.emitStep
  rw [lt_fin]
  by_cases h : a > 0
  · rw [if_pos h, if_pos (decide_eq_true h)]
    rfl
  · rw [if_neg h, if_neg (by simpa using h)]

theorem quarterItems_debtorsAfter {d : SplitUp.balanceItem} {ds : List SplitUp.balanceItem}
    {a : ℚ} (h : QuarterItems (d :: ds)) (ha : IsQuarter a) (hdneg : d.Amount ≤ 0)
    (ha0 : 0 ≤ a) (hle : a ≤ -d.Amount) : QuarterItems (SplitUp.debtorsAfter d ds a) := by
  unfold SplitUp.debtorsAfter
  split
  · exact quarterItems_tail h
  · refine quarterItems_cons ⟨(h d (List.mem_cons_self _ _)).1.add_isQuarter ha, ?_⟩ (quarterItems_tail h)
    have hb := (h d (List.mem_cons_self _ _)).2
    rw [abs_of_nonpos hdneg] at hb
    simp only
    rw [abs_of_nonpos (by linarith)]
    linarith

theorem quarterItems_creditorsAfter {c : SplitUp.balanceItem} {cs : List SplitUp.balanceItem}
    {a : ℚ} (h : QuarterItems (c :: cs)) (ha : IsQuarter a) (hcpos : 0 ≤ c.Amount)
    (ha0 : 0 ≤ a) : QuarterItems (SplitUp.creditorsAfter c cs a) := by
  unfold SplitUp.creditorsAfter
  split
  · exact quarterItems_tail h
  · refine quarterItems_cons ⟨(h c (List.mem_cons_self _ _)).1.sub_isQuarter ha, ?_⟩ (quarterItems_tail h)
    have hb := (h c (List.mem_cons_self _ _)).2
    rw [abs_of_nonneg hcpos] at hb
    simp only
    rw [abs_of_nonneg (by linarith)]
    linarith

/-- On slices of multiples of 0.25 the loop of `minimizeDebts` on `float64` follows the
decimal loop step by step, and the amounts it appends are multiples of 0.25. -/
theorem settleLoop_liftItem (fuel : Nat) (ds cs : List SplitUp.balanceItem)
    (hinv : SplitUp.LoopInv ds cs) (hds : QuarterItems ds) (hcs : QuarterItems cs) :
    settleLoop fuel (ds.map liftItem) (cs.map liftItem) =
        (SplitUp.settleLoop fuel ds cs).map (List.map liftTx) ∧
      ∀ txs, SplitUp.settleLoop fuel ds cs = some txs → ∀ t ∈ txs, IsQuarter t.Amount := by
  induction fuel generalizing ds cs with
  | zero =>
    cases ds with
    | nil =>
      refine ⟨by simp [settleLoop, SplitUp.settleLoop], ?_⟩
      intro txs h t ht
      simp [SplitUp.settleLoop] at h
      subst h
      cases ht
    | cons d ds =>
      cases cs with
      | nil =>
        refine ⟨by simp [settleLoop, SplitUp.settleLoop], ?_⟩
        intro txs h t ht
        simp [SplitUp.settleLoop] at h
        subst h
        cases ht
      | cons c cs =>
        refine ⟨by simp [settleLoop, SplitUp.settleLoop], ?_⟩
        intro txs h
        simp [SplitUp.settleLoop] at h
  | succ fuel ih =>
    cases ds with
    | nil =>
      refine ⟨by simp [settleLoop, SplitUp.settleLoop], ?_⟩
      intro txs h t ht
      simp [SplitUp.settleLoop] at h
      subst h
      cases ht
    | cons d ds =>
      cases cs with
      | nil =>
        refine ⟨by simp [settleLoop, SplitUp.settleLoop], ?_⟩
        intro txs h t ht
        simp [SplitUp.settleLoop] at h
        subst h
        cases ht
      | cons c cs =>
        obtain ⟨hqd, hbd⟩ := hds d (List.mem_cons_self _ _)
        obtain ⟨hqc, hbc⟩ := hcs c (List.mem_cons_self _ _)
        have hdneg := hinv.1 d (List.mem_cons_self _ _)
        have hcpos := hinv.2 c (List.mem_cons_self _ _)
        obtain ⟨he, hf, hqa, hapos⟩ := stepAmount_quarter hqd hqc hdneg hcpos hbc
        have hle1 : min (-d.Amount) c.Amount ≤ -d.Amount := min_le_left _ _
        have hle2 : min (-d.Amount) c.Amount ≤ c.Amount := min_le_right _ _
        have hinv1 := SplitUp.loopInv_step hinv
        rw [he] at hinv1
        have hq1 := quarterItems_debtorsAfter hds hqa (by linarith) hapos.le hle1
        have hq2 := quarterItems_creditorsAfter hcs hqa (by linarith) hapos.le
        obtain ⟨ih1, ih2⟩ := ih _ _ hinv1 hq1 hq2
        have hb1 : |d.Amount + min (-d.Amount) c.Amount| ≤ 2 ^ (50 : ℕ) := by
          rw [abs_of_nonpos (by linarith)]
          rw [abs_of_nonpos (by linarith)] at hbd
          linarith [pow43_le_pow50]
        have hb2 : |c.Amount - min (-d.Amount) c.Amount| ≤ 2 ^ (50 : ℕ) := by
          rw [abs_of_nonneg (by linarith)]
          rw [abs_of_nonneg (by linarith)] at hbc
          linarith [pow43_le_pow50]
        constructor
        · rw [List.map_cons, List.map_cons, settleLoop, SplitUp.settleLoop, hf, he,
            debtorsAfter_liftItem ds hqd hqa hb1, creditorsAfter_liftItem cs hqc hqa hb2, ih1]
          cases SplitUp.settleLoop fuel
              (SplitUp.debtorsAfter d ds (min (-d.Amount) c.Amount))
              (SplitUp.creditorsAfter c cs (min (-d.Amount) c.Amount)) with
          | none => rfl
          | some rest =>
            simp only [Option.map_some']
            rw [emitStep_liftTx]
        · intro txs h t ht
          rw [SplitUp.settleLoop, he] at h
          cases hrun : SplitUp.settleLoop fuel
              (SplitUp.debtorsAfter d ds (min (-d.Amount) c.Amount))
              (SplitUp.creditorsAfter c cs (min (-d.Amount) c.Amount)) with
          | none => rw [hrun] at h; simp at h
          | some rest =>
            rw [hrun] at h
            simp only [Option.map_some', Option.some.injEq] at h
            subst h
            unfold SplitUp.emitStep at ht
            rw [if_pos hapos] at ht
            rcases List.mem_cons.1 ht with h1 | h1
            · subst h1
              exact hqa
            · exact ih2 rest hrun t h1

end Binary64

/-! ## The loop of `ExportGroupPDF` on multiples of 0.25 -/

namespace Binary64

theorem exportAmount_fin (c d : ℚ) :
    exportAmount (F64.fin c) (F64.fin d) = F64.fin (if d < c then d else c) := by
  unfold exportAmount
  rw [lt_fin]
  by_cases h : d < c
  · rw [if_pos h, if_pos (decide_eq_true h)]
  · rw [if_neg h, if_neg (by simpa using h)]

/-- One iteration of the loop of `ExportGroupPDF` between multiples of 0.25. -/
theorem exportStep_quarter {c d : SplitUp.balanceItem}
    (hc : IsQuarter c.Amount ∧ |c.Amount| ≤ 2 ^ (43 : ℕ))
    (hd : IsQuarter d.Amount ∧ |d.Amount| ≤ 2 ^ (43 : ℕ))
    (hcpos : ¬ c.Amount < 1 / 100) (hdpos : ¬ d.Amount < 1 / 100) :
    IsQuarter (if d.Amount < c.Amount then d.Amount else c.Amount) ∧
      0 < (if d.Amount < c.Amount then d.Amount else c.Amount) ∧
      (if d.Amount < c.Amount then d.Amount else c.Amount) ≤ c.Amount ∧
      (if d.Amount < c.Amount then d.Amount else c.Amount) ≤ d.Amount := by
  rw [not_lt] at hcpos hdpos
  by_cases h : d.Amount < c.Amount
  · rw [if_pos h]
    exact ⟨hd.1, by linarith, h.le, le_refl _⟩
  · rw [if_neg h]
    exact ⟨hc.1, by linarith, le_refl _, not_lt.1 h⟩

theorem quarterItems_after {x : SplitUp.balanceItem} {l : List SplitUp.balanceItem} {a : ℚ}
    (h : QuarterItems (x :: l)) (ha : IsQuarter a) (ha0 : 0 ≤ a) :
    QuarterItems (if x.Amount - a < 1 / 100 then l else ⟨x.UserID, x.Amount - a⟩ :: l) := by
  split
  · exact quarterItems_tail h
  · refine quarterItems_cons ⟨(h x (List.mem_cons_self _ _)).1.sub_isQuarter ha, ?_⟩ (quarterItems_tail h)
    have hb := (h x (List.mem_cons_self _ _)).2
    rw [abs_of_nonneg (by linarith)] at hb
    simp only
    rw [abs_of_nonneg (by linarith)]
    linarith

theorem after_liftItem {x : SplitUp.balanceItem} (l : List SplitUp.balanceItem) {a : ℚ}
    (hx : IsQuarter x.Amount) (ha : IsQuarter a) (hb : |x.Amount - a| ≤ 2 ^ (50 : ℕ)) :
    (if F64.lt (F64.sub (F64.fin x.Amount) (F64.fin a)) F64.cent then l.map liftItem
      else ⟨x.UserID, F64.sub (F64.fin x.Amount) (F64.fin a)⟩ :: l.map liftItem) =
      (if x.Amount - a < 1 / 100 then l else ⟨x.UserID, x.Amount - a⟩ :: l).map liftItem := by
  rw [sub_quarter hx ha hb, quarter_lt_cent (hx.sub_isQuarter ha)]
  by_cases h : x.Amount - a < 1 / 100
  · rw [if_pos h, if_pos (decide_eq_true h)]
  · rw [if_neg h, if_neg (by simpa using h)]
    rfl

/-- On slices of multiples of 0.25 the loop of `ExportGroupPDF` on `float64` follows the
decimal loop step by step. -/
theorem exportLoop_liftItem (fuel : Nat) (cs ds : List SplitUp.balanceItem)
    (hcs : QuarterItems cs) (hds : QuarterItems ds) :
    exportLoop fuel (cs.map liftItem) (ds.map liftItem) =
      (SplitUp.exportLoop fuel cs ds).map (List.map liftTx) := by
  induction fuel generalizing cs ds with
  | zero =>
    cases cs with
    | nil => simp [exportLoop, SplitUp.exportLoop]
    | cons c cs =>
      cases ds with
      | nil => simp [exportLoop, SplitUp.exportLoop]
      | cons d ds => simp [exportLoop, SplitUp.exportLoop]
  | succ fuel ih =>
    cases cs with
    | nil => simp [exportLoop, SplitUp.exportLoop]
    | cons c cs =>
      cases ds with
      | nil => simp [exportLoop, SplitUp.exportLoop]
      | cons d ds =>
        have hc := hcs c (List.mem_cons_self _ _)
        have hd := hds d (List.mem_cons_self _ _)
        rw [List.map_cons, List.map_cons, exportLoop, SplitUp.exportLoop]
        have e1 : (liftItem c).Amount = F64.fin c.Amount := rfl
        have e2 : (liftItem d).Amount = F64.fin d.Amount := rfl
        have e3 : (liftItem c).UserID = c.UserID := rfl
        have e4 : (liftItem d).UserID = d.UserID := rfl
        rw [e1, e2, e3, e4, quarter_lt_cent hc.1, quarter_lt_cent hd.1]
        by_cases h1 : c.Amount < 1 / 100
        · rw [if_pos h1, if_pos (decide_eq_true h1), ← ih cs (d :: ds) (quarterItems_tail hcs) hds]
          rfl
        · rw [if_neg h1, if_neg (by simpa using h1)]
          by_cases h2 : d.Amount < 1 / 100
          · rw [if_pos h2, if_pos (decide_eq_true h2),
              ← ih (c :: cs) ds hcs (quarterItems_tail hds)]
            rfl
          · rw [if_neg h2, if_neg (by simpa using h2)]
            obtain ⟨hqa, hapos, hle1, hle2⟩ := exportStep_quarter hc hd h1 h2
            have hb1 : |c.Amount - (if d.Amount < c.Amount then d.Amount else c.Amount)| ≤
                2 ^ (50 : ℕ) := by
              have := hc.2
              rw [abs_of_nonneg (by linarith)] at this
              rw [abs_of_nonneg (by linarith)]
              linarith [pow43_le_pow50]
            have hb2 : |d.Amount - (if d.Amount < c.Amount then d.Amount else c.Amount)| ≤
                2 ^ (50 : ℕ) := by
              have := hd.2
              rw [abs_of_nonneg (by linarith)] at this
              rw [abs_of_nonneg (by linarith)]
              linarith [pow43_le_pow50]
            rw [exportAmount_fin, after_liftItem cs hc.1 hqa hb1,
              after_liftItem ds hd.1 hqa hb2,
              ih _ _ (quarterItems_after hcs hqa hapos.le)
                (quarterItems_after hds hqa hapos.le),
              lt_cent_quarter hqa]
            cases SplitUp.exportLoop fuel
                (if c.Amount - (if d.Amount < c.Amount then d.Amount else c.Amount) < 1 / 100
                  then cs
                  else ⟨c.UserID,
                    c.Amount - (if d.Amount < c.Amount then d.Amount else c.Amount)⟩ :: cs)
                (if d.Amount - (if d.Amount < c.Amount then d.Amount else c.Amount) < 1 / 100
                  then ds
                  else ⟨d.UserID,
                    d.Amount - (if d.Amount < c.Amount then d.Amount else c.Amount)⟩ :: ds) with
            | none => rfl
            | some rest =>
              simp only [Option.map_some']
              by_cases h3 : (if d.Amount < c.Amount then d.Amount else c.Amount) > 1 / 100
              · rw [if_pos h3, if_pos (decide_eq_true h3)]
                rfl
              · rw [if_neg h3, if_neg (by simpa using h3)]

end Binary64

/-! ## The slices of the two handlers on multiples of 0.25 -/

namespace Binary64

theorem debtorsOf_liftMap (m : SplitUp.GoMap) (h : ∀ p ∈ m, IsQuarter p.2) :
    debtorsOf (liftMap m) = (SplitUp.debtorsOf m).map liftItem := by
  induction m with
  | nil => rfl
  | cons p m ih =>
    have ih1 := ih fun q hq => h q (List.mem_cons_of_mem _ hq)
    have hp := h p (List.mem_cons_self _ _)
    unfold debtorsOf SplitUp.debtorsOf liftMap at ih1 ⊢
    rw [List.map_cons, List.filter_cons, List.filter_cons]
    simp only
    rw [quarter_lt_neg_cent hp]
    by_cases hlt : p.2 < -(1 / 100)
    · rw [if_pos (decide_eq_true hlt), if_pos (decide_eq_true hlt), List.map_cons,
        List.map_cons, ih1]
      rfl
    · rw [if_neg (by simpa using hlt), if_neg (by simpa using hlt), ih1]

theorem creditorsOf_liftMap (m : SplitUp.GoMap) (h : ∀ p ∈ m, IsQuarter p.2) :
    creditorsOf (liftMap m) = (SplitUp.creditorsOf m).map liftItem := by
  induction m with
  | nil => rfl
  | cons p m ih =>
    have ih1 := ih fun q hq => h q (List.mem_cons_of_mem _ hq)
    have hp := h p (List.mem_cons_self _ _)
    unfold creditorsOf SplitUp.creditorsOf liftMap at ih1 ⊢
    rw [List.map_cons, List.filter_cons, List.filter_cons]
    simp only
    rw [quarter_lt_neg_cent hp, lt_cent_quarter hp]
    by_cases hc : ¬ p.2 < -(1 / 100) ∧ p.2 > 1 / 100
    · rw [if_pos (by simpa using hc), if_pos (by simpa using hc), List.map_cons,
        List.map_cons, ih1]
      rfl
    · rw [if_neg (by simpa using hc), if_neg (by simpa using hc), ih1]

theorem exportCreditors_liftMap (members : List Member) (totals : SplitUp.GoMap)
    (h : ∀ p ∈ totals, IsQuarter p.2) :
    exportCreditors members (liftMap totals) =
      (SplitUp.exportCreditors members totals).map liftItem := by
  induction members with
  | nil => rfl
  | cons x members ih =>
    unfold exportCreditors SplitUp.exportCreditors at ih ⊢
    rw [List.filter_cons, List.filter_cons]
    rw [get_liftMap, lt_cent_quarter (isQuarter_get totals h x.ID)]
    by_cases hc : SplitUp.GoMap.get totals x.ID > 1 / 100
    · rw [if_pos (decide_eq_true hc), if_pos (decide_eq_true hc), List.map_cons,
        List.map_cons, ih, get_liftMap]
      rfl
    · rw [if_neg (by simpa using hc), if_neg (by simpa using hc), ih]

theorem exportDebtors_liftMap (members : List Member) (totals : SplitUp.GoMap)
    (h : ∀ p ∈ totals, IsQuarter p.2) :
    exportDebtors members (liftMap totals) =
      (SplitUp.exportDebtors members totals).map liftItem := by
  induction members with
  | nil => rfl
  | cons x members ih =>
    unfold exportDebtors SplitUp.exportDebtors at ih ⊢
    rw [List.filter_cons, List.filter_cons]
    rw [get_liftMap, lt_cent_quarter (isQuarter_get totals h x.ID),
      quarter_lt_neg_cent (isQuarter_get totals h x.ID)]
    by_cases hc : ¬ SplitUp.GoMap.get totals x.ID > 1 / 100 ∧
        SplitUp.GoMap.get totals x.ID < -(1 / 100)
    · rw [if_pos (by simpa using hc), if_pos (by simpa using hc), List.map_cons,
        List.map_cons, ih, get_liftMap]
      rfl
    · rw [if_neg (by simpa using hc), if_neg (by simpa using hc), ih]

/-- Two arrangements of the same elements, both in order for a comparison that tells
any two of the elements apart, are the same list. -/
theorem eq_of_perm_of_ordered (less : balanceItem → balanceItem → Bool)
    {l1 l2 : List balanceItem} (hperm : l1.Perm l2)
    (hanti : ∀ a ∈ l1, ∀ b ∈ l1, less b a = false → less a b = false → a = b)
    (h1 : l1.Pairwise fun a b => less b a = false)
    (h2 : l2.Pairwise fun a b => less b a = false) : l1 = l2 := by
  haveI : IsAntisymm balanceItem (fun a b => less b a = false ∧ a ∈ l1 ∧ b ∈ l1) :=
    ⟨fun a b hab hba => hanti a hab.2.1 b hab.2.2 hab.1 hba.1⟩
  have s1 : l1.Sorted fun a b => less b a = false ∧ a ∈ l1 ∧ b ∈ l1 :=
    List.Pairwise.imp_of_mem (fun ha hb hab => ⟨hab, ha, hb⟩) h1
  have s2 : l2.Sorted fun a b => less b a = false ∧ a ∈ l1 ∧ b ∈ l1 :=
    List.Pairwise.imp_of_mem
      (fun ha hb hab => ⟨hab, hperm.mem_iff.2 ha, hperm.mem_iff.2 hb⟩) h2
  exact List.eq_of_perm_of_sorted hperm s1 s2

/-- A sort of `float64` amounts that hold distinct decimals without error gives the
slice the decimal sort gives. -/
theorem sort_liftItem (S : SliceSort) (hS : S.Ordered) (T : SplitUp.SliceSort)
    (lessF : balanceItem → balanceItem → Bool)
    (lessD : SplitUp.balanceItem → SplitUp.balanceItem → Bool)
    (hless : ∀ x y, lessF (liftItem x) (liftItem y) = lessD x y)
    (htotal : ∀ a b, lessD a b = false ∨ lessD b a = false)
    (htrans : ∀ a b c, lessD b a = false → lessD c b = false → lessD c a = false)
    (hanti : ∀ a b, lessD b a = false → lessD a b = false → a.Amount = b.Amount)
    {xs : List balanceItem} {l : List SplitUp.balanceItem}
    (hperm : xs.Perm (l.map liftItem))
    (hnd : (l.map SplitUp.balanceItem.Amount).Nodup) :
    S.sort lessF xs = (T.sort lessD l).map liftItem := by
  have hmem : ∀ a ∈ xs, ∃ x ∈ l, liftItem x = a := fun a ha =>
    List.mem_map.1 (hperm.mem_iff.1 ha)
  have hp1 : (S.sort lessF xs).Perm (l.map liftItem) := (S.perm lessF xs).trans hperm
  have hp2 : ((T.sort lessD l).map liftItem).Perm (l.map liftItem) :=
    (T.perm lessD l).map liftItem
  have hs1 : (S.sort lessF xs).Pairwise fun a b => lessF b a = false := by
    apply hS lessF xs
    · intro a ha b hb
      obtain ⟨x, _, rfl⟩ := hmem a ha
      obtain ⟨y, _, rfl⟩ := hmem b hb
      rw [hless, hless]
      exact htotal x y
    · intro a ha b hb c hc
      obtain ⟨x, _, rfl⟩ := hmem a ha
      obtain ⟨y, _, rfl⟩ := hmem b hb
      obtain ⟨z, _, rfl⟩ := hmem c hc
      rw [hless, hless, hless]
      exact htrans x y z
  have hs2 : ((T.sort lessD l).map liftItem).Pairwise fun a b => lessF b a = false := by
    rw [List.pairwise_map]
    refine (T.sorted lessD l htotal htrans).imp ?_
    intro a b hab
    rw [hless]
    exact hab
  refine eq_of_perm_of_ordered lessF (hp1.trans hp2.symm) ?_ hs1 hs2
  intro a ha b hb hba hab
  obtain ⟨x, hx, rfl⟩ := List.mem_map.1 (hp1.mem_iff.1 ha)
  obtain ⟨y, hy, rfl⟩ := List.mem_map.1 (hp1.mem_iff.1 hb)
  rw [hless] at hba hab
  rw [List.inj_on_of_nodup_map hnd hx hy (hanti x y hba hab)]

theorem debtorLess_liftItem (x y : SplitUp.balanceItem) :
    debtorLess (liftItem x) (liftItem y) = SplitUp.debtorLess x y := rfl

theorem creditorLess_liftItem (x y : SplitUp.balanceItem) :
    creditorLess (liftItem x) (liftItem y) = SplitUp.creditorLess x y := rfl

theorem debtorLess_antisymm (a b : SplitUp.balanceItem)
    (h1 : SplitUp.debtorLess b a = false) (h2 : SplitUp.debtorLess a b = false) :
    a.Amount = b.Amount := by
  unfold SplitUp.debtorLess at h1 h2
  simp only [decide_eq_false_iff_not, not_lt] at h1 h2
  exact le_antisymm h1 h2

theorem creditorLess_antisymm (a b : SplitUp.balanceItem)
    (h1 : SplitUp.creditorLess b a = false) (h2 : SplitUp.creditorLess a b = false) :
    a.Amount = b.Amount := by
  unfold SplitUp.creditorLess at h1 h2
  simp only [gt_iff_lt, decide_eq_false_iff_not, not_lt] at h1 h2
  exact le_antisymm h2 h1

end Binary64

/-! ## The insertion sort on binary64 keeps the order -/

namespace Binary64

theorem insertLess_perm_f (less : balanceItem → balanceItem → Bool) (x : balanceItem)
    (l : List balanceItem) : (insertLess less x l).Perm (x :: l) := by
  induction l with
  | nil => exact List.Perm.refl _
  | cons e rest ih =>
    unfold insertLess
    split
    · exact (List.Perm.cons e ih).trans (List.Perm.swap x e rest)
    · exact List.Perm.refl _

theorem foldl_insertLess_perm_f (less : balanceItem → balanceItem → Bool)
    (xs acc : List balanceItem) :
    (xs.foldl (fun done x => insertLess less x done) acc).Perm (acc ++ xs) := by
  induction xs generalizing acc with
  | nil => simp
  | cons x xs ih =>
    rw [List.foldl_cons]
    refine (ih (insertLess less x acc)).trans ?_
    refine ((insertLess_perm_f less x acc).append_right xs).trans ?_
    exact (@List.perm_middle _ x acc xs).symm

theorem insertLess_pairwise_f (less : balanceItem → balanceItem → Bool)
    (U : List balanceItem)
    (htot : ∀ a ∈ U, ∀ b ∈ U, less a b = false ∨ less b a = false)
    (htrans : ∀ a ∈ U, ∀ b ∈ U, ∀ c ∈ U, less b a = false → less c b = false →
      less c a = false)
    (x : balanceItem) (hx : x ∈ U) (l : List balanceItem) (hU : ∀ y ∈ l, y ∈ U)
    (hl : l.Pairwise (fun a b => less a b = false)) :
    (insertLess less x l).Pairwise (fun a b => less a b = false) := by
  induction l with
  | nil => simp [insertLess]
  | cons e rest ih =>
    rw [List.pairwise_cons] at hl
    have he : e ∈ U := hU e (List.mem_cons_self _ _)
    have hrest : ∀ y ∈ rest, y ∈ U := fun y hy => hU y (List.mem_cons_of_mem _ hy)
    unfold insertLess
    split
    · rename_i hlt
      rw [List.pairwise_cons]
      refine ⟨?_, ih hrest hl.2⟩
      intro y hy
      rcases List.mem_cons.1 ((insertLess_perm_f less x rest).mem_iff.1 hy) with hy1 | hy1
      · subst hy1
        rcases htot y hx e he with h | h
        · rw [h] at hlt; cases hlt
        · exact h
      · exact hl.1 y hy1
    · rename_i hlt
      have hxe : less x e = false := by simpa using hlt
      rw [List.pairwise_cons]
      refine ⟨?_, List.pairwise_cons.2 hl⟩
      intro y hy
      rcases List.mem_cons.1 hy with hy1 | hy1
      · subst hy1; exact hxe
      · exact htrans y (hrest y hy1) e he x hx (hl.1 y hy1) hxe

theorem foldl_insertLess_pairwise_f (less : balanceItem → balanceItem → Bool)
    (U : List balanceItem)
    (htot : ∀ a ∈ U, ∀ b ∈ U, less a b = false ∨ less b a = false)
    (htrans : ∀ a ∈ U, ∀ b ∈ U, ∀ c ∈ U, less b a = false → less c b = false →
      less c a = false)
    (xs acc : List balanceItem) (hxs : ∀ y ∈ xs, y ∈ U) (hU : ∀ y ∈ acc, y ∈ U)
    (hacc : acc.Pairwise (fun a b => less a b = false)) :
    (xs.foldl (fun done x => insertLess less x done) acc).Pairwise
      (fun a b => less a b = false) := by
  induction xs generalizing acc with
  | nil => simpa using hacc
  | cons x xs ih =>
    rw [List.foldl_cons]
    have hx : x ∈ U := hxs x (List.mem_cons_self _ _)
    refine ih _ (fun y hy => hxs y (List.mem_cons_of_mem _ hy)) ?_
      (insertLess_pairwise_f less U htot htrans x hx acc hU hacc)
    intro y hy
    rcases List.mem_cons.1 ((insertLess_perm_f less x acc).mem_iff.1 hy) with h | h
    · subst h; exact hx
    · exact hU y h

/-- The insertion sort of `sort.Slice` on `float64` amounts keeps the order part of
the contract. -/
theorem goInsertionSort_ordered : goInsertionSort.Ordered := by
  intro less xs htot htrans
  show (insertionSortLess less xs).Pairwise _
  unfold insertionSortLess
  rw [List.pairwise_reverse]
  exact foldl_insertLess_pairwise_f less xs htot htrans xs [] (fun y hy => hy)
    (fun y hy => absurd hy (List.not_mem_nil _)) List.Pairwise.nil

end Binary64

/-! ## The two matching loops on the same balances, for any fuel -/

/-- Step 4 of `ExportGroupPDF` against the loop of `minimizeDebts`, on a map with the
members' totals as its values: from one iteration per entry of the map on, the two
loops end, and the export appends the transactions of the engine above 0.01. -/
theorem exportLoop_eq_filter_of_fuel (S T : SliceSort) (members : List Member)
    (totals balances : GoMap)
    (hmembers : (members.map Member.ID).Nodup) (hkeys : (GoMap.keys balances).Nodup)
    (hsub : ∀ u ∈ GoMap.keys balances, u ∈ members.map Member.ID)
    (hget : ∀ u ∈ members.map Member.ID, GoMap.get totals u = GoMap.get balances u)
    (hcents : ∀ p ∈ balances, IsCents p.2)
    (hd : ((debtorsOf balances).map balanceItem.Amount).Nodup)
    (hc : ((creditorsOf balances).map balanceItem.Amount).Nodup) :
    ∃ txs, ∀ fuel, balances.length ≤ fuel →
      settleLoop fuel (S.sort debtorLess (debtorsOf balances))
        (S.sort creditorLess (creditorsOf balances)) = some txs ∧
      exportLoop fuel (T.sort creditorLess (exportCreditors members totals))
        ((T.sort debtorLess (exportDebtors members totals)).map
          fun d => ⟨d.UserID, -d.Amount⟩) =
        some (txs.filter fun t => t.Amount > 1 / 100) := by
  have hpd := exportDebtors_perm members totals balances hmembers hkeys hsub hget
  have hpc := exportCreditors_perm members totals balances hmembers hkeys hsub hget
  have hsd : T.sort debtorLess (exportDebtors members totals) =
      S.sort debtorLess (debtorsOf balances) :=
    sort_debtorLess_unique T S hpd (((hpd.map _).nodup_iff).2 hd)
  have hsc : T.sort creditorLess (exportCreditors members totals) =
      S.sort creditorLess (creditorsOf balances) :=
    sort_creditorLess_unique T S hpc (((hpc.map _).nodup_iff).2 hc)
  have hlen := length_debtorsOf_add_creditorsOf_le balances
  obtain ⟨txs, hrun, _⟩ := settleLoop_total balances.length
    (S.sort debtorLess (debtorsOf balances)) (S.sort creditorLess (creditorsOf balances))
    (loopInv_init S balances)
    (by rw [(S.perm _ _).length_eq, (S.perm _ _).length_eq]; omega)
  refine ⟨txs, fun fuel hfuel => ?_⟩
  have hrun1 := settleLoop_fuel_mono _ fuel _ _ _ hrun hfuel
  refine ⟨hrun1, ?_⟩
  rw [hsd, hsc]
  exact exportLoop_eq_filter _ _ _ (centsInv_init S balances hcents) txs hrun1

namespace Binary64

theorem debtorsOf_perm_f {b1 b2 : GoMap} (h : b1.Perm b2) :
    (debtorsOf b1).Perm (debtorsOf b2) :=
  (h.filter _).map _

theorem creditorsOf_perm_f {b1 b2 : GoMap} (h : b1.Perm b2) :
    (creditorsOf b1).Perm (creditorsOf b2) :=
  (h.filter _).map _

theorem map_neg_liftItem (l : List SplitUp.balanceItem) :
    ((l.map liftItem).map fun d => (⟨d.UserID, F64.neg d.Amount⟩ : balanceItem)) =
      (l.map fun d => (⟨d.UserID, -d.Amount⟩ : SplitUp.balanceItem)).map liftItem := by
  rw [List.map_map, List.map_map]
  rfl

theorem pow40_le_pow43 : (2 : ℚ) ^ (40 : ℕ) ≤ 2 ^ (43 : ℕ) :=
  pow_le_pow_right₀ (by norm_num) (by norm_num)

/-- The slices `minimizeDebts` sorts, and so the sorted ones, hold values of the
balance map. -/
theorem quarterItems_of_balances (balances : SplitUp.GoMap)
    (h : ∀ p ∈ balances, IsQuarter p.2 ∧ |p.2| ≤ 2 ^ (43 : ℕ))
    (l : List SplitUp.balanceItem)
    (hl : ∀ x ∈ l, (x.UserID, x.Amount) ∈ balances) : QuarterItems l :=
  fun x hx => h _ (hl x hx)

/-- The slices `ExportGroupPDF` sorts hold values of the map of totals. -/
theorem quarterItems_of_totals (totals : SplitUp.GoMap)
    (hq : ∀ p ∈ totals, IsQuarter p.2) (hw : rowsWeight totals ≤ 2 ^ (43 : ℕ))
    (l : List SplitUp.balanceItem)
    (hl : ∀ x ∈ l, x.Amount = SplitUp.GoMap.get totals x.UserID) : QuarterItems l := by
  intro x hx
  rw [hl x hx]
  exact ⟨isQuarter_get totals hq _, (abs_get_le_rowsWeight totals _).trans hw⟩

end Binary64

namespace Binary64

/-- C20, amended: for every group that exists, whose users and memberships are keyed
as the schema declares, whose stored payer and split amounts are multiples of 0.25 (the
amounts in cents that `float64` holds exactly) with magnitudes adding up to at most
`2^40` over the rows each handler reads, whose users with payer or split activity are
all members, and in which no two debtors and no two creditors have equal balances: from
one loop iteration per entry of the balance map on, `minimizeDebts` returns on the
group's balance map, whatever the order in which `range` yields it, and
`ExportGroupPDF` answers 200, and the payments of the report are, in order, the
transactions `minimizeDebts` returns, each shown by the names of its two members. -/
theorem ExportGroupPDF_settlements_quarters (S T : SliceSort) (R : MapRange)
    (dir : Directory) (db : Store) (groupID : Int)
    (hS : S.Ordered) (hT : T.Ordered)
    (hgroup : ∃ g ∈ dir.groups, g.id = groupID)
    (husers : (dir.users.map UserRow.id).Nodup)
    (hjoined : ((dir.group_members.filter fun gm => gm.group_id = groupID).map
      GroupMemberRow.user_id).Nodup)
    (hp : ∀ p ∈ db.expense_payers, IsQuarter p.paid_amount)
    (hs : ∀ s ∈ db.expense_splits, IsQuarter s.amount_owed)
    (hbalance : balanceWeight db groupID ≤ 2 ^ (40 : ℕ))
    (hexport : exportWeight dir db groupID ≤ 2 ^ (40 : ℕ))
    (hactive : ∀ r ∈ paidRows db groupID ++ owedRows db groupID,
      r.1 ∈ (fetchMembers dir groupID).map Member.ID)
    (hd : ((debtorsOf (netBalances (paidMap db groupID) (owedMap db groupID))).map
      balanceItem.Amount).Nodup)
    (hc : ((creditorsOf (netBalances (paidMap db groupID) (owedMap db groupID))).map
      balanceItem.Amount).Nodup) :
    ∃ txs report,
      (∀ fuel, (netBalances (paidMap db groupID) (owedMap db groupID)).length ≤ fuel →
        minimizeDebts fuel S
            (R.order (netBalances (paidMap db groupID) (owedMap db groupID))) = some txs ∧
          ExportGroupPDF fuel T dir db groupID = some ⟨200, some report⟩) ∧
      report.settlements = txs.map (toSuggestedPayment (fetchMembers dir groupID)) := by
  have hpc : ∀ p ∈ db.expense_payers, IsCents p.paid_amount := fun p h => (hp p h).isCents
  have hsc : ∀ s ∈ db.expense_splits, IsCents s.amount_owed := fun s h => (hs s h).isCents
  have h4050 : (2 : ℚ) ^ (40 : ℕ) ≤ 2 ^ (50 : ℕ) :=
    pow_le_pow_right₀ (by norm_num) (by norm_num)
  obtain ⟨name, hname⟩ := fetchGroupName_of_mem dir groupID hgroup
  have hB := netBalances_liftMap db groupID hp hs hbalance
  obtain ⟨hG, hGq, hGw⟩ := grandTotals_liftMap dir db groupID hp hs (hexport.trans h4050)
  have hBq := isQuarter_netBalances db groupID hp hs
  have hBq1 : ∀ p ∈ SplitUp.netBalances (SplitUp.paidMap db groupID)
      (SplitUp.owedMap db groupID), IsQuarter p.2 := fun p h => (hBq p h).1
  have hBq2 : ∀ p ∈ SplitUp.netBalances (SplitUp.paidMap db groupID)
      (SplitUp.owedMap db groupID), IsQuarter p.2 ∧ |p.2| ≤ 2 ^ (43 : ℕ) := fun p h =>
    ⟨(hBq p h).1, ((hBq p h).2.trans hbalance).trans pow40_le_pow43⟩
  rw [hB] at hd hc ⊢
  rw [debtorsOf_liftMap _ hBq1, List.map_map] at hd
  rw [creditorsOf_liftMap _ hBq1, List.map_map] at hc
  have hd1 : ((SplitUp.debtorsOf (SplitUp.netBalances (SplitUp.paidMap db groupID)
      (SplitUp.owedMap db groupID))).map SplitUp.balanceItem.Amount).Nodup := by
    have : (balanceItem.Amount ∘ liftItem) = F64.fin ∘ SplitUp.balanceItem.Amount := rfl
    rw [this, ← List.map_map] at hd
    exact hd.of_map _
  have hc1 : ((SplitUp.creditorsOf (SplitUp.netBalances (SplitUp.paidMap db groupID)
      (SplitUp.owedMap db groupID))).map SplitUp.balanceItem.Amount).Nodup := by
    have : (balanceItem.Amount ∘ liftItem) = F64.fin ∘ SplitUp.balanceItem.Amount := rfl
    rw [this, ← List.map_map] at hc
    exact hc.of_map _
  have hmembers := nodup_fetchMembers_ids dir groupID husers hjoined
  have hkeys := SplitUp.nodup_keys_netBalances (SplitUp.paidMap db groupID)
    (SplitUp.owedMap db groupID)
  have hsub : ∀ u ∈ SplitUp.GoMap.keys (SplitUp.netBalances (SplitUp.paidMap db groupID)
      (SplitUp.owedMap db groupID)), u ∈ (fetchMembers dir groupID).map Member.ID := by
    intro u hu
    rw [SplitUp.mem_keys_netBalances] at hu
    unfold SplitUp.paidMap SplitUp.owedMap at hu
    rw [SplitUp.mem_keys_scanRows, mem_keys_sumByUser, SplitUp.mem_keys_scanRows,
      mem_keys_sumByUser] at hu
    rcases hu with hu | hu
    · obtain ⟨r, hr, rfl⟩ := List.mem_map.1 hu
      exact hactive r (List.mem_append_left _ hr)
    · obtain ⟨r, hr, rfl⟩ := List.mem_map.1 hu
      exact hactive r (List.mem_append_right _ hr)
  have hget : ∀ u ∈ (fetchMembers dir groupID).map Member.ID,
      SplitUp.GoMap.get (SplitUp.grandTotalsOf
        ((fetchExpenses db groupID).map (SplitUp.matrixRow dir db))) u =
      SplitUp.GoMap.get (SplitUp.netBalances (SplitUp.paidMap db groupID)
        (SplitUp.owedMap db groupID)) u := by
    intro u hu
    obtain ⟨m, hm, rfl⟩ := List.mem_map.1 hu
    rw [get_grandTotals dir db groupID m.ID (member_has_one_user dir groupID husers m hm),
      get_netBalances_of_cents db groupID hpc hsc]
  obtain ⟨txs, hrun⟩ := exportLoop_eq_filter_of_fuel SplitUp.goInsertionSort
    SplitUp.goInsertionSort (fetchMembers dir groupID)
    (SplitUp.grandTotalsOf ((fetchExpenses db groupID).map (SplitUp.matrixRow dir db)))
    (SplitUp.netBalances (SplitUp.paidMap db groupID) (SplitUp.owedMap db groupID))
    hmembers hkeys hsub hget (isCents_netBalances db groupID hpc hsc) hd1 hc1
  -- the sorted slices of the engine
  have hsd : S.sort debtorLess (debtorsOf (R.order (liftMap (SplitUp.netBalances
      (SplitUp.paidMap db groupID) (SplitUp.owedMap db groupID))))) =
      (SplitUp.goInsertionSort.sort SplitUp.debtorLess (SplitUp.debtorsOf
        (SplitUp.netBalances (SplitUp.paidMap db groupID)
          (SplitUp.owedMap db groupID)))).map liftItem :=
    sort_liftItem S hS _ _ _ debtorLess_liftItem debtorLess_total debtorLess_trans
      debtorLess_antisymm
      (by rw [← debtorsOf_liftMap _ hBq1]; exact debtorsOf_perm_f (R.perm _)) hd1
  have hsc1 : S.sort creditorLess (creditorsOf (R.order (liftMap (SplitUp.netBalances
      (SplitUp.paidMap db groupID) (SplitUp.owedMap db groupID))))) =
      (SplitUp.goInsertionSort.sort SplitUp.creditorLess (SplitUp.creditorsOf
        (SplitUp.netBalances (SplitUp.paidMap db groupID)
          (SplitUp.owedMap db groupID)))).map liftItem :=
    sort_liftItem S hS _ _ _ creditorLess_liftItem creditorLess_total creditorLess_trans
      creditorLess_antisymm
      (by rw [← creditorsOf_liftMap _ hBq1]; exact creditorsOf_perm_f (R.perm _)) hc1
  -- the sorted slices of the export
  have hpd := exportDebtors_perm (fetchMembers dir groupID) _ _ hmembers hkeys hsub hget
  have hpcr := exportCreditors_perm (fetchMembers dir groupID) _ _ hmembers hkeys hsub hget
  have hed : T.sort debtorLess (exportDebtors (fetchMembers dir groupID)
      (liftMap (SplitUp.grandTotalsOf
        ((fetchExpenses db groupID).map (SplitUp.matrixRow dir db))))) =
      (SplitUp.goInsertionSort.sort SplitUp.debtorLess (SplitUp.exportDebtors
        (fetchMembers dir groupID) (SplitUp.grandTotalsOf
          ((fetchExpenses db groupID).map (SplitUp.matrixRow dir db))))).map liftItem :=
    sort_liftItem T hT _ _ _ debtorLess_liftItem debtorLess_total debtorLess_trans
      debtorLess_antisymm
      (by rw [exportDebtors_liftMap _ _ hGq]) (((hpd.map _).nodup_iff).2 hd1)
  have hec : T.sort creditorLess (exportCreditors (fetchMembers dir groupID)
      (liftMap (SplitUp.grandTotalsOf
        ((fetchExpenses db groupID).map (SplitUp.matrixRow dir db))))) =
      (SplitUp.goInsertionSort.sort SplitUp.creditorLess (SplitUp.exportCreditors
        (fetchMembers dir groupID) (SplitUp.grandTotalsOf
          ((fetchExpenses db groupID).map (SplitUp.matrixRow dir db))))).map liftItem :=
    sort_liftItem T hT _ _ _ creditorLess_liftItem creditorLess_total creditorLess_trans
      creditorLess_antisymm
      (by rw [exportCreditors_liftMap _ _ hGq]) (((hpcr.map _).nodup_iff).2 hc1)
  -- the amounts in play
  have hqd : QuarterItems (SplitUp.goInsertionSort.sort SplitUp.debtorLess
      (SplitUp.debtorsOf (SplitUp.netBalances (SplitUp.paidMap db groupID)
        (SplitUp.owedMap db groupID)))) :=
    quarterItems_of_balances _ hBq2 _ fun x hx =>
      (mem_debtorsOf.1 ((SplitUp.goInsertionSort.perm _ _).mem_iff.1 hx)).1
  have hqc : QuarterItems (SplitUp.goInsertionSort.sort SplitUp.creditorLess
      (SplitUp.creditorsOf (SplitUp.netBalances (SplitUp.paidMap db groupID)
        (SplitUp.owedMap db groupID)))) :=
    quarterItems_of_balances _ hBq2 _ fun x hx =>
      (mem_creditorsOf.1 ((SplitUp.goInsertionSort.perm _ _).mem_iff.1 hx)).1
  have hGw43 : rowsWeight (SplitUp.grandTotalsOf
      ((fetchExpenses db groupID).map (SplitUp.matrixRow dir db))) ≤ 2 ^ (43 : ℕ) :=
    (hGw.trans hexport).trans pow40_le_pow43
  have hqec : QuarterItems (SplitUp.goInsertionSort.sort SplitUp.creditorLess
      (SplitUp.exportCreditors (fetchMembers dir groupID) (SplitUp.grandTotalsOf
        ((fetchExpenses db groupID).map (SplitUp.matrixRow dir db))))) :=
    quarterItems_of_totals _ hGq hGw43 _ fun x hx =>
      ((mem_exportCreditors _ _ x).1 ((SplitUp.goInsertionSort.perm _ _).mem_iff.1 hx)).2.1
  have hqed : QuarterItems ((SplitUp.goInsertionSort.sort SplitUp.debtorLess
      (SplitUp.exportDebtors (fetchMembers dir groupID) (SplitUp.grandTotalsOf
        ((fetchExpenses db groupID).map (SplitUp.matrixRow dir db))))).map
          fun d => ⟨d.UserID, -d.Amount⟩) := by
    intro x hx
    obtain ⟨y, hy, rfl⟩ := List.mem_map.1 hx
    have := quarterItems_of_totals _ hGq hGw43 _ (fun x hx =>
      ((mem_exportDebtors _ _ x).1
        ((SplitUp.goInsertionSort.perm _ _).mem_iff.1 hx)).2.1) y hy
    exact ⟨this.1.neg_isQuarter, by simp only [abs_neg]; exact this.2⟩
  have hinv := SplitUp.loopInv_init SplitUp.goInsertionSort
    (SplitUp.netBalances (SplitUp.paidMap db groupID) (SplitUp.owedMap db groupID))
  -- the transactions are multiples of 0.25 above 0.01
  have hbig : ∀ t ∈ txs, decide (t.Amount > 1 / 100) = true := by
    intro t ht
    have hrun0 := (hrun _ (le_refl _)).1
    have hq := (settleLoop_liftItem _ _ _ hinv hqd hqc).2 txs hrun0 t ht
    have hpos := (settleLoop_mem _ _ _ _ hrun0 t ht).1
    have := hq.ge_of_pos (by linarith)
    exact decide_eq_true (by linarith)
  refine ⟨txs.map liftTx, ⟨name, fetchMembers dir groupID,
    (fetchExpenses db groupID).map (matrixRow dir db),
    grandTotalsOf ((fetchExpenses db groupID).map (matrixRow dir db)),
    (txs.map liftTx).map (toSuggestedPayment (fetchMembers dir groupID))⟩, ?_, rfl⟩
  intro fuel hfuel
  rw [length_liftMap] at hfuel
  obtain ⟨hrun1, hrun2⟩ := hrun fuel hfuel
  constructor
  · unfold minimizeDebts
    rw [hsd, hsc1, (settleLoop_liftItem fuel _ _ hinv hqd hqc).1, hrun1]
    rfl
  · unfold ExportGroupPDF exportSettle
    rw [hname]
    simp only
    rw [hG, hed, hec, map_neg_liftItem, exportLoop_liftItem fuel _ _ hqec hqed, hrun2,
      filter_eq_self_of_forall _ _ hbig]
    rfl

end Binary64

namespace Binary64

/-- C20, as stated, fails on `float64`, in three ways; in each group every user with
payer or split activity is a member.

In `centStore` user 2 paid 0.04 and owes 0.03. `ExportGroupPDF` compares the unrounded
difference, the `float64` 0.010000000000000002, with 0.01 and shows a payment of that
amount from Cyd to Bob; `GetGroupBalance` rounds the balance to 0.01, which is not
above 0.01, and `minimizeDebts` returns no transaction.

In `dimeStore` user 2 owes 0.20. The report shows the unrounded
`0.30 - 0.10 = 0.19999999999999998`, `minimizeDebts` the `float64` of 0.20.

In `tiedStore` users 1 and 2 owe 5 each. The report, which collects the debtors in
ascending member id, has user 1 ("Ann") pay first; `minimizeDebts`, run on the balance
map iterated in an order that yields user 2 before user 1, has user 2 pay first. -/
theorem ExportGroupPDF_differs :
    (∀ r ∈ paidRows centStore 7 ++ owedRows centStore 7,
      r.1 ∈ (fetchMembers tripDirectory 7).map Member.ID) ∧
    ((ExportGroupPDF 3 goInsertionSort tripDirectory centStore 7).map fun r =>
      r.report.map fun rep => rep.settlements) =
        some (some [⟨"Cyd", "Bob", F64.fin (1441151880758559 / 144115188075855872)⟩]) ∧
    minimizeDebts 3 goInsertionSort
      (rangeInOrder.order (netBalances (paidMap centStore 7) (owedMap centStore 7))) =
        some [] ∧
    (∀ r ∈ paidRows dimeStore 7 ++ owedRows dimeStore 7,
      r.1 ∈ (fetchMembers tripDirectory 7).map Member.ID) ∧
    ((ExportGroupPDF 2 goInsertionSort tripDirectory dimeStore 7).map fun r =>
      r.report.map fun rep => rep.settlements) =
        some (some [⟨"Bob", "Ann", F64.fin (7205759403792793 / 36028797018963968)⟩]) ∧
    minimizeDebts 2 goInsertionSort
      (rangeInOrder.order (netBalances (paidMap dimeStore 7) (owedMap dimeStore 7))) =
        some [⟨2, 1, F64.fin (3602879701896397 / 18014398509481984)⟩] ∧
    (∀ r ∈ paidRows tiedStore 7 ++ owedRows tiedStore 7,
      r.1 ∈ (fetchMembers tripDirectory 7).map Member.ID) ∧
    ((ExportGroupPDF 4 goInsertionSort tripDirectory tiedStore 7).map fun r =>
      r.report.map fun rep => rep.settlements) =
        some (some [⟨"Ann", "Cyd", F64.fin 5⟩, ⟨"Bob", "Cyd", F64.fin 2⟩,
          ⟨"Bob", "Dee", F64.fin 3⟩]) ∧
    minimizeDebts 4 goInsertionSort
      (rangeReversed.order (netBalances (paidMap tiedStore 7) (owedMap tiedStore 7))) =
        some [⟨2, 3, F64.fin 5⟩, ⟨1, 3, F64.fin 2⟩, ⟨1, 4, F64.fin 3⟩] := by
  refine ⟨by decide!, by decide!, by decide!, by decide!, by decide!, by decide!, by decide!,
    by decide!, by decide!⟩

/-- Witness of the amended C20: in group 7, users 1 and 2 owe 6.25 and 3.75, users 3
and 4 are owed 7.50 and 2.50; the report is compared with `minimizeDebts` run on the
balance map iterated in reverse. -/
theorem ExportGroupPDF_settlements_quarters_witness :
    ((∃ g ∈ tripDirectory.groups, g.id = 7) ∧
      (tripDirectory.users.map UserRow.id).Nodup ∧
      ((tripDirectory.group_members.filter fun gm => gm.group_id = 7).map
        GroupMemberRow.user_id).Nodup ∧
      (∀ p ∈ quarterStore.expense_payers, IsQuarter p.paid_amount) ∧
      (∀ s ∈ quarterStore.expense_splits, IsQuarter s.amount_owed) ∧
      balanceWeight quarterStore 7 ≤ 2 ^ (40 : ℕ) ∧
      exportWeight tripDirectory quarterStore 7 ≤ 2 ^ (40 : ℕ) ∧
      (∀ r ∈ paidRows quarterStore 7 ++ owedRows quarterStore 7,
        r.1 ∈ (fetchMembers tripDirectory 7).map Member.ID) ∧
      ((debtorsOf (netBalances (paidMap quarterStore 7) (owedMap quarterStore 7))).map
        balanceItem.Amount).Nodup ∧
      ((creditorsOf (netBalances (paidMap quarterStore 7) (owedMap quarterStore 7))).map
        balanceItem.Amount).Nodup) ∧
    ∃ txs report,
      (∀ fuel, (netBalances (paidMap quarterStore 7) (owedMap quarterStore 7)).length ≤ fuel →
        minimizeDebts fuel goInsertionSort
            (rangeReversed.order
              (netBalances (paidMap quarterStore 7) (owedMap quarterStore 7))) = some txs ∧
          ExportGroupPDF fuel goInsertionSort tripDirectory quarterStore 7 =
            some ⟨200, some report⟩) ∧
      report.settlements = txs.map (toSuggestedPayment (fetchMembers tripDirectory 7)) :=
  have hgroup : ∃ g ∈ tripDirectory.groups, g.id = 7 :=
    ⟨⟨7, "Trip", 1, 0⟩, by simp [tripDirectory], rfl⟩
  have husers : (tripDirectory.users.map UserRow.id).Nodup := by decide
  have hjoined : ((tripDirectory.group_members.filter fun gm => gm.group_id = 7).map
      GroupMemberRow.user_id).Nodup := by decide
  have hp : ∀ p ∈ quarterStore.expense_payers, IsQuarter p.paid_amount := by
    intro p hp
    simp only [quarterStore, List.mem_cons, List.mem_singleton, List.not_mem_nil,
      or_false] at hp
    rcases hp with rfl | rfl
    · exact ⟨30, by norm_num⟩
    · exact ⟨10, by norm_num⟩
  have hs : ∀ s ∈ quarterStore.expense_splits, IsQuarter s.amount_owed := by
    intro s hs
    simp only [quarterStore, List.mem_cons, List.mem_singleton, List.not_mem_nil,
      or_false] at hs
    rcases hs with rfl | rfl
    · exact ⟨25, by norm_num⟩
    · exact ⟨15, by norm_num⟩
  have hbalance : balanceWeight quarterStore 7 ≤ 2 ^ (40 : ℕ) := by decide!
  have hexport : exportWeight tripDirectory quarterStore 7 ≤ 2 ^ (40 : ℕ) := by decide!
  have hactive : ∀ r ∈ paidRows quarterStore 7 ++ owedRows quarterStore 7,
      r.1 ∈ (fetchMembers tripDirectory 7).map Member.ID := by decide!
  have hd : ((debtorsOf (netBalances (paidMap quarterStore 7) (owedMap quarterStore 7))).map
      balanceItem.Amount).Nodup := by decide!
  have hc : ((creditorsOf (netBalances (paidMap quarterStore 7)
      (owedMap quarterStore 7))).map balanceItem.Amount).Nodup := by decide!
  ⟨⟨hgroup, husers, hjoined, hp, hs, hbalance, hexport, hactive, hd, hc⟩,
    ExportGroupPDF_settlements_quarters goInsertionSort goInsertionSort rangeReversed
      tripDirectory quarterStore 7 goInsertionSort_ordered goInsertionSort_ordered hgroup
      husers hjoined hp hs hbalance hexport hactive hd hc⟩

end Binary64

end SplitUp
